import Mathlib

/-!
# PBFT message parser / serializer: a shallow embedding of the codec engine

The Go sources under `codec/` and `abstraction/` are embedded as Lean
functions.  Go strings and byte slices holding text are lists of Unicode
characters (`Str`), the input of the format detection, which looks at single
bytes, is a list of bytes (`Bytes`), `*big.Int` is `Option Int`, a Go slice
that may be `nil` is an `Option (List _)`, and a Go map is an association list
(`GoMap`) whose only order-sensitive operation, `range`, goes through the
environment.

Everything the repository takes from outside its own sources is gathered in
the structure `Env`: the two synonym tables (declared in a file that is not
part of the sources at hand), `encoding/json`, the RFC 3339 layout of package
`time`, the iteration order of `range` over a map and the
implementation-dependent result of an out-of-range float-to-integer
conversion.  `goEnv` instantiates it with executable models of the library
behaviour.
-/

set_option autoImplicit false

namespace PBFT

/-- A Go string (or a byte slice holding text) whose bytes are valid UTF-8: the
list of its Unicode characters.  A string with a byte outside a well-formed
encoding has no value of this type; where such bytes matter they are held as
`Bytes` and read through `utf8.decode`. -/
abbrev Str := List Char

/-! ## Go maps -/

/-- Go's order on strings (`<`): lexicographic by code point, which for text is
the bytewise order of the UTF-8 encodings. -/
def strLt : Str → Str → Bool
  | [], [] => false
  | [], _ :: _ => true
  | _ :: _, [] => false
  | a :: s, b :: t => decide (a.toNat < b.toNat) || (a == b && strLt s t)

/-- A Go map with string keys, as an association list.  A map is represented
by the list of its entries in increasing key order (`GoMap.WF`), so that two
maps are equal exactly when they hold the same entries; the order in which a
`range` loop visits the entries is a matter of the environment. -/
abbrev GoMap (α : Type) := List (Str × α)

namespace GoMap

variable {α : Type}

/-- Map lookup `m[k]` in its two-result form. -/
def get? : GoMap α → Str → Option α
  | [], _ => none
  | (k', v) :: t, k => if k' = k then some v else get? t k

/-- Map assignment `m[k] = v`. -/
def set : GoMap α → Str → α → GoMap α
  | [], k, v => [(k, v)]
  | (k', v') :: t, k, v =>
    if k' = k then (k, v) :: t
    else if strLt k k' then (k, v) :: (k', v') :: t
    else (k', v') :: set t k v

/-- The keys of the map. -/
def keys (m : GoMap α) : List Str := m.map Prod.fst

/-- The representation invariant: keys strictly increasing, hence distinct. -/
def WF (m : GoMap α) : Prop := (keys m).Pairwise (fun a b => strLt a b = true)

end GoMap

/-! ## Package `strings` (the functions the codecs call) -/

/-- The predicate `unicode.IsSpace`. -/
def isSpace (c : Char) : Bool :=
  let n := c.toNat
  (9 ≤ n && n ≤ 13) || n == 0x20 || n == 0x85 || n == 0xA0 || n == 0x1680 ||
  (0x2000 ≤ n && n ≤ 0x200A) || n == 0x2028 || n == 0x2029 || n == 0x202F ||
  n == 0x205F || n == 0x3000

namespace strings

/-- The function `strings.TrimSpace`. -/
def TrimSpace (s : Str) : Str := (s.dropWhile isSpace).rdropWhile isSpace

/-- The call `strings.Index(s, sep)` for a one-character separator. -/
def Index (s : Str) (c : Char) : Int := if c ∈ s then (s.indexOf c : Int) else -1

/-- The call `strings.LastIndex(s, sep)` for a one-character separator. -/
def LastIndex (s : Str) (c : Char) : Int :=
  if c ∈ s then (s.length : Int) - 1 - (s.reverse.indexOf c : Int) else -1

/-- The call `strings.Split(s, sep)` for a one-character separator. -/
def Split (s : Str) (c : Char) : List Str := s.splitOn c

/-- The call `strings.SplitN(s, sep, 2)` for a one-character separator. -/
def SplitN2 (s : Str) (c : Char) : List Str :=
  if c ∈ s then [s.takeWhile (fun x => x != c), (s.dropWhile (fun x => x != c)).tail] else [s]

/-- The call `strings.Join(elems, ",")`. -/
def Join (elems : List Str) (c : Char) : Str := [c].intercalate elems

end strings

/-- The Go slice expression `s[i:j]`. -/
def slice (s : Str) (i j : Nat) : Str := (s.take j).drop i

/-! ## Byte slices (packages `unicode/utf8` and `bytes`) -/

/-- A byte. -/
abbrev Byte := Fin 256

/-- A Go byte slice that need not hold text. -/
abbrev Bytes := List Byte

/-- The byte of an ASCII character, as in the Go literal `'x'`. -/
def ch (c : Char) : Byte := Fin.ofNat c.toNat

namespace utf8

/-- The UTF-8 encoding of a character. -/
def encodeChar (c : Char) : Bytes :=
  let n := c.toNat
  if n < 0x80 then [Fin.ofNat n]
  else if n < 0x800 then [Fin.ofNat (0xC0 + n / 64), Fin.ofNat (0x80 + n % 64)]
  else if n < 0x10000 then
    [Fin.ofNat (0xE0 + n / 4096), Fin.ofNat (0x80 + n / 64 % 64), Fin.ofNat (0x80 + n % 64)]
  else
    [Fin.ofNat (0xF0 + n / 262144), Fin.ofNat (0x80 + n / 4096 % 64),
      Fin.ofNat (0x80 + n / 64 % 64), Fin.ofNat (0x80 + n % 64)]

/-- The bytes of a text, `[]byte(s)`. -/
def encode (s : Str) : Bytes := s.flatMap encodeChar

/-- Whether the byte lies between the two bounds, both included. -/
def between (lo hi b : Byte) : Bool := decide (lo ≤ b) && decide (b ≤ hi)

/-- The function `utf8.Valid`: the bytes are a sequence of well-formed
encodings (no overlong form, no surrogate, nothing beyond U+10FFFF). -/
def Valid : Bytes → Bool
  | [] => true
  | b0 :: r =>
    if b0 < 0x80 then Valid r
    else if b0 < 0xC2 then false
    else if b0 < 0xE0 then
      match r with
      | b1 :: r1 => between 0x80 0xBF b1 && Valid r1
      | _ => false
    else if b0 < 0xF0 then
      match r with
      | b1 :: b2 :: r2 =>
        between (if b0 = 0xE0 then 0xA0 else 0x80) (if b0 = 0xED then 0x9F else 0xBF) b1 &&
          between 0x80 0xBF b2 && Valid r2
      | _ => false
    else if b0 < 0xF5 then
      match r with
      | b1 :: b2 :: b3 :: r3 =>
        between (if b0 = 0xF0 then 0x90 else 0x80) (if b0 = 0xF4 then 0x8F else 0xBF) b1 &&
          between 0x80 0xBF b2 && between 0x80 0xBF b3 && Valid r3
      | _ => false
    else false

end utf8

/-- The character `utf8.RuneError`, U+FFFD. -/
def utf8.RuneError : Char := Char.ofNat 0xFFFD

/-- The characters that rune decoding (`utf8.DecodeRune`, a `range` over a
string, the string encoder of `encoding/json`) reads in a byte slice: a
well-formed encoding is its character, and a byte that begins none is read as
`utf8.RuneError`.  The conversion `string(data)` itself keeps such a byte, so
for bytes that are not valid UTF-8 this is not the Go string. -/
def utf8.decode : Bytes → Str
  | [] => []
  | b0 :: r =>
    if b0 < 0x80 then Char.ofNat b0.val :: utf8.decode r
    else if b0 < 0xC2 then utf8.RuneError :: utf8.decode r
    else if b0 < 0xE0 then
      match r with
      | b1 :: r1 =>
        if utf8.between 0x80 0xBF b1 then
          Char.ofNat ((b0.val - 0xC0) * 64 + (b1.val - 0x80)) :: utf8.decode r1
        else utf8.RuneError :: utf8.decode (b1 :: r1)
      | [] => [utf8.RuneError]
    else if b0 < 0xF0 then
      match r with
      | b1 :: b2 :: r2 =>
        if utf8.between (if b0 = 0xE0 then 0xA0 else 0x80) (if b0 = 0xED then 0x9F else 0xBF) b1 &&
            utf8.between 0x80 0xBF b2 then
          Char.ofNat ((b0.val - 0xE0) * 4096 + (b1.val - 0x80) * 64 + (b2.val - 0x80)) ::
            utf8.decode r2
        else utf8.RuneError :: utf8.decode (b1 :: b2 :: r2)
      | [b1] => utf8.RuneError :: utf8.decode [b1]
      | [] => [utf8.RuneError]
    else if b0 < 0xF5 then
      match r with
      | b1 :: b2 :: b3 :: r3 =>
        if utf8.between (if b0 = 0xF0 then 0x90 else 0x80) (if b0 = 0xF4 then 0x8F else 0xBF) b1 &&
            utf8.between 0x80 0xBF b2 && utf8.between 0x80 0xBF b3 then
          Char.ofNat ((b0.val - 0xF0) * 262144 + (b1.val - 0x80) * 4096 + (b2.val - 0x80) * 64 +
            (b3.val - 0x80)) :: utf8.decode r3
        else utf8.RuneError :: utf8.decode (b1 :: b2 :: b3 :: r3)
      | [b1, b2] => utf8.RuneError :: utf8.decode [b1, b2]
      | [b1] => utf8.RuneError :: utf8.decode [b1]
      | [] => [utf8.RuneError]
    else utf8.RuneError :: utf8.decode r
termination_by s => s.length

namespace bytes

/-- The characters `unicode.IsSpace` holds for. -/
def spaceChars : List Char :=
  [0x09, 0x0A, 0x0B, 0x0C, 0x0D, 0x20, 0x85, 0xA0, 0x1680, 0x2000, 0x2001, 0x2002, 0x2003,
   0x2004, 0x2005, 0x2006, 0x2007, 0x2008, 0x2009, 0x200A, 0x2028, 0x2029, 0x202F, 0x205F,
   0x3000].map Char.ofNat

/-- The UTF-8 encodings of the white space characters. -/
def spaces : List Bytes := spaceChars.map utf8.encodeChar

/-- The input after the run of `encs` members at its head: as long as one of
them is a prefix of the input, it is cut off. -/
def cutPrefixes (encs : List Bytes) : Nat → Bytes → Bytes
  | 0, s => s
  | fuel + 1, s =>
    match encs.find? (fun e => e.isPrefixOf s) with
    | some e => cutPrefixes encs fuel (s.drop e.length)
    | none => s

/-- The function `bytes.TrimLeftFunc(s, unicode.IsSpace)`. -/
def TrimLeft (s : Bytes) : Bytes := cutPrefixes spaces s.length s

/-- The function `bytes.TrimRightFunc(s, unicode.IsSpace)`. -/
def TrimRight (s : Bytes) : Bytes :=
  (cutPrefixes (spaces.map List.reverse) s.length s.reverse).reverse

/-- The function `bytes.TrimSpace`: it slices off all leading and trailing
white space, as defined by Unicode.  In a byte slice a white space character
is its UTF-8 encoding; any other byte, alone or in an ill-formed sequence,
ends the trim. -/
def TrimSpace (s : Bytes) : Bytes := TrimRight (TrimLeft s)

end bytes

/-! ## Package `math/big` -/

namespace big

/-- Unsigned decimal scan: one or more ASCII digits and nothing else. -/
def scanNat (s : Str) : Option Nat :=
  if s = [] then none
  else if s.all Char.isDigit then some (s.foldl (fun a c => 10 * a + (c.toNat - 48)) 0)
  else none

/-- The call `new(big.Int).SetString(s, 10)`: an optional sign, then digits,
then the end of the string; `none` is the `(nil, false)` result. -/
def SetString (s : Str) : Option Int :=
  match s with
  | '-' :: r => (scanNat r).map (fun (n : Nat) => -(Int.ofNat n))
  | '+' :: r => (scanNat r).map (fun (n : Nat) => Int.ofNat n)
  | _ => (scanNat s).map (fun (n : Nat) => Int.ofNat n)

/-- The method `(*big.Int).String`: the base-10 representation. -/
def String (x : Int) : Str :=
  if x < 0 then '-' :: Nat.toDigits 10 x.natAbs else Nat.toDigits 10 x.natAbs

/-- The method `(*big.Int).Int64`: the low 64 bits of the magnitude, read as a
two's-complement integer, with the sign of `x` applied afterwards. -/
def Int64 (x : Int) : Int :=
  let low : Int := (x.natAbs % 2 ^ 64 : Nat)
  let v : Int := if low < 2 ^ 63 then low else low - 2 ^ 64
  if x < 0 then (if v = -(2 ^ 63) then v else -v) else v

end big

/-! ## Package `time` -/

/-- An instant of `time.Time`: seconds since the Unix epoch and nanoseconds
within the second.  The location is not part of the instant. -/
structure Time where
  unix : Int
  nsec : Nat
  deriving DecidableEq, Repr

namespace Time

/-- The zero value `time.Time{}`: January 1, year 1, 00:00:00 UTC. -/
def zero : Time := ⟨-62135596800, 0⟩

/-- The method `Time.IsZero`. -/
def IsZero (t : Time) : Bool := t.unix == -62135596800 && t.nsec == 0

/-- The call `time.Unix(sec, 0).UTC()`. -/
def Unix (sec : Int) : Time := ⟨sec, 0⟩

end Time

/-! ## Decoded JSON values -/

/-- A finite IEEE-754 binary64 value `(-1)^neg * mant * 2^exp`. -/
structure Float64 where
  neg : Bool
  mant : Nat
  exp : Int
  deriving DecidableEq, Repr

/-- What `encoding/json` decodes into an `interface{}`: `nil`, `bool`,
`float64`, `string`, `[]interface{}` or `map[string]interface{}`, and the
`json.Number` literal a decoder set to `UseNumber` yields in place of a
`float64`. -/
inductive JVal where
  | null
  | bool (b : Bool)
  | num (f : Float64)
  | str (s : Str)
  | number (lit : Str)
  | arr (xs : List JVal)
  | obj (kvs : List (Str × JVal))

/-! ## The canonical message model (`abstraction/message.go`) -/

/-- The struct `abstraction.ViewChangeEntry`. -/
structure ViewChangeEntry where
  View : Option Int
  Height : Option Int
  Validator : Str
  Signature : Str
  deriving DecidableEq

/-- The struct `abstraction.AbstractMessage`.  The field `Type` is spelled
`Typ`; a `nil` slice or map is `none`. -/
structure AbstractMessage where
  Typ : Str
  Height : Option Int
  Round : Option Int
  View : Option Int
  Timestamp : Time
  BlockHash : Str
  PrevHash : Str
  Proposer : Str
  Validator : Str
  Signature : Str
  CommitSeals : Option (List Str)
  ViewChanges : Option (List ViewChangeEntry)
  Extras : Option (GoMap Str)
  RawPayload : Str
  OriginalFormat : Str
  OriginalMsgName : Str
  OriginalFieldNames : Option (GoMap Str)
  deriving DecidableEq

/-- The zero value of `AbstractMessage`. -/
def AbstractMessage.empty : AbstractMessage :=
  { Typ := [], Height := none, Round := none, View := none, Timestamp := Time.zero,
    BlockHash := [], PrevHash := [], Proposer := [], Validator := [], Signature := [],
    CommitSeals := none, ViewChanges := none, Extras := none, RawPayload := [],
    OriginalFormat := [], OriginalMsgName := [], OriginalFieldNames := none }

/-- The length `len(s)` of a slice or map that may be `nil`. -/
def len {α : Type} (s : Option (List α)) : Nat := (s.getD []).length

/-- The elements a `range` over a slice that may be `nil` visits, in order. -/
def elems {α : Type} (s : Option (List α)) : List α := s.getD []

/-- Assignment `m[k] = v` into a map held in a struct field. -/
def setEntry (m : Option (GoMap Str)) (k v : Str) : Option (GoMap Str) :=
  some ((m.getD []).set k v)

/-! ## The environment -/

/-- The `range` loops over maps in the codecs. Go fixes no iteration order, and every loop
may visit the entries of its map in an order of its own. -/
inductive Loop
  | genericParse
  | genericSerialize
  | jsonParse
  | jsonSerialize

/-- The parts of the program's world that are not in its sources. -/
structure Env where
  /-- The table `PhaseSynonyms`: alias to canonical phase name. -/
  PhaseSynonyms : Str → Option Str
  /-- The table `FieldSynonyms`: alias to canonical field name. -/
  FieldSynonyms : Str → Option Str
  /-- The function `json.Marshal` on generic values. -/
  jsonMarshal : JVal → Str
  /-- The function `json.Unmarshal` into an `interface{}`. -/
  jsonUnmarshal : Str → Except Str JVal
  /-- Whether `json.Unmarshal` into a `json.RawMessage` returns no error: the
  bytes are a syntactically valid JSON text. -/
  jsonValid : Bytes → Bool
  /-- The call `t.UTC().Format(time.RFC3339)`. -/
  formatRFC3339 : Time → Str
  /-- The call `time.Parse(time.RFC3339, s)`. -/
  parseRFC3339 : Str → Option Time
  /-- The order in which the `range` statement of a loop visits the entries of
  a map in one execution.  Go draws the order anew whenever the statement is
  executed: two executions that are compared are two environments that differ
  in this field. -/
  range : {α : Type} → Loop → GoMap α → GoMap α
  /-- The result of `int64(f)` when `f` is outside the range of `int64`. -/
  int64Overflow : Float64 → Int

/-- The codecs' error values: an error made from a message (`errors.New`,
`fmt.Errorf` without the verb `%w`, an error of a library) or an error that
wraps another one behind a prefix (`fmt.Errorf` with a final `%w`). -/
inductive Err where
  | text (msg : Str)
  | wrap (pre : Str) (cause : Err)
deriving DecidableEq, Repr

/-- The method `Error` of an error value: its message. -/
def Err.Error : Err → Str
  | .text msg => msg
  | .wrap pre cause => pre ++ cause.Error

/-- The function `errors.Unwrap`: the wrapped error, if any. -/
def Err.Unwrap : Err → Option Err
  | .text _ => none
  | .wrap _ cause => some cause

/-! ## `codec/codec.go`: options and format detection -/

/-- The struct `ParseOptions` (the descriptor provider belongs to the
binary-protocol codec and is passed to it separately). -/
structure ParseOptions where
  Format : Str
  OverrideMsgType : Str
  ProtoMessageFullName : Str
  ProtoDiscardUnknown : Bool

/-- The zero value of `ParseOptions` with the format set. -/
def ParseOptions.ofFormat (f : Str) : ParseOptions :=
  { Format := f, OverrideMsgType := [], ProtoMessageFullName := [], ProtoDiscardUnknown := false }

/-- The constant `FormatAuto`. -/
def FormatAuto : Str := "auto".toList

/-- The constant `FormatGeneric`. -/
def FormatGeneric : Str := "generic".toList

/-- The constant `FormatJSON`. -/
def FormatJSON : Str := "json".toList

/-- The constant `FormatProtobuf`. -/
def FormatProtobuf : Str := "protobuf".toList

/-- The constant `FormatRLP`. -/
def FormatRLP : Str := "rlp".toList

/-- The constant `FormatMsgPack`. -/
def FormatMsgPack : Str := "msgpack".toList

/-- The constant `FormatBCS`. -/
def FormatBCS : Str := "bcs".toList

/-- The struct `SerializeOptions` (the descriptor provider is passed to the
binary-protocol codec separately, as for `ParseOptions`). -/
structure SerializeOptions where
  Format : Str
  ProtoMessageFullName : Str
  ProtoDiscardUnknown : Bool

/-- The zero value of `SerializeOptions` with the format set. -/
def SerializeOptions.ofFormat (f : Str) : SerializeOptions :=
  { Format := f, ProtoMessageFullName := [], ProtoDiscardUnknown := false }

/-- The options `ParseOptions{Format: FormatJSON, OverrideMsgType: ...}` the
bridging codecs hand to `jsonCodec.Parse`. -/
def bridgeOptions (opts : ParseOptions) : ParseOptions :=
  { Format := FormatJSON, OverrideMsgType := opts.OverrideMsgType,
    ProtoMessageFullName := [], ProtoDiscardUnknown := false }

/-- The function `DetectFormat`.  After the test `len(trim) == 0` the first
byte `trim[0]` exists, and the tests `len(trim) > 0` that follow hold. -/
def DetectFormat (env : Env) (data : Bytes) : Str :=
  let trim := bytes.TrimSpace data
  match trim with
  | [] => FormatGeneric
  | b :: _ =>
    if (b = ch '{' ∨ b = ch '[') ∧ utf8.Valid trim = true ∧ env.jsonValid trim = true then
      FormatJSON
    else if b ≥ 0xc0 ∨ b ≤ 0xbf then FormatRLP
    else if (b ≥ 0x80 ∧ b ≤ 0x9f) ∨ (b ≥ 0xa0 ∧ b ≤ 0xbf) then FormatMsgPack
    else FormatProtobuf

/-! ## `codec/utils.go` -/

/-- The function `TrimBrackets`. -/
def TrimBrackets (s : Str) : Str :=
  let i := strings.Index s '('
  if 0 ≤ i then
    let j := strings.LastIndex s ')'
    if i < j then slice s (i.toNat + 1) j.toNat else s
  else s

/-- The loop body of `SplitKeyValuePairs`. -/
def SplitKeyValuePairs.step (m : GoMap Str) (part : Str) : GoMap Str :=
  match strings.SplitN2 part '=' with
  | [k, v] => m.set (strings.TrimSpace k) (strings.TrimSpace v)
  | _ => m

/-- The function `SplitKeyValuePairs`. -/
def SplitKeyValuePairs (s : Str) : GoMap Str :=
  if strings.TrimSpace s = [] then []
  else (strings.Split s ',').foldl SplitKeyValuePairs.step []

/-! ## `codec/parser.go` -/

/-- The loop body of `parseViewChanges`. -/
def parseViewChanges.step (entries : Option (List ViewChangeEntry)) (item : Str) :
    Option (List ViewChangeEntry) :=
  match strings.Split (strings.TrimSpace item) ':' with
  | p0 :: p1 :: p2 :: p3 :: _ =>
    some (elems entries ++
      [{ View := big.SetString p0, Height := big.SetString p1, Validator := p2, Signature := p3 }])
  | _ => entries

/-- The function `parseViewChanges`. -/
def parseViewChanges (raw : Str) : Option (List ViewChangeEntry) :=
  (strings.Split raw ',').foldl parseViewChanges.step none

namespace genericCodec

/-- An integer field after `if x, ok := new(big.Int).SetString(v, 10); ok`
assigns it: the parsed integer, or the old value when `v` is not one. -/
def intOf (old : Option Int) (v : Str) : Option Int :=
  match big.SetString v with
  | some x => some x
  | none => old

/-- The timestamp after the case `Timestamp`: the RFC 3339 instant, else the
epoch seconds, else the old value. -/
def timeOf (env : Env) (old : Time) (v : Str) : Time :=
  match env.parseRFC3339 v with
  | some t2 => t2
  | none =>
    match big.SetString v with
    | some sec => Time.Unix (big.Int64 sec)
    | none => old

/-- The switch on the canonical field name in `genericCodec.Parse`. -/
def assign (env : Env) (am : AbstractMessage) (fld k v : Str) : AbstractMessage :=
  if fld = "Height".toList then { am with Height := intOf am.Height v }
  else if fld = "Round".toList then { am with Round := intOf am.Round v }
  else if fld = "View".toList then { am with View := intOf am.View v }
  else if fld = "BlockHash".toList then { am with BlockHash := v }
  else if fld = "PrevHash".toList then { am with PrevHash := v }
  else if fld = "Timestamp".toList then { am with Timestamp := timeOf env am.Timestamp v }
  else if fld = "Proposer".toList then { am with Proposer := v }
  else if fld = "Validator".toList then { am with Validator := v }
  else if fld = "Signature".toList then { am with Signature := v }
  else if fld = "CommitSeals".toList then { am with CommitSeals := some (strings.Split v ',') }
  else if fld = "ViewChanges".toList then { am with ViewChanges := parseViewChanges v }
  else { am with Extras := setEntry am.Extras k v }

/-- The body of the loop over the key/value pairs in `genericCodec.Parse`. -/
def step (env : Env) (am : AbstractMessage) (kv : Str × Str) : AbstractMessage :=
  match env.FieldSynonyms kv.1 with
  | some fld =>
    assign env { am with OriginalFieldNames := setEntry am.OriginalFieldNames fld kv.1 }
      fld kv.1 kv.2
  | none => { am with Extras := setEntry am.Extras kv.1 kv.2 }

/-- The message `genericCodec.Parse` starts from, with the phase resolved. -/
def init (env : Env) (raw msgName : Str) : AbstractMessage :=
  { AbstractMessage.empty with
    Typ := (match env.PhaseSynonyms msgName with
      | some t => t
      | none => msgName)
    Extras := some []
    RawPayload := raw
    OriginalFormat := "generic".toList
    OriginalMsgName := msgName
    OriginalFieldNames := some [] }

/-- The method `genericCodec.Parse`; its second parameter, the options, is
the blank identifier in the source. -/
def Parse (env : Env) (data : Str) (_ : ParseOptions) : Except Err AbstractMessage :=
  let raw := strings.TrimSpace data
  if raw = [] then .error (.text "empty raw".toList)
  else
    let idx := strings.Index raw '('
    if idx < 0 then .error (.text ("invalid message: no '(', raw=".toList ++ raw))
    else
      let msgName := strings.TrimSpace (slice raw 0 idx.toNat)
      let body := TrimBrackets raw
      .ok ((env.range .genericParse (SplitKeyValuePairs body)).foldl (step env) (init env raw msgName))

end genericCodec

/-! ## `codec/serializer.go` -/

/-- The `parts` of `SerializeGeneric` that come from the canonical fields. -/
def SerializeGeneric.canonicalParts (env : Env) (am : AbstractMessage) : List Str :=
  (match am.Height with
    | some h => ["height=".toList ++ big.String h]
    | none => []) ++
  (match am.Round with
    | some r => ["round=".toList ++ big.String r]
    | none => []) ++
  (match am.View with
    | some v => ["view=".toList ++ big.String v]
    | none => []) ++
  (if am.BlockHash ≠ [] then ["block_hash=".toList ++ am.BlockHash] else []) ++
  (if am.PrevHash ≠ [] then ["prev_hash=".toList ++ am.PrevHash] else []) ++
  (if !am.Timestamp.IsZero then ["timestamp=".toList ++ env.formatRFC3339 am.Timestamp] else []) ++
  (if am.Proposer ≠ [] then ["proposer=".toList ++ am.Proposer] else []) ++
  (if am.Validator ≠ [] then ["validator=".toList ++ am.Validator] else []) ++
  (if am.Signature ≠ [] then ["signature=".toList ++ am.Signature] else []) ++
  (if 0 < len am.CommitSeals then
    ["commit_seals=".toList ++ strings.Join (elems am.CommitSeals) ','] else [])

/-- The `parts` of `SerializeGeneric` that come from `Extras`. -/
def SerializeGeneric.extrasParts (env : Env) (am : AbstractMessage) : List Str :=
  (env.range .genericSerialize (elems am.Extras)).map (fun kv => kv.1 ++ '=' :: kv.2)

/-- The function `SerializeGeneric`; it never returns an error. -/
def SerializeGeneric (env : Env) (am : AbstractMessage) : Str :=
  am.Typ ++ '(' ::
    strings.Join (SerializeGeneric.canonicalParts env am ++ SerializeGeneric.extrasParts env am) ','
    ++ [')']

/-- The method `genericCodec.Serialize`. -/
def genericCodec.Serialize (env : Env) (am : AbstractMessage) : Except Err Str :=
  .ok (SerializeGeneric env am)

/-! ## `codec/json_codec.go` -/

/-- The integer part of a `float64`, rounded toward zero. -/
def Float64.trunc (f : Float64) : Int :=
  let a : Nat := if 0 ≤ f.exp then f.mant * 2 ^ f.exp.toNat else f.mant / 2 ^ (-f.exp).toNat
  if f.neg then -(a : Int) else (a : Int)

/-- The conversion `int64(t)` of a `float64`. -/
def Float64.toInt64 (env : Env) (f : Float64) : Int :=
  let t := f.trunc
  if -(2 ^ 63) ≤ t ∧ t < 2 ^ 63 then t else env.int64Overflow f

/-- The method `json.Number.Int64`, that is `strconv.ParseInt(s, 10, 64)`. -/
def jsonNumberInt64 (s : Str) : Option Int :=
  match big.SetString s with
  | some n => if -(2 ^ 63) ≤ n ∧ n < 2 ^ 63 then some n else none
  | none => none

/-- The function `toString`.  The case `[]byte` is a Go type that decoding
never yields. -/
def toString (env : Env) : JVal → Str
  | .null => []
  | .str t => t
  | v => env.jsonMarshal v

/-- The function `toBigIntPtr`. -/
def toBigIntPtr (env : Env) : JVal → Option Int
  | .num t => some (t.toInt64 env)
  | .number t =>
    match jsonNumberInt64 t with
    | some i => some i
    | none => big.SetString t
  | .str t => big.SetString t
  | _ => none

/-- The function `toStringSlice`.  The case `[]string` is a Go type that
decoding never yields. -/
def toStringSlice (env : Env) : JVal → Option (List Str)
  | .null => none
  | .arr t => some (t.map (toString env))
  | .str t => some [t]
  | v => some [toString env v]

/-- The function `toTime`. -/
def toTime (env : Env) : JVal → Time
  | .str t =>
    match env.parseRFC3339 t with
    | some tm => tm
    | none =>
      match big.SetString t with
      | some bi => Time.Unix (big.Int64 bi)
      | none => Time.zero
  | .num t => Time.Unix (t.toInt64 env)
  | .number t =>
    match jsonNumberInt64 t with
    | some i => Time.Unix i
    | none => Time.zero
  | _ => Time.zero

/-- The function `strOrNil`. -/
def strOrNil : Option Int → JVal
  | none => .null
  | some x => .str (big.String x)

/-- Indexing `obj[k]` of a decoded object: `nil` when the key is missing. -/
def index (o : GoMap JVal) (k : Str) : JVal := (o.get? k).getD .null

namespace jsonCodec

/-- One element of a `view_changes` array in `jsonCodec.Parse`: an object
becomes an entry, anything else is skipped. -/
def viewChange (env : Env) : JVal → Option ViewChangeEntry
  | .obj o => some
    { View := toBigIntPtr env (index o "view".toList)
      Height := toBigIntPtr env (index o "height".toList)
      Validator := toString env (index o "validator".toList)
      Signature := toString env (index o "signature".toList) }
  | _ => none

/-- The case `ViewChanges` of `jsonCodec.Parse`: an array replaces the list
by the entries of its elements that are objects, any other value leaves the
list as it is. -/
def viewChanges (env : Env) (old : Option (List ViewChangeEntry)) :
    JVal → Option (List ViewChangeEntry)
  | .arr xs => some (xs.filterMap (viewChange env))
  | _ => old

/-- The body of the loop over the decoded keys in `jsonCodec.Parse`. -/
def step (env : Env) (am : AbstractMessage) (kv : Str × JVal) : AbstractMessage :=
  let key := match env.FieldSynonyms kv.1 with
    | some mapped => mapped
    | none => kv.1
  if key = "Height".toList then { am with Height := toBigIntPtr env kv.2 }
  else if key = "Round".toList then { am with Round := toBigIntPtr env kv.2 }
  else if key = "View".toList then { am with View := toBigIntPtr env kv.2 }
  else if key = "BlockHash".toList then { am with BlockHash := toString env kv.2 }
  else if key = "PrevHash".toList then { am with PrevHash := toString env kv.2 }
  else if key = "Timestamp".toList then { am with Timestamp := toTime env kv.2 }
  else if key = "Proposer".toList then { am with Proposer := toString env kv.2 }
  else if key = "Validator".toList then { am with Validator := toString env kv.2 }
  else if key = "Signature".toList then { am with Signature := toString env kv.2 }
  else if key = "CommitSeals".toList then { am with CommitSeals := toStringSlice env kv.2 }
  else if key = "ViewChanges".toList then
    { am with ViewChanges := viewChanges env am.ViewChanges kv.2 }
  else if key = "type".toList then am
  else { am with Extras := setEntry am.Extras kv.1 (env.jsonMarshal kv.2) }

/-- The message `jsonCodec.Parse` starts from, with the type resolved. -/
def init (env : Env) (data : Str) (opts : ParseOptions) (m : GoMap JVal) : AbstractMessage :=
  { AbstractMessage.empty with
    Extras := some []
    RawPayload := data
    Typ :=
      if opts.OverrideMsgType ≠ [] then opts.OverrideMsgType
      else match m.get? "type".toList with
        | some (.str s) =>
          (match env.PhaseSynonyms s with
            | some mapped => mapped
            | none => s)
        | _ => [] }

/-- The call `json.Unmarshal(data, &m)` for `m` a `map[string]interface{}`:
an object decodes into the map, `null` leaves the map `nil`, any other JSON
value is a type error. -/
def unmarshalMap (env : Env) (data : Str) : Except Err (GoMap JVal) :=
  match env.jsonUnmarshal data with
  | .ok (.obj m) => .ok m
  | .ok .null => .ok []
  | .ok _ =>
    .error (.text "json: cannot unmarshal into Go value of type map[string]interface \x7b\x7d".toList)
  | .error e => .error (.text e)

/-- The method `jsonCodec.Parse`. -/
def Parse (env : Env) (data : Str) (opts : ParseOptions) : Except Err AbstractMessage :=
  match unmarshalMap env data with
  | .error e => .error (.wrap "json unmarshal: ".toList e)
  | .ok m => .ok ((env.range .jsonParse m).foldl (step env) (init env data opts m))

/-- One `view_changes` item in `jsonCodec.Serialize`. -/
def vcItem (e : ViewChangeEntry) : JVal :=
  let item : GoMap JVal := []
  let item := item.set "view".toList (strOrNil e.View)
  let item := item.set "height".toList (strOrNil e.Height)
  let item := item.set "validator".toList (.str e.Validator)
  let item := item.set "signature".toList (.str e.Signature)
  .obj item

/-- The map `out` of `jsonCodec.Serialize` before `Extras` is merged. -/
def canonicalOut (env : Env) (am : AbstractMessage) : GoMap JVal :=
  let out : GoMap JVal := [("type".toList, .str am.Typ)]
  let out := match am.Height with
    | some h => out.set "height".toList (.str (big.String h))
    | none => out
  let out := match am.Round with
    | some r => out.set "round".toList (.str (big.String r))
    | none => out
  let out := match am.View with
    | some v => out.set "view".toList (.str (big.String v))
    | none => out
  let out := if am.BlockHash ≠ [] then out.set "block_hash".toList (.str am.BlockHash) else out
  let out := if am.PrevHash ≠ [] then out.set "prev_hash".toList (.str am.PrevHash) else out
  let out := if !am.Timestamp.IsZero then
    out.set "timestamp".toList (.str (env.formatRFC3339 am.Timestamp)) else out
  let out := if am.Proposer ≠ [] then out.set "proposer".toList (.str am.Proposer) else out
  let out := if am.Validator ≠ [] then out.set "validator".toList (.str am.Validator) else out
  let out := if am.Signature ≠ [] then out.set "signature".toList (.str am.Signature) else out
  let out := if 0 < len am.CommitSeals then
    out.set "commit_seals".toList (.arr ((elems am.CommitSeals).map .str)) else out
  let out := if 0 < len am.ViewChanges then
    out.set "view_changes".toList (.arr ((elems am.ViewChanges).map vcItem)) else out
  out

/-- The body of the loop that merges `Extras` in `jsonCodec.Serialize`. -/
def mergeExtra (env : Env) (out : GoMap JVal) (kv : Str × Str) : GoMap JVal :=
  match out.get? kv.1 with
  | some _ => out
  | none =>
    match env.jsonUnmarshal kv.2 with
    | .ok any => out.set kv.1 any
    | .error _ => out.set kv.1 (.str kv.2)

/-- The map `out` that `jsonCodec.Serialize` hands to `json.Marshal`. -/
def buildOut (env : Env) (am : AbstractMessage) : GoMap JVal :=
  (env.range .jsonSerialize (elems am.Extras)).foldl (mergeExtra env) (canonicalOut env am)

/-- The method `jsonCodec.Serialize`; marshalling a map of strings, lists and
decoded values does not fail. -/
def Serialize (env : Env) (am : AbstractMessage) : Except Err Str :=
  .ok (env.jsonMarshal (.obj (buildOut env am)))

end jsonCodec

/-! ## `codec/proto_codec.go` -/

/-- The binary-protocol libraries (`protoreflect`, `protoregistry`,
`dynamicpb`, `proto`, `protojson`) as the codec calls them, with the contents
of the two registries at the time of the call. -/
structure ProtoLib where
  /-- The type `protoreflect.Descriptor`. -/
  Descriptor : Type
  /-- The type `protoreflect.MessageDescriptor`. -/
  MessageDescriptor : Type
  /-- A dynamic message (`*dynamicpb.Message`) with its contents. -/
  Message : Type
  /-- The method `FullName` of a message descriptor. -/
  FullName : MessageDescriptor → Str
  /-- The type assertion `d.(protoreflect.MessageDescriptor)`. -/
  asMessage : Descriptor → Option MessageDescriptor
  /-- The call `r.files.FindDescriptorByName(fullName)` on the files of
  `DefaultDescriptorRegistry`. -/
  findDescriptorByName : Str → Except Err Descriptor
  /-- The call `protoregistry.GlobalTypes.FindMessageByName(fn)`, with
  `mt.Descriptor()` taken of a found type. -/
  globalTypes : Str → Except Err MessageDescriptor
  /-- The calls `dynamicpb.NewMessage(md)` and `proto.Unmarshal(data, msg)`:
  the message read from the bytes, or the error. -/
  unmarshal : MessageDescriptor → Bytes → Except Err Message
  /-- The call `protojson.MarshalOptions{...}.Marshal(msg)`. -/
  protojsonMarshal : Message → Except Err Str
  /-- The calls `dynamicpb.NewMessage(md)` and `uopts.Unmarshal(js, msg)`; the
  flag is `DiscardUnknown`. -/
  protojsonUnmarshal : Bool → MessageDescriptor → Str → Except Err Message
  /-- The call `proto.Marshal(msg)`. -/
  marshal : Message → Except Err Bytes

/-- The interface `ProtoDescriptorProvider`: its method `FindMessageByName`. -/
abbrev ProtoDescriptorProvider (lib : ProtoLib) : Type := Str → Except Err lib.MessageDescriptor

/-- The method `globalRegistryProvider.FindMessageByName`. -/
def globalRegistryProvider.FindMessageByName (lib : ProtoLib) : ProtoDescriptorProvider lib :=
  fun fn =>
    match lib.globalTypes fn with
    | .error err => .error err
    | .ok md => .ok md

/-- The struct `compositeProvider`. -/
structure compositeProvider (lib : ProtoLib) where
  primary : ProtoDescriptorProvider lib
  fallback : ProtoDescriptorProvider lib

/-- The method `compositeProvider.FindMessageByName`. -/
def compositeProvider.FindMessageByName {lib : ProtoLib} (c : compositeProvider lib) :
    ProtoDescriptorProvider lib :=
  fun fn =>
    match c.primary fn with
    | .ok md => .ok md
    | .error _ => c.fallback fn

/-- The method `DescriptorRegistry.FindMessageByName`, on the registry
`DefaultDescriptorRegistry`. -/
def DescriptorRegistry.FindMessageByName (lib : ProtoLib) : ProtoDescriptorProvider lib :=
  fun fullName =>
    match lib.findDescriptorByName fullName with
    | .ok d =>
      match lib.asMessage d with
      | some md => .ok md
      | none =>
        .error (.text ("descriptor ".toList ++ fullName ++ " found but not a message".toList))
    | .error err => .error err

namespace protoCodec

/-- The method `protoCodec.providerFrom`; `none` is a `nil` provider in the
options. -/
def providerFrom (lib : ProtoLib) (descriptorProvider : Option (ProtoDescriptorProvider lib)) :
    ProtoDescriptorProvider lib :=
  match descriptorProvider with
  | some p => p
  | none =>
    compositeProvider.FindMessageByName
      { primary := DescriptorRegistry.FindMessageByName lib
        fallback := globalRegistryProvider.FindMessageByName lib }

/-- The method `protoCodec.Parse`; the last argument is the field
`DescriptorProvider` of the options. -/
def Parse (lib : ProtoLib) (env : Env) (data : Bytes) (opts : ParseOptions)
    (descriptorProvider : Option (ProtoDescriptorProvider lib)) : Except Err AbstractMessage :=
  let provider := providerFrom lib descriptorProvider
  if opts.ProtoMessageFullName = [] then
    .error (.text "protobuf parse requires ProtoMessageFullName".toList)
  else
    match provider opts.ProtoMessageFullName with
    | .error err =>
      .error (.wrap ("descriptor not found for ".toList ++ opts.ProtoMessageFullName ++
        ": ".toList) err)
    | .ok md =>
      match lib.unmarshal md data with
      | .error err => .error (.wrap "protobuf unmarshal: ".toList err)
      | .ok msg =>
        match lib.protojsonMarshal msg with
        | .error err => .error (.wrap "protojson marshal: ".toList err)
        | .ok js =>
          jsonCodec.Parse env js (bridgeOptions opts)

/-- The method `protoCodec.Serialize`; the last argument is the field
`DescriptorProvider` of the options. -/
def Serialize (lib : ProtoLib) (env : Env) (am : AbstractMessage) (opts : SerializeOptions)
    (descriptorProvider : Option (ProtoDescriptorProvider lib)) : Except Err Bytes :=
  let provider := providerFrom lib descriptorProvider
  if opts.ProtoMessageFullName = [] then
    .error (.text "protobuf serialize requires ProtoMessageFullName".toList)
  else
    match provider opts.ProtoMessageFullName with
    | .error err =>
      .error (.wrap ("descriptor not found for ".toList ++ opts.ProtoMessageFullName ++
        ": ".toList) err)
    | .ok md =>
      match jsonCodec.Serialize env am with
      | .error err => .error err
      | .ok js =>
        match lib.protojsonUnmarshal opts.ProtoDiscardUnknown md js with
        | .error err =>
          .error (.wrap ("protojson unmarshal to message(".toList ++ lib.FullName md ++
            "): ".toList) err)
        | .ok msg => lib.marshal msg

end protoCodec

/-! ## `codec/rlp_codec.go` and `codec/bcs_codec.go` -/

/-- A library that encodes and decodes byte strings (`rlp`, `bcs`) as the
codecs call it.  The byte string that is encoded or decoded is a payload for
`jsonCodec`, and is held as the text `jsonCodec.Parse` takes. -/
structure WireLib where
  /-- The Go values a decode into an `interface{}` (or a map) yields. -/
  Value : Type
  /-- The call `rlp.EncodeToBytes(js)`, or `bcs.Marshal(js)`, on a `[]byte`. -/
  encodeBytes : Str → Except Err Bytes
  /-- The call `rlp.DecodeBytes(data, &raw)`, or `bcs.Unmarshal(data, &raw)`,
  for `raw` a `[]byte`. -/
  decodeBytes : Bytes → Except Err Str
  /-- The same call for `decoded` an `interface{}` (a `map[string]interface{}`
  in the BCS codec). -/
  decodeValue : Bytes → Except Err Value
  /-- The call `json.Marshal(v)` on a decoded value. -/
  jsonMarshal : Value → Except Err Str

/-- The function `jsonFromInterface` of `codec/utils.go`. -/
def jsonFromInterface (lib : WireLib) (v : lib.Value) : Except Err Str := lib.jsonMarshal v

namespace rlpCodec

/-- The method `rlpCodec.Parse`. -/
def Parse (rlp : WireLib) (env : Env) (data : Bytes) (opts : ParseOptions) :
    Except Err AbstractMessage :=
  match rlp.decodeBytes data with
  | .ok raw => jsonCodec.Parse env raw (bridgeOptions opts)
  | .error _ =>
    match rlp.decodeValue data with
    | .error err => .error (.wrap "rlp decode: ".toList err)
    | .ok decoded =>
      match jsonFromInterface rlp decoded with
      | .error err => .error err
      | .ok js => jsonCodec.Parse env js (bridgeOptions opts)

/-- The method `rlpCodec.Serialize`; its second parameter, the options, is
the blank identifier in the source. -/
def Serialize (rlp : WireLib) (env : Env) (am : AbstractMessage) (_ : SerializeOptions) :
    Except Err Bytes :=
  match jsonCodec.Serialize env am with
  | .error err => .error err
  | .ok js => rlp.encodeBytes js

end rlpCodec

namespace bcsCodec

/-- The method `bcsCodec.Parse`. -/
def Parse (bcs : WireLib) (env : Env) (data : Bytes) (opts : ParseOptions) :
    Except Err AbstractMessage :=
  match bcs.decodeBytes data with
  | .ok raw => jsonCodec.Parse env raw (bridgeOptions opts)
  | .error _ =>
    match bcs.decodeValue data with
    | .error err => .error (.wrap "bcs decode: ".toList err)
    | .ok decoded =>
      match jsonFromInterface bcs decoded with
      | .error err => .error err
      | .ok js => jsonCodec.Parse env js (bridgeOptions opts)

/-- The method `bcsCodec.Serialize`; its second parameter, the options, is
the blank identifier in the source. -/
def Serialize (bcs : WireLib) (env : Env) (am : AbstractMessage) (_ : SerializeOptions) :
    Except Err Bytes :=
  match jsonCodec.Serialize env am with
  | .error err => .error err
  | .ok js => bcs.encodeBytes js

end bcsCodec

/-! ## `codec/msgpack_codec.go` -/

/-- The method `msgpackCodec.Parse`; of the library, `decodeValue` is the call
`msgpack.Unmarshal(data, &decoded)` for a `map[string]interface{}`. -/
def msgpackCodec.Parse (msgpack : WireLib) (env : Env) (data : Bytes) (opts : ParseOptions) :
    Except Err AbstractMessage :=
  match msgpack.decodeValue data with
  | .error err => .error (.wrap "msgpack decode: ".toList err)
  | .ok decoded =>
    match jsonFromInterface msgpack decoded with
    | .error err => .error err
    | .ok js => jsonCodec.Parse env js (bridgeOptions opts)

/-! ## `codec/codec.go`: the entry point `Parse` -/

/-- The libraries behind the codecs of the binary formats. -/
structure Libs where
  proto : ProtoLib
  rlp : WireLib
  msgpack : WireLib
  bcs : WireLib

/-- The function `Parse`; the last argument is the field `DescriptorProvider`
of the options.  The text codecs take the characters that rune decoding
reads in the bytes, which for valid UTF-8 is the text `string(data)`. -/
def Parse (libs : Libs) (env : Env) (data : Bytes) (opts : ParseOptions)
    (descriptorProvider : Option (ProtoDescriptorProvider libs.proto)) :
    Except Err AbstractMessage :=
  let format :=
    if opts.Format = [] ∨ opts.Format = FormatAuto then DetectFormat env data else opts.Format
  if format = FormatGeneric then genericCodec.Parse env (utf8.decode data) opts
  else if format = FormatJSON then jsonCodec.Parse env (utf8.decode data) opts
  else if format = FormatProtobuf then
    protoCodec.Parse libs.proto env data opts descriptorProvider
  else if format = FormatRLP then rlpCodec.Parse libs.rlp env data opts
  else if format = FormatMsgPack then msgpackCodec.Parse libs.msgpack env data opts
  else if format = FormatBCS then bcsCodec.Parse libs.bcs env data opts
  else .error (.text ("unsupported format: ".toList ++ format))

/-! ## Executable models of the library behaviour -/

namespace rfc3339

/-- Decimal digits of `n`, zero-padded on the left to width `w`. -/
def pad (w n : Nat) : Str :=
  let d := Nat.toDigits 10 n
  List.replicate (w - d.length) '0' ++ d

/-- The civil date (year, month, day) of a day number counted from 1970-01-01
in the proleptic Gregorian calendar. -/
def civilFromDays (z0 : Int) : Int × Nat × Nat :=
  let z := z0 + 719468
  let era := z / 146097
  let doe := (z - era * 146097).toNat
  let yoe := (doe - doe / 1460 + doe / 36524 - doe / 146096) / 365
  let doy := doe - (365 * yoe + yoe / 4 - yoe / 100)
  let mp := (5 * doy + 2) / 153
  let d := doy - (153 * mp + 2) / 5 + 1
  let m := if mp < 10 then mp + 3 else mp - 9
  let y : Int := (yoe : Int) + era * 400
  (if m ≤ 2 then y + 1 else y, m, d)

/-- The day number, counted from 1970-01-01, of a civil date. -/
def daysFromCivil (y0 : Int) (m d : Nat) : Int :=
  let y := if m ≤ 2 then y0 - 1 else y0
  let era := y / 400
  let yoe := (y - era * 400).toNat
  let doy := (153 * (if 2 < m then m - 3 else m + 9) + 2) / 5 + d - 1
  let doe := yoe * 365 + yoe / 4 - yoe / 100 + doy
  era * 146097 + (doe : Int) - 719468

/-- The number of days of a month. -/
def daysIn (y : Int) (m : Nat) : Nat :=
  if m = 2 then (if y % 4 = 0 ∧ (y % 100 ≠ 0 ∨ y % 400 = 0) then 29 else 28)
  else if m = 4 ∨ m = 6 ∨ m = 9 ∨ m = 11 then 30 else 31

/-- The layout `time.RFC3339` applied to an instant in UTC. -/
def format (t : Time) : Str :=
  let days := t.unix / 86400
  let secs := (t.unix % 86400).toNat
  let (y, m, d) := civilFromDays days
  (if y < 0 then '-' :: pad 4 (-y).toNat else pad 4 y.toNat) ++ '-' :: pad 2 m ++ '-' :: pad 2 d ++
    'T' :: pad 2 (secs / 3600) ++ ':' :: pad 2 (secs / 60 % 60) ++ ':' :: pad 2 (secs % 60) ++ ['Z']

/-- The zone suffix of an RFC 3339 text: the offset from UTC in seconds. -/
def zone (s : Str) : Option Int :=
  if s = ['Z'] then some 0
  else if s.length = 6 ∧ (s.getD 0 ' ' = '+' ∨ s.getD 0 ' ' = '-') ∧ s.getD 3 ' ' = ':' then
    match big.scanNat (slice s 1 3), big.scanNat (slice s 4 6) with
    | some h, some m =>
      if h ≤ 24 ∧ m ≤ 60 then
        some (if s.getD 0 ' ' = '-' then -((h * 3600 + m * 60 : Nat) : Int) else ((h * 3600 + m * 60 : Nat) : Int))
      else none
    | _, _ => none
  else none

/-- The nanoseconds a run of fractional-second digits stands for. -/
def fraction (ds : Str) : Nat :=
  let nine := (ds ++ List.replicate 9 '0').take 9
  nine.foldl (fun a c => 10 * a + (c.toNat - 48)) 0

/-- The call `time.Parse(time.RFC3339, s)`: date, `T`, time of day, an
optional fraction of a second, and `Z` or a numeric offset.  The hour, the
element `15` of the layout, may be written with one digit. -/
def parse (s0 : Str) : Option Time :=
  let s := if s0.getD 12 ' ' = ':' then s0.take 11 ++ '0' :: s0.drop 11 else s0
  if s.length < 20 ∨ s.getD 4 ' ' ≠ '-' ∨ s.getD 7 ' ' ≠ '-' ∨ s.getD 10 ' ' ≠ 'T' ∨
      s.getD 13 ' ' ≠ ':' ∨ s.getD 16 ' ' ≠ ':' then none
  else
    match big.scanNat (slice s 0 4), big.scanNat (slice s 5 7), big.scanNat (slice s 8 10),
        big.scanNat (slice s 11 13), big.scanNat (slice s 14 16), big.scanNat (slice s 17 19) with
    | some y, some mo, some d, some h, some mi, some sec =>
      if 1 ≤ mo ∧ mo ≤ 12 ∧ 1 ≤ d ∧ d ≤ daysIn y mo ∧ h < 24 ∧ mi < 60 ∧ sec < 60 then
        let rest := s.drop 19
        let hasFrac : Bool := (rest.getD 0 ' ' == '.' || rest.getD 0 ' ' == ',') &&
          (rest.getD 1 ' ').isDigit
        let ds := if hasFrac then (rest.drop 1).takeWhile Char.isDigit else []
        let z := if hasFrac then (rest.drop 1).dropWhile Char.isDigit else rest
        match zone z with
        | some off =>
          some ⟨daysFromCivil y mo d * 86400 + ((h * 3600 + mi * 60 + sec : Nat) : Int) - off,
            fraction ds⟩
        | none => none
      else none
    | _, _, _, _, _, _ => none

end rfc3339

/-- The number of halvings that bring `n` below 2, by recursion on `fuel`. -/
def log2Fuel : Nat → Nat → Nat
  | 0, _ => 0
  | fuel + 1, n => if n < 2 then 0 else log2Fuel fuel (n / 2) + 1

/-- The binary logarithm of `n`, rounded down (0 for `n = 0`). -/
def log2 (n : Nat) : Nat := log2Fuel n n

/-- The binary64 value nearest to `a / b` (ties to even), as `strconv.ParseFloat`
computes it; `none` when the magnitude overflows. -/
def Float64.round (neg : Bool) (a b : Nat) : Option Float64 :=
  if a = 0 then some ⟨neg, 0, 0⟩
  else
    let e0 : Int := (log2 a : Int) - (log2 b : Int) - 52
    let e1 : Int := if a * 2 ^ (-e0).toNat < b * 2 ^ e0.toNat * 2 ^ 52 then e0 - 1 else e0
    let e : Int := max e1 (-1074)
    let n := a * 2 ^ (-e).toNat
    let d := b * 2 ^ e.toNat
    let q := n / d
    let r := n % d
    let q1 := if d < 2 * r ∨ (2 * r = d ∧ q % 2 = 1) then q + 1 else q
    let m := if q1 = 2 ^ 53 then 2 ^ 52 else q1
    let e2 := if q1 = 2 ^ 53 then e + 1 else e
    if 971 < e2 then none else some ⟨neg, m, e2⟩

namespace json

/-- Four lower-case hexadecimal digits. -/
def hex4 (n : Nat) : Str :=
  [Nat.digitChar (n / 4096 % 16), Nat.digitChar (n / 256 % 16), Nat.digitChar (n / 16 % 16),
    Nat.digitChar (n % 16)]

/-- How `json.Marshal` writes one character of a string. -/
def escape (c : Char) : Str :=
  if c = '"' then ['\\', '"']
  else if c = '\\' then ['\\', '\\']
  else if c = Char.ofNat 8 then ['\\', 'b']
  else if c = Char.ofNat 12 then ['\\', 'f']
  else if c = '\n' then ['\\', 'n']
  else if c = '\r' then ['\\', 'r']
  else if c = '\t' then ['\\', 't']
  else if c.toNat < 0x20 ∨ c = '<' ∨ c = '>' ∨ c = '&' ∨ c.toNat = 0x2028 ∨ c.toNat = 0x2029 then
    '\\' :: 'u' :: hex4 c.toNat
  else [c]

/-- A string as a JSON string literal. -/
def quote (s : Str) : Str := '"' :: s.flatMap escape ++ ['"']

/-- A `float64` as a JSON number.  An integer below `2^53` in magnitude is
written with its digits, as `encoding/json` does; any other value is written
by its exact decimal expansion (where `encoding/json` picks the shortest
digits that read back as the same value). -/
def number (f : Float64) : Str :=
  let sign : Str := if f.neg then ['-'] else []
  if 0 ≤ f.exp then sign ++ Nat.toDigits 10 (f.mant * 2 ^ f.exp.toNat)
  else
    let k := (-f.exp).toNat
    let ip := f.mant / 2 ^ k
    let fp := f.mant % 2 ^ k
    if fp = 0 then sign ++ Nat.toDigits 10 ip
    else
      let ds := rfc3339.pad k (fp * 5 ^ k)
      sign ++ Nat.toDigits 10 ip ++ '.' :: (ds.rdropWhile (fun c => c == '0'))

mutual
/-- The function `json.Marshal` on a generic value, compact form. -/
def marshal : JVal → Str
  | .null => "null".toList
  | .bool b => if b then "true".toList else "false".toList
  | .num f => number f
  | .str s => quote s
  | .number lit => lit
  | .arr xs => '[' :: marshalElems xs ++ [']']
  | .obj kvs => '{' :: marshalMembers kvs ++ ['}']
/-- The elements of an array, comma-separated. -/
def marshalElems : List JVal → Str
  | [] => []
  | [x] => marshal x
  | x :: y :: xs => marshal x ++ ',' :: marshalElems (y :: xs)
/-- The members of an object, comma-separated, in key order. -/
def marshalMembers : List (Str × JVal) → Str
  | [] => []
  | [(k, v)] => quote k ++ ':' :: marshal v
  | (k, v) :: kv :: kvs => quote k ++ ':' :: marshal v ++ ',' :: marshalMembers (kv :: kvs)
end

/-- Skip JSON white space. -/
def skipWs (s : Str) : Str := s.dropWhile (fun c => c == ' ' || c == '\t' || c == '\n' || c == '\r')

/-- The value of a hexadecimal digit. -/
def hexVal (c : Char) : Option Nat :=
  if c.isDigit then some (c.toNat - 48)
  else if 'a'.toNat ≤ c.toNat ∧ c.toNat ≤ 'f'.toNat then some (c.toNat - 87)
  else if 'A'.toNat ≤ c.toNat ∧ c.toNat ≤ 'F'.toNat then some (c.toNat - 55)
  else none

/-- Four hexadecimal digits at the head of the input. -/
def hex4Val (s : Str) : Option Nat :=
  match s with
  | a :: b :: c :: d :: _ =>
    match hexVal a, hexVal b, hexVal c, hexVal d with
    | some x, some y, some z, some w => some (((x * 16 + y) * 16 + z) * 16 + w)
    | _, _, _, _ => none
  | _ => none

/-- The rest of a string literal after its opening quote: the decoded text
and the input after the closing quote. -/
def scanString : Nat → Str → Str → Option (Str × Str)
  | 0, _, _ => none
  | _ + 1, [], _ => none
  | fuel + 1, c :: r, acc =>
    if c = '"' then some (acc.reverse, r)
    else if c = '\\' then
      match r with
      | [] => none
      | e :: r1 =>
        if e = '"' ∨ e = '\\' ∨ e = '/' then scanString fuel r1 (e :: acc)
        else if e = 'b' then scanString fuel r1 (Char.ofNat 8 :: acc)
        else if e = 'f' then scanString fuel r1 (Char.ofNat 12 :: acc)
        else if e = 'n' then scanString fuel r1 ('\n' :: acc)
        else if e = 'r' then scanString fuel r1 ('\r' :: acc)
        else if e = 't' then scanString fuel r1 ('\t' :: acc)
        else if e = 'u' then
          match hex4Val r1 with
          | none => none
          | some hi =>
            let r2 := r1.drop 4
            if 0xD800 ≤ hi ∧ hi < 0xDC00 then
              match r2 with
              | '\\' :: 'u' :: r3 =>
                match hex4Val r3 with
                | none => none
                | some lo =>
                  if 0xDC00 ≤ lo ∧ lo < 0xE000 then
                    scanString fuel (r3.drop 4)
                      (Char.ofNat (0x10000 + (hi - 0xD800) * 1024 + (lo - 0xDC00)) :: acc)
                  else scanString fuel r2 (Char.ofNat 0xFFFD :: acc)
              | _ => scanString fuel r2 (Char.ofNat 0xFFFD :: acc)
            else if 0xDC00 ≤ hi ∧ hi < 0xE000 then scanString fuel r2 (Char.ofNat 0xFFFD :: acc)
            else scanString fuel r2 (Char.ofNat hi :: acc)
        else none
    else if c.toNat < 0x20 then none
    else scanString fuel r (c :: acc)

/-- The value of a run of decimal digits. -/
def digitsVal (ds : Str) : Nat := ds.foldl (fun a c => 10 * a + (c.toNat - 48)) 0

/-- A JSON number at the head of the input, decoded as `float64`, and the
input after it. -/
def scanNumber (s : Str) : Option (Float64 × Str) :=
  let neg : Bool := s.head? == some '-'
  let s1 := if neg then s.drop 1 else s
  let ip := s1.takeWhile Char.isDigit
  let s2 := s1.dropWhile Char.isDigit
  if ip = [] ∨ (ip.head? = some '0' ∧ 1 < ip.length) then none
  else
    let hasFrac : Bool := s2.head? == some '.'
    let fp := if hasFrac then (s2.drop 1).takeWhile Char.isDigit else []
    let s3 := if hasFrac then (s2.drop 1).dropWhile Char.isDigit else s2
    if hasFrac ∧ fp = [] then none
    else
      let hasExp : Bool := s3.head? == some 'e' || s3.head? == some 'E'
      let s4 := if hasExp then s3.drop 1 else s3
      let eneg : Bool := hasExp && s4.head? == some '-'
      let s5 := if hasExp && (s4.head? == some '-' || s4.head? == some '+') then s4.drop 1 else s4
      let ep := if hasExp then s5.takeWhile Char.isDigit else []
      let s6 := if hasExp then s5.dropWhile Char.isDigit else s5
      if hasExp ∧ ep = [] then none
      else
        let mant := digitsVal (ip ++ fp)
        let e10 : Int := (if eneg then -(digitsVal ep : Int) else (digitsVal ep : Int)) - fp.length
        match Float64.round neg (mant * 10 ^ e10.toNat) (10 ^ (-e10).toNat) with
        | some f => some (f, s6)
        | none => none

mutual
/-- A JSON value at the head of the input and the input after it. -/
def scanValue : Nat → Str → Option (JVal × Str)
  | 0, _ => none
  | fuel + 1, s =>
    match skipWs s with
    | [] => none
    | c :: r =>
      if c = '"' then
        match scanString (r.length + 1) r [] with
        | some (t, r1) => some (.str t, r1)
        | none => none
      else if c = '[' then
        match skipWs r with
        | ']' :: r1 => some (.arr [], r1)
        | _ => scanElems fuel r []
      else if c = '{' then
        match skipWs r with
        | '}' :: r1 => some (.obj [], r1)
        | _ => scanMembers fuel r []
      else if (c :: r).take 4 = "null".toList then some (.null, r.drop 3)
      else if (c :: r).take 4 = "true".toList then some (.bool true, r.drop 3)
      else if (c :: r).take 5 = "false".toList then some (.bool false, r.drop 4)
      else
        match scanNumber (c :: r) with
        | some (f, r1) => some (.num f, r1)
        | none => none
/-- The elements of an array after its opening bracket. -/
def scanElems : Nat → Str → List JVal → Option (JVal × Str)
  | 0, _, _ => none
  | fuel + 1, s, acc =>
    match scanValue fuel s with
    | none => none
    | some (v, r) =>
      match skipWs r with
      | ',' :: r1 => scanElems fuel r1 (acc ++ [v])
      | ']' :: r1 => some (.arr (acc ++ [v]), r1)
      | _ => none
/-- The members of an object after its opening brace; a repeated key keeps
its last value. -/
def scanMembers : Nat → Str → GoMap JVal → Option (JVal × Str)
  | 0, _, _ => none
  | fuel + 1, s, acc =>
    match skipWs s with
    | '"' :: r =>
      match scanString (r.length + 1) r [] with
      | none => none
      | some (k, r1) =>
        match skipWs r1 with
        | ':' :: r2 =>
          match scanValue fuel r2 with
          | none => none
          | some (v, r3) =>
            match skipWs r3 with
            | ',' :: r4 => scanMembers fuel r4 (GoMap.set acc k v)
            | '}' :: r4 => some (.obj (GoMap.set acc k v), r4)
            | _ => none
        | _ => none
    | _ => none
end

/-- The function `json.Unmarshal` into an `interface{}`: one JSON value,
surrounded by optional white space. -/
def unmarshal (data : Str) : Except Str JVal :=
  match scanValue (2 * data.length + 2) data with
  | some (v, r) => if skipWs r = [] then .ok v else .error "invalid character after top-level value".toList
  | none => .error "invalid JSON text".toList

/-- Skip JSON white space in a byte slice. -/
def skipSpace (s : Bytes) : Bytes :=
  s.dropWhile (fun b => b == ch ' ' || b == ch '\t' || b == ch '\n' || b == ch '\r')

/-- Whether the byte is an ASCII decimal digit. -/
def isDigitByte (b : Byte) : Bool := decide (ch '0' ≤ b) && decide (b ≤ ch '9')

/-- Whether the byte is an ASCII hexadecimal digit. -/
def isHexByte (b : Byte) : Bool :=
  isDigitByte b || (decide (ch 'a' ≤ b) && decide (b ≤ ch 'f')) ||
    (decide (ch 'A' ≤ b) && decide (b ≤ ch 'F'))

/-- The input after the closing quote of a string literal whose opening quote
has been read; `none` when the literal is not well formed. -/
def validString : Bytes → Option Bytes
  | [] => none
  | b :: r =>
    if b = ch '"' then some r
    else if b = ch '\\' then
      match r with
      | [] => none
      | e :: r1 =>
        if e = ch '"' ∨ e = ch '\\' ∨ e = ch '/' ∨ e = ch 'b' ∨ e = ch 'f' ∨ e = ch 'n' ∨
            e = ch 'r' ∨ e = ch 't' then validString r1
        else if e = ch 'u' then
          match r1 with
          | h1 :: h2 :: h3 :: h4 :: r2 =>
            if isHexByte h1 && isHexByte h2 && isHexByte h3 && isHexByte h4 then validString r2
            else none
          | _ => none
        else none
    else if b < 0x20 then none
    else validString r

/-- The input after a number literal at its head; `none` when there is none. -/
def validNumber (s : Bytes) : Option Bytes :=
  let s1 := if s.head? = some (ch '-') then s.drop 1 else s
  let ip := s1.takeWhile isDigitByte
  let s2 := s1.dropWhile isDigitByte
  if ip = [] ∨ (ip.head? = some (ch '0') ∧ 1 < ip.length) then none
  else
    let hasFrac : Bool := s2.head? == some (ch '.')
    let fp := if hasFrac then (s2.drop 1).takeWhile isDigitByte else []
    let s3 := if hasFrac then (s2.drop 1).dropWhile isDigitByte else s2
    if hasFrac ∧ fp = [] then none
    else
      let hasExp : Bool := s3.head? == some (ch 'e') || s3.head? == some (ch 'E')
      let s4 := if hasExp then s3.drop 1 else s3
      let s5 := if hasExp && (s4.head? == some (ch '-') || s4.head? == some (ch '+'))
        then s4.drop 1 else s4
      let ep := if hasExp then s5.takeWhile isDigitByte else []
      let s6 := if hasExp then s5.dropWhile isDigitByte else s5
      if hasExp ∧ ep = [] then none else some s6

mutual
/-- The input after a JSON value at its head; `none` when there is none. -/
def validValue : Nat → Bytes → Option Bytes
  | 0, _ => none
  | fuel + 1, s =>
    match skipSpace s with
    | [] => none
    | c :: r =>
      if c = ch '"' then validString r
      else if c = ch '[' then
        match skipSpace r with
        | [] => none
        | d :: r1 => if d = ch ']' then some r1 else validElems fuel r
      else if c = ch '{' then
        match skipSpace r with
        | [] => none
        | d :: r1 => if d = ch '}' then some r1 else validMembers fuel r
      else if (utf8.encode "null".toList).isPrefixOf (c :: r) then some (r.drop 3)
      else if (utf8.encode "true".toList).isPrefixOf (c :: r) then some (r.drop 3)
      else if (utf8.encode "false".toList).isPrefixOf (c :: r) then some (r.drop 4)
      else validNumber (c :: r)
/-- The input after the elements of an array and its closing bracket. -/
def validElems : Nat → Bytes → Option Bytes
  | 0, _ => none
  | fuel + 1, s =>
    match validValue fuel s with
    | none => none
    | some r =>
      match skipSpace r with
      | [] => none
      | d :: r1 =>
        if d = ch ',' then validElems fuel r1
        else if d = ch ']' then some r1
        else none
/-- The input after the members of an object and its closing brace. -/
def validMembers : Nat → Bytes → Option Bytes
  | 0, _ => none
  | fuel + 1, s =>
    match skipSpace s with
    | [] => none
    | q :: r =>
      if q = ch '"' then
        match validString r with
        | none => none
        | some r1 =>
          match skipSpace r1 with
          | [] => none
          | d :: r2 =>
            if d = ch ':' then
              match validValue fuel r2 with
              | none => none
              | some r3 =>
                match skipSpace r3 with
                | [] => none
                | d1 :: r4 =>
                  if d1 = ch ',' then validMembers fuel r4
                  else if d1 = ch '}' then some r4
                  else none
            else none
      else none
end

/-- Whether `json.Unmarshal(data, &js)` for a `json.RawMessage` returns no
error: the bytes are one syntactically valid JSON value, surrounded by
optional white space. -/
def Valid (data : Bytes) : Bool :=
  match validValue (2 * data.length + 2) data with
  | some r => skipSpace r == []
  | none => false

end json

/-- The environment of a Go process on amd64 with the given synonym tables:
the library models above, maps visited in key order, and the integer
indefinite value for an out-of-range conversion. -/
def goEnv (phases fields : GoMap Str) : Env :=
  { PhaseSynonyms := fun k => GoMap.get? phases k
    FieldSynonyms := fun k => GoMap.get? fields k
    jsonMarshal := json.marshal
    jsonUnmarshal := json.unmarshal
    jsonValid := json.Valid
    formatRFC3339 := rfc3339.format
    parseRFC3339 := rfc3339.parse
    range := fun _ m => m
    int64Overflow := fun _ => -(2 ^ 63) }

/-- Modelled from the spec: the table `FieldSynonyms`, whose declaration is
not among the sources.  It holds the keys the serializers emit, the canonical
field names themselves (synonym idempotence) and the aliases the spec and the
test application name. -/
def sampleFields : GoMap Str :=
  [("height".toList, "Height".toList), ("round".toList, "Round".toList),
   ("view".toList, "View".toList), ("block_hash".toList, "BlockHash".toList),
   ("prev_hash".toList, "PrevHash".toList), ("timestamp".toList, "Timestamp".toList),
   ("proposer".toList, "Proposer".toList), ("validator".toList, "Validator".toList),
   ("signature".toList, "Signature".toList), ("commit_seals".toList, "CommitSeals".toList),
   ("view_changes".toList, "ViewChanges".toList),
   ("Height".toList, "Height".toList), ("Round".toList, "Round".toList),
   ("View".toList, "View".toList), ("BlockHash".toList, "BlockHash".toList),
   ("PrevHash".toList, "PrevHash".toList), ("Timestamp".toList, "Timestamp".toList),
   ("Proposer".toList, "Proposer".toList), ("Validator".toList, "Validator".toList),
   ("Signature".toList, "Signature".toList), ("CommitSeals".toList, "CommitSeals".toList),
   ("ViewChanges".toList, "ViewChanges".toList),
   ("seq_num".toList, "Height".toList), ("block_digest".toList, "BlockHash".toList),
   ("leader".toList, "Proposer".toList), ("sig".toList, "Signature".toList),
   ("vc_entries".toList, "ViewChanges".toList)]

/-- Modelled from the spec: the table `PhaseSynonyms`, whose declaration is
not among the sources: the alias `Propose` and the six canonical phase names. -/
def samplePhases : GoMap Str :=
  [("Propose".toList, "Proposal".toList), ("Proposal".toList, "Proposal".toList),
   ("Prepare".toList, "Prepare".toList), ("Vote".toList, "Vote".toList),
   ("Commit".toList, "Commit".toList), ("ViewChange".toList, "ViewChange".toList),
   ("NewView".toList, "NewView".toList)]

/-- The environment the examples are evaluated in. -/
def sampleEnv : Env := goEnv samplePhases sampleFields

/-- The message `sampleMessage` of the test application, at the instant
2024-01-01T00:00:00Z. -/
def sampleMessage : AbstractMessage :=
  { Typ := "Proposal".toList
    Height := some 1000
    Round := some 2
    View := some 0
    Timestamp := ⟨1704067200, 0⟩
    BlockHash := "0xdeadbeef".toList
    PrevHash := "0xfeedbead".toList
    Proposer := "node 1".toList
    Validator := "node 1".toList
    Signature := "SIG_ORIG".toList
    CommitSeals := some ["seal A".toList, "seal B".toList]
    ViewChanges := some [⟨some 1, some 1000, "node 2".toList, "vc_sig".toList⟩]
    Extras := some [("payload".toList, "hello".toList)]
    RawPayload := "raw-bytes".toList
    OriginalFormat := []
    OriginalMsgName := []
    OriginalFieldNames := none }

end PBFT

namespace PBFT

/-! ## Definitions used in the statements and the proofs -/

/-- A character that is neither a separator of the generic-text grammar nor
white space. -/
def plainChar (c : Char) : Prop :=
  c ≠ ',' ∧ c ≠ '=' ∧ c ≠ '(' ∧ c ≠ ')' ∧ isSpace c = false

/-- The map after the assignments `m[p.1] = p.2` for `p` in `ps`, in order. -/
def setAll {α : Type} (m : GoMap α) (ps : List (Str × α)) : GoMap α :=
  ps.foldl (fun m p => GoMap.set m p.1 p.2) m

/-- The entries `jsonCodec.Serialize` assigns for the canonical fields after
`type`, in the order of the assignments. -/
def jsonCodec.canonicalEntries (env : Env) (am : AbstractMessage) : List (Str × JVal) :=
  (match am.Height with
    | some h => [("height".toList, JVal.str (big.String h))]
    | none => []) ++
  (match am.Round with
    | some r => [("round".toList, JVal.str (big.String r))]
    | none => []) ++
  (match am.View with
    | some v => [("view".toList, JVal.str (big.String v))]
    | none => []) ++
  (if am.BlockHash ≠ [] then [("block_hash".toList, JVal.str am.BlockHash)] else []) ++
  (if am.PrevHash ≠ [] then [("prev_hash".toList, JVal.str am.PrevHash)] else []) ++
  (if !am.Timestamp.IsZero then
    [("timestamp".toList, JVal.str (env.formatRFC3339 am.Timestamp))] else []) ++
  (if am.Proposer ≠ [] then [("proposer".toList, JVal.str am.Proposer)] else []) ++
  (if am.Validator ≠ [] then [("validator".toList, JVal.str am.Validator)] else []) ++
  (if am.Signature ≠ [] then [("signature".toList, JVal.str am.Signature)] else []) ++
  (if 0 < len am.CommitSeals then
    [("commit_seals".toList, JVal.arr ((elems am.CommitSeals).map .str))] else []) ++
  (if 0 < len am.ViewChanges then
    [("view_changes".toList, JVal.arr ((elems am.ViewChanges).map jsonCodec.vcItem))] else [])

/-- The keys `jsonCodec.Serialize` uses for the canonical fields. -/
def jsonCodec.canonicalKeys : List Str :=
  ["type".toList] ++ (["height".toList] ++ ["round".toList] ++ ["view".toList] ++
    ["block_hash".toList] ++ ["prev_hash".toList] ++ ["timestamp".toList] ++ ["proposer".toList] ++
    ["validator".toList] ++ ["signature".toList] ++ ["commit_seals".toList] ++
    ["view_changes".toList])

/-- The value `jsonCodec.Serialize` emits for an `Extras` entry: the decoded
JSON value when the bytes are JSON text, the bytes as a string otherwise. -/
def jsonCodec.extraValue (env : Env) (v : Str) : JVal :=
  match env.jsonUnmarshal v with
  | .ok any => any
  | .error _ => .str v

mutual
/-- Equality test on decoded JSON values. -/
def JVal.beq : JVal → JVal → Bool
  | .null, .null => true
  | .bool a, .bool b => a == b
  | .num a, .num b => a == b
  | .str a, .str b => a == b
  | .number a, .number b => a == b
  | .arr a, .arr b => JVal.beqList a b
  | .obj a, .obj b => JVal.beqObj a b
  | _, _ => false
/-- Equality test on lists of decoded JSON values. -/
def JVal.beqList : List JVal → List JVal → Bool
  | [], [] => true
  | a :: as, b :: bs => JVal.beq a b && JVal.beqList as bs
  | _, _ => false
/-- Equality test on the entries of decoded JSON objects. -/
def JVal.beqObj : List (Str × JVal) → List (Str × JVal) → Bool
  | [], [] => true
  | (k, a) :: as, (l, b) :: bs => k == l && JVal.beq a b && JVal.beqObj as bs
  | _, _ => false
end

instance GoMap.decidableWF {α : Type} (m : GoMap α) : Decidable (GoMap.WF m) := by
  unfold GoMap.WF
  infer_instance

/-- A message with no canonical field set and an `Extras` entry named `height`. -/
def extrasOnlyHeight : AbstractMessage :=
  { AbstractMessage.empty with Extras := some [("height".toList, "5".toList)] }

/-- The sample message with a second `Extras` entry, named `height`. -/
def sampleWithExtraHeight : AbstractMessage :=
  { sampleMessage with
    Extras := some [("height".toList, "99".toList), ("payload".toList, "hello".toList)] }

/-- The name `jsonCodec.Parse` switches on for a decoded key: its canonical
name when the field synonym table has the key, the key itself otherwise. -/
def jsonCodec.resolve (env : Env) (k : Str) : Str :=
  match env.FieldSynonyms k with
  | some mapped => mapped
  | none => k

/-- The names the switch of `jsonCodec.Parse` has a case for. -/
def jsonCodec.switchNames : List Str :=
  ["Height".toList, "Round".toList, "View".toList, "BlockHash".toList, "PrevHash".toList,
   "Timestamp".toList, "Proposer".toList, "Validator".toList, "Signature".toList,
   "CommitSeals".toList, "ViewChanges".toList, "type".toList]

/-- The keys `jsonCodec.Serialize` emits for the canonical fields, each with
the canonical field name `jsonCodec.Parse` has to resolve it to. -/
def jsonCodec.emittedFields : List (Str × Str) :=
  [("height".toList, "Height".toList), ("round".toList, "Round".toList),
   ("view".toList, "View".toList), ("block_hash".toList, "BlockHash".toList),
   ("prev_hash".toList, "PrevHash".toList), ("timestamp".toList, "Timestamp".toList),
   ("proposer".toList, "Proposer".toList), ("validator".toList, "Validator".toList),
   ("signature".toList, "Signature".toList), ("commit_seals".toList, "CommitSeals".toList),
   ("view_changes".toList, "ViewChanges".toList)]

/-- The sample message without its `Extras`. -/
def sampleNoExtras : AbstractMessage := { sampleMessage with Extras := none }

/-- The sample message without its `Extras` and with a height beyond the
signed 64-bit range. -/
def sampleBigHeight : AbstractMessage := { sampleNoExtras with Height := some (2 ^ 70) }

/-- Whether the executable JSON model decodes what it wrote for `v` back to `v`. -/
def json.roundTrips (v : JVal) : Bool :=
  match json.unmarshal (json.marshal v) with
  | .ok w => JVal.beq w v
  | .error _ => false

/-- Text that survives the generic-text grammar unchanged: none of the
separators `,`, `=`, `(`, `)` and no white space at either end. -/
def GenericSafe (s : Str) : Prop :=
  ',' ∉ s ∧ '=' ∉ s ∧ '(' ∉ s ∧ ')' ∉ s ∧ strings.TrimSpace s = s

/-- The keys `SerializeGeneric` emits for the canonical fields, each with the
canonical field name `genericCodec.Parse` has to resolve it to. -/
def genericCodec.emittedFields : List (Str × Str) :=
  [("height".toList, "Height".toList), ("round".toList, "Round".toList),
   ("view".toList, "View".toList), ("block_hash".toList, "BlockHash".toList),
   ("prev_hash".toList, "PrevHash".toList), ("timestamp".toList, "Timestamp".toList),
   ("proposer".toList, "Proposer".toList), ("validator".toList, "Validator".toList),
   ("signature".toList, "Signature".toList), ("commit_seals".toList, "CommitSeals".toList)]

/-- The names the switch of `genericCodec.Parse` has a case for. -/
def genericCodec.switchNames : List Str :=
  ["Height".toList, "Round".toList, "View".toList, "BlockHash".toList, "PrevHash".toList,
   "Timestamp".toList, "Proposer".toList, "Validator".toList, "Signature".toList,
   "CommitSeals".toList, "ViewChanges".toList]

/-- The text `key=value` of one part of the generic form. -/
def seg (kv : Str × Str) : Str := kv.1 ++ '=' :: kv.2

/-- The key/value pairs `SerializeGeneric` writes for the scalar canonical
fields, in the order of the parts. -/
def SerializeGeneric.scalarPairs (env : Env) (am : AbstractMessage) : List (Str × Str) :=
  (match am.Height with
    | some h => [("height".toList, big.String h)]
    | none => []) ++
  (match am.Round with
    | some r => [("round".toList, big.String r)]
    | none => []) ++
  (match am.View with
    | some v => [("view".toList, big.String v)]
    | none => []) ++
  (if am.BlockHash ≠ [] then [("block_hash".toList, am.BlockHash)] else []) ++
  (if am.PrevHash ≠ [] then [("prev_hash".toList, am.PrevHash)] else []) ++
  (if !am.Timestamp.IsZero then [("timestamp".toList, env.formatRFC3339 am.Timestamp)] else []) ++
  (if am.Proposer ≠ [] then [("proposer".toList, am.Proposer)] else []) ++
  (if am.Validator ≠ [] then [("validator".toList, am.Validator)] else []) ++
  (if am.Signature ≠ [] then [("signature".toList, am.Signature)] else [])

/-- The comma-free segments the `commit_seals` part falls into. -/
def SerializeGeneric.sealSegs (am : AbstractMessage) : List Str :=
  match elems am.CommitSeals with
  | [] => []
  | c :: cs => ("commit_seals=".toList ++ c) :: cs

/-- The key/value pair the parser reads from the `commit_seals` part. -/
def SerializeGeneric.sealPairs (am : AbstractMessage) : List (Str × Str) :=
  match elems am.CommitSeals with
  | [] => []
  | c :: _ => [("commit_seals".toList, c)]

/-- The key/value pairs `genericCodec.Parse` reads from what
`SerializeGeneric` wrote. -/
def SerializeGeneric.pairs (env : Env) (am : AbstractMessage) : List (Str × Str) :=
  SerializeGeneric.scalarPairs env am ++ SerializeGeneric.sealPairs am ++
    env.range .genericSerialize (elems am.Extras)

instance GenericSafe.decidable (s : Str) : Decidable (GenericSafe s) := by
  unfold GenericSafe
  infer_instance

/-- Both the key and the value of a pair survive the generic-text grammar. -/
def PairSafe (kv : Str × Str) : Prop := GenericSafe kv.1 ∧ GenericSafe kv.2

/-- The comma-free segments of the body `SerializeGeneric` writes. -/
def SerializeGeneric.segs (env : Env) (am : AbstractMessage) : List Str :=
  (SerializeGeneric.scalarPairs env am).map seg ++ SerializeGeneric.sealSegs am ++
    (env.range .genericSerialize (elems am.Extras)).map seg

/-- Whether `genericCodec.Parse` routes the key to a canonical field: the
field synonym table has it, with a name the switch has a case for. -/
def genericCodec.isCanonical (env : Env) (k : Str) : Bool :=
  match env.FieldSynonyms k with
  | some fld => decide (fld ∈ genericCodec.switchNames)
  | none => false

/-- The key/value pair `SplitKeyValuePairs` reads from a segment that
contains `=`: the text before the first `=` and the text after it, both
trimmed. -/
def SplitKeyValuePairs.pairOf (part : Str) : Str × Str :=
  (strings.TrimSpace (part.takeWhile (fun x => x != '=')),
    strings.TrimSpace (part.dropWhile (fun x => x != '=')).tail)

/-- The key/value pairs of the comma-separated segments of `s` that contain
`=`, in the order of the segments. -/
def SplitKeyValuePairs.pairs (s : Str) : List (Str × Str) :=
  ((strings.Split s ',').filter (fun p => decide ('=' ∈ p))).map SplitKeyValuePairs.pairOf

/-- The options of a call with the format `generic` and a type override. -/
def genericOverride (t : Str) : ParseOptions :=
  { Format := FormatGeneric, OverrideMsgType := t, ProtoMessageFullName := [],
    ProtoDiscardUnknown := false }

/-- The phase name for a decoded phase token: its image in the phase synonym
table when the token is a key of the table, the token itself otherwise. -/
def resolvePhase (env : Env) (p : Str) : Str :=
  match env.PhaseSynonyms p with
  | some t => t
  | none => p

/-- The options of a call with the format `json` and a type override. -/
def jsonOverride (t : Str) : ParseOptions :=
  { Format := FormatJSON, OverrideMsgType := t, ProtoMessageFullName := [],
    ProtoDiscardUnknown := false }

/-- A decoded value `toBigIntPtr` has no integer for: neither a number nor a
string that holds a base-10 integer. -/
def notInteger : JVal → Prop
  | .num _ => False
  | .number _ => False
  | .str s => big.SetString s = none
  | _ => True

/-- The map without the key `k`, as after `delete(m, k)`. -/
def GoMap.erase {α : Type} (m : GoMap α) (k : Str) : GoMap α := m.filter (fun e => e.1 != k)

/-- What the loop of `jsonCodec.Parse` does to one field: every key that
resolves to `name` updates the field from its value, every other key leaves it. -/
def jsonCodec.fieldFold {β : Type} (env : Env) (name : Str) (upd : JVal → β → β) (b0 : β)
    (L : List (Str × JVal)) : β :=
  L.foldl (fun x e => if jsonCodec.resolve env e.1 = name then upd e.2 x else x) b0

/-- An environment whose field synonym table also maps the key `type` to the
canonical field `Height`. -/
def typeAliasEnv : Env :=
  goEnv samplePhases (("type".toList, "Height".toList) :: sampleFields)

/-- The type and the eleven canonical fields of a message. -/
def canonicalFields (am : AbstractMessage) :
    Str × Option Int × Option Int × Option Int × Time × Str × Str × Str × Str × Str ×
      Option (List Str) × Option (List ViewChangeEntry) :=
  (am.Typ, am.Height, am.Round, am.View, am.Timestamp, am.BlockHash, am.PrevHash, am.Proposer,
    am.Validator, am.Signature, am.CommitSeals, am.ViewChanges)

/-- An environment with an empty field synonym table. -/
def noAliasEnv : Env := goEnv samplePhases []

/-- An environment whose field synonym table also maps the key `foo` to the
name `type`. -/
def typeTargetEnv : Env := goEnv samplePhases (("foo".toList, "type".toList) :: sampleFields)

/-- The input is empty or consists only of white space: it is the UTF-8
encoding of a text all of whose characters are white space. -/
def bytes.IsBlank (data : Bytes) : Prop :=
  ∃ cs : Str, (∀ c ∈ cs, isSpace c = true) ∧ data = utf8.encode cs

/-- No two keys of the object resolve to the same canonical field. -/
def jsonCodec.Unambiguous (env : Env) (o : GoMap JVal) : Prop :=
  ∀ k ∈ GoMap.keys o, ∀ k' ∈ GoMap.keys o,
    jsonCodec.resolve env k ∈ genericCodec.switchNames →
    jsonCodec.resolve env k = jsonCodec.resolve env k' → k = k'

/-- An environment in which `range` visits a map that has the key `height` in
decreasing key order, and any other map in increasing key order. -/
def orderEnv : Env :=
  { sampleEnv with
    range := fun _ m => if "height".toList ∈ GoMap.keys m then m.reverse else m }

/-- The decimal digits. -/
def decimalDigits : Str := "0123456789".toList

/-- The number that a text of decimal digits denotes: the last digit counts
ones, the one before it tens, and so on. -/
def decimalValue (digits : Str) : Nat :=
  Nat.ofDigits 10 (digits.reverse.map (fun c => c.toNat - '0'.toNat))

/-- The text `s` is a base-10 literal of `n`: an optional sign followed by one
or more digits and nothing else. -/
def IsDecimalLiteral (s : Str) (n : Int) : Prop :=
  ∃ sign digits : Str, (sign = [] ∨ sign = ['+'] ∨ sign = ['-']) ∧ digits ≠ [] ∧
    (∀ c ∈ digits, c ∈ decimalDigits) ∧ s = sign ++ digits ∧
    n = if sign = ['-'] then -(decimalValue digits : Int) else (decimalValue digits : Int)

/-- The message with `CommitSeals`, `ViewChanges` and `Extras` absent (`nil`). -/
def withNilCollections (m : AbstractMessage) : AbstractMessage :=
  { m with CommitSeals := none, ViewChanges := none, Extras := none }

/-- The message with `CommitSeals`, `ViewChanges` and `Extras` present but
empty. -/
def withEmptyCollections (m : AbstractMessage) : AbstractMessage :=
  { m with CommitSeals := some [], ViewChanges := some [], Extras := some [] }

/-- The message with the signature replaced. -/
def withSignature (m : AbstractMessage) (s : Str) : AbstractMessage :=
  { m with Signature := s }

/-- The segment `seg` contains `=` and reads as the key `k` and the value `v`:
the whitespace-trimmed texts before and after its first `=`. -/
def SplitKeyValuePairs.Reads (seg k v : Str) : Prop :=
  ∃ a b : Str, seg = a ++ '=' :: b ∧ '=' ∉ a ∧ k = strings.TrimSpace a ∧ v = strings.TrimSpace b

/-- The canonical fields that hold an integer, an instant, a text or the list
of seals: all but `ViewChanges`. -/
def textFieldNames : List Str :=
  ["Height".toList, "Round".toList, "View".toList, "Timestamp".toList, "BlockHash".toList,
   "PrevHash".toList, "Proposer".toList, "Validator".toList, "Signature".toList,
   "CommitSeals".toList]

/-- The integer a text is coerced to: the integer it is a base-10 literal of,
absent for any other text. -/
def coerceInt (v : Str) : Option Int := big.SetString v

/-- The instant a text is coerced to: the RFC 3339 instant, else the instant
of the epoch seconds it is a literal of, else the zero instant. -/
def coerceTime (env : Env) (v : Str) : Time :=
  match env.parseRFC3339 v with
  | some t => t
  | none =>
    match big.SetString v with
    | some sec => Time.Unix (big.Int64 sec)
    | none => Time.zero

/-- A registry setting for the examples: descriptors are their full names, the
files of `DefaultDescriptorRegistry` hold the message `pbft.Local` and the
enumeration `pbft.Kind`, the global registry holds the message `pbft.Global`,
and the encoders do nothing. -/
abbrev sampleProtoLib : ProtoLib :=
  { Descriptor := Str
    MessageDescriptor := Str
    Message := Str
    FullName := fun md => md
    asMessage := fun d => if d = "pbft.Kind".toList then none else some d
    findDescriptorByName := fun fn =>
      if fn = "pbft.Local".toList ∨ fn = "pbft.Kind".toList then .ok fn
      else .error (.text "proto: not found".toList)
    globalTypes := fun fn =>
      if fn = "pbft.Global".toList then .ok fn
      else .error (.text "proto: not found".toList)
    unmarshal := fun _ _ => .ok []
    protojsonMarshal := fun _ => .ok "\x7b\x7d".toList
    protojsonUnmarshal := fun _ _ js => .ok js
    marshal := fun _ => .ok [] }

/-- The options of a call with the format `protobuf` and a message name. -/
def protoParseOptions (fullName : Str) : ParseOptions :=
  { Format := FormatProtobuf, OverrideMsgType := [], ProtoMessageFullName := fullName,
    ProtoDiscardUnknown := false }

/-- The serialize options of a call with the format `protobuf` and a message
name. -/
def protoSerializeOptions (fullName : Str) : SerializeOptions :=
  { Format := FormatProtobuf, ProtoMessageFullName := fullName, ProtoDiscardUnknown := false }

/-- The error of a failed call, if it failed. -/
def errorOf {α : Type} : Except Err α → Option Err
  | .error e => some e
  | .ok _ => none

/-- The four bytes of a character's code point, most significant first. -/
def fixedWidth.encodeChar (c : Char) : Bytes :=
  [Fin.ofNat (c.toNat / 16777216), Fin.ofNat (c.toNat / 65536), Fin.ofNat (c.toNat / 256),
    Fin.ofNat c.toNat]

/-- The characters of a sequence of four-byte code points. -/
def fixedWidth.decode : Bytes → Str
  | a :: b :: c :: d :: rest =>
    Char.ofNat (((a.val * 256 + b.val) * 256 + c.val) * 256 + d.val) :: fixedWidth.decode rest
  | _ => []

/-- A byte-string library for the examples, whose decode inverts its encode:
it writes every character of the payload as the four bytes of its code
point. -/
def fixedWidthLib : WireLib :=
  { Value := Unit
    encodeBytes := fun s => .ok (s.flatMap fixedWidth.encodeChar)
    decodeBytes := fun d => .ok (fixedWidth.decode d)
    decodeValue := fun _ => .error (.text "unsupported".toList)
    jsonMarshal := fun _ => .ok "null".toList }

/-- The value of a canonical field that holds an integer, an instant, a text
or a list of texts. -/
inductive FieldValue where
  | int (x : Option Int)
  | time (t : Time)
  | text (s : Str)
  | list (l : Option (List Str))
  | other
  deriving DecidableEq

/-- The value a message holds in the field of the given canonical name, for
the names of `textFieldNames`. -/
def fieldValue (fld : Str) (am : AbstractMessage) : FieldValue :=
  if fld = "Height".toList then .int am.Height
  else if fld = "Round".toList then .int am.Round
  else if fld = "View".toList then .int am.View
  else if fld = "Timestamp".toList then .time am.Timestamp
  else if fld = "BlockHash".toList then .text am.BlockHash
  else if fld = "PrevHash".toList then .text am.PrevHash
  else if fld = "Proposer".toList then .text am.Proposer
  else if fld = "Validator".toList then .text am.Validator
  else if fld = "Signature".toList then .text am.Signature
  else if fld = "CommitSeals".toList then .list am.CommitSeals
  else .other

/-- The value the text `v` is coerced to for the field of the given canonical
name: an integer field holds the integer `v` is a literal of and is absent
for any other text, the timestamp holds the instant of `v` and is zero for an
unparseable text, a text field holds `v`, and the seals are the one-element
list of `v`. -/
def coercedValue (env : Env) (fld v : Str) : FieldValue :=
  if fld = "Height".toList ∨ fld = "Round".toList ∨ fld = "View".toList then .int (coerceInt v)
  else if fld = "Timestamp".toList then .time (coerceTime env v)
  else if fld = "CommitSeals".toList then .list (some [v])
  else if fld ∈ ["BlockHash".toList, "PrevHash".toList, "Proposer".toList, "Validator".toList,
      "Signature".toList] then .text v
  else .other

/-- The libraries of the examples: the sample registries, and for the three
byte-string codecs a library that decodes no structured value. -/
def sampleLibs : Libs :=
  { proto := sampleProtoLib, rlp := fixedWidthLib, msgpack := fixedWidthLib,
    bcs := fixedWidthLib }

/-- The options of a call that leaves the format to `DetectFormat`. -/
def autoOptions : ParseOptions := ParseOptions.ofFormat FormatAuto

/-- The orders in which the `range` statements of one execution visit the
entries of the maps. -/
abbrev RangeOrder : Type 1 := (α : Type) → Loop → GoMap α → GoMap α

/-- The environment of another execution: the same tables and libraries, with
`range` visiting the maps in the orders `r`. -/
def Env.withRange (env : Env) (r : RangeOrder) : Env :=
  { env with range := fun {α} => r α }

/-- The visiting order that reverses the key order of every map. -/
def reverseOrder : RangeOrder := fun _ _ l => l.reverse

/-- A message of height 1 whose `Extras` hold the key `seq_num`, an alias of
Height in the sample table, with the value 2. -/
def aliasInExtras : AbstractMessage :=
  { AbstractMessage.empty with
    Typ := "Prepare".toList
    Height := some 1
    Extras := some [("seq_num".toList, "2".toList)] }

/-- The text `json.Marshal` writes for a Go string with the given bytes, as
`json.Unmarshal` reads it back: the characters of the well-formed UTF-8
encodings in the bytes, and U+FFFD for every byte outside one (the package
replaces invalid UTF-8 by the Unicode replacement character). -/
def json.marshalledText (b : Bytes) : Str := utf8.decode b

/-- The sample message without `Extras` as `json.Marshal` sees it when its
`Signature` holds the one byte `FF`, which is not UTF-8. -/
def sampleInvalidSignature : AbstractMessage :=
  { sampleNoExtras with Signature := json.marshalledText [0xFF] }

end PBFT

namespace PBFT

/-! ## Lemmas on the string functions -/

theorem TrimSpace_eq_nil_of_blank (s : Str) (h : ∀ c ∈ s, isSpace c = true) :
    strings.TrimSpace s = [] := by
  have h1 : s.dropWhile isSpace = [] := List.dropWhile_eq_nil_iff.mpr h
  simp [strings.TrimSpace, h1]

theorem mem_of_mem_TrimSpace {s : Str} {c : Char} (h : c ∈ strings.TrimSpace s) : c ∈ s := by
  unfold strings.TrimSpace at h
  exact (List.dropWhile_suffix isSpace).subset ((List.rdropWhile_prefix isSpace _).subset h)

theorem TrimSpace_cons_append (c d : Char) (s : Str) (hc : isSpace c = false)
    (hd : isSpace d = false) : strings.TrimSpace (c :: s ++ [d]) = c :: s ++ [d] := by
  unfold strings.TrimSpace
  have h1 : (c :: s ++ [d]).dropWhile isSpace = c :: s ++ [d] := by
    simp [List.dropWhile, hc]
  rw [h1]
  have h2 : c :: s ++ [d] = (c :: s) ++ [d] := rfl
  rw [h2, List.rdropWhile_concat_neg]
  simp [hd]

theorem TrimSpace_eq_self_iff (s : Str) :
    strings.TrimSpace s = s ↔
      (∀ c, s.head? = some c → isSpace c = false) ∧ (∀ c, s.getLast? = some c → isSpace c = false) := by
  constructor
  · intro h
    have hd : s.dropWhile isSpace = s := by
      apply List.IsSuffix.eq_of_length_le (List.dropWhile_suffix isSpace)
      have := (List.rdropWhile_prefix isSpace (s.dropWhile isSpace)).length_le
      unfold strings.TrimSpace at h
      rw [h] at this
      exact this
    have hr : s.rdropWhile isSpace = s := by
      unfold strings.TrimSpace at h
      rw [hd] at h
      exact h
    constructor
    · intro c hc
      cases s with
      | nil => simp at hc
      | cons a t =>
        simp at hc
        subst hc
        by_contra hsp
        simp at hsp
        have := (List.dropWhile_suffix isSpace (l := t)).length_le
        simp [List.dropWhile, hsp] at hd
        rw [hd] at this
        simp at this
    · intro c hc
      have hne : s ≠ [] := by
        intro h0
        simp [h0] at hc
      have := List.rdropWhile_eq_self_iff.mp hr hne
      rw [List.getLast?_eq_getLast _ hne] at hc
      simp at hc
      rw [← hc]
      simpa using this
  · rintro ⟨h1, h2⟩
    unfold strings.TrimSpace
    have hd : s.dropWhile isSpace = s := by
      cases s with
      | nil => rfl
      | cons a t =>
        have := h1 a rfl
        simp [List.dropWhile, this]
    rw [hd]
    apply List.rdropWhile_eq_self_iff.mpr
    intro hne
    have := h2 (s.getLast hne) (List.getLast?_eq_getLast _ hne)
    simp [this]

theorem Index_append_cons (a b : Str) (c : Char) (h : c ∉ a) :
    strings.Index (a ++ c :: b) c = (a.length : Int) := by
  unfold strings.Index
  rw [if_pos (by simp), List.indexOf_append_of_not_mem h, List.indexOf_cons_self]
  simp

theorem Index_of_not_mem (s : Str) (c : Char) (h : c ∉ s) : strings.Index s c = -1 := by
  simp [strings.Index, h]

theorem LastIndex_append_cons (a b : Str) (c : Char) (h : c ∉ b) :
    strings.LastIndex (a ++ c :: b) c = (a.length : Int) := by
  unfold strings.LastIndex
  rw [if_pos (by simp)]
  have hr : (a ++ c :: b).reverse = b.reverse ++ c :: a.reverse := by simp
  rw [hr, List.indexOf_append_of_not_mem (by simpa using h), List.indexOf_cons_self]
  simp
  omega

theorem TrimBrackets_wrap (t body : Str) (h : '(' ∉ t) :
    TrimBrackets (t ++ '(' :: body ++ [')']) = body := by
  have e1 : t ++ '(' :: body ++ [')'] = t ++ '(' :: (body ++ [')']) := by simp
  have e2 : t ++ '(' :: body ++ [')'] = (t ++ '(' :: body) ++ ')' :: [] := by simp
  have hi : strings.Index (t ++ '(' :: body ++ [')']) '(' = (t.length : Int) := by
    rw [e1]; exact Index_append_cons t _ '(' h
  have hj : strings.LastIndex (t ++ '(' :: body ++ [')']) ')' = ((t ++ '(' :: body).length : Int) := by
    rw [e2]; exact LastIndex_append_cons _ [] ')' (by simp)
  unfold TrimBrackets
  simp only [hi, hj]
  rw [if_pos (by omega), if_pos (by simp)]
  simp only [Int.toNat_ofNat, slice]
  rw [e2, List.take_left']
  · have : (t ++ '(' :: body) = (t ++ ['(']) ++ body := by simp
    rw [this, List.drop_left']
    simp
  · rfl

theorem Split_Join (segs : List Str) (c : Char) (hne : segs ≠ []) (h : ∀ l ∈ segs, c ∉ l) :
    strings.Split (strings.Join segs c) c = segs := by
  unfold strings.Split strings.Join
  exact List.splitOn_intercalate segs c h hne

theorem SplitN2_pair (k v : Str) (c : Char) (h : c ∉ k) :
    strings.SplitN2 (k ++ c :: v) c = [k, v] := by
  unfold strings.SplitN2
  rw [if_pos (by simp)]
  have hk : ∀ a ∈ k, (a != c) = true := by
    intro a ha
    simp
    rintro rfl
    exact h ha
  rw [List.takeWhile_append_of_pos hk, List.dropWhile_append_of_pos hk]
  simp [List.takeWhile, List.dropWhile]

theorem SplitN2_single (s : Str) (c : Char) (h : c ∉ s) : strings.SplitN2 s c = [s] := by
  simp [strings.SplitN2, h]

/-! ## Lemmas on decimal text -/

theorem digitChar_lt_ten (d : Nat) (h : d < 10) :
    (Nat.digitChar d).isDigit = true ∧ (Nat.digitChar d).toNat - 48 = d := by
  interval_cases d <;> decide

theorem toDigitsCore_append (fuel n : Nat) (ds : List Char) :
    Nat.toDigitsCore 10 fuel n ds = Nat.toDigitsCore 10 fuel n [] ++ ds := by
  induction fuel generalizing n ds with
  | zero => simp [Nat.toDigitsCore]
  | succ fuel ih =>
    simp only [Nat.toDigitsCore]
    split
    · simp
    · rw [ih (n / 10) (_ :: ds), ih (n / 10) [_]]
      simp

theorem toDigitsCore_spec (fuel n : Nat) (h : n < fuel) :
    Nat.toDigitsCore 10 fuel n [] ≠ [] ∧
    (Nat.toDigitsCore 10 fuel n []).all Char.isDigit = true ∧
    (Nat.toDigitsCore 10 fuel n []).foldl (fun a c => 10 * a + (c.toNat - 48)) 0 = n := by
  induction fuel generalizing n with
  | zero => omega
  | succ fuel ih =>
    have hd := digitChar_lt_ten (n % 10) (Nat.mod_lt _ (by decide))
    simp only [Nat.toDigitsCore]
    split
    · rename_i h0
      have hn : n % 10 = n := Nat.mod_eq_of_lt (by omega)
      rw [hn] at hd
      refine ⟨by simp, by simp [hn, hd.1], ?_⟩
      simp [hn, hd.2]
    · rename_i h0
      have hlt : n / 10 < fuel := by omega
      obtain ⟨h1, h2, h3⟩ := ih (n / 10) hlt
      rw [toDigitsCore_append]
      refine ⟨by simp, ?_, ?_⟩
      · simp only [List.all_append, h2, Bool.true_and]
        simp [hd.1]
      · rw [List.foldl_append, h3]
        simp [hd.2]
        omega

theorem toDigits_spec (n : Nat) :
    Nat.toDigits 10 n ≠ [] ∧ (Nat.toDigits 10 n).all Char.isDigit = true ∧
    big.scanNat (Nat.toDigits 10 n) = some n := by
  have hs := toDigitsCore_spec (n + 1) n (Nat.lt_succ_self n)
  change Nat.toDigits 10 n ≠ [] ∧ (Nat.toDigits 10 n).all Char.isDigit = true ∧
    (Nat.toDigits 10 n).foldl (fun a c => 10 * a + (c.toNat - 48)) 0 = n at hs
  obtain ⟨h1, h2, h3⟩ := hs
  refine ⟨h1, h2, ?_⟩
  unfold big.scanNat
  rw [if_neg h1, if_pos h2, h3]

theorem SetString_of_digits (s : Str) (h : s.all Char.isDigit = true) :
    big.SetString s = (big.scanNat s).map (fun (n : Nat) => Int.ofNat n) := by
  unfold big.SetString
  split
  · simp at h
  · simp at h
  · rfl

theorem SetString_String (x : Int) : big.SetString (big.String x) = some x := by
  obtain ⟨h1, h2, h3⟩ := toDigits_spec x.natAbs
  unfold big.String
  split
  · rename_i hneg
    simp only [big.SetString, h3, Option.map_some', Option.some.injEq, Int.ofNat_eq_coe]
    omega
  · rename_i hpos
    rw [SetString_of_digits _ h2, h3]
    simp only [Option.map_some', Option.some.injEq, Int.ofNat_eq_coe]
    omega

theorem plainChar_of_isDigit (c : Char) (h : c.isDigit = true) : plainChar c := by
  have hr : 48 ≤ c.toNat ∧ c.toNat ≤ 57 := by
    simp [Char.isDigit, Char.toNat, UInt32.le_def, Fin.le_def] at h ⊢
    exact h
  refine ⟨?_, ?_, ?_, ?_, ?_⟩
  · rintro rfl; simp at hr
  · rintro rfl; simp at hr
  · rintro rfl; simp at hr
  · rintro rfl; simp at hr
  · simp [isSpace]
    omega

theorem plainChar_String (x : Int) : big.String x ≠ [] ∧ ∀ c ∈ big.String x, plainChar c := by
  obtain ⟨h1, h2, _⟩ := toDigits_spec x.natAbs
  have hd : ∀ c ∈ Nat.toDigits 10 x.natAbs, plainChar c := by
    intro c hc
    exact plainChar_of_isDigit c (List.all_eq_true.mp h2 c hc)
  unfold big.String
  split
  · refine ⟨by simp, ?_⟩
    intro c hc
    rcases List.mem_cons.mp hc with rfl | hc
    · exact ⟨by decide, by decide, by decide, by decide, by decide⟩
    · exact hd c hc
  · exact ⟨h1, hd⟩

/-! ## Lemmas on Go maps -/

theorem strLt_irrefl (a : Str) : strLt a a = false := by
  induction a with
  | nil => rfl
  | cons c s ih => simp [strLt, ih]

theorem strLt_trans (a b c : Str) (h1 : strLt a b = true) (h2 : strLt b c = true) :
    strLt a c = true := by
  induction a generalizing b c with
  | nil =>
    cases b with
    | nil => simp [strLt] at h1
    | cons y t =>
      cases c with
      | nil => simp [strLt] at h2
      | cons z u => rfl
  | cons x s ih =>
    cases b with
    | nil => simp [strLt] at h1
    | cons y t =>
      cases c with
      | nil => simp [strLt] at h2
      | cons z u =>
        simp only [strLt, Bool.or_eq_true, decide_eq_true_eq, Bool.and_eq_true, beq_iff_eq] at h1 h2 ⊢
        rcases h1 with h1 | ⟨rfl, h1⟩
        · rcases h2 with h2 | ⟨rfl, h2⟩
          · left; omega
          · left; exact h1
        · rcases h2 with h2 | ⟨rfl, h2⟩
          · left; exact h2
          · right; exact ⟨rfl, ih t u h1 h2⟩

theorem strLt_total (a b : Str) (hne : a ≠ b) (h : strLt a b = false) : strLt b a = true := by
  induction a generalizing b with
  | nil =>
    cases b with
    | nil => exact absurd rfl hne
    | cons y t => simp [strLt] at h
  | cons x s ih =>
    cases b with
    | nil => rfl
    | cons y t =>
      simp only [strLt, Bool.or_eq_false_iff, decide_eq_false_iff_not, Bool.and_eq_false_iff,
        Bool.or_eq_true, decide_eq_true_eq, Bool.and_eq_true, beq_iff_eq] at h ⊢
      obtain ⟨h1, h2⟩ := h
      by_cases hxy : x = y
      · subst hxy
        right
        refine ⟨rfl, ih t ?_ ?_⟩
        · intro hst
          exact hne (by rw [hst])
        · rcases h2 with h2 | h2
          · simp at h2
          · exact h2
      · left
        have : x.toNat ≠ y.toNat := by
          intro hn
          exact hxy (by rw [← Char.ofNat_toNat x, ← Char.ofNat_toNat y, hn])
        omega

namespace GoMap

variable {α : Type}

theorem get?_set (m : GoMap α) (k : Str) (v : α) (k' : Str) :
    get? (set m k v) k' = if k' = k then some v else get? m k' := by
  induction m with
  | nil =>
    by_cases h : k' = k
    · simp [GoMap.set, GoMap.get?, h]
    · have h' : ¬k = k' := fun e => h e.symm
      simp [GoMap.set, GoMap.get?, h, h']
  | cons p t ih =>
    obtain ⟨a, b⟩ := p
    simp only [GoMap.set]
    by_cases h1 : a = k
    · subst h1
      by_cases h : k' = a
      · simp [GoMap.get?, h]
      · have h' : ¬a = k' := fun e => h e.symm
        simp [GoMap.get?, h, h']
    · rw [if_neg h1]
      by_cases h2 : strLt k a = true
      · rw [if_pos h2]
        by_cases h : k' = k
        · simp [GoMap.get?, h]
        · have h' : ¬k = k' := fun e => h e.symm
          simp [GoMap.get?, h, h']
      · rw [if_neg h2]
        simp only [GoMap.get?, ih]
        by_cases h : k' = k
        · subst h
          simp [h1]
        · simp [h]

theorem keys_nil : keys ([] : GoMap α) = [] := rfl

theorem keys_cons (p : Str × α) (t : GoMap α) : keys (p :: t) = p.1 :: keys t := rfl

theorem WF_cons (p : Str × α) (t : GoMap α) :
    WF (p :: t) ↔ (∀ x ∈ keys t, strLt p.1 x = true) ∧ WF t := by
  unfold WF
  rw [keys_cons, List.pairwise_cons]

theorem keys_set (m : GoMap α) (k : Str) (v : α) (x : Str) (hx : x ∈ keys (set m k v)) :
    x = k ∨ x ∈ keys m := by
  induction m with
  | nil =>
    simp only [GoMap.set, keys_cons, keys_nil, List.mem_singleton] at hx
    exact Or.inl hx
  | cons p t ih =>
    obtain ⟨a, b⟩ := p
    simp only [GoMap.set] at hx
    split at hx
    · rename_i h1
      subst h1
      simp only [keys_cons, List.mem_cons] at hx ⊢
      rcases hx with hx | hx
      · left; exact hx
      · right; right; exact hx
    · split at hx
      · simp only [keys_cons, List.mem_cons] at hx ⊢
        exact hx
      · simp only [keys_cons, List.mem_cons] at hx ⊢
        rcases hx with hx | hx
        · right; left; exact hx
        · rcases ih hx with h | h
          · left; exact h
          · right; right; exact h

theorem WF_nil : WF ([] : GoMap α) := List.Pairwise.nil

theorem WF_set (m : GoMap α) (k : Str) (v : α) (h : WF m) : WF (set m k v) := by
  induction m with
  | nil =>
    simp only [GoMap.set]
    rw [WF_cons]
    exact ⟨fun x hx => by simp [keys_nil] at hx, WF_nil⟩
  | cons p t ih =>
    obtain ⟨a, b⟩ := p
    have h' := (WF_cons _ _).mp h
    simp only [GoMap.set]
    split
    · rename_i h1
      subst h1
      exact (WF_cons _ _).mpr h'
    · rename_i h1
      split
      · rename_i h2
        rw [WF_cons]
        refine ⟨?_, h⟩
        intro x hx
        rw [keys_cons] at hx
        rcases List.mem_cons.mp hx with rfl | hx
        · exact h2
        · exact strLt_trans _ _ _ h2 (h'.1 x hx)
      · rename_i h2
        have hak : strLt a k = true :=
          strLt_total k a (fun e => h1 e.symm) (by simpa using h2)
        rw [WF_cons]
        refine ⟨?_, ih h'.2⟩
        intro x hx
        rcases keys_set t k v x hx with rfl | hx
        · exact hak
        · exact h'.1 x hx

theorem WF.nodup {m : GoMap α} (h : WF m) : (keys m).Nodup := by
  unfold WF at h
  refine List.Pairwise.imp ?_ h
  intro a b hab e
  subst e
  rw [strLt_irrefl] at hab
  exact Bool.noConfusion hab

theorem mem_of_get? {m : GoMap α} {k : Str} {v : α} (h : get? m k = some v) : (k, v) ∈ m := by
  induction m with
  | nil => simp [GoMap.get?] at h
  | cons p t ih =>
    obtain ⟨a, b⟩ := p
    simp only [GoMap.get?] at h
    split at h
    · rename_i h1
      subst h1
      simp at h
      subst h
      simp
    · exact List.mem_cons_of_mem _ (ih h)

theorem get?_of_mem {m : GoMap α} {k : Str} {v : α} (hn : (keys m).Nodup) (h : (k, v) ∈ m) :
    get? m k = some v := by
  induction m with
  | nil => simp at h
  | cons p t ih =>
    obtain ⟨a, b⟩ := p
    have hn' : a ∉ keys t ∧ (keys t).Nodup := by
      rw [keys_cons] at hn
      exact List.nodup_cons.mp hn
    rcases List.mem_cons.mp h with h | h
    · cases h
      simp [GoMap.get?]
    · have hk : k ∈ keys t := List.mem_map_of_mem Prod.fst h
      have : a ≠ k := by
        rintro rfl
        exact hn'.1 hk
      simp [GoMap.get?, this, ih hn'.2 h]

theorem get?_eq_none {m : GoMap α} {k : Str} (h : k ∉ keys m) : get? m k = none := by
  induction m with
  | nil => rfl
  | cons p t ih =>
    obtain ⟨a, b⟩ := p
    have h' : ¬a = k ∧ k ∉ keys t := by
      constructor
      · rintro rfl
        exact h (by rw [keys_cons]; exact List.mem_cons_self _ _)
      · intro hk
        exact h (by rw [keys_cons]; exact List.mem_cons_of_mem _ hk)
    simp [GoMap.get?, h'.1, ih h'.2]

theorem mem_keys_of_get? {m : GoMap α} {k : Str} {v : α} (h : get? m k = some v) :
    k ∈ keys m := List.mem_map_of_mem Prod.fst (mem_of_get? h)

end GoMap

/-! ## Rejected inputs of the generic-text parser -/

/-- C10: `genericCodec.Parse` returns an error, and no message, for every
input that is empty or consists only of white space, and for every input that
contains no `(` character. -/
theorem C10_generic_parse_rejects_blank_or_unbracketed (env : Env) (data : Str)
    (opts : ParseOptions)
    (h : (∀ c ∈ data, isSpace c = true) ∨ '(' ∉ data) :
    ∃ e, genericCodec.Parse env data opts = .error e := by
  unfold genericCodec.Parse
  by_cases hraw : strings.TrimSpace data = []
  · exact ⟨_, by simp only [hraw, if_true]; rfl⟩
  · rcases h with h | h
    · exact absurd (TrimSpace_eq_nil_of_blank data h) hraw
    · have hidx : strings.Index (strings.TrimSpace data) '(' = -1 :=
        Index_of_not_mem _ _ (fun hm => h (mem_of_mem_TrimSpace hm))
      exact ⟨_, by simp only [hraw, if_false, hidx]; rfl⟩

/-- C10 at the inputs of three blanks and of a message without brackets. -/
theorem C10_generic_parse_rejects_witness :
    (((∀ c ∈ " \t\n".toList, isSpace c = true) ∨ '(' ∉ " \t\n".toList) ∧
      ∃ e, genericCodec.Parse sampleEnv " \t\n".toList (ParseOptions.ofFormat "generic".toList) = .error e) ∧
    (((∀ c ∈ "Proposal height=1".toList, isSpace c = true) ∨ '(' ∉ "Proposal height=1".toList) ∧
      ∃ e, genericCodec.Parse sampleEnv "Proposal height=1".toList
        (ParseOptions.ofFormat "generic".toList) = .error e) :=
  ⟨⟨Or.inl (by decide), C10_generic_parse_rejects_blank_or_unbracketed sampleEnv _ _ (Or.inl (by decide))⟩,
   ⟨Or.inr (by decide), C10_generic_parse_rejects_blank_or_unbracketed sampleEnv _ _ (Or.inr (by decide))⟩⟩

/-! ## Folds that touch one component of the state -/

theorem foldl_proj {σ ι β : Type} (step : σ → ι → σ) (proj : σ → β) (upd : ι → β → β)
    (h : ∀ s i, proj (step s i) = upd i (proj s)) (l : List ι) (s : σ) :
    proj (l.foldl step s) = l.foldl (fun b i => upd i b) (proj s) := by
  induction l generalizing s with
  | nil => rfl
  | cons a t ih => simp only [List.foldl_cons, ih, h]

theorem foldl_ite_none {ι β : Type} (R : ι → Prop) [DecidablePred R] (g : ι → β → β)
    (l : List ι) (b : β) (h : ∀ e ∈ l, ¬R e) :
    l.foldl (fun b e => if R e then g e b else b) b = b := by
  induction l generalizing b with
  | nil => rfl
  | cons a t ih =>
    simp only [List.foldl_cons, if_neg (h a (List.mem_cons_self _ _))]
    exact ih b (fun e he => h e (List.mem_cons_of_mem _ he))

theorem foldl_ite_unique {ι β : Type} (R : ι → Prop) [DecidablePred R] (g : ι → β → β)
    (l : List ι) (b : β) (e0 : ι) (hmem : e0 ∈ l) (hR : R e0)
    (huniq : ∀ e ∈ l, R e → e = e0) (hidem : ∀ b, g e0 (g e0 b) = g e0 b) :
    l.foldl (fun b e => if R e then g e b else b) b = g e0 b := by
  induction l generalizing b with
  | nil => simp at hmem
  | cons a t ih =>
    simp only [List.foldl_cons]
    have hu : ∀ e ∈ t, R e → e = e0 := fun e he => huniq e (List.mem_cons_of_mem _ he)
    by_cases ha : R a
    · have hae : a = e0 := huniq a (List.mem_cons_self _ _) ha
      subst hae
      rw [if_pos ha]
      by_cases hin : a ∈ t
      · rw [ih (g a b) hin hu, hidem]
      · apply foldl_ite_none
        intro e he hRe
        exact hin (hu e he hRe ▸ he)
    · rw [if_neg ha]
      rcases List.mem_cons.mp hmem with h | h
      · exact absurd (h ▸ hR) ha
      · exact ih b h hu

/-! ## Maps built by a run of assignments -/

theorem setAll_nil {α : Type} (m : GoMap α) : setAll m [] = m := rfl

theorem setAll_cons {α : Type} (m : GoMap α) (p : Str × α) (ps : List (Str × α)) :
    setAll m (p :: ps) = setAll (GoMap.set m p.1 p.2) ps := rfl

theorem setAll_append {α : Type} (m : GoMap α) (ps qs : List (Str × α)) :
    setAll m (ps ++ qs) = setAll (setAll m ps) qs := by
  simp [setAll, List.foldl_append]

theorem WF_setAll {α : Type} (m : GoMap α) (ps : List (Str × α)) (h : GoMap.WF m) :
    GoMap.WF (setAll m ps) := by
  induction ps generalizing m with
  | nil => exact h
  | cons p t ih => exact ih _ (GoMap.WF_set m p.1 p.2 h)

theorem get?_setAll_of_not_mem {α : Type} (m : GoMap α) (ps : List (Str × α)) (k : Str)
    (h : k ∉ GoMap.keys ps) : GoMap.get? (setAll m ps) k = GoMap.get? m k := by
  induction ps generalizing m with
  | nil => rfl
  | cons p t ih =>
    rw [GoMap.keys_cons] at h
    have h1 : k ≠ p.1 := fun e => h (e ▸ List.mem_cons_self _ _)
    have h2 : k ∉ GoMap.keys t := fun e => h (List.mem_cons_of_mem _ e)
    rw [setAll_cons, ih _ h2, GoMap.get?_set, if_neg h1]

theorem get?_setAll_of_mem {α : Type} (m : GoMap α) (ps : List (Str × α)) (k : Str) (v : α)
    (hn : (GoMap.keys ps).Nodup) (h : (k, v) ∈ ps) : GoMap.get? (setAll m ps) k = some v := by
  induction ps generalizing m with
  | nil => simp at h
  | cons p t ih =>
    rw [GoMap.keys_cons] at hn
    obtain ⟨hn1, hn2⟩ := List.nodup_cons.mp hn
    rw [setAll_cons]
    rcases List.mem_cons.mp h with h | h
    · subst h
      rw [get?_setAll_of_not_mem _ _ _ hn1, GoMap.get?_set, if_pos rfl]
    · exact ih _ hn2 h

theorem keys_setAll {α : Type} (m : GoMap α) (ps : List (Str × α)) (k : Str)
    (h : k ∈ GoMap.keys (setAll m ps)) : k ∈ GoMap.keys m ∨ k ∈ GoMap.keys ps := by
  induction ps generalizing m with
  | nil => exact Or.inl h
  | cons p t ih =>
    rw [setAll_cons] at h
    rw [GoMap.keys_cons]
    rcases ih _ h with h | h
    · rcases GoMap.keys_set m p.1 p.2 k h with h | h
      · exact Or.inr (h ▸ List.mem_cons_self _ _)
      · exact Or.inl h
    · exact Or.inr (List.mem_cons_of_mem _ h)

theorem nodup_of_keys_nodup {α : Type} (ps : List (Str × α)) (h : (GoMap.keys ps).Nodup) :
    ps.Nodup := List.Nodup.of_map Prod.fst h

theorem mem_setAll_nil_iff {α : Type} (ps : List (Str × α)) (hn : (GoMap.keys ps).Nodup)
    (e : Str × α) : e ∈ setAll [] ps ↔ e ∈ ps := by
  have hwf : GoMap.WF (setAll [] ps) := WF_setAll _ _ GoMap.WF_nil
  obtain ⟨k, v⟩ := e
  constructor
  · intro h
    have hg := GoMap.get?_of_mem hwf.nodup h
    have hk : k ∈ GoMap.keys ps := by
      rcases keys_setAll [] ps k (GoMap.mem_keys_of_get? hg) with h1 | h1
      · simp [GoMap.keys_nil] at h1
      · exact h1
    obtain ⟨⟨k', v'⟩, hp, hk'⟩ := List.mem_map.mp hk
    simp only at hk'
    subst hk'
    have hg' := get?_setAll_of_mem [] ps k' v' hn hp
    rw [hg] at hg'
    cases hg'
    exact hp
  · intro h
    exact GoMap.mem_of_get? (get?_setAll_of_mem [] ps k v hn h)

theorem setAll_nil_perm {α : Type} (ps : List (Str × α)) (hn : (GoMap.keys ps).Nodup) :
    (setAll [] ps).Perm ps := by
  have hwf : GoMap.WF (setAll [] ps) := WF_setAll _ _ GoMap.WF_nil
  exact (List.perm_ext_iff_of_nodup (nodup_of_keys_nodup _ hwf.nodup)
    (nodup_of_keys_nodup _ hn)).mpr (mem_setAll_nil_iff ps hn)

/-! ## The object `jsonCodec.Serialize` builds -/

theorem setAll_ite {α : Type} (m : GoMap α) (c : Prop) [Decidable c] (k : Str) (v : α) :
    setAll m (if c then [(k, v)] else []) = if c then GoMap.set m k v else m := by
  split <;> rfl

theorem jsonCodec.canonicalOut_eq (env : Env) (am : AbstractMessage) :
    jsonCodec.canonicalOut env am =
      setAll [] (("type".toList, JVal.str am.Typ) :: jsonCodec.canonicalEntries env am) := by
  unfold jsonCodec.canonicalOut jsonCodec.canonicalEntries
  cases am.Height <;> cases am.Round <;> cases am.View <;>
    simp only [setAll_cons, setAll_append, setAll_ite, setAll_nil, List.nil_append] <;> rfl

theorem keys_append {α : Type} (a b : GoMap α) :
    GoMap.keys (a ++ b) = GoMap.keys a ++ GoMap.keys b := List.map_append _ _ _

theorem keys_ite_sublist {α : Type} (c : Prop) [Decidable c] (k : Str) (v : α) :
    (GoMap.keys (if c then [(k, v)] else [])).Sublist [k] := by
  split
  · exact List.Sublist.refl _
  · exact List.nil_sublist _

theorem jsonCodec.keys_entries_nodup (env : Env) (am : AbstractMessage) :
    (GoMap.keys (("type".toList, JVal.str am.Typ) :: jsonCodec.canonicalEntries env am)).Nodup := by
  have hnd : jsonCodec.canonicalKeys.Nodup := by decide
  refine List.Nodup.sublist ?_ hnd
  rw [GoMap.keys_cons]
  unfold jsonCodec.canonicalKeys
  change (["type".toList] ++ GoMap.keys (jsonCodec.canonicalEntries env am)).Sublist _
  refine List.Sublist.append (List.Sublist.refl _) ?_
  unfold jsonCodec.canonicalEntries
  simp only [keys_append]
  cases am.Height <;> cases am.Round <;> cases am.View <;>
    (repeat' apply List.Sublist.append) <;>
    first
      | exact keys_ite_sublist _ _ _
      | exact List.Sublist.refl _
      | exact List.nil_sublist _

theorem jsonCodec.canonicalOut_perm (env : Env) (am : AbstractMessage) :
    (jsonCodec.canonicalOut env am).Perm
      (("type".toList, JVal.str am.Typ) :: jsonCodec.canonicalEntries env am) := by
  rw [jsonCodec.canonicalOut_eq]
  exact setAll_nil_perm _ (jsonCodec.keys_entries_nodup env am)

theorem jsonCodec.WF_canonicalOut (env : Env) (am : AbstractMessage) :
    GoMap.WF (jsonCodec.canonicalOut env am) := by
  rw [jsonCodec.canonicalOut_eq]
  exact WF_setAll _ _ GoMap.WF_nil

theorem mem_ite_singleton {α : Type} (c : Prop) [Decidable c] (a e : α) :
    e ∈ (if c then [a] else []) ↔ c ∧ e = a := by
  split <;> simp [*]

theorem jsonCodec.mem_entries (env : Env) (am : AbstractMessage) (e : Str × JVal) :
    e ∈ ("type".toList, JVal.str am.Typ) :: jsonCodec.canonicalEntries env am ↔
      e = ("type".toList, JVal.str am.Typ) ∨
      (∃ h, am.Height = some h ∧ e = ("height".toList, JVal.str (big.String h))) ∨
      (∃ r, am.Round = some r ∧ e = ("round".toList, JVal.str (big.String r))) ∨
      (∃ v, am.View = some v ∧ e = ("view".toList, JVal.str (big.String v))) ∨
      (am.BlockHash ≠ [] ∧ e = ("block_hash".toList, JVal.str am.BlockHash)) ∨
      (am.PrevHash ≠ [] ∧ e = ("prev_hash".toList, JVal.str am.PrevHash)) ∨
      (am.Timestamp.IsZero = false ∧
        e = ("timestamp".toList, JVal.str (env.formatRFC3339 am.Timestamp))) ∨
      (am.Proposer ≠ [] ∧ e = ("proposer".toList, JVal.str am.Proposer)) ∨
      (am.Validator ≠ [] ∧ e = ("validator".toList, JVal.str am.Validator)) ∨
      (am.Signature ≠ [] ∧ e = ("signature".toList, JVal.str am.Signature)) ∨
      (0 < len am.CommitSeals ∧
        e = ("commit_seals".toList, JVal.arr ((elems am.CommitSeals).map .str))) ∨
      (0 < len am.ViewChanges ∧
        e = ("view_changes".toList, JVal.arr ((elems am.ViewChanges).map jsonCodec.vcItem))) := by
  unfold jsonCodec.canonicalEntries
  cases am.Height <;> cases am.Round <;> cases am.View <;>
    simp [mem_ite_singleton, or_assoc]

theorem jsonCodec.get?_canonicalOut (env : Env) (am : AbstractMessage) (k : Str) (c : JVal) :
    GoMap.get? (jsonCodec.canonicalOut env am) k = some c ↔
      (k = "type".toList ∧ c = JVal.str am.Typ) ∨
      (∃ h, am.Height = some h ∧ k = "height".toList ∧ c = JVal.str (big.String h)) ∨
      (∃ r, am.Round = some r ∧ k = "round".toList ∧ c = JVal.str (big.String r)) ∨
      (∃ v, am.View = some v ∧ k = "view".toList ∧ c = JVal.str (big.String v)) ∨
      (am.BlockHash ≠ [] ∧ k = "block_hash".toList ∧ c = JVal.str am.BlockHash) ∨
      (am.PrevHash ≠ [] ∧ k = "prev_hash".toList ∧ c = JVal.str am.PrevHash) ∨
      (am.Timestamp.IsZero = false ∧ k = "timestamp".toList ∧
        c = JVal.str (env.formatRFC3339 am.Timestamp)) ∨
      (am.Proposer ≠ [] ∧ k = "proposer".toList ∧ c = JVal.str am.Proposer) ∨
      (am.Validator ≠ [] ∧ k = "validator".toList ∧ c = JVal.str am.Validator) ∨
      (am.Signature ≠ [] ∧ k = "signature".toList ∧ c = JVal.str am.Signature) ∨
      (0 < len am.CommitSeals ∧ k = "commit_seals".toList ∧
        c = JVal.arr ((elems am.CommitSeals).map .str)) ∨
      (0 < len am.ViewChanges ∧ k = "view_changes".toList ∧
        c = JVal.arr ((elems am.ViewChanges).map jsonCodec.vcItem)) := by
  have hwf := jsonCodec.WF_canonicalOut env am
  have hmem : GoMap.get? (jsonCodec.canonicalOut env am) k = some c ↔
      (k, c) ∈ jsonCodec.canonicalOut env am :=
    ⟨GoMap.mem_of_get?, GoMap.get?_of_mem hwf.nodup⟩
  rw [hmem, (jsonCodec.canonicalOut_perm env am).mem_iff, jsonCodec.mem_entries]
  simp only [Prod.mk.injEq]

theorem jsonCodec.mergeExtra_eq (env : Env) (out : GoMap JVal) (kv : Str × Str) :
    jsonCodec.mergeExtra env out kv =
      match GoMap.get? out kv.1 with
      | some _ => out
      | none => GoMap.set out kv.1 (jsonCodec.extraValue env kv.2) := by
  unfold jsonCodec.mergeExtra jsonCodec.extraValue
  cases GoMap.get? out kv.1 with
  | some c => rfl
  | none =>
    cases env.jsonUnmarshal kv.2 <;> rfl

theorem jsonCodec.WF_merge (env : Env) (l : List (Str × Str)) (out : GoMap JVal)
    (h : GoMap.WF out) : GoMap.WF (l.foldl (jsonCodec.mergeExtra env) out) := by
  induction l generalizing out with
  | nil => exact h
  | cons a t ih =>
    rw [List.foldl_cons]
    apply ih
    rw [jsonCodec.mergeExtra_eq]
    cases GoMap.get? out a.1 with
    | some c => exact h
    | none => exact GoMap.WF_set _ _ _ h

theorem jsonCodec.get?_merge (env : Env) (l : List (Str × Str)) (out : GoMap JVal) (k : Str) :
    GoMap.get? (l.foldl (jsonCodec.mergeExtra env) out) k =
      match GoMap.get? out k with
      | some c => some c
      | none => (GoMap.get? l k).map (jsonCodec.extraValue env) := by
  induction l generalizing out with
  | nil =>
    rw [List.foldl_nil]
    cases GoMap.get? out k <;> rfl
  | cons a t ih =>
    obtain ⟨k1, v1⟩ := a
    rw [List.foldl_cons, ih, jsonCodec.mergeExtra_eq]
    by_cases hk : k1 = k
    · subst hk
      cases h1 : GoMap.get? out k1 with
      | some c => simp [h1]
      | none => simp [h1, GoMap.get?_set, GoMap.get?]
    · have hk' : ¬k = k1 := fun e => hk e.symm
      cases h1 : GoMap.get? out k1 with
      | some c => simp [GoMap.get?, hk]
      | none => simp [GoMap.get?_set, GoMap.get?, hk, hk']

theorem get?_perm {α : Type} (l l' : GoMap α) (hp : l'.Perm l) (hn : (GoMap.keys l).Nodup)
    (k : Str) : GoMap.get? l' k = GoMap.get? l k := by
  have hn' : (GoMap.keys l').Nodup := (hp.map Prod.fst).nodup_iff.mpr hn
  cases h : GoMap.get? l k with
  | none =>
    cases h' : GoMap.get? l' k with
    | none => rfl
    | some v =>
      have := GoMap.get?_of_mem hn (hp.mem_iff.mp (GoMap.mem_of_get? h'))
      rw [h] at this
      cases this
  | some v => exact GoMap.get?_of_mem hn' (hp.mem_iff.mpr (GoMap.mem_of_get? h))

theorem get?_isSome_iff {α : Type} (l : GoMap α) (k : Str) :
    (∃ v, GoMap.get? l k = some v) ↔ k ∈ GoMap.keys l := by
  constructor
  · rintro ⟨v, hv⟩
    exact GoMap.mem_keys_of_get? hv
  · intro h
    cases h' : GoMap.get? l k with
    | some v => exact ⟨v, rfl⟩
    | none =>
      exfalso
      induction l with
      | nil => simp [GoMap.keys_nil] at h
      | cons p t ih =>
        obtain ⟨a, b⟩ := p
        rw [GoMap.keys_cons] at h
        simp only [GoMap.get?] at h'
        split at h'
        · cases h'
        · rename_i hne
          rcases List.mem_cons.mp h with h | h
          · exact hne h.symm
          · exact ih h h'

/-! ## Deciding equality of decoded values -/

theorem JVal.eq_of_beq (a : JVal) : ∀ b, JVal.beq a b = true → a = b := by
  refine @JVal.rec (fun a => ∀ b, JVal.beq a b = true → a = b)
    (fun xs => ∀ ys, JVal.beqList xs ys = true → xs = ys)
    (fun kvs => ∀ lws, JVal.beqObj kvs lws = true → kvs = lws)
    (fun kv => ∀ k v, kv.1 = k → JVal.beq kv.2 v = true → kv = (k, v))
    ?_ ?_ ?_ ?_ ?_ ?_ ?_ ?_ ?_ ?_ ?_ ?_ a
  · intro b h
    cases b <;> simp [JVal.beq] at h ⊢
  · intro x b h
    cases b <;> simp [JVal.beq] at h ⊢
    exact h
  · intro x b h
    cases b <;> simp [JVal.beq] at h ⊢
    exact h
  · intro x b h
    cases b <;> simp [JVal.beq] at h ⊢
    exact h
  · intro x b h
    cases b <;> simp [JVal.beq] at h ⊢
    exact h
  · intro xs ih b h
    cases b <;> simp [JVal.beq] at h ⊢
    exact ih _ h
  · intro kvs ih b h
    cases b <;> simp [JVal.beq] at h ⊢
    exact ih _ h
  · intro ys h
    cases ys <;> simp [JVal.beqList] at h ⊢
  · intro x xs ihx ihxs ys h
    cases ys with
    | nil => simp [JVal.beqList] at h
    | cons y ys =>
      simp only [JVal.beqList, Bool.and_eq_true] at h
      rw [ihx y h.1, ihxs ys h.2]
  · intro ys h
    cases ys <;> simp [JVal.beqObj] at h ⊢
  · intro x xs ihx ihxs ys h
    cases ys with
    | nil =>
      obtain ⟨k, v⟩ := x
      simp [JVal.beqObj] at h
    | cons y ys =>
      obtain ⟨k, v⟩ := x
      obtain ⟨l, w⟩ := y
      simp only [JVal.beqObj, Bool.and_eq_true, beq_iff_eq] at h
      rw [ihx l w h.1.1 h.1.2, ihxs ys h.2]
  · intro k v ih l w hk hv
    simp only at hk hv
    rw [hk, ih w hv]

theorem json.unmarshal_eq_ok (s : Str) (v : JVal)
    (h : (match json.unmarshal s with
      | .ok w => JVal.beq w v
      | .error _ => false) = true) : json.unmarshal s = .ok v := by
  cases hu : json.unmarshal s with
  | ok w =>
    rw [hu] at h
    rw [JVal.eq_of_beq w v h]
  | error e =>
    rw [hu] at h
    cases h

/-! ## The keys of the serialized JSON object -/

theorem jsonCodec.get?_buildOut (env : Env) (m : AbstractMessage) (k : Str) :
    GoMap.get? (jsonCodec.buildOut env m) k =
      match GoMap.get? (jsonCodec.canonicalOut env m) k with
      | some c => some c
      | none => (GoMap.get? (env.range .jsonSerialize (elems m.Extras)) k).map (jsonCodec.extraValue env) := by
  unfold jsonCodec.buildOut
  exact jsonCodec.get?_merge env _ _ k

theorem jsonCodec.buildOut_absent (env : Env) (m : AbstractMessage) (k : Str)
    (hrange : ∀ l : GoMap Str, (env.range .jsonSerialize l).Perm l)
    (h : GoMap.get? (jsonCodec.canonicalOut env m) k = none) :
    (∃ c, GoMap.get? (jsonCodec.buildOut env m) k = some c) ↔ k ∈ GoMap.keys (elems m.Extras) := by
  rw [jsonCodec.get?_buildOut, h]
  simp only [Option.map_eq_some']
  have hk : k ∈ GoMap.keys (elems m.Extras) ↔ k ∈ GoMap.keys (env.range .jsonSerialize (elems m.Extras)) :=
    ((hrange (elems m.Extras)).map Prod.fst).mem_iff.symm
  rw [hk, ← get?_isSome_iff]
  constructor
  · rintro ⟨c, a, ha, _⟩
    exact ⟨a, ha⟩
  · rintro ⟨a, ha⟩
    exact ⟨_, a, ha, rfl⟩

theorem jsonCodec.canonicalOut_none (env : Env) (m : AbstractMessage) (k : Str)
    (h : ∀ c, GoMap.get? (jsonCodec.canonicalOut env m) k ≠ some c) :
    GoMap.get? (jsonCodec.canonicalOut env m) k = none := by
  cases hc : GoMap.get? (jsonCodec.canonicalOut env m) k with
  | none => rfl
  | some c => exact absurd hc (h c)

/-- C6 (amended): the JSON object `jsonCodec.Serialize` produces holds the key
`type` with `m.Type` verbatim; when `Height` (`Round`, `View`) is present the
key `height` (`round`, `view`) holds the JSON string of the integer's base-10
representation; when it is absent the object has that key exactly when
`Extras` has an entry of that name.  Likewise the key of an empty text field,
of a zero `Timestamp` and of an empty list is in the object exactly when
`Extras` has an entry of that name. -/
theorem C6_json_serialize_keys (env : Env) (m : AbstractMessage)
    (hrange : ∀ l : GoMap Str, (env.range .jsonSerialize l).Perm l) :
    ∃ out, jsonCodec.Serialize env m = .ok (env.jsonMarshal (.obj out)) ∧
      GoMap.get? out "type".toList = some (.str m.Typ) ∧
      (∀ h, m.Height = some h → GoMap.get? out "height".toList = some (.str (big.String h))) ∧
      (∀ r, m.Round = some r → GoMap.get? out "round".toList = some (.str (big.String r))) ∧
      (∀ v, m.View = some v → GoMap.get? out "view".toList = some (.str (big.String v))) ∧
      (m.Height = none → ((∃ c, GoMap.get? out "height".toList = some c) ↔
        "height".toList ∈ GoMap.keys (elems m.Extras))) ∧
      (m.Round = none → ((∃ c, GoMap.get? out "round".toList = some c) ↔
        "round".toList ∈ GoMap.keys (elems m.Extras))) ∧
      (m.View = none → ((∃ c, GoMap.get? out "view".toList = some c) ↔
        "view".toList ∈ GoMap.keys (elems m.Extras))) ∧
      (m.BlockHash = [] → ((∃ c, GoMap.get? out "block_hash".toList = some c) ↔
        "block_hash".toList ∈ GoMap.keys (elems m.Extras))) ∧
      (m.PrevHash = [] → ((∃ c, GoMap.get? out "prev_hash".toList = some c) ↔
        "prev_hash".toList ∈ GoMap.keys (elems m.Extras))) ∧
      (m.Timestamp.IsZero = true → ((∃ c, GoMap.get? out "timestamp".toList = some c) ↔
        "timestamp".toList ∈ GoMap.keys (elems m.Extras))) ∧
      (m.Proposer = [] → ((∃ c, GoMap.get? out "proposer".toList = some c) ↔
        "proposer".toList ∈ GoMap.keys (elems m.Extras))) ∧
      (m.Validator = [] → ((∃ c, GoMap.get? out "validator".toList = some c) ↔
        "validator".toList ∈ GoMap.keys (elems m.Extras))) ∧
      (m.Signature = [] → ((∃ c, GoMap.get? out "signature".toList = some c) ↔
        "signature".toList ∈ GoMap.keys (elems m.Extras))) ∧
      (len m.CommitSeals = 0 → ((∃ c, GoMap.get? out "commit_seals".toList = some c) ↔
        "commit_seals".toList ∈ GoMap.keys (elems m.Extras))) ∧
      (len m.ViewChanges = 0 → ((∃ c, GoMap.get? out "view_changes".toList = some c) ↔
        "view_changes".toList ∈ GoMap.keys (elems m.Extras))) := by
  refine ⟨jsonCodec.buildOut env m, rfl, ?_, ?_, ?_, ?_, ?_, ?_, ?_, ?_, ?_, ?_, ?_, ?_, ?_, ?_, ?_⟩
  · have : GoMap.get? (jsonCodec.canonicalOut env m) "type".toList = some (.str m.Typ) := by
      rw [jsonCodec.get?_canonicalOut]
      exact Or.inl ⟨rfl, rfl⟩
    rw [jsonCodec.get?_buildOut, this]
  · intro h hh
    have : GoMap.get? (jsonCodec.canonicalOut env m) "height".toList =
        some (.str (big.String h)) := by
      rw [jsonCodec.get?_canonicalOut]
      exact Or.inr (Or.inl ⟨h, hh, rfl, rfl⟩)
    rw [jsonCodec.get?_buildOut, this]
  · intro r hr
    have : GoMap.get? (jsonCodec.canonicalOut env m) "round".toList =
        some (.str (big.String r)) := by
      rw [jsonCodec.get?_canonicalOut]
      exact Or.inr (Or.inr (Or.inl ⟨r, hr, rfl, rfl⟩))
    rw [jsonCodec.get?_buildOut, this]
  · intro v hv
    have : GoMap.get? (jsonCodec.canonicalOut env m) "view".toList =
        some (.str (big.String v)) := by
      rw [jsonCodec.get?_canonicalOut]
      exact Or.inr (Or.inr (Or.inr (Or.inl ⟨v, hv, rfl, rfl⟩)))
    rw [jsonCodec.get?_buildOut, this]
  all_goals
    intro habs
    apply jsonCodec.buildOut_absent env m _ hrange
    apply jsonCodec.canonicalOut_none
    intro c hc
    rw [jsonCodec.get?_canonicalOut] at hc
    simp [habs] at hc
    try omega

/-- C6 fails as stated: for the message whose only content is the `Extras`
entry `height` = `5`, the field `Height` is absent and yet the serialized
object has the key `height`, holding the JSON number 5. -/
theorem C6_counterexample_extras_named_height :
    extrasOnlyHeight.Height = none ∧
    (GoMap.get? (jsonCodec.buildOut sampleEnv extrasOnlyHeight) "height".toList).isSome = true ∧
    (jsonCodec.Serialize sampleEnv extrasOnlyHeight).toOption =
      some "\x7b\"height\":5,\"type\":\"\"\x7d".toList := by
  refine ⟨rfl, ?_, ?_⟩
  · decide!
  · decide!

/-- C6 (amended) at the sample message of the test application. -/
theorem C6_json_serialize_keys_witness :
    (∀ l : GoMap Str, (sampleEnv.range .jsonSerialize l).Perm l) ∧
    ∃ out, jsonCodec.Serialize sampleEnv sampleMessage = .ok (sampleEnv.jsonMarshal (.obj out)) ∧
      GoMap.get? out "type".toList = some (.str "Proposal".toList) ∧
      GoMap.get? out "height".toList = some (.str "1000".toList) := by
  refine ⟨fun l => List.Perm.refl l, ?_⟩
  obtain ⟨out, h1, h2, h3, _⟩ :=
    C6_json_serialize_keys sampleEnv sampleMessage (fun l => List.Perm.refl l)
  exact ⟨out, h1, h2, h3 1000 rfl⟩

/-- C7: for every `Extras` entry of a message, if its key is one
`jsonCodec.Serialize` has already assigned for a canonical field (`type`
included) the output keeps the canonical value under that key and the entry is
ignored; otherwise the entry is in the output under its own key, as the JSON
value its bytes decode to or, when they are not JSON text, as a string. -/
theorem C7_json_serialize_canonical_precedence (env : Env) (m : AbstractMessage)
    (hrange : ∀ l : GoMap Str, (env.range .jsonSerialize l).Perm l) (hwf : GoMap.WF (elems m.Extras)) :
    ∃ out, jsonCodec.Serialize env m = .ok (env.jsonMarshal (.obj out)) ∧
      ∀ k v, (k, v) ∈ elems m.Extras →
        (∀ c, GoMap.get? (jsonCodec.canonicalOut env m) k = some c → GoMap.get? out k = some c) ∧
        (GoMap.get? (jsonCodec.canonicalOut env m) k = none →
          GoMap.get? out k = some (jsonCodec.extraValue env v)) := by
  refine ⟨jsonCodec.buildOut env m, rfl, ?_⟩
  intro k v hkv
  constructor
  · intro c hc
    rw [jsonCodec.get?_buildOut, hc]
  · intro hc
    rw [jsonCodec.get?_buildOut, hc]
    have := get?_perm _ _ (hrange (elems m.Extras)) hwf.nodup k
    rw [this, GoMap.get?_of_mem hwf.nodup hkv]
    rfl

/-- C7 at the sample message with an additional `Extras` entry named `height`:
the output keeps the canonical height. -/
theorem C7_json_serialize_canonical_precedence_witness :
    (∀ l : GoMap Str, (sampleEnv.range .jsonSerialize l).Perm l) ∧
    GoMap.WF (elems sampleWithExtraHeight.Extras) ∧
    ∃ out, jsonCodec.Serialize sampleEnv sampleWithExtraHeight =
        .ok (sampleEnv.jsonMarshal (.obj out)) ∧
      GoMap.get? out "height".toList = some (.str "1000".toList) ∧
      GoMap.get? out "payload".toList = some (.str "hello".toList) := by
  refine ⟨fun l => List.Perm.refl l, by decide, ?_⟩
  obtain ⟨out, h1, h2⟩ := C7_json_serialize_canonical_precedence sampleEnv sampleWithExtraHeight
    (fun l => List.Perm.refl l) (by decide)
  refine ⟨out, h1, ?_, ?_⟩
  · exact (h2 "height".toList "99".toList (by decide)).1 _ (by
      rw [jsonCodec.get?_canonicalOut]
      exact Or.inr (Or.inl ⟨1000, rfl, rfl, rfl⟩))
  · have h := (h2 "payload".toList "hello".toList (by decide)).2 (by
      apply jsonCodec.canonicalOut_none
      intro c hc
      rw [jsonCodec.get?_canonicalOut] at hc
      simp at hc)
    rw [h]
    rw [JVal.eq_of_beq (jsonCodec.extraValue sampleEnv "hello".toList) (.str "hello".toList)
      (by decide!)]

/-! ## `jsonCodec.Parse`, field by field -/

theorem jsonCodec.json_step_Height (env : Env) (am : AbstractMessage) (kv : Str × JVal) :
    (jsonCodec.step env am kv).Height =
      if jsonCodec.resolve env kv.1 = "Height".toList then toBigIntPtr env kv.2
      else am.Height := by
  unfold jsonCodec.step jsonCodec.resolve
  simp only [apply_ite AbstractMessage.Height]
  generalize (match env.FieldSynonyms kv.1 with
    | some mapped => mapped
    | none => kv.1) = key
  by_cases h : key = "Height".toList
  · subst h
    simp
  · simp at h ⊢

theorem jsonCodec.json_step_Round (env : Env) (am : AbstractMessage) (kv : Str × JVal) :
    (jsonCodec.step env am kv).Round =
      if jsonCodec.resolve env kv.1 = "Round".toList then toBigIntPtr env kv.2
      else am.Round := by
  unfold jsonCodec.step jsonCodec.resolve
  simp only [apply_ite AbstractMessage.Round]
  generalize (match env.FieldSynonyms kv.1 with
    | some mapped => mapped
    | none => kv.1) = key
  by_cases h : key = "Round".toList
  · subst h
    simp
  · simp at h ⊢
    simp [h]

theorem jsonCodec.json_step_View (env : Env) (am : AbstractMessage) (kv : Str × JVal) :
    (jsonCodec.step env am kv).View =
      if jsonCodec.resolve env kv.1 = "View".toList then toBigIntPtr env kv.2
      else am.View := by
  unfold jsonCodec.step jsonCodec.resolve
  simp only [apply_ite AbstractMessage.View]
  generalize (match env.FieldSynonyms kv.1 with
    | some mapped => mapped
    | none => kv.1) = key
  by_cases h : key = "View".toList
  · subst h
    simp
  · simp at h ⊢
    simp [h]

theorem jsonCodec.json_step_BlockHash (env : Env) (am : AbstractMessage) (kv : Str × JVal) :
    (jsonCodec.step env am kv).BlockHash =
      if jsonCodec.resolve env kv.1 = "BlockHash".toList then toString env kv.2
      else am.BlockHash := by
  unfold jsonCodec.step jsonCodec.resolve
  simp only [apply_ite AbstractMessage.BlockHash]
  generalize (match env.FieldSynonyms kv.1 with
    | some mapped => mapped
    | none => kv.1) = key
  by_cases h : key = "BlockHash".toList
  · subst h
    simp
  · simp at h ⊢
    simp [h]

theorem jsonCodec.json_step_PrevHash (env : Env) (am : AbstractMessage) (kv : Str × JVal) :
    (jsonCodec.step env am kv).PrevHash =
      if jsonCodec.resolve env kv.1 = "PrevHash".toList then toString env kv.2
      else am.PrevHash := by
  unfold jsonCodec.step jsonCodec.resolve
  simp only [apply_ite AbstractMessage.PrevHash]
  generalize (match env.FieldSynonyms kv.1 with
    | some mapped => mapped
    | none => kv.1) = key
  by_cases h : key = "PrevHash".toList
  · subst h
    simp
  · simp at h ⊢
    simp [h]

theorem jsonCodec.json_step_Timestamp (env : Env) (am : AbstractMessage) (kv : Str × JVal) :
    (jsonCodec.step env am kv).Timestamp =
      if jsonCodec.resolve env kv.1 = "Timestamp".toList then toTime env kv.2
      else am.Timestamp := by
  unfold jsonCodec.step jsonCodec.resolve
  simp only [apply_ite AbstractMessage.Timestamp]
  generalize (match env.FieldSynonyms kv.1 with
    | some mapped => mapped
    | none => kv.1) = key
  by_cases h : key = "Timestamp".toList
  · subst h
    simp
  · simp at h ⊢
    simp [h]

theorem jsonCodec.json_step_Proposer (env : Env) (am : AbstractMessage) (kv : Str × JVal) :
    (jsonCodec.step env am kv).Proposer =
      if jsonCodec.resolve env kv.1 = "Proposer".toList then toString env kv.2
      else am.Proposer := by
  unfold jsonCodec.step jsonCodec.resolve
  simp only [apply_ite AbstractMessage.Proposer]
  generalize (match env.FieldSynonyms kv.1 with
    | some mapped => mapped
    | none => kv.1) = key
  by_cases h : key = "Proposer".toList
  · subst h
    simp
  · simp at h ⊢
    simp [h]

theorem jsonCodec.json_step_Validator (env : Env) (am : AbstractMessage) (kv : Str × JVal) :
    (jsonCodec.step env am kv).Validator =
      if jsonCodec.resolve env kv.1 = "Validator".toList then toString env kv.2
      else am.Validator := by
  unfold jsonCodec.step jsonCodec.resolve
  simp only [apply_ite AbstractMessage.Validator]
  generalize (match env.FieldSynonyms kv.1 with
    | some mapped => mapped
    | none => kv.1) = key
  by_cases h : key = "Validator".toList
  · subst h
    simp
  · simp at h ⊢
    simp [h]

theorem jsonCodec.json_step_Signature (env : Env) (am : AbstractMessage) (kv : Str × JVal) :
    (jsonCodec.step env am kv).Signature =
      if jsonCodec.resolve env kv.1 = "Signature".toList then toString env kv.2
      else am.Signature := by
  unfold jsonCodec.step jsonCodec.resolve
  simp only [apply_ite AbstractMessage.Signature]
  generalize (match env.FieldSynonyms kv.1 with
    | some mapped => mapped
    | none => kv.1) = key
  by_cases h : key = "Signature".toList
  · subst h
    simp
  · simp at h ⊢
    simp [h]

theorem jsonCodec.json_step_CommitSeals (env : Env) (am : AbstractMessage) (kv : Str × JVal) :
    (jsonCodec.step env am kv).CommitSeals =
      if jsonCodec.resolve env kv.1 = "CommitSeals".toList then toStringSlice env kv.2
      else am.CommitSeals := by
  unfold jsonCodec.step jsonCodec.resolve
  simp only [apply_ite AbstractMessage.CommitSeals]
  generalize (match env.FieldSynonyms kv.1 with
    | some mapped => mapped
    | none => kv.1) = key
  by_cases h : key = "CommitSeals".toList
  · subst h
    simp
  · simp at h ⊢
    simp [h]

theorem jsonCodec.json_step_ViewChanges (env : Env) (am : AbstractMessage) (kv : Str × JVal) :
    (jsonCodec.step env am kv).ViewChanges =
      if jsonCodec.resolve env kv.1 = "ViewChanges".toList then jsonCodec.viewChanges env am.ViewChanges kv.2
      else am.ViewChanges := by
  unfold jsonCodec.step jsonCodec.resolve
  simp only [apply_ite AbstractMessage.ViewChanges]
  generalize (match env.FieldSynonyms kv.1 with
    | some mapped => mapped
    | none => kv.1) = key
  by_cases h : key = "ViewChanges".toList
  · subst h
    simp
  · simp at h ⊢
    simp [h]

theorem jsonCodec.json_step_Typ (env : Env) (am : AbstractMessage) (kv : Str × JVal) :
    (jsonCodec.step env am kv).Typ = am.Typ := by
  unfold jsonCodec.step
  simp only [apply_ite AbstractMessage.Typ]
  simp

theorem jsonCodec.json_step_Extras (env : Env) (am : AbstractMessage) (kv : Str × JVal) :
    (jsonCodec.step env am kv).Extras =
      if jsonCodec.resolve env kv.1 ∈ jsonCodec.switchNames then am.Extras
      else setEntry am.Extras kv.1 (env.jsonMarshal kv.2) := by
  unfold jsonCodec.step jsonCodec.resolve
  simp only [apply_ite AbstractMessage.Extras]
  generalize (match env.FieldSynonyms kv.1 with
    | some mapped => mapped
    | none => kv.1) = key
  by_cases h : key ∈ jsonCodec.switchNames
  · rw [if_pos h]
    simp [jsonCodec.switchNames] at h
    rcases h with h | h | h | h | h | h | h | h | h | h | h | h <;> subst h <;> simp
  · rw [if_neg h]
    simp [jsonCodec.switchNames] at h
    simp [h]

/-! ## Parsing back what `jsonCodec.Serialize` wrote -/

theorem jsonCodec.json_get?_height (env : Env) (m : AbstractMessage) :
    GoMap.get? (jsonCodec.canonicalOut env m) "height".toList =
      m.Height.map (fun h => JVal.str (big.String h)) := by
  cases hh : m.Height with
  | some h =>
    rw [Option.map_some', jsonCodec.get?_canonicalOut]
    simp [hh]
  | none =>
    apply jsonCodec.canonicalOut_none
    intro c hc
    rw [jsonCodec.get?_canonicalOut] at hc
    simp [hh] at hc

theorem jsonCodec.json_get?_round (env : Env) (m : AbstractMessage) :
    GoMap.get? (jsonCodec.canonicalOut env m) "round".toList =
      m.Round.map (fun h => JVal.str (big.String h)) := by
  cases hh : m.Round with
  | some h =>
    rw [Option.map_some', jsonCodec.get?_canonicalOut]
    simp [hh]
  | none =>
    apply jsonCodec.canonicalOut_none
    intro c hc
    rw [jsonCodec.get?_canonicalOut] at hc
    simp [hh] at hc

theorem jsonCodec.json_get?_view (env : Env) (m : AbstractMessage) :
    GoMap.get? (jsonCodec.canonicalOut env m) "view".toList =
      m.View.map (fun h => JVal.str (big.String h)) := by
  cases hh : m.View with
  | some h =>
    rw [Option.map_some', jsonCodec.get?_canonicalOut]
    simp [hh]
  | none =>
    apply jsonCodec.canonicalOut_none
    intro c hc
    rw [jsonCodec.get?_canonicalOut] at hc
    simp [hh] at hc

theorem jsonCodec.get?_type (env : Env) (m : AbstractMessage) :
    GoMap.get? (jsonCodec.canonicalOut env m) "type".toList = some (JVal.str m.Typ) := by
  rw [jsonCodec.get?_canonicalOut]
  exact Or.inl ⟨rfl, rfl⟩

theorem jsonCodec.get?_text (env : Env) (m : AbstractMessage) :
    GoMap.get? (jsonCodec.canonicalOut env m) "block_hash".toList =
      (if m.BlockHash ≠ [] then some (JVal.str m.BlockHash) else none) ∧
    GoMap.get? (jsonCodec.canonicalOut env m) "prev_hash".toList =
      (if m.PrevHash ≠ [] then some (JVal.str m.PrevHash) else none) ∧
    GoMap.get? (jsonCodec.canonicalOut env m) "proposer".toList =
      (if m.Proposer ≠ [] then some (JVal.str m.Proposer) else none) ∧
    GoMap.get? (jsonCodec.canonicalOut env m) "validator".toList =
      (if m.Validator ≠ [] then some (JVal.str m.Validator) else none) ∧
    GoMap.get? (jsonCodec.canonicalOut env m) "signature".toList =
      (if m.Signature ≠ [] then some (JVal.str m.Signature) else none) := by
  refine ⟨?_, ?_, ?_, ?_, ?_⟩ <;>
  · split
    · rename_i h
      rw [jsonCodec.get?_canonicalOut]
      simp [h]
    · rename_i h
      apply jsonCodec.canonicalOut_none
      intro c hc
      rw [jsonCodec.get?_canonicalOut] at hc
      simp at h
      simp [h] at hc

theorem jsonCodec.json_get?_timestamp (env : Env) (m : AbstractMessage) :
    GoMap.get? (jsonCodec.canonicalOut env m) "timestamp".toList =
      (if m.Timestamp.IsZero = false then some (JVal.str (env.formatRFC3339 m.Timestamp))
       else none) := by
  split
  · rename_i h
    rw [jsonCodec.get?_canonicalOut]
    simp [h]
  · rename_i h
    apply jsonCodec.canonicalOut_none
    intro c hc
    rw [jsonCodec.get?_canonicalOut] at hc
    simp at h
    simp [h] at hc

theorem jsonCodec.get?_lists (env : Env) (m : AbstractMessage) :
    GoMap.get? (jsonCodec.canonicalOut env m) "commit_seals".toList =
      (if 0 < len m.CommitSeals then some (JVal.arr ((elems m.CommitSeals).map .str))
       else none) ∧
    GoMap.get? (jsonCodec.canonicalOut env m) "view_changes".toList =
      (if 0 < len m.ViewChanges then some (JVal.arr ((elems m.ViewChanges).map jsonCodec.vcItem))
       else none) := by
  refine ⟨?_, ?_⟩ <;>
  · split
    · rename_i h
      rw [jsonCodec.get?_canonicalOut]
      simp [h]
    · rename_i h
      apply jsonCodec.canonicalOut_none
      intro c hc
      rw [jsonCodec.get?_canonicalOut] at hc
      simp at h
      simp [h] at hc

theorem jsonCodec.resolve_emitted (env : Env)
    (hfs : ∀ p ∈ jsonCodec.emittedFields, env.FieldSynonyms p.1 = some p.2)
    (p : Str × Str) (hp : p ∈ jsonCodec.emittedFields) : jsonCodec.resolve env p.1 = p.2 := by
  unfold jsonCodec.resolve
  rw [hfs p hp]

theorem jsonCodec.resolve_type (env : Env) (htype : env.FieldSynonyms "type".toList = none) :
    jsonCodec.resolve env "type".toList = "type".toList := by
  unfold jsonCodec.resolve
  rw [htype]

theorem jsonCodec.json_key_emitted (env : Env) (m : AbstractMessage) (k : Str) (c : JVal)
    (h : GoMap.get? (jsonCodec.canonicalOut env m) k = some c) :
    k = "type".toList ∨ ∃ F, (k, F) ∈ jsonCodec.emittedFields := by
  rw [jsonCodec.get?_canonicalOut] at h
  rcases h with ⟨h, _⟩ | ⟨_, _, h, _⟩ | ⟨_, _, h, _⟩ | ⟨_, _, h, _⟩ | ⟨_, h, _⟩ | ⟨_, h, _⟩ |
    ⟨_, h, _⟩ | ⟨_, h, _⟩ | ⟨_, h, _⟩ | ⟨_, h, _⟩ | ⟨_, h, _⟩ | ⟨_, h, _⟩
  · exact Or.inl h
  all_goals
    subst h
    right
    simp [jsonCodec.emittedFields]

theorem eq_of_mem_of_key {α : Type} {l : GoMap α} (hn : (GoMap.keys l).Nodup) {e e0 : Str × α}
    (h1 : e ∈ l) (h2 : e0 ∈ l) (hk : e.1 = e0.1) : e = e0 := by
  obtain ⟨k, v⟩ := e
  obtain ⟨k0, v0⟩ := e0
  simp only at hk
  subst hk
  have a := GoMap.get?_of_mem hn h1
  have b := GoMap.get?_of_mem hn h2
  rw [a] at b
  cases b
  rfl

theorem jsonCodec.json_fold_field {β : Type} (env : Env) (m : AbstractMessage)
    (hfs : ∀ p ∈ jsonCodec.emittedFields, env.FieldSynonyms p.1 = some p.2)
    (htype : env.FieldSynonyms "type".toList = none)
    (k F : Str) (hkF : (k, F) ∈ jsonCodec.emittedFields)
    (coerce : JVal → β → β) (hidem : ∀ v b, coerce v (coerce v b) = coerce v b)
    (b0 : β) (L : List (Str × JVal)) (hL : L.Perm (jsonCodec.canonicalOut env m)) :
    L.foldl (fun b e => if jsonCodec.resolve env e.1 = F then coerce e.2 b else b) b0 =
      match GoMap.get? (jsonCodec.canonicalOut env m) k with
      | some v => coerce v b0
      | none => b0 := by
  have hwf := jsonCodec.WF_canonicalOut env m
  have hnd : (GoMap.keys L).Nodup := (hL.map Prod.fst).nodup_iff.mpr hwf.nodup
  have hinj : ∀ p ∈ jsonCodec.emittedFields, ∀ q ∈ jsonCodec.emittedFields,
      p.2 = q.2 → p.1 = q.1 := by decide
  have hnt : ∀ p ∈ jsonCodec.emittedFields, p.2 ≠ "type".toList := by decide
  have hkey : ∀ e ∈ L, jsonCodec.resolve env e.1 = F → e.1 = k := by
    intro e he hR
    have hget := GoMap.get?_of_mem hwf.nodup (hL.mem_iff.mp he)
    rcases jsonCodec.json_key_emitted env m e.1 e.2 hget with h | ⟨F', h⟩
    · rw [h, jsonCodec.resolve_type env htype] at hR
      exact absurd hR.symm (hnt _ hkF)
    · have := jsonCodec.resolve_emitted env hfs _ h
      simp only at this
      rw [this] at hR
      exact hinj _ h _ hkF hR
  cases hg : GoMap.get? (jsonCodec.canonicalOut env m) k with
  | none =>
    simp only
    apply foldl_ite_none
    intro e he hR
    have hk := hkey e he hR
    have hget := GoMap.get?_of_mem hwf.nodup (hL.mem_iff.mp he)
    rw [hk, hg] at hget
    cases hget
  | some v =>
    simp only
    have hmem : (k, v) ∈ L := hL.mem_iff.mpr (GoMap.mem_of_get? hg)
    have := foldl_ite_unique (fun e : Str × JVal => jsonCodec.resolve env e.1 = F)
      (fun e b => coerce e.2 b) L b0 (k, v) hmem
      (jsonCodec.resolve_emitted env hfs _ hkF)
      (fun e he hR => eq_of_mem_of_key hnd he hmem (hkey e he hR))
      (fun b => hidem v b)
    exact this

theorem toBigIntPtr_strOrNil (env : Env) (x : Option Int) : toBigIntPtr env (strOrNil x) = x := by
  cases x with
  | none => rfl
  | some v => simp [strOrNil, toBigIntPtr, SetString_String]

theorem jsonCodec.viewChange_vcItem (env : Env) (e : ViewChangeEntry) :
    jsonCodec.viewChange env (jsonCodec.vcItem e) = some e := by
  obtain ⟨v, h, val, sig⟩ := e
  simp [jsonCodec.viewChange, jsonCodec.vcItem, index, GoMap.get?_set, GoMap.get?,
    toBigIntPtr_strOrNil, toString]

theorem jsonCodec.filterMap_vcItem (env : Env) (l : List ViewChangeEntry) :
    (l.map jsonCodec.vcItem).filterMap (jsonCodec.viewChange env) = l := by
  induction l with
  | nil => rfl
  | cons a t ih =>
    simp only [List.map_cons, List.filterMap_cons, jsonCodec.viewChange_vcItem, ih]

theorem map_toString_str (env : Env) (l : List Str) :
    (l.map JVal.str).map (toString env) = l := by
  induction l with
  | nil => rfl
  | cons a t ih => simp only [List.map_cons, ih, toString]

theorem Time.eq_zero_of_IsZero (t : Time) (h : t.IsZero = true) : t = Time.zero := by
  obtain ⟨u, n⟩ := t
  simp [Time.IsZero] at h
  simp [Time.zero, h.1, h.2]

theorem elems_eq_nil_of_len {α : Type} (s : Option (List α)) (h : ¬0 < len s) : elems s = [] := by
  unfold len at h
  unfold elems
  exact List.eq_nil_of_length_eq_zero (by omega)

theorem jsonCodec.buildOut_no_extras (env : Env) (m : AbstractMessage)
    (hrange : ∀ (α : Type) (s : Loop) (l : GoMap α), (env.range s l).Perm l) (hextras : elems m.Extras = []) :
    jsonCodec.buildOut env m = jsonCodec.canonicalOut env m := by
  unfold jsonCodec.buildOut
  have h := hrange Str .jsonSerialize (elems m.Extras)
  rw [hextras] at h
  rw [hextras, List.perm_nil.mp h]
  rfl

theorem jsonCodec.parse_of_decoded (env : Env) (data : Str) (opts : ParseOptions)
    (out : GoMap JVal) (h : env.jsonUnmarshal data = .ok (.obj out)) :
    jsonCodec.Parse env data opts =
      .ok ((env.range .jsonParse out).foldl (jsonCodec.step env) (jsonCodec.init env data opts out)) := by
  unfold jsonCodec.Parse jsonCodec.unmarshalMap
  rw [h]

theorem foldl_const {ι β : Type} (l : List ι) (b : β) : l.foldl (fun b _ => b) b = b := by
  induction l with
  | nil => rfl
  | cons a t ih => exact ih

theorem jsonCodec.json_fold_Typ (env : Env) (am : AbstractMessage) (L : List (Str × JVal)) :
    (L.foldl (jsonCodec.step env) am).Typ = am.Typ := by
  rw [foldl_proj (jsonCodec.step env) AbstractMessage.Typ (fun _ b => b) (jsonCodec.json_step_Typ env)]
  exact foldl_const L _

theorem jsonCodec.json_fold_Height (env : Env) (m am : AbstractMessage) (L : List (Str × JVal))
    (hfs : ∀ p ∈ jsonCodec.emittedFields, env.FieldSynonyms p.1 = some p.2)
    (htype : env.FieldSynonyms "type".toList = none)
    (hL : L.Perm (jsonCodec.canonicalOut env m)) (h0 : am.Height = none) :
    (L.foldl (jsonCodec.step env) am).Height = m.Height := by
  rw [foldl_proj (jsonCodec.step env) AbstractMessage.Height
    (fun e b => if jsonCodec.resolve env e.1 = "Height".toList then toBigIntPtr env e.2 else b)
    (jsonCodec.json_step_Height env)]
  rw [jsonCodec.json_fold_field env m hfs htype "height".toList "Height".toList (by decide)
    (fun v _ => toBigIntPtr env v) (fun _ _ => rfl) _ L hL, jsonCodec.json_get?_height, h0]
  cases m.Height with
  | none => rfl
  | some h => simp [toBigIntPtr, SetString_String]

theorem jsonCodec.json_fold_Round (env : Env) (m am : AbstractMessage) (L : List (Str × JVal))
    (hfs : ∀ p ∈ jsonCodec.emittedFields, env.FieldSynonyms p.1 = some p.2)
    (htype : env.FieldSynonyms "type".toList = none)
    (hL : L.Perm (jsonCodec.canonicalOut env m)) (h0 : am.Round = none) :
    (L.foldl (jsonCodec.step env) am).Round = m.Round := by
  rw [foldl_proj (jsonCodec.step env) AbstractMessage.Round
    (fun e b => if jsonCodec.resolve env e.1 = "Round".toList then toBigIntPtr env e.2 else b)
    (jsonCodec.json_step_Round env)]
  rw [jsonCodec.json_fold_field env m hfs htype "round".toList "Round".toList (by decide)
    (fun v _ => toBigIntPtr env v) (fun _ _ => rfl) _ L hL, jsonCodec.json_get?_round, h0]
  cases m.Round with
  | none => rfl
  | some h => simp [toBigIntPtr, SetString_String]

theorem jsonCodec.json_fold_View (env : Env) (m am : AbstractMessage) (L : List (Str × JVal))
    (hfs : ∀ p ∈ jsonCodec.emittedFields, env.FieldSynonyms p.1 = some p.2)
    (htype : env.FieldSynonyms "type".toList = none)
    (hL : L.Perm (jsonCodec.canonicalOut env m)) (h0 : am.View = none) :
    (L.foldl (jsonCodec.step env) am).View = m.View := by
  rw [foldl_proj (jsonCodec.step env) AbstractMessage.View
    (fun e b => if jsonCodec.resolve env e.1 = "View".toList then toBigIntPtr env e.2 else b)
    (jsonCodec.json_step_View env)]
  rw [jsonCodec.json_fold_field env m hfs htype "view".toList "View".toList (by decide)
    (fun v _ => toBigIntPtr env v) (fun _ _ => rfl) _ L hL, jsonCodec.json_get?_view, h0]
  cases m.View with
  | none => rfl
  | some h => simp [toBigIntPtr, SetString_String]

theorem jsonCodec.json_fold_BlockHash (env : Env) (m am : AbstractMessage) (L : List (Str × JVal))
    (hfs : ∀ p ∈ jsonCodec.emittedFields, env.FieldSynonyms p.1 = some p.2)
    (htype : env.FieldSynonyms "type".toList = none)
    (hL : L.Perm (jsonCodec.canonicalOut env m)) (h0 : am.BlockHash = []) :
    (L.foldl (jsonCodec.step env) am).BlockHash = m.BlockHash := by
  rw [foldl_proj (jsonCodec.step env) AbstractMessage.BlockHash
    (fun e b => if jsonCodec.resolve env e.1 = "BlockHash".toList then toString env e.2 else b)
    (jsonCodec.json_step_BlockHash env)]
  rw [jsonCodec.json_fold_field env m hfs htype "block_hash".toList "BlockHash".toList (by decide)
    (fun v _ => toString env v) (fun _ _ => rfl) _ L hL, (jsonCodec.get?_text env m).1, h0]
  split
  · rename_i h
    split at h
    · cases h
      rfl
    · cases h
  · rename_i h
    split at h
    · cases h
    · rename_i hne
      simp at hne
      exact hne.symm

theorem jsonCodec.json_fold_PrevHash (env : Env) (m am : AbstractMessage) (L : List (Str × JVal))
    (hfs : ∀ p ∈ jsonCodec.emittedFields, env.FieldSynonyms p.1 = some p.2)
    (htype : env.FieldSynonyms "type".toList = none)
    (hL : L.Perm (jsonCodec.canonicalOut env m)) (h0 : am.PrevHash = []) :
    (L.foldl (jsonCodec.step env) am).PrevHash = m.PrevHash := by
  rw [foldl_proj (jsonCodec.step env) AbstractMessage.PrevHash
    (fun e b => if jsonCodec.resolve env e.1 = "PrevHash".toList then toString env e.2 else b)
    (jsonCodec.json_step_PrevHash env)]
  rw [jsonCodec.json_fold_field env m hfs htype "prev_hash".toList "PrevHash".toList (by decide)
    (fun v _ => toString env v) (fun _ _ => rfl) _ L hL, (jsonCodec.get?_text env m).2.1, h0]
  split
  · rename_i h
    split at h
    · cases h
      rfl
    · cases h
  · rename_i h
    split at h
    · cases h
    · rename_i hne
      simp at hne
      exact hne.symm

theorem jsonCodec.json_fold_Proposer (env : Env) (m am : AbstractMessage) (L : List (Str × JVal))
    (hfs : ∀ p ∈ jsonCodec.emittedFields, env.FieldSynonyms p.1 = some p.2)
    (htype : env.FieldSynonyms "type".toList = none)
    (hL : L.Perm (jsonCodec.canonicalOut env m)) (h0 : am.Proposer = []) :
    (L.foldl (jsonCodec.step env) am).Proposer = m.Proposer := by
  rw [foldl_proj (jsonCodec.step env) AbstractMessage.Proposer
    (fun e b => if jsonCodec.resolve env e.1 = "Proposer".toList then toString env e.2 else b)
    (jsonCodec.json_step_Proposer env)]
  rw [jsonCodec.json_fold_field env m hfs htype "proposer".toList "Proposer".toList (by decide)
    (fun v _ => toString env v) (fun _ _ => rfl) _ L hL, (jsonCodec.get?_text env m).2.2.1, h0]
  split
  · rename_i h
    split at h
    · cases h
      rfl
    · cases h
  · rename_i h
    split at h
    · cases h
    · rename_i hne
      simp at hne
      exact hne.symm

theorem jsonCodec.json_fold_Validator (env : Env) (m am : AbstractMessage) (L : List (Str × JVal))
    (hfs : ∀ p ∈ jsonCodec.emittedFields, env.FieldSynonyms p.1 = some p.2)
    (htype : env.FieldSynonyms "type".toList = none)
    (hL : L.Perm (jsonCodec.canonicalOut env m)) (h0 : am.Validator = []) :
    (L.foldl (jsonCodec.step env) am).Validator = m.Validator := by
  rw [foldl_proj (jsonCodec.step env) AbstractMessage.Validator
    (fun e b => if jsonCodec.resolve env e.1 = "Validator".toList then toString env e.2 else b)
    (jsonCodec.json_step_Validator env)]
  rw [jsonCodec.json_fold_field env m hfs htype "validator".toList "Validator".toList (by decide)
    (fun v _ => toString env v) (fun _ _ => rfl) _ L hL, (jsonCodec.get?_text env m).2.2.2.1, h0]
  split
  · rename_i h
    split at h
    · cases h
      rfl
    · cases h
  · rename_i h
    split at h
    · cases h
    · rename_i hne
      simp at hne
      exact hne.symm

theorem jsonCodec.json_fold_Signature (env : Env) (m am : AbstractMessage) (L : List (Str × JVal))
    (hfs : ∀ p ∈ jsonCodec.emittedFields, env.FieldSynonyms p.1 = some p.2)
    (htype : env.FieldSynonyms "type".toList = none)
    (hL : L.Perm (jsonCodec.canonicalOut env m)) (h0 : am.Signature = []) :
    (L.foldl (jsonCodec.step env) am).Signature = m.Signature := by
  rw [foldl_proj (jsonCodec.step env) AbstractMessage.Signature
    (fun e b => if jsonCodec.resolve env e.1 = "Signature".toList then toString env e.2 else b)
    (jsonCodec.json_step_Signature env)]
  rw [jsonCodec.json_fold_field env m hfs htype "signature".toList "Signature".toList (by decide)
    (fun v _ => toString env v) (fun _ _ => rfl) _ L hL, (jsonCodec.get?_text env m).2.2.2.2, h0]
  split
  · rename_i h
    split at h
    · cases h
      rfl
    · cases h
  · rename_i h
    split at h
    · cases h
    · rename_i hne
      simp at hne
      exact hne.symm

theorem jsonCodec.json_fold_Timestamp (env : Env) (m am : AbstractMessage) (L : List (Str × JVal))
    (hfs : ∀ p ∈ jsonCodec.emittedFields, env.FieldSynonyms p.1 = some p.2)
    (htype : env.FieldSynonyms "type".toList = none)
    (hL : L.Perm (jsonCodec.canonicalOut env m)) (h0 : am.Timestamp = Time.zero)
    (htime : m.Timestamp.IsZero = false →
      env.parseRFC3339 (env.formatRFC3339 m.Timestamp) = some m.Timestamp) :
    (L.foldl (jsonCodec.step env) am).Timestamp = m.Timestamp := by
  rw [foldl_proj (jsonCodec.step env) AbstractMessage.Timestamp
    (fun e b => if jsonCodec.resolve env e.1 = "Timestamp".toList then toTime env e.2 else b)
    (jsonCodec.json_step_Timestamp env)]
  rw [jsonCodec.json_fold_field env m hfs htype "timestamp".toList "Timestamp".toList (by decide)
    (fun v _ => toTime env v) (fun _ _ => rfl) _ L hL, jsonCodec.json_get?_timestamp, h0]
  split
  · rename_i h
    split at h
    · rename_i hz
      cases h
      simp only [toTime, htime hz]
    · cases h
  · rename_i h
    split at h
    · cases h
    · rename_i hz
      simp at hz
      exact (Time.eq_zero_of_IsZero _ hz).symm

theorem jsonCodec.fold_CommitSeals (env : Env) (m am : AbstractMessage) (L : List (Str × JVal))
    (hfs : ∀ p ∈ jsonCodec.emittedFields, env.FieldSynonyms p.1 = some p.2)
    (htype : env.FieldSynonyms "type".toList = none)
    (hL : L.Perm (jsonCodec.canonicalOut env m)) (h0 : am.CommitSeals = none) :
    elems (L.foldl (jsonCodec.step env) am).CommitSeals = elems m.CommitSeals := by
  rw [foldl_proj (jsonCodec.step env) AbstractMessage.CommitSeals
    (fun e b => if jsonCodec.resolve env e.1 = "CommitSeals".toList then toStringSlice env e.2
      else b)
    (jsonCodec.json_step_CommitSeals env)]
  rw [jsonCodec.json_fold_field env m hfs htype "commit_seals".toList "CommitSeals".toList (by decide)
    (fun v _ => toStringSlice env v) (fun _ _ => rfl) _ L hL, (jsonCodec.get?_lists env m).1, h0]
  split
  · rename_i h
    split at h
    · cases h
      simp only [toStringSlice, map_toString_str]
      rfl
    · cases h
  · rename_i h
    split at h
    · cases h
    · rename_i hne
      rw [elems_eq_nil_of_len _ hne]
      rfl

theorem jsonCodec.viewChanges_idem (env : Env) (v : JVal) (b : Option (List ViewChangeEntry)) :
    jsonCodec.viewChanges env (jsonCodec.viewChanges env b v) v = jsonCodec.viewChanges env b v := by
  cases v <;> rfl

theorem jsonCodec.fold_ViewChanges (env : Env) (m am : AbstractMessage) (L : List (Str × JVal))
    (hfs : ∀ p ∈ jsonCodec.emittedFields, env.FieldSynonyms p.1 = some p.2)
    (htype : env.FieldSynonyms "type".toList = none)
    (hL : L.Perm (jsonCodec.canonicalOut env m)) (h0 : am.ViewChanges = none) :
    elems (L.foldl (jsonCodec.step env) am).ViewChanges = elems m.ViewChanges := by
  rw [foldl_proj (jsonCodec.step env) AbstractMessage.ViewChanges
    (fun e b => if jsonCodec.resolve env e.1 = "ViewChanges".toList then
      jsonCodec.viewChanges env b e.2 else b)
    (jsonCodec.json_step_ViewChanges env)]
  rw [jsonCodec.json_fold_field env m hfs htype "view_changes".toList "ViewChanges".toList (by decide)
    (fun v b => jsonCodec.viewChanges env b v) (jsonCodec.viewChanges_idem env) _ L hL,
    (jsonCodec.get?_lists env m).2, h0]
  split
  · rename_i h
    split at h
    · cases h
      simp only [jsonCodec.viewChanges, jsonCodec.filterMap_vcItem]
      rfl
    · cases h
  · rename_i h
    split at h
    · cases h
    · rename_i hne
      rw [elems_eq_nil_of_len _ hne]
      rfl

/-- C1 (amended): JSON round trip.  For every message with empty `Extras`
whose texts are valid UTF-8 (every `Str` is), parsing without a type override
what `jsonCodec.Serialize` wrote succeeds and reproduces `Type`, `Height`,
`Round`, `View` (any integer), `Timestamp`, the five text fields,
`CommitSeals` and `ViewChanges` (absent and empty lists taken as equal),
whatever order `range` visits the decoded keys in.  Hypotheses: the field
synonym table maps each emitted key to its canonical field and leaves `type`
unmapped, the phase synonym table does not rename the type, RFC 3339 parsing
inverts the formatting of the message's timestamp, and `json.Unmarshal`
decodes what `json.Marshal` wrote for the message back to the same value. -/
theorem C1_json_round_trip (env : Env) (m : AbstractMessage) (opts : ParseOptions)
    (hrange : ∀ (α : Type) (s : Loop) (l : GoMap α), (env.range s l).Perm l)
    (hextras : elems m.Extras = [])
    (hfs : ∀ p ∈ jsonCodec.emittedFields, env.FieldSynonyms p.1 = some p.2)
    (htype : env.FieldSynonyms "type".toList = none)
    (hphase : env.PhaseSynonyms m.Typ = none ∨ env.PhaseSynonyms m.Typ = some m.Typ)
    (htime : m.Timestamp.IsZero = false →
      env.parseRFC3339 (env.formatRFC3339 m.Timestamp) = some m.Timestamp)
    (hjson : env.jsonUnmarshal (env.jsonMarshal (.obj (jsonCodec.buildOut env m))) =
      .ok (.obj (jsonCodec.buildOut env m)))
    (hopts : opts.OverrideMsgType = []) :
    ∃ data p, jsonCodec.Serialize env m = .ok data ∧ jsonCodec.Parse env data opts = .ok p ∧
      p.Typ = m.Typ ∧ p.Height = m.Height ∧ p.Round = m.Round ∧ p.View = m.View ∧
      p.Timestamp = m.Timestamp ∧ p.BlockHash = m.BlockHash ∧ p.PrevHash = m.PrevHash ∧
      p.Proposer = m.Proposer ∧ p.Validator = m.Validator ∧ p.Signature = m.Signature ∧
      elems p.CommitSeals = elems m.CommitSeals ∧ elems p.ViewChanges = elems m.ViewChanges := by
  have hout := jsonCodec.buildOut_no_extras env m hrange hextras
  have hL := hrange JVal .jsonParse (jsonCodec.canonicalOut env m)
  have hparse := jsonCodec.parse_of_decoded env _ opts _ hjson
  rw [hout] at hparse
  refine ⟨env.jsonMarshal (.obj (jsonCodec.canonicalOut env m)), _, ?_, hparse, ?_, ?_⟩
  · unfold jsonCodec.Serialize
    rw [hout]
  · rw [jsonCodec.json_fold_Typ]
    simp only [jsonCodec.init, hopts, jsonCodec.get?_type]
    rcases hphase with h | h <;> simp [h]
  · exact ⟨jsonCodec.json_fold_Height env m _ _ hfs htype hL rfl,
      jsonCodec.json_fold_Round env m _ _ hfs htype hL rfl,
      jsonCodec.json_fold_View env m _ _ hfs htype hL rfl,
      jsonCodec.json_fold_Timestamp env m _ _ hfs htype hL rfl htime,
      jsonCodec.json_fold_BlockHash env m _ _ hfs htype hL rfl,
      jsonCodec.json_fold_PrevHash env m _ _ hfs htype hL rfl,
      jsonCodec.json_fold_Proposer env m _ _ hfs htype hL rfl,
      jsonCodec.json_fold_Validator env m _ _ hfs htype hL rfl,
      jsonCodec.json_fold_Signature env m _ _ hfs htype hL rfl,
      jsonCodec.fold_CommitSeals env m _ _ hfs htype hL rfl,
      jsonCodec.fold_ViewChanges env m _ _ hfs htype hL rfl⟩

theorem sampleEnv_json_round_trip (v : JVal) (h : json.roundTrips v = true) :
    sampleEnv.jsonUnmarshal (sampleEnv.jsonMarshal v) = .ok v := by
  have h1 : sampleEnv.jsonUnmarshal = json.unmarshal := rfl
  have h2 : sampleEnv.jsonMarshal = json.marshal := rfl
  rw [h1, h2]
  exact json.unmarshal_eq_ok _ _ h

/-- C1 at the sample message of the test application (without `Extras`), with
the executable models of `encoding/json` and of the RFC 3339 layout, and a
height beyond the signed 64-bit range. -/
theorem C1_json_round_trip_witness :
    ∃ data p,
      jsonCodec.Serialize sampleEnv sampleBigHeight = .ok data ∧
      jsonCodec.Parse sampleEnv data (ParseOptions.ofFormat "json".toList) = .ok p ∧
      p.Typ = "Proposal".toList ∧ p.Height = some (2 ^ 70) ∧ p.Round = some 2 ∧
      p.Signature = "SIG_ORIG".toList ∧
      elems p.CommitSeals = ["seal A".toList, "seal B".toList] := by
  obtain ⟨data, p, h1, h2, h3, h4, h5, _, _, _, _, _, _, h6, h7, _⟩ :=
    C1_json_round_trip sampleEnv sampleBigHeight
      (ParseOptions.ofFormat "json".toList)
      (fun _ _ l => List.Perm.refl l) rfl (by decide!) (by decide!) (Or.inr (by decide!))
      (fun _ => by decide!) (sampleEnv_json_round_trip _ (by decide!)) rfl
  exact ⟨data, p, h1, h2, h3, h4, h5, h6, h7⟩

/-! ## Native JSON numbers -/

/-- C9, evaluated at the failing input: the text `{"height":9007199254740993}`
(`2^53 + 1` as a native JSON number) parses to `Height = 9007199254740992`,
because the number is decoded as a `float64` and converted with `int64(t)`. -/
theorem C9_native_number_loses_precision :
    ((jsonCodec.Parse sampleEnv "\x7b\"height\":9007199254740993\x7d".toList
      (ParseOptions.ofFormat "json".toList)).toOption.map (fun p => p.Height)) =
      some (some 9007199254740992) ∧
    toBigIntPtr sampleEnv (.number "9007199254740993".toList) = some 9007199254740993 := by
  constructor
  · decide!
  · decide!

/-! ## `Extras` across a JSON round trip -/

theorem get?_foldl_condSet {α β : Type} (P : Str → Prop) [DecidablePred P] (f : α → β)
    (L : GoMap α) (hn : (GoMap.keys L).Nodup) (m0 : GoMap β) (k : Str) :
    GoMap.get? (L.foldl (fun mp e => if P e.1 then mp else GoMap.set mp e.1 (f e.2)) m0) k =
      match GoMap.get? L k with
      | some v => if P k then GoMap.get? m0 k else some (f v)
      | none => GoMap.get? m0 k := by
  induction L generalizing m0 with
  | nil => rfl
  | cons a t ih =>
    obtain ⟨k1, v1⟩ := a
    rw [GoMap.keys_cons] at hn
    obtain ⟨hn1, hn2⟩ := List.nodup_cons.mp hn
    rw [List.foldl_cons, ih hn2]
    by_cases hk : k1 = k
    · subst hk
      rw [GoMap.get?_eq_none hn1]
      simp only [GoMap.get?, if_true]
      by_cases hP : P k1
      · simp [hP]
      · simp [hP, GoMap.get?_set]
    · have hk' : ¬k = k1 := fun e => hk e.symm
      have hm : GoMap.get? (if P k1 then m0 else GoMap.set m0 k1 (f v1)) k = GoMap.get? m0 k := by
        by_cases hP : P k1
        · simp [hP]
        · simp [hP, GoMap.get?_set, hk']
      simp only [GoMap.get?, if_neg hk, hm]

theorem jsonCodec.json_fold_Extras (env : Env) (am : AbstractMessage) (L : List (Str × JVal)) :
    elems (L.foldl (jsonCodec.step env) am).Extras =
      L.foldl (fun mp e => if jsonCodec.resolve env e.1 ∈ jsonCodec.switchNames then mp
        else GoMap.set mp e.1 (env.jsonMarshal e.2)) (elems am.Extras) := by
  apply foldl_proj (jsonCodec.step env) (fun am => elems am.Extras)
    (fun e mp => if jsonCodec.resolve env e.1 ∈ jsonCodec.switchNames then mp
        else GoMap.set mp e.1 (env.jsonMarshal e.2))
  intro s i
  simp only [jsonCodec.json_step_Extras]
  split <;> rfl

theorem jsonCodec.WF_buildOut (env : Env) (m : AbstractMessage) :
    GoMap.WF (jsonCodec.buildOut env m) :=
  jsonCodec.WF_merge env _ _ (jsonCodec.WF_canonicalOut env m)

/-- C5 (amended): for every message whose `Extras` keys are neither `type`,
nor a canonical field name, nor a key of the field synonym table, the message
parsed back from `jsonCodec.Serialize` has exactly the keys of `m.Extras` in
its `Extras`, and under each key the compact JSON encoding of the value the
serializer emitted for it: of the JSON value the original bytes decode to or,
when they are not JSON text, of the bytes as a JSON string.  Hypotheses as for
the JSON round trip of the canonical fields. -/
theorem C5_json_extras_reencoded (env : Env) (m : AbstractMessage) (opts : ParseOptions)
    (hrange : ∀ (α : Type) (s : Loop) (l : GoMap α), (env.range s l).Perm l)
    (hwf : GoMap.WF (elems m.Extras))
    (hkeys : ∀ k ∈ GoMap.keys (elems m.Extras),
      k ∉ jsonCodec.switchNames ∧ env.FieldSynonyms k = none)
    (hfs : ∀ p ∈ jsonCodec.emittedFields, env.FieldSynonyms p.1 = some p.2)
    (htype : env.FieldSynonyms "type".toList = none)
    (hjson : env.jsonUnmarshal (env.jsonMarshal (.obj (jsonCodec.buildOut env m))) =
      .ok (.obj (jsonCodec.buildOut env m))) :
    ∃ data p, jsonCodec.Serialize env m = .ok data ∧ jsonCodec.Parse env data opts = .ok p ∧
      ∀ k, GoMap.get? (elems p.Extras) k =
        (GoMap.get? (elems m.Extras) k).map
          (fun v => env.jsonMarshal (jsonCodec.extraValue env v)) := by
  have hwfo := jsonCodec.WF_buildOut env m
  have hL := hrange JVal .jsonParse (jsonCodec.buildOut env m)
  have hnd : (GoMap.keys (env.range .jsonParse (jsonCodec.buildOut env m))).Nodup :=
    (hL.map Prod.fst).nodup_iff.mpr hwfo.nodup
  refine ⟨_, _, rfl, jsonCodec.parse_of_decoded env _ opts _ hjson, ?_⟩
  intro k
  rw [jsonCodec.json_fold_Extras,
    get?_foldl_condSet (fun k => jsonCodec.resolve env k ∈ jsonCodec.switchNames)
      env.jsonMarshal _ hnd,
    get?_perm _ _ hL hwfo.nodup, jsonCodec.get?_buildOut,
    get?_perm _ _ (hrange Str .jsonSerialize (elems m.Extras)) hwf.nodup]
  have hsw : ∀ p ∈ jsonCodec.emittedFields, p.2 ∈ jsonCodec.switchNames := by decide
  have hinit : GoMap.get? (elems (jsonCodec.init env
      (env.jsonMarshal (.obj (jsonCodec.buildOut env m))) opts
      (jsonCodec.buildOut env m)).Extras) k = none := rfl
  cases hx : GoMap.get? (elems m.Extras) k with
  | some v =>
    obtain ⟨h1, h2⟩ := hkeys k (GoMap.mem_keys_of_get? hx)
    have hc : GoMap.get? (jsonCodec.canonicalOut env m) k = none := by
      apply jsonCodec.canonicalOut_none
      intro c hc
      rcases jsonCodec.json_key_emitted env m k c hc with h | ⟨F, h⟩
      · subst h
        exact h1 (by decide)
      · have := hfs _ h
        simp only at this
        rw [h2] at this
        cases this
    have hr : jsonCodec.resolve env k = k := by
      unfold jsonCodec.resolve
      rw [h2]
    simp only [hc, Option.map_some', hr, if_neg h1]
  | none =>
    cases hc : GoMap.get? (jsonCodec.canonicalOut env m) k with
    | none => simp only [Option.map_none', hinit]
    | some c =>
      have hP : jsonCodec.resolve env k ∈ jsonCodec.switchNames := by
        rcases jsonCodec.json_key_emitted env m k c hc with h | ⟨F, h⟩
        · subst h
          rw [jsonCodec.resolve_type env htype]
          decide
        · have := jsonCodec.resolve_emitted env hfs _ h
          simp only at this
          rw [this]
          exact hsw _ h
      simp only [Option.map_none', if_pos hP, hinit]

/-- C5 (amended) at the sample message: the payload `hello` comes back as the
JSON string literal, quotes included. -/
theorem C5_json_extras_reencoded_witness :
    ∃ data p, jsonCodec.Serialize sampleEnv sampleMessage = .ok data ∧
      jsonCodec.Parse sampleEnv data (ParseOptions.ofFormat "json".toList) = .ok p ∧
      GoMap.get? (elems p.Extras) "payload".toList = some "\"hello\"".toList ∧
      GoMap.get? (elems p.Extras) "height".toList = none := by
  obtain ⟨data, p, h1, h2, h3⟩ := C5_json_extras_reencoded sampleEnv sampleMessage
    (ParseOptions.ofFormat "json".toList) (fun _ _ l => List.Perm.refl l) (by decide)
    (by decide!) (by decide!) (by decide!) (sampleEnv_json_round_trip _ (by decide!))
  refine ⟨data, p, h1, h2, ?_, ?_⟩
  · rw [h3]
    decide!
  · rw [h3]
    decide!

/-- C5 fails as stated: the sample message's `Extras` entry `payload`, whose
key is neither `type`, nor a canonical field name, nor in the field synonym
table, holds the bytes `hello` before the JSON round trip and the bytes
`"hello"` after it. -/
theorem C5_counterexample_payload_quoted :
    "payload".toList ∉ jsonCodec.switchNames ∧
    sampleEnv.FieldSynonyms "payload".toList = none ∧
    GoMap.get? (elems sampleMessage.Extras) "payload".toList = some "hello".toList ∧
    ((jsonCodec.Serialize sampleEnv sampleMessage).toOption.bind (fun data =>
      (jsonCodec.Parse sampleEnv data (ParseOptions.ofFormat "json".toList)).toOption)).map
      (fun p => GoMap.get? (elems p.Extras) "payload".toList) =
      some (some "\"hello\"".toList) := by
  refine ⟨by decide, by decide!, by decide!, by decide!⟩

/-! ## The generic-text codec at the sample message -/

/-- C3, evaluated at the failing input (the sample message, whose
`CommitSeals` are `seal A` and `seal B`): `SerializeGeneric` joins the seals
with commas, and `genericCodec.Parse`, which splits the body on every comma
before it looks at the keys, gives back `seal A` alone. -/
theorem C3_generic_commit_seals_cut :
    (genericCodec.Serialize sampleEnv sampleMessage).toOption = some
      ("Proposal(height=1000,round=2,view=0,block_hash=0xdeadbeef,prev_hash=0xfeedbead," ++
        "timestamp=2024-01-01T00:00:00Z,proposer=node 1,validator=node 1,signature=SIG_ORIG," ++
        "commit_seals=seal A,seal B,payload=hello)").toList ∧
    ((genericCodec.Serialize sampleEnv sampleMessage).toOption.bind (fun data =>
      (genericCodec.Parse sampleEnv data (ParseOptions.ofFormat "generic".toList)).toOption)).map (fun p => p.CommitSeals) =
      some (some ["seal A".toList]) ∧
    sampleMessage.CommitSeals = some ["seal A".toList, "seal B".toList] := by
  refine ⟨by decide!, by decide!, rfl⟩

/-- C4, evaluated at the failing input (the sample message, which has one
`ViewChanges` entry): the text `SerializeGeneric` writes has no key for the
view changes, so the message parsed back has none; the parser itself reads
the `view:height:validator:signature` form. -/
theorem C4_generic_view_changes_not_written :
    (genericCodec.Serialize sampleEnv sampleMessage).toOption = some
      ("Proposal(height=1000,round=2,view=0,block_hash=0xdeadbeef,prev_hash=0xfeedbead," ++
        "timestamp=2024-01-01T00:00:00Z,proposer=node 1,validator=node 1,signature=SIG_ORIG," ++
        "commit_seals=seal A,seal B,payload=hello)").toList ∧
    ((genericCodec.Serialize sampleEnv sampleMessage).toOption.bind (fun data =>
      (genericCodec.Parse sampleEnv data (ParseOptions.ofFormat "generic".toList)).toOption)).map (fun p => p.ViewChanges) =
      some none ∧
    sampleMessage.ViewChanges = some [⟨some 1, some 1000, "node 2".toList, "vc_sig".toList⟩] ∧
    (genericCodec.Parse sampleEnv
      "Proposal(view_changes=1:1000:node 2:vc_sig)".toList
      (ParseOptions.ofFormat "generic".toList)).toOption.map (fun p => p.ViewChanges) =
      some (some [⟨some 1, some 1000, "node 2".toList, "vc_sig".toList⟩]) := by
  refine ⟨by decide!, by decide!, rfl, by decide!⟩

/-- C8, evaluated at the failing input (the sample message, `Height` 1000,
with the additional `Extras` entry `height` = `99`): `SerializeGeneric` writes
`height=1000` and later `height=99`, and the message parsed back has
`Height` 99. -/
theorem C8_generic_extras_overrides_height :
    (genericCodec.Serialize sampleEnv sampleWithExtraHeight).toOption = some
      ("Proposal(height=1000,round=2,view=0,block_hash=0xdeadbeef,prev_hash=0xfeedbead," ++
        "timestamp=2024-01-01T00:00:00Z,proposer=node 1,validator=node 1,signature=SIG_ORIG," ++
        "commit_seals=seal A,seal B,height=99,payload=hello)").toList ∧
    ((genericCodec.Serialize sampleEnv sampleWithExtraHeight).toOption.bind (fun data =>
      (genericCodec.Parse sampleEnv data (ParseOptions.ofFormat "generic".toList)).toOption)).map (fun p => p.Height) =
      some (some 99) ∧
    sampleWithExtraHeight.Height = some 1000 := by
  refine ⟨by decide!, by decide!, rfl⟩

/-! ## Joining and splitting the parts of the generic form -/

theorem Join_nil (c : Char) : strings.Join [] c = [] := rfl

theorem Join_singleton (x : Str) (c : Char) : strings.Join [x] c = x := by
  simp [strings.Join, List.intercalate, List.intersperse]

theorem Join_cons_cons (x y : Str) (l : List Str) (c : Char) :
    strings.Join (x :: y :: l) c = x ++ c :: strings.Join (y :: l) c := by
  simp [strings.Join, List.intercalate, List.intersperse]

theorem Join_append_cons (A : List Str) (x y : Str) (B : List Str) (c : Char) :
    strings.Join (x :: A ++ y :: B) c = strings.Join (x :: A) c ++ c :: strings.Join (y :: B) c := by
  induction A generalizing x with
  | nil => rw [List.cons_append, List.nil_append, Join_cons_cons, Join_singleton]
  | cons a A ih =>
    rw [List.cons_append, List.cons_append, Join_cons_cons, ← List.cons_append, ih a,
      Join_cons_cons]
    simp

theorem Join_prepend (pre x : Str) (l : List Str) (c : Char) :
    pre ++ strings.Join (x :: l) c = strings.Join ((pre ++ x) :: l) c := by
  cases l with
  | nil => rw [Join_singleton, Join_singleton]
  | cons y l => rw [Join_cons_cons, Join_cons_cons, List.append_assoc]

theorem Join_flatten (A B : List Str) (x : Str) (X : List Str) (c : Char) :
    strings.Join (A ++ strings.Join (x :: X) c :: B) c = strings.Join (A ++ (x :: X) ++ B) c := by
  have key : ∀ (B : List Str), strings.Join (strings.Join (x :: X) c :: B) c =
      strings.Join ((x :: X) ++ B) c := by
    intro B
    cases B with
    | nil => rw [Join_singleton, List.append_nil]
    | cons b B => rw [Join_cons_cons, Join_append_cons]
  cases A with
  | nil => simpa using key B
  | cons a A =>
    rw [Join_append_cons, key B, List.append_assoc, List.cons_append x, Join_append_cons]

theorem TrimSpace_ne_nil_of_mem (s : Str) (c : Char) (hc : c ∈ s) (hs : isSpace c = false) :
    strings.TrimSpace s ≠ [] := by
  unfold strings.TrimSpace
  intro h
  have hall := List.rdropWhile_eq_nil_iff.mp h
  by_cases hd : s.dropWhile isSpace = []
  · have := List.dropWhile_eq_nil_iff.mp hd c hc
    rw [hs] at this
    cases this
  · have h1 := hall _ (List.head_mem hd)
    have h2 := List.head_dropWhile_not isSpace s hd
    rw [h1] at h2
    cases h2

theorem map_ite_singleton {α β : Type} (c : Prop) [Decidable c] (a : α) (f : α → β) :
    (if c then [a] else []).map f = if c then [f a] else [] := by
  split <;> rfl

theorem SerializeGeneric.canonicalParts_eq (env : Env) (am : AbstractMessage) :
    SerializeGeneric.canonicalParts env am =
      (SerializeGeneric.scalarPairs env am).map seg ++
        (if 0 < len am.CommitSeals then
          ["commit_seals=".toList ++ strings.Join (elems am.CommitSeals) ','] else []) := by
  unfold SerializeGeneric.canonicalParts SerializeGeneric.scalarPairs
  cases am.Height <;> cases am.Round <;> cases am.View <;>
    simp only [List.map_append, map_ite_singleton, List.map_cons, List.map_nil, seg] <;> rfl

theorem SerializeGeneric.body_eq (env : Env) (am : AbstractMessage) :
    strings.Join (SerializeGeneric.canonicalParts env am ++ SerializeGeneric.extrasParts env am) ',' =
      strings.Join (SerializeGeneric.segs env am) ',' := by
  rw [SerializeGeneric.canonicalParts_eq]
  unfold SerializeGeneric.segs SerializeGeneric.sealSegs SerializeGeneric.extrasParts len
  have hx : (fun kv : Str × Str => kv.1 ++ '=' :: kv.2) = seg := rfl
  rw [hx]
  cases hcs : elems am.CommitSeals with
  | nil =>
    unfold elems at hcs
    simp [hcs]
  | cons c rest =>
    unfold elems at hcs
    simp only [hcs, List.length_cons, Nat.zero_lt_succ, if_true]
    rw [Join_prepend, List.append_assoc, List.singleton_append, Join_flatten]

theorem GenericSafe_of_plain (s : Str) (h : ∀ c ∈ s, plainChar c) : GenericSafe s := by
  refine ⟨fun hm => (h _ hm).1 rfl, fun hm => (h _ hm).2.1 rfl, fun hm => (h _ hm).2.2.1 rfl,
    fun hm => (h _ hm).2.2.2.1 rfl, ?_⟩
  rw [TrimSpace_eq_self_iff]
  constructor
  · intro c hc
    exact (h c (List.mem_of_mem_head? hc)).2.2.2.2
  · intro c hc
    exact (h c (List.mem_of_mem_getLast? hc)).2.2.2.2

theorem GenericSafe_String (x : Int) : GenericSafe (big.String x) :=
  GenericSafe_of_plain _ (plainChar_String x).2

theorem step_seg (m : GoMap Str) (kv : Str × Str) (h : PairSafe kv) :
    SplitKeyValuePairs.step m (seg kv) = GoMap.set m kv.1 kv.2 := by
  unfold SplitKeyValuePairs.step seg
  rw [SplitN2_pair _ _ _ h.1.2.1]
  simp only [h.1.2.2.2.2, h.2.2.2.2.2]

theorem step_junk (m : GoMap Str) (s : Str) (h : '=' ∉ s) : SplitKeyValuePairs.step m s = m := by
  unfold SplitKeyValuePairs.step
  rw [SplitN2_single _ _ h]

theorem foldl_step_segs (m : GoMap Str) (ps : List (Str × Str)) (h : ∀ p ∈ ps, PairSafe p) :
    (ps.map seg).foldl SplitKeyValuePairs.step m = setAll m ps := by
  induction ps generalizing m with
  | nil => rfl
  | cons p t ih =>
    rw [List.map_cons, List.foldl_cons, step_seg _ _ (h p (List.mem_cons_self _ _)), setAll_cons]
    exact ih _ (fun q hq => h q (List.mem_cons_of_mem _ hq))

theorem foldl_step_junk (m : GoMap Str) (l : List Str) (h : ∀ s ∈ l, '=' ∉ s) :
    l.foldl SplitKeyValuePairs.step m = m := by
  induction l generalizing m with
  | nil => rfl
  | cons s t ih =>
    rw [List.foldl_cons, step_junk _ _ (h s (List.mem_cons_self _ _))]
    exact ih _ (fun q hq => h q (List.mem_cons_of_mem _ hq))

theorem foldl_step_seals (m : GoMap Str) (am : AbstractMessage)
    (h : ∀ c ∈ elems am.CommitSeals, GenericSafe c) :
    (SerializeGeneric.sealSegs am).foldl SplitKeyValuePairs.step m =
      setAll m (SerializeGeneric.sealPairs am) := by
  unfold SerializeGeneric.sealSegs SerializeGeneric.sealPairs
  cases hcs : elems am.CommitSeals with
  | nil => rfl
  | cons c rest =>
    rw [hcs] at h
    simp only
    have hk : GenericSafe "commit_seals".toList := by decide
    have hp : PairSafe ("commit_seals".toList, c) := ⟨hk, h c (List.mem_cons_self _ _)⟩
    have hseg : "commit_seals=".toList ++ c = seg ("commit_seals".toList, c) := rfl
    rw [List.foldl_cons, hseg, step_seg _ _ hp,
      foldl_step_junk _ rest (fun s hs => (h s (List.mem_cons_of_mem _ hs)).2.1)]
    rfl

theorem SerializeGeneric.mem_scalarPairs (env : Env) (am : AbstractMessage) (e : Str × Str) :
    e ∈ SerializeGeneric.scalarPairs env am ↔
      (∃ h, am.Height = some h ∧ e = ("height".toList, big.String h)) ∨
      (∃ r, am.Round = some r ∧ e = ("round".toList, big.String r)) ∨
      (∃ v, am.View = some v ∧ e = ("view".toList, big.String v)) ∨
      (am.BlockHash ≠ [] ∧ e = ("block_hash".toList, am.BlockHash)) ∨
      (am.PrevHash ≠ [] ∧ e = ("prev_hash".toList, am.PrevHash)) ∨
      (am.Timestamp.IsZero = false ∧ e = ("timestamp".toList, env.formatRFC3339 am.Timestamp)) ∨
      (am.Proposer ≠ [] ∧ e = ("proposer".toList, am.Proposer)) ∨
      (am.Validator ≠ [] ∧ e = ("validator".toList, am.Validator)) ∨
      (am.Signature ≠ [] ∧ e = ("signature".toList, am.Signature)) := by
  unfold SerializeGeneric.scalarPairs
  cases am.Height <;> cases am.Round <;> cases am.View <;>
    simp [mem_ite_singleton, or_assoc]

theorem SerializeGeneric.mem_sealPairs (am : AbstractMessage) (e : Str × Str) :
    e ∈ SerializeGeneric.sealPairs am ↔
      ∃ c rest, elems am.CommitSeals = c :: rest ∧ e = ("commit_seals".toList, c) := by
  unfold SerializeGeneric.sealPairs
  cases elems am.CommitSeals with
  | nil => simp
  | cons c rest => simp

theorem SerializeGeneric.scalarPairs_safe (env : Env) (am : AbstractMessage)
    (hbh : GenericSafe am.BlockHash) (hph : GenericSafe am.PrevHash)
    (hpr : GenericSafe am.Proposer) (hva : GenericSafe am.Validator)
    (hsi : GenericSafe am.Signature)
    (hts : am.Timestamp.IsZero = false → GenericSafe (env.formatRFC3339 am.Timestamp)) :
    ∀ p ∈ SerializeGeneric.scalarPairs env am, PairSafe p := by
  intro p hp
  rw [SerializeGeneric.mem_scalarPairs] at hp
  have k1 : GenericSafe "height".toList := by decide
  have k2 : GenericSafe "round".toList := by decide
  have k3 : GenericSafe "view".toList := by decide
  have k4 : GenericSafe "block_hash".toList := by decide
  have k5 : GenericSafe "prev_hash".toList := by decide
  have k6 : GenericSafe "timestamp".toList := by decide
  have k7 : GenericSafe "proposer".toList := by decide
  have k8 : GenericSafe "validator".toList := by decide
  have k9 : GenericSafe "signature".toList := by decide
  rcases hp with ⟨h, _, rfl⟩ | ⟨h, _, rfl⟩ | ⟨h, _, rfl⟩ | ⟨_, rfl⟩ | ⟨_, rfl⟩ | ⟨hz, rfl⟩ |
    ⟨_, rfl⟩ | ⟨_, rfl⟩ | ⟨_, rfl⟩
  · exact ⟨k1, GenericSafe_String h⟩
  · exact ⟨k2, GenericSafe_String h⟩
  · exact ⟨k3, GenericSafe_String h⟩
  · exact ⟨k4, hbh⟩
  · exact ⟨k5, hph⟩
  · exact ⟨k6, hts hz⟩
  · exact ⟨k7, hpr⟩
  · exact ⟨k8, hva⟩
  · exact ⟨k9, hsi⟩

theorem mem_Join (l : List Str) (sep : Char) (s : Str) (c : Char) (hs : s ∈ l) (hc : c ∈ s) :
    c ∈ strings.Join l sep := by
  induction l with
  | nil => simp at hs
  | cons x t ih =>
    cases t with
    | nil =>
      rw [Join_singleton]
      simp only [List.mem_singleton] at hs
      exact hs ▸ hc
    | cons y t =>
      rw [Join_cons_cons]
      rcases List.mem_cons.mp hs with h | h
      · exact List.mem_append_left _ (h ▸ hc)
      · exact List.mem_append_right _ (List.mem_cons_of_mem _ (ih h))

theorem not_mem_seg (kv : Str × Str) (h : PairSafe kv) : ',' ∉ seg kv := by
  unfold seg
  intro hm
  rcases List.mem_append.mp hm with hm | hm
  · exact h.1.1 hm
  · rcases List.mem_cons.mp hm with hm | hm
    · cases hm
    · exact h.2.1 hm

theorem SerializeGeneric.split_body (env : Env) (am : AbstractMessage)
    (hsc : ∀ p ∈ SerializeGeneric.scalarPairs env am, PairSafe p)
    (hcs : ∀ c ∈ elems am.CommitSeals, GenericSafe c)
    (hex : ∀ p ∈ env.range .genericSerialize (elems am.Extras), PairSafe p) :
    SplitKeyValuePairs
      (strings.Join (SerializeGeneric.canonicalParts env am ++
        SerializeGeneric.extrasParts env am) ',') =
      setAll [] (SerializeGeneric.pairs env am) := by
  rw [SerializeGeneric.body_eq]
  have hfold : (SerializeGeneric.segs env am).foldl SplitKeyValuePairs.step [] =
      setAll [] (SerializeGeneric.pairs env am) := by
    unfold SerializeGeneric.segs SerializeGeneric.pairs
    rw [List.foldl_append, List.foldl_append, foldl_step_segs _ _ hsc, foldl_step_seals _ _ hcs,
      foldl_step_segs _ _ hex, setAll_append, setAll_append]
  unfold SplitKeyValuePairs
  by_cases hsegs : SerializeGeneric.segs env am = []
  · rw [hsegs] at hfold
    rw [hsegs, Join_nil]
    have : strings.TrimSpace [] = [] := rfl
    rw [if_pos this]
    exact hfold
  · have hcomma : ∀ s ∈ SerializeGeneric.segs env am, ',' ∉ s := by
      intro s hs
      unfold SerializeGeneric.segs at hs
      rcases List.mem_append.mp hs with hs | hs
      · rcases List.mem_append.mp hs with hs | hs
        · obtain ⟨p, hp, rfl⟩ := List.mem_map.mp hs
          exact not_mem_seg p (hsc p hp)
        · unfold SerializeGeneric.sealSegs at hs
          cases hcs' : elems am.CommitSeals with
          | nil => simp [hcs'] at hs
          | cons c rest =>
            rw [hcs'] at hs hcs
            simp only [List.mem_cons] at hs
            rcases hs with rfl | hs
            · have hk : GenericSafe "commit_seals".toList := by decide
              exact not_mem_seg ("commit_seals".toList, c) ⟨hk, hcs c (List.mem_cons_self _ _)⟩
            · exact (hcs s (List.mem_cons_of_mem _ hs)).1
      · obtain ⟨p, hp, rfl⟩ := List.mem_map.mp hs
        exact not_mem_seg p (hex p hp)
    have heq : ∃ s ∈ SerializeGeneric.segs env am, '=' ∈ s := by
      cases hseg : SerializeGeneric.segs env am with
      | nil => exact absurd hseg hsegs
      | cons s0 t =>
        refine ⟨s0, List.mem_cons_self _ _, ?_⟩
        unfold SerializeGeneric.segs at hseg
        have hseg' : s0 ∈ (SerializeGeneric.scalarPairs env am).map seg ++
            SerializeGeneric.sealSegs am ++ (env.range .genericSerialize (elems am.Extras)).map seg := by
          rw [hseg]
          exact List.mem_cons_self _ _
        cases hsp : SerializeGeneric.scalarPairs env am with
        | cons p t' =>
          rw [hsp] at hseg
          simp only [List.map_cons, List.cons_append, List.cons.injEq] at hseg
          rw [← hseg.1]
          simp [seg]
        | nil =>
          rw [hsp] at hseg
          unfold SerializeGeneric.sealSegs at hseg
          cases hcs' : elems am.CommitSeals with
          | cons c rest =>
            rw [hcs'] at hseg
            simp only [List.map_nil, List.nil_append, List.cons_append, List.cons.injEq] at hseg
            rw [← hseg.1]
            simp
          | nil =>
            rw [hcs'] at hseg
            simp only [List.map_nil, List.nil_append] at hseg
            cases hr : env.range .genericSerialize (elems am.Extras) with
            | nil => rw [hr] at hseg; simp at hseg
            | cons p t' =>
              rw [hr] at hseg
              simp only [List.map_cons, List.cons.injEq] at hseg
              rw [← hseg.1]
              simp [seg]
    obtain ⟨s, hs, he⟩ := heq
    have hne := TrimSpace_ne_nil_of_mem _ '=' (mem_Join _ ',' s '=' hs he) (by decide)
    rw [if_neg hne, Split_Join _ _ hsegs hcomma]
    exact hfold

theorem SerializeGeneric_trimmed (env : Env) (am : AbstractMessage) (htyp : GenericSafe am.Typ) :
    strings.TrimSpace (SerializeGeneric env am) = SerializeGeneric env am := by
  rw [TrimSpace_eq_self_iff]
  unfold SerializeGeneric
  constructor
  · intro c hc
    cases hT : am.Typ with
    | nil =>
      rw [hT] at hc
      simp only [List.nil_append, List.cons_append, List.head?_cons, Option.some.injEq] at hc
      rw [← hc]
      decide
    | cons t ts =>
      rw [hT] at hc
      simp only [List.cons_append, List.head?_cons, Option.some.injEq] at hc
      have := ((TrimSpace_eq_self_iff am.Typ).mp htyp.2.2.2.2).1 t (by rw [hT]; rfl)
      rw [← hc]
      exact this
  · intro c hc
    have e : am.Typ ++ '(' :: strings.Join (SerializeGeneric.canonicalParts env am ++
        SerializeGeneric.extrasParts env am) ',' ++ [')'] =
        (am.Typ ++ '(' :: strings.Join (SerializeGeneric.canonicalParts env am ++
        SerializeGeneric.extrasParts env am) ',') ++ [')'] := by simp
    rw [e, List.getLast?_append] at hc
    have hc' : some ')' = some c := by simpa [Option.or] using hc
    cases hc'
    decide

theorem genericCodec.parse_serialize (env : Env) (am : AbstractMessage) (opts : ParseOptions)
    (htyp : GenericSafe am.Typ) :
    genericCodec.Parse env (SerializeGeneric env am) opts =
      .ok ((env.range .genericParse (SplitKeyValuePairs (strings.Join (SerializeGeneric.canonicalParts env am ++
        SerializeGeneric.extrasParts env am) ','))).foldl (genericCodec.step env)
        (genericCodec.init env (SerializeGeneric env am) am.Typ)) := by
  have hS : SerializeGeneric env am = am.Typ ++ '(' ::
      strings.Join (SerializeGeneric.canonicalParts env am ++
        SerializeGeneric.extrasParts env am) ',' ++ [')'] := rfl
  have hne : SerializeGeneric env am ≠ [] := by
    rw [hS]
    simp
  have hidx : strings.Index (SerializeGeneric env am) '(' = (am.Typ.length : Int) := by
    rw [hS]
    have e : am.Typ ++ '(' :: strings.Join (SerializeGeneric.canonicalParts env am ++
        SerializeGeneric.extrasParts env am) ',' ++ [')'] =
        am.Typ ++ '(' :: (strings.Join (SerializeGeneric.canonicalParts env am ++
        SerializeGeneric.extrasParts env am) ',' ++ [')']) := by simp
    rw [e]
    exact Index_append_cons _ _ _ htyp.2.2.1
  have hbody : TrimBrackets (SerializeGeneric env am) =
      strings.Join (SerializeGeneric.canonicalParts env am ++
        SerializeGeneric.extrasParts env am) ',' := by
    rw [hS]
    exact TrimBrackets_wrap _ _ htyp.2.2.1
  have hname : strings.TrimSpace (slice (SerializeGeneric env am) 0 am.Typ.length) = am.Typ := by
    have : slice (SerializeGeneric env am) 0 am.Typ.length = am.Typ := by
      rw [hS]
      unfold slice
      have e : am.Typ ++ '(' :: strings.Join (SerializeGeneric.canonicalParts env am ++
          SerializeGeneric.extrasParts env am) ',' ++ [')'] =
          am.Typ ++ ('(' :: strings.Join (SerializeGeneric.canonicalParts env am ++
          SerializeGeneric.extrasParts env am) ',' ++ [')']) := by simp
      rw [e, List.take_left']
      · rfl
      · rfl
    rw [this]
    exact htyp.2.2.2.2
  unfold genericCodec.Parse
  simp only [SerializeGeneric_trimmed env am htyp, hne, if_false, hidx, hbody]
  rw [if_neg (by omega)]
  simp only [Int.toNat_ofNat, hname]

/-! ## `genericCodec.Parse`, field by field -/

theorem genericCodec.step_Height (env : Env) (am : AbstractMessage) (kv : Str × Str) :
    (genericCodec.step env am kv).Height =
      if env.FieldSynonyms kv.1 = some "Height".toList then genericCodec.intOf am.Height kv.2
      else am.Height := by
  unfold genericCodec.step
  cases hf : env.FieldSynonyms kv.1 with
  | none => simp
  | some fld =>
    simp only [Option.some.injEq]
    unfold genericCodec.assign
    simp only [apply_ite AbstractMessage.Height]
    by_cases h : fld = "Height".toList
    · subst h
      simp
    · simp at h ⊢

theorem genericCodec.step_Round (env : Env) (am : AbstractMessage) (kv : Str × Str) :
    (genericCodec.step env am kv).Round =
      if env.FieldSynonyms kv.1 = some "Round".toList then genericCodec.intOf am.Round kv.2
      else am.Round := by
  unfold genericCodec.step
  cases hf : env.FieldSynonyms kv.1 with
  | none => simp
  | some fld =>
    simp only [Option.some.injEq]
    unfold genericCodec.assign
    simp only [apply_ite AbstractMessage.Round]
    by_cases h : fld = "Round".toList
    · subst h
      simp
    · simp at h ⊢
      simp [h]

theorem genericCodec.step_View (env : Env) (am : AbstractMessage) (kv : Str × Str) :
    (genericCodec.step env am kv).View =
      if env.FieldSynonyms kv.1 = some "View".toList then genericCodec.intOf am.View kv.2
      else am.View := by
  unfold genericCodec.step
  cases hf : env.FieldSynonyms kv.1 with
  | none => simp
  | some fld =>
    simp only [Option.some.injEq]
    unfold genericCodec.assign
    simp only [apply_ite AbstractMessage.View]
    by_cases h : fld = "View".toList
    · subst h
      simp
    · simp at h ⊢
      simp [h]

theorem genericCodec.step_BlockHash (env : Env) (am : AbstractMessage) (kv : Str × Str) :
    (genericCodec.step env am kv).BlockHash =
      if env.FieldSynonyms kv.1 = some "BlockHash".toList then kv.2
      else am.BlockHash := by
  unfold genericCodec.step
  cases hf : env.FieldSynonyms kv.1 with
  | none => simp
  | some fld =>
    simp only [Option.some.injEq]
    unfold genericCodec.assign
    simp only [apply_ite AbstractMessage.BlockHash]
    by_cases h : fld = "BlockHash".toList
    · subst h
      simp
    · simp at h ⊢
      simp [h]

theorem genericCodec.step_PrevHash (env : Env) (am : AbstractMessage) (kv : Str × Str) :
    (genericCodec.step env am kv).PrevHash =
      if env.FieldSynonyms kv.1 = some "PrevHash".toList then kv.2
      else am.PrevHash := by
  unfold genericCodec.step
  cases hf : env.FieldSynonyms kv.1 with
  | none => simp
  | some fld =>
    simp only [Option.some.injEq]
    unfold genericCodec.assign
    simp only [apply_ite AbstractMessage.PrevHash]
    by_cases h : fld = "PrevHash".toList
    · subst h
      simp
    · simp at h ⊢
      simp [h]

theorem genericCodec.step_Timestamp (env : Env) (am : AbstractMessage) (kv : Str × Str) :
    (genericCodec.step env am kv).Timestamp =
      if env.FieldSynonyms kv.1 = some "Timestamp".toList then genericCodec.timeOf env am.Timestamp kv.2
      else am.Timestamp := by
  unfold genericCodec.step
  cases hf : env.FieldSynonyms kv.1 with
  | none => simp
  | some fld =>
    simp only [Option.some.injEq]
    unfold genericCodec.assign
    simp only [apply_ite AbstractMessage.Timestamp]
    by_cases h : fld = "Timestamp".toList
    · subst h
      simp
    · simp at h ⊢
      simp [h]

theorem genericCodec.step_Proposer (env : Env) (am : AbstractMessage) (kv : Str × Str) :
    (genericCodec.step env am kv).Proposer =
      if env.FieldSynonyms kv.1 = some "Proposer".toList then kv.2
      else am.Proposer := by
  unfold genericCodec.step
  cases hf : env.FieldSynonyms kv.1 with
  | none => simp
  | some fld =>
    simp only [Option.some.injEq]
    unfold genericCodec.assign
    simp only [apply_ite AbstractMessage.Proposer]
    by_cases h : fld = "Proposer".toList
    · subst h
      simp
    · simp at h ⊢
      simp [h]

theorem genericCodec.step_Validator (env : Env) (am : AbstractMessage) (kv : Str × Str) :
    (genericCodec.step env am kv).Validator =
      if env.FieldSynonyms kv.1 = some "Validator".toList then kv.2
      else am.Validator := by
  unfold genericCodec.step
  cases hf : env.FieldSynonyms kv.1 with
  | none => simp
  | some fld =>
    simp only [Option.some.injEq]
    unfold genericCodec.assign
    simp only [apply_ite AbstractMessage.Validator]
    by_cases h : fld = "Validator".toList
    · subst h
      simp
    · simp at h ⊢
      simp [h]

theorem genericCodec.step_Signature (env : Env) (am : AbstractMessage) (kv : Str × Str) :
    (genericCodec.step env am kv).Signature =
      if env.FieldSynonyms kv.1 = some "Signature".toList then kv.2
      else am.Signature := by
  unfold genericCodec.step
  cases hf : env.FieldSynonyms kv.1 with
  | none => simp
  | some fld =>
    simp only [Option.some.injEq]
    unfold genericCodec.assign
    simp only [apply_ite AbstractMessage.Signature]
    by_cases h : fld = "Signature".toList
    · subst h
      simp
    · simp at h ⊢
      simp [h]

theorem genericCodec.step_CommitSeals (env : Env) (am : AbstractMessage) (kv : Str × Str) :
    (genericCodec.step env am kv).CommitSeals =
      if env.FieldSynonyms kv.1 = some "CommitSeals".toList then some (strings.Split kv.2 ',')
      else am.CommitSeals := by
  unfold genericCodec.step
  cases hf : env.FieldSynonyms kv.1 with
  | none => simp
  | some fld =>
    simp only [Option.some.injEq]
    unfold genericCodec.assign
    simp only [apply_ite AbstractMessage.CommitSeals]
    by_cases h : fld = "CommitSeals".toList
    · subst h
      simp
    · simp at h ⊢
      simp [h]

theorem genericCodec.step_ViewChanges (env : Env) (am : AbstractMessage) (kv : Str × Str) :
    (genericCodec.step env am kv).ViewChanges =
      if env.FieldSynonyms kv.1 = some "ViewChanges".toList then parseViewChanges kv.2
      else am.ViewChanges := by
  unfold genericCodec.step
  cases hf : env.FieldSynonyms kv.1 with
  | none => simp
  | some fld =>
    simp only [Option.some.injEq]
    unfold genericCodec.assign
    simp only [apply_ite AbstractMessage.ViewChanges]
    by_cases h : fld = "ViewChanges".toList
    · subst h
      simp
    · simp at h ⊢
      simp [h]

theorem genericCodec.step_Typ (env : Env) (am : AbstractMessage) (kv : Str × Str) :
    (genericCodec.step env am kv).Typ = am.Typ := by
  unfold genericCodec.step
  cases hf : env.FieldSynonyms kv.1 with
  | none => rfl
  | some fld =>
    unfold genericCodec.assign
    simp only [apply_ite AbstractMessage.Typ]
    simp

theorem genericCodec.step_Extras (env : Env) (am : AbstractMessage) (kv : Str × Str) :
    (genericCodec.step env am kv).Extras =
      if genericCodec.isCanonical env kv.1 = true then am.Extras
      else setEntry am.Extras kv.1 kv.2 := by
  unfold genericCodec.step genericCodec.isCanonical
  cases hf : env.FieldSynonyms kv.1 with
  | none => simp
  | some fld =>
    unfold genericCodec.assign
    simp only [apply_ite AbstractMessage.Extras, decide_eq_true_eq]
    by_cases h : fld ∈ genericCodec.switchNames
    · rw [if_pos h]
      simp [genericCodec.switchNames] at h
      rcases h with h | h | h | h | h | h | h | h | h | h | h <;> subst h <;> simp
    · rw [if_neg h]
      simp [genericCodec.switchNames] at h
      simp [h]

/-! ## Parsing back what `SerializeGeneric` wrote -/

theorem SerializeGeneric.key_emitted (env : Env) (am : AbstractMessage) (e : Str × Str)
    (h : e ∈ SerializeGeneric.scalarPairs env am ++ SerializeGeneric.sealPairs am) :
    ∃ F, (e.1, F) ∈ genericCodec.emittedFields := by
  rcases List.mem_append.mp h with h | h
  · rw [SerializeGeneric.mem_scalarPairs] at h
    rcases h with ⟨_, _, rfl⟩ | ⟨_, _, rfl⟩ | ⟨_, _, rfl⟩ | ⟨_, rfl⟩ | ⟨_, rfl⟩ | ⟨_, rfl⟩ |
      ⟨_, rfl⟩ | ⟨_, rfl⟩ | ⟨_, rfl⟩ <;> simp [genericCodec.emittedFields]
  · rw [SerializeGeneric.mem_sealPairs] at h
    obtain ⟨c, rest, _, rfl⟩ := h
    simp [genericCodec.emittedFields]

theorem SerializeGeneric.keys_canonical_nodup (env : Env) (am : AbstractMessage) :
    (GoMap.keys (SerializeGeneric.scalarPairs env am ++ SerializeGeneric.sealPairs am)).Nodup := by
  have hnd : (["height".toList] ++ ["round".toList] ++ ["view".toList] ++ ["block_hash".toList] ++
      ["prev_hash".toList] ++ ["timestamp".toList] ++ ["proposer".toList] ++
      ["validator".toList] ++ ["signature".toList] ++ ["commit_seals".toList]).Nodup := by decide
  refine List.Nodup.sublist ?_ hnd
  rw [keys_append]
  refine List.Sublist.append ?_ ?_
  · unfold SerializeGeneric.scalarPairs
    simp only [keys_append]
    cases am.Height <;> cases am.Round <;> cases am.View <;>
      (repeat' apply List.Sublist.append) <;>
      first
        | exact keys_ite_sublist _ _ _
        | exact List.Sublist.refl _
        | exact List.nil_sublist _
  · unfold SerializeGeneric.sealPairs
    cases elems am.CommitSeals with
    | nil => exact List.nil_sublist _
    | cons c rest => exact List.Sublist.refl _

theorem SerializeGeneric.keys_pairs_nodup (env : Env) (am : AbstractMessage)
    (hrange : ∀ (α : Type) (s : Loop) (l : GoMap α), (env.range s l).Perm l)
    (hwf : GoMap.WF (elems am.Extras))
    (hfs : ∀ p ∈ genericCodec.emittedFields, env.FieldSynonyms p.1 = some p.2)
    (hexk : ∀ k ∈ GoMap.keys (elems am.Extras), env.FieldSynonyms k = none) :
    (GoMap.keys (SerializeGeneric.pairs env am)).Nodup := by
  unfold SerializeGeneric.pairs
  rw [keys_append]
  refine List.Nodup.append (SerializeGeneric.keys_canonical_nodup env am)
    (((hrange Str .genericSerialize (elems am.Extras)).map Prod.fst).nodup_iff.mpr hwf.nodup) ?_
  intro k hk1 hk2
  obtain ⟨e, he, rfl⟩ := List.mem_map.mp hk1
  obtain ⟨F, hF⟩ := SerializeGeneric.key_emitted env am e he
  have h1 := hfs _ hF
  have h2 := hexk e.1 (((hrange Str .genericSerialize (elems am.Extras)).map Prod.fst).mem_iff.mp hk2)
  simp only at h1
  rw [h2] at h1
  cases h1

theorem SerializeGeneric.get?_pairs_emitted (env : Env) (am : AbstractMessage)
    (hrange : ∀ (α : Type) (s : Loop) (l : GoMap α), (env.range s l).Perm l)
    (hwf : GoMap.WF (elems am.Extras))
    (hfs : ∀ p ∈ genericCodec.emittedFields, env.FieldSynonyms p.1 = some p.2)
    (hexk : ∀ k ∈ GoMap.keys (elems am.Extras), env.FieldSynonyms k = none)
    (k F : Str) (hkF : (k, F) ∈ genericCodec.emittedFields) (v : Str) :
    GoMap.get? (SerializeGeneric.pairs env am) k = some v ↔
      (∃ h, am.Height = some h ∧ k = "height".toList ∧ v = big.String h) ∨
      (∃ r, am.Round = some r ∧ k = "round".toList ∧ v = big.String r) ∨
      (∃ w, am.View = some w ∧ k = "view".toList ∧ v = big.String w) ∨
      (am.BlockHash ≠ [] ∧ k = "block_hash".toList ∧ v = am.BlockHash) ∨
      (am.PrevHash ≠ [] ∧ k = "prev_hash".toList ∧ v = am.PrevHash) ∨
      (am.Timestamp.IsZero = false ∧ k = "timestamp".toList ∧
        v = env.formatRFC3339 am.Timestamp) ∨
      (am.Proposer ≠ [] ∧ k = "proposer".toList ∧ v = am.Proposer) ∨
      (am.Validator ≠ [] ∧ k = "validator".toList ∧ v = am.Validator) ∨
      (am.Signature ≠ [] ∧ k = "signature".toList ∧ v = am.Signature) ∨
      (∃ c rest, elems am.CommitSeals = c :: rest ∧ k = "commit_seals".toList ∧ v = c) := by
  have hnd := SerializeGeneric.keys_pairs_nodup env am hrange hwf hfs hexk
  have hmem : GoMap.get? (SerializeGeneric.pairs env am) k = some v ↔
      (k, v) ∈ SerializeGeneric.pairs env am :=
    ⟨GoMap.mem_of_get?, GoMap.get?_of_mem hnd⟩
  have hnx : (k, v) ∉ env.range .genericSerialize (elems am.Extras) := by
    intro hx
    have h1 := hfs _ hkF
    have h2 := hexk k (((hrange Str .genericSerialize (elems am.Extras)).map Prod.fst).mem_iff.mp
      (List.mem_map_of_mem Prod.fst hx))
    simp only at h1
    rw [h2] at h1
    cases h1
  rw [hmem]
  unfold SerializeGeneric.pairs
  rw [List.mem_append, List.mem_append, SerializeGeneric.mem_scalarPairs,
    SerializeGeneric.mem_sealPairs]
  simp only [Prod.mk.injEq, hnx, or_false, or_assoc]

theorem SerializeGeneric.get?_none (env : Env) (am : AbstractMessage) (k : Str)
    (h : ∀ c, GoMap.get? (SerializeGeneric.pairs env am) k ≠ some c) :
    GoMap.get? (SerializeGeneric.pairs env am) k = none := by
  cases hc : GoMap.get? (SerializeGeneric.pairs env am) k with
  | none => rfl
  | some c => exact absurd hc (h c)

theorem genericCodec.fold_field {β : Type} (env : Env) (m : AbstractMessage)
    (hrange : ∀ (α : Type) (s : Loop) (l : GoMap α), (env.range s l).Perm l)
    (hwf : GoMap.WF (elems m.Extras))
    (hfs : ∀ p ∈ genericCodec.emittedFields, env.FieldSynonyms p.1 = some p.2)
    (hexk : ∀ k ∈ GoMap.keys (elems m.Extras), env.FieldSynonyms k = none)
    (k F : Str) (hkF : (k, F) ∈ genericCodec.emittedFields)
    (g : Str → β → β) (hidem : ∀ v b, g v (g v b) = g v b)
    (b0 : β) (L : List (Str × Str)) (hL : L.Perm (SerializeGeneric.pairs env m)) :
    L.foldl (fun b e => if env.FieldSynonyms e.1 = some F then g e.2 b else b) b0 =
      match GoMap.get? (SerializeGeneric.pairs env m) k with
      | some v => g v b0
      | none => b0 := by
  have hndp := SerializeGeneric.keys_pairs_nodup env m hrange hwf hfs hexk
  have hnd : (GoMap.keys L).Nodup := (hL.map Prod.fst).nodup_iff.mpr hndp
  have hinj : ∀ p ∈ genericCodec.emittedFields, ∀ q ∈ genericCodec.emittedFields,
      p.2 = q.2 → p.1 = q.1 := by decide
  have hkey : ∀ e ∈ L, env.FieldSynonyms e.1 = some F → e.1 = k := by
    intro e he hR
    have hp := hL.mem_iff.mp he
    unfold SerializeGeneric.pairs at hp
    rcases List.mem_append.mp hp with hp | hp
    · obtain ⟨F', hF'⟩ := SerializeGeneric.key_emitted env m e hp
      have := hfs _ hF'
      simp only at this
      rw [this] at hR
      cases hR
      exact hinj _ hF' _ hkF rfl
    · have := hexk e.1 (((hrange Str .genericSerialize (elems m.Extras)).map Prod.fst).mem_iff.mp
        (List.mem_map_of_mem Prod.fst hp))
      rw [this] at hR
      cases hR
  cases hg : GoMap.get? (SerializeGeneric.pairs env m) k with
  | none =>
    simp only
    apply foldl_ite_none
    intro e he hR
    have hk := hkey e he hR
    have hget := GoMap.get?_of_mem hndp (hL.mem_iff.mp he)
    rw [hk, hg] at hget
    cases hget
  | some v =>
    simp only
    have hmem : (k, v) ∈ L := hL.mem_iff.mpr (GoMap.mem_of_get? hg)
    exact foldl_ite_unique (fun e : Str × Str => env.FieldSynonyms e.1 = some F)
      (fun e b => g e.2 b) L b0 (k, v) hmem (hfs _ hkF)
      (fun e he hR => eq_of_mem_of_key hnd he hmem (hkey e he hR))
      (fun b => hidem v b)

theorem genericCodec.intOf_idem (v : Str) (b : Option Int) :
    genericCodec.intOf (genericCodec.intOf b v) v = genericCodec.intOf b v := by
  unfold genericCodec.intOf
  cases big.SetString v <;> rfl

theorem genericCodec.timeOf_idem (env : Env) (v : Str) (b : Time) :
    genericCodec.timeOf env (genericCodec.timeOf env b v) v = genericCodec.timeOf env b v := by
  unfold genericCodec.timeOf
  cases env.parseRFC3339 v with
  | some t => rfl
  | none => cases big.SetString v <;> rfl

theorem genericCodec.fold_Typ (env : Env) (am : AbstractMessage) (L : List (Str × Str)) :
    (L.foldl (genericCodec.step env) am).Typ = am.Typ := by
  rw [foldl_proj (genericCodec.step env) AbstractMessage.Typ (fun _ b => b)
    (genericCodec.step_Typ env)]
  exact foldl_const L _

theorem SerializeGeneric.get?_height (env : Env) (m : AbstractMessage)
    (hrange : ∀ (α : Type) (s : Loop) (l : GoMap α), (env.range s l).Perm l)
    (hwf : GoMap.WF (elems m.Extras))
    (hfs : ∀ p ∈ genericCodec.emittedFields, env.FieldSynonyms p.1 = some p.2)
    (hexk : ∀ k ∈ GoMap.keys (elems m.Extras), env.FieldSynonyms k = none) :
    GoMap.get? (SerializeGeneric.pairs env m) "height".toList = m.Height.map big.String := by
  cases hh : m.Height with
  | some h =>
    rw [Option.map_some', SerializeGeneric.get?_pairs_emitted env m hrange hwf hfs hexk _ "Height".toList (by decide)]
    simp [hh]
  | none =>
    apply SerializeGeneric.get?_none
    intro c hc
    rw [SerializeGeneric.get?_pairs_emitted env m hrange hwf hfs hexk _ "Height".toList (by decide)] at hc
    simp [hh] at hc

theorem genericCodec.fold_Height (env : Env) (m : AbstractMessage)
    (hrange : ∀ (α : Type) (s : Loop) (l : GoMap α), (env.range s l).Perm l)
    (hwf : GoMap.WF (elems m.Extras))
    (hfs : ∀ p ∈ genericCodec.emittedFields, env.FieldSynonyms p.1 = some p.2)
    (hexk : ∀ k ∈ GoMap.keys (elems m.Extras), env.FieldSynonyms k = none) (am : AbstractMessage) (L : List (Str × Str))
    (hL : L.Perm (SerializeGeneric.pairs env m)) (h0 : am.Height = none) :
    (L.foldl (genericCodec.step env) am).Height = m.Height := by
  rw [foldl_proj (genericCodec.step env) AbstractMessage.Height
    (fun e b => if env.FieldSynonyms e.1 = some "Height".toList then genericCodec.intOf b e.2 else b)
    (genericCodec.step_Height env)]
  rw [genericCodec.fold_field env m hrange hwf hfs hexk "height".toList "Height".toList (by decide)
    (fun v b => genericCodec.intOf b v) genericCodec.intOf_idem _ L hL,
    SerializeGeneric.get?_height env m hrange hwf hfs hexk, h0]
  cases m.Height with
  | none => rfl
  | some h => simp [genericCodec.intOf, SetString_String]

theorem SerializeGeneric.get?_round (env : Env) (m : AbstractMessage)
    (hrange : ∀ (α : Type) (s : Loop) (l : GoMap α), (env.range s l).Perm l)
    (hwf : GoMap.WF (elems m.Extras))
    (hfs : ∀ p ∈ genericCodec.emittedFields, env.FieldSynonyms p.1 = some p.2)
    (hexk : ∀ k ∈ GoMap.keys (elems m.Extras), env.FieldSynonyms k = none) :
    GoMap.get? (SerializeGeneric.pairs env m) "round".toList = m.Round.map big.String := by
  cases hh : m.Round with
  | some h =>
    rw [Option.map_some', SerializeGeneric.get?_pairs_emitted env m hrange hwf hfs hexk _ "Round".toList (by decide)]
    simp [hh]
  | none =>
    apply SerializeGeneric.get?_none
    intro c hc
    rw [SerializeGeneric.get?_pairs_emitted env m hrange hwf hfs hexk _ "Round".toList (by decide)] at hc
    simp [hh] at hc

theorem genericCodec.fold_Round (env : Env) (m : AbstractMessage)
    (hrange : ∀ (α : Type) (s : Loop) (l : GoMap α), (env.range s l).Perm l)
    (hwf : GoMap.WF (elems m.Extras))
    (hfs : ∀ p ∈ genericCodec.emittedFields, env.FieldSynonyms p.1 = some p.2)
    (hexk : ∀ k ∈ GoMap.keys (elems m.Extras), env.FieldSynonyms k = none) (am : AbstractMessage) (L : List (Str × Str))
    (hL : L.Perm (SerializeGeneric.pairs env m)) (h0 : am.Round = none) :
    (L.foldl (genericCodec.step env) am).Round = m.Round := by
  rw [foldl_proj (genericCodec.step env) AbstractMessage.Round
    (fun e b => if env.FieldSynonyms e.1 = some "Round".toList then genericCodec.intOf b e.2 else b)
    (genericCodec.step_Round env)]
  rw [genericCodec.fold_field env m hrange hwf hfs hexk "round".toList "Round".toList (by decide)
    (fun v b => genericCodec.intOf b v) genericCodec.intOf_idem _ L hL,
    SerializeGeneric.get?_round env m hrange hwf hfs hexk, h0]
  cases m.Round with
  | none => rfl
  | some h => simp [genericCodec.intOf, SetString_String]

theorem SerializeGeneric.get?_view (env : Env) (m : AbstractMessage)
    (hrange : ∀ (α : Type) (s : Loop) (l : GoMap α), (env.range s l).Perm l)
    (hwf : GoMap.WF (elems m.Extras))
    (hfs : ∀ p ∈ genericCodec.emittedFields, env.FieldSynonyms p.1 = some p.2)
    (hexk : ∀ k ∈ GoMap.keys (elems m.Extras), env.FieldSynonyms k = none) :
    GoMap.get? (SerializeGeneric.pairs env m) "view".toList = m.View.map big.String := by
  cases hh : m.View with
  | some h =>
    rw [Option.map_some', SerializeGeneric.get?_pairs_emitted env m hrange hwf hfs hexk _ "View".toList (by decide)]
    simp [hh]
  | none =>
    apply SerializeGeneric.get?_none
    intro c hc
    rw [SerializeGeneric.get?_pairs_emitted env m hrange hwf hfs hexk _ "View".toList (by decide)] at hc
    simp [hh] at hc

theorem genericCodec.fold_View (env : Env) (m : AbstractMessage)
    (hrange : ∀ (α : Type) (s : Loop) (l : GoMap α), (env.range s l).Perm l)
    (hwf : GoMap.WF (elems m.Extras))
    (hfs : ∀ p ∈ genericCodec.emittedFields, env.FieldSynonyms p.1 = some p.2)
    (hexk : ∀ k ∈ GoMap.keys (elems m.Extras), env.FieldSynonyms k = none) (am : AbstractMessage) (L : List (Str × Str))
    (hL : L.Perm (SerializeGeneric.pairs env m)) (h0 : am.View = none) :
    (L.foldl (genericCodec.step env) am).View = m.View := by
  rw [foldl_proj (genericCodec.step env) AbstractMessage.View
    (fun e b => if env.FieldSynonyms e.1 = some "View".toList then genericCodec.intOf b e.2 else b)
    (genericCodec.step_View env)]
  rw [genericCodec.fold_field env m hrange hwf hfs hexk "view".toList "View".toList (by decide)
    (fun v b => genericCodec.intOf b v) genericCodec.intOf_idem _ L hL,
    SerializeGeneric.get?_view env m hrange hwf hfs hexk, h0]
  cases m.View with
  | none => rfl
  | some h => simp [genericCodec.intOf, SetString_String]

theorem SerializeGeneric.get?_block_hash (env : Env) (m : AbstractMessage)
    (hrange : ∀ (α : Type) (s : Loop) (l : GoMap α), (env.range s l).Perm l)
    (hwf : GoMap.WF (elems m.Extras))
    (hfs : ∀ p ∈ genericCodec.emittedFields, env.FieldSynonyms p.1 = some p.2)
    (hexk : ∀ k ∈ GoMap.keys (elems m.Extras), env.FieldSynonyms k = none) :
    GoMap.get? (SerializeGeneric.pairs env m) "block_hash".toList =
      if m.BlockHash ≠ [] then some m.BlockHash else none := by
  split
  · rename_i h
    rw [SerializeGeneric.get?_pairs_emitted env m hrange hwf hfs hexk _ "BlockHash".toList (by decide)]
    simp [h]
  · rename_i h
    apply SerializeGeneric.get?_none
    intro c hc
    rw [SerializeGeneric.get?_pairs_emitted env m hrange hwf hfs hexk _ "BlockHash".toList (by decide)] at hc
    simp at h
    simp [h] at hc

theorem genericCodec.fold_BlockHash (env : Env) (m : AbstractMessage)
    (hrange : ∀ (α : Type) (s : Loop) (l : GoMap α), (env.range s l).Perm l)
    (hwf : GoMap.WF (elems m.Extras))
    (hfs : ∀ p ∈ genericCodec.emittedFields, env.FieldSynonyms p.1 = some p.2)
    (hexk : ∀ k ∈ GoMap.keys (elems m.Extras), env.FieldSynonyms k = none) (am : AbstractMessage) (L : List (Str × Str))
    (hL : L.Perm (SerializeGeneric.pairs env m)) (h0 : am.BlockHash = []) :
    (L.foldl (genericCodec.step env) am).BlockHash = m.BlockHash := by
  rw [foldl_proj (genericCodec.step env) AbstractMessage.BlockHash
    (fun e b => if env.FieldSynonyms e.1 = some "BlockHash".toList then e.2 else b)
    (genericCodec.step_BlockHash env)]
  rw [genericCodec.fold_field env m hrange hwf hfs hexk "block_hash".toList "BlockHash".toList (by decide)
    (fun v _ => v) (fun _ _ => rfl) _ L hL,
    SerializeGeneric.get?_block_hash env m hrange hwf hfs hexk, h0]
  split
  · rename_i h
    split at h
    · cases h
      rfl
    · cases h
  · rename_i h
    split at h
    · cases h
    · rename_i hne
      simp at hne
      exact hne.symm

theorem SerializeGeneric.get?_prev_hash (env : Env) (m : AbstractMessage)
    (hrange : ∀ (α : Type) (s : Loop) (l : GoMap α), (env.range s l).Perm l)
    (hwf : GoMap.WF (elems m.Extras))
    (hfs : ∀ p ∈ genericCodec.emittedFields, env.FieldSynonyms p.1 = some p.2)
    (hexk : ∀ k ∈ GoMap.keys (elems m.Extras), env.FieldSynonyms k = none) :
    GoMap.get? (SerializeGeneric.pairs env m) "prev_hash".toList =
      if m.PrevHash ≠ [] then some m.PrevHash else none := by
  split
  · rename_i h
    rw [SerializeGeneric.get?_pairs_emitted env m hrange hwf hfs hexk _ "PrevHash".toList (by decide)]
    simp [h]
  · rename_i h
    apply SerializeGeneric.get?_none
    intro c hc
    rw [SerializeGeneric.get?_pairs_emitted env m hrange hwf hfs hexk _ "PrevHash".toList (by decide)] at hc
    simp at h
    simp [h] at hc

theorem genericCodec.fold_PrevHash (env : Env) (m : AbstractMessage)
    (hrange : ∀ (α : Type) (s : Loop) (l : GoMap α), (env.range s l).Perm l)
    (hwf : GoMap.WF (elems m.Extras))
    (hfs : ∀ p ∈ genericCodec.emittedFields, env.FieldSynonyms p.1 = some p.2)
    (hexk : ∀ k ∈ GoMap.keys (elems m.Extras), env.FieldSynonyms k = none) (am : AbstractMessage) (L : List (Str × Str))
    (hL : L.Perm (SerializeGeneric.pairs env m)) (h0 : am.PrevHash = []) :
    (L.foldl (genericCodec.step env) am).PrevHash = m.PrevHash := by
  rw [foldl_proj (genericCodec.step env) AbstractMessage.PrevHash
    (fun e b => if env.FieldSynonyms e.1 = some "PrevHash".toList then e.2 else b)
    (genericCodec.step_PrevHash env)]
  rw [genericCodec.fold_field env m hrange hwf hfs hexk "prev_hash".toList "PrevHash".toList (by decide)
    (fun v _ => v) (fun _ _ => rfl) _ L hL,
    SerializeGeneric.get?_prev_hash env m hrange hwf hfs hexk, h0]
  split
  · rename_i h
    split at h
    · cases h
      rfl
    · cases h
  · rename_i h
    split at h
    · cases h
    · rename_i hne
      simp at hne
      exact hne.symm

theorem SerializeGeneric.get?_proposer (env : Env) (m : AbstractMessage)
    (hrange : ∀ (α : Type) (s : Loop) (l : GoMap α), (env.range s l).Perm l)
    (hwf : GoMap.WF (elems m.Extras))
    (hfs : ∀ p ∈ genericCodec.emittedFields, env.FieldSynonyms p.1 = some p.2)
    (hexk : ∀ k ∈ GoMap.keys (elems m.Extras), env.FieldSynonyms k = none) :
    GoMap.get? (SerializeGeneric.pairs env m) "proposer".toList =
      if m.Proposer ≠ [] then some m.Proposer else none := by
  split
  · rename_i h
    rw [SerializeGeneric.get?_pairs_emitted env m hrange hwf hfs hexk _ "Proposer".toList (by decide)]
    simp [h]
  · rename_i h
    apply SerializeGeneric.get?_none
    intro c hc
    rw [SerializeGeneric.get?_pairs_emitted env m hrange hwf hfs hexk _ "Proposer".toList (by decide)] at hc
    simp at h
    simp [h] at hc

theorem genericCodec.fold_Proposer (env : Env) (m : AbstractMessage)
    (hrange : ∀ (α : Type) (s : Loop) (l : GoMap α), (env.range s l).Perm l)
    (hwf : GoMap.WF (elems m.Extras))
    (hfs : ∀ p ∈ genericCodec.emittedFields, env.FieldSynonyms p.1 = some p.2)
    (hexk : ∀ k ∈ GoMap.keys (elems m.Extras), env.FieldSynonyms k = none) (am : AbstractMessage) (L : List (Str × Str))
    (hL : L.Perm (SerializeGeneric.pairs env m)) (h0 : am.Proposer = []) :
    (L.foldl (genericCodec.step env) am).Proposer = m.Proposer := by
  rw [foldl_proj (genericCodec.step env) AbstractMessage.Proposer
    (fun e b => if env.FieldSynonyms e.1 = some "Proposer".toList then e.2 else b)
    (genericCodec.step_Proposer env)]
  rw [genericCodec.fold_field env m hrange hwf hfs hexk "proposer".toList "Proposer".toList (by decide)
    (fun v _ => v) (fun _ _ => rfl) _ L hL,
    SerializeGeneric.get?_proposer env m hrange hwf hfs hexk, h0]
  split
  · rename_i h
    split at h
    · cases h
      rfl
    · cases h
  · rename_i h
    split at h
    · cases h
    · rename_i hne
      simp at hne
      exact hne.symm

theorem SerializeGeneric.get?_validator (env : Env) (m : AbstractMessage)
    (hrange : ∀ (α : Type) (s : Loop) (l : GoMap α), (env.range s l).Perm l)
    (hwf : GoMap.WF (elems m.Extras))
    (hfs : ∀ p ∈ genericCodec.emittedFields, env.FieldSynonyms p.1 = some p.2)
    (hexk : ∀ k ∈ GoMap.keys (elems m.Extras), env.FieldSynonyms k = none) :
    GoMap.get? (SerializeGeneric.pairs env m) "validator".toList =
      if m.Validator ≠ [] then some m.Validator else none := by
  split
  · rename_i h
    rw [SerializeGeneric.get?_pairs_emitted env m hrange hwf hfs hexk _ "Validator".toList (by decide)]
    simp [h]
  · rename_i h
    apply SerializeGeneric.get?_none
    intro c hc
    rw [SerializeGeneric.get?_pairs_emitted env m hrange hwf hfs hexk _ "Validator".toList (by decide)] at hc
    simp at h
    simp [h] at hc

theorem genericCodec.fold_Validator (env : Env) (m : AbstractMessage)
    (hrange : ∀ (α : Type) (s : Loop) (l : GoMap α), (env.range s l).Perm l)
    (hwf : GoMap.WF (elems m.Extras))
    (hfs : ∀ p ∈ genericCodec.emittedFields, env.FieldSynonyms p.1 = some p.2)
    (hexk : ∀ k ∈ GoMap.keys (elems m.Extras), env.FieldSynonyms k = none) (am : AbstractMessage) (L : List (Str × Str))
    (hL : L.Perm (SerializeGeneric.pairs env m)) (h0 : am.Validator = []) :
    (L.foldl (genericCodec.step env) am).Validator = m.Validator := by
  rw [foldl_proj (genericCodec.step env) AbstractMessage.Validator
    (fun e b => if env.FieldSynonyms e.1 = some "Validator".toList then e.2 else b)
    (genericCodec.step_Validator env)]
  rw [genericCodec.fold_field env m hrange hwf hfs hexk "validator".toList "Validator".toList (by decide)
    (fun v _ => v) (fun _ _ => rfl) _ L hL,
    SerializeGeneric.get?_validator env m hrange hwf hfs hexk, h0]
  split
  · rename_i h
    split at h
    · cases h
      rfl
    · cases h
  · rename_i h
    split at h
    · cases h
    · rename_i hne
      simp at hne
      exact hne.symm

theorem SerializeGeneric.get?_signature (env : Env) (m : AbstractMessage)
    (hrange : ∀ (α : Type) (s : Loop) (l : GoMap α), (env.range s l).Perm l)
    (hwf : GoMap.WF (elems m.Extras))
    (hfs : ∀ p ∈ genericCodec.emittedFields, env.FieldSynonyms p.1 = some p.2)
    (hexk : ∀ k ∈ GoMap.keys (elems m.Extras), env.FieldSynonyms k = none) :
    GoMap.get? (SerializeGeneric.pairs env m) "signature".toList =
      if m.Signature ≠ [] then some m.Signature else none := by
  split
  · rename_i h
    rw [SerializeGeneric.get?_pairs_emitted env m hrange hwf hfs hexk _ "Signature".toList (by decide)]
    simp [h]
  · rename_i h
    apply SerializeGeneric.get?_none
    intro c hc
    rw [SerializeGeneric.get?_pairs_emitted env m hrange hwf hfs hexk _ "Signature".toList (by decide)] at hc
    simp at h
    simp [h] at hc

theorem genericCodec.fold_Signature (env : Env) (m : AbstractMessage)
    (hrange : ∀ (α : Type) (s : Loop) (l : GoMap α), (env.range s l).Perm l)
    (hwf : GoMap.WF (elems m.Extras))
    (hfs : ∀ p ∈ genericCodec.emittedFields, env.FieldSynonyms p.1 = some p.2)
    (hexk : ∀ k ∈ GoMap.keys (elems m.Extras), env.FieldSynonyms k = none) (am : AbstractMessage) (L : List (Str × Str))
    (hL : L.Perm (SerializeGeneric.pairs env m)) (h0 : am.Signature = []) :
    (L.foldl (genericCodec.step env) am).Signature = m.Signature := by
  rw [foldl_proj (genericCodec.step env) AbstractMessage.Signature
    (fun e b => if env.FieldSynonyms e.1 = some "Signature".toList then e.2 else b)
    (genericCodec.step_Signature env)]
  rw [genericCodec.fold_field env m hrange hwf hfs hexk "signature".toList "Signature".toList (by decide)
    (fun v _ => v) (fun _ _ => rfl) _ L hL,
    SerializeGeneric.get?_signature env m hrange hwf hfs hexk, h0]
  split
  · rename_i h
    split at h
    · cases h
      rfl
    · cases h
  · rename_i h
    split at h
    · cases h
    · rename_i hne
      simp at hne
      exact hne.symm

theorem SerializeGeneric.get?_timestamp (env : Env) (m : AbstractMessage)
    (hrange : ∀ (α : Type) (s : Loop) (l : GoMap α), (env.range s l).Perm l)
    (hwf : GoMap.WF (elems m.Extras))
    (hfs : ∀ p ∈ genericCodec.emittedFields, env.FieldSynonyms p.1 = some p.2)
    (hexk : ∀ k ∈ GoMap.keys (elems m.Extras), env.FieldSynonyms k = none) :
    GoMap.get? (SerializeGeneric.pairs env m) "timestamp".toList =
      if m.Timestamp.IsZero = false then some (env.formatRFC3339 m.Timestamp) else none := by
  split
  · rename_i h
    rw [SerializeGeneric.get?_pairs_emitted env m hrange hwf hfs hexk _ "Timestamp".toList (by decide)]
    simp [h]
  · rename_i h
    apply SerializeGeneric.get?_none
    intro c hc
    rw [SerializeGeneric.get?_pairs_emitted env m hrange hwf hfs hexk _ "Timestamp".toList (by decide)] at hc
    simp at h
    simp [h] at hc

theorem genericCodec.fold_Timestamp (env : Env) (m : AbstractMessage)
    (hrange : ∀ (α : Type) (s : Loop) (l : GoMap α), (env.range s l).Perm l)
    (hwf : GoMap.WF (elems m.Extras))
    (hfs : ∀ p ∈ genericCodec.emittedFields, env.FieldSynonyms p.1 = some p.2)
    (hexk : ∀ k ∈ GoMap.keys (elems m.Extras), env.FieldSynonyms k = none) (am : AbstractMessage) (L : List (Str × Str))
    (hL : L.Perm (SerializeGeneric.pairs env m)) (h0 : am.Timestamp = Time.zero)
    (htime : m.Timestamp.IsZero = false →
      env.parseRFC3339 (env.formatRFC3339 m.Timestamp) = some m.Timestamp) :
    (L.foldl (genericCodec.step env) am).Timestamp = m.Timestamp := by
  rw [foldl_proj (genericCodec.step env) AbstractMessage.Timestamp
    (fun e b => if env.FieldSynonyms e.1 = some "Timestamp".toList then
      genericCodec.timeOf env b e.2 else b)
    (genericCodec.step_Timestamp env)]
  rw [genericCodec.fold_field env m hrange hwf hfs hexk "timestamp".toList "Timestamp".toList (by decide)
    (fun v b => genericCodec.timeOf env b v) (genericCodec.timeOf_idem env) _ L hL,
    SerializeGeneric.get?_timestamp env m hrange hwf hfs hexk, h0]
  split
  · rename_i h
    split at h
    · rename_i hz
      cases h
      simp only [genericCodec.timeOf, htime hz]
    · cases h
  · rename_i h
    split at h
    · cases h
    · rename_i hz
      simp at hz
      exact (Time.eq_zero_of_IsZero _ hz).symm

theorem genericCodec.fold_Extras (env : Env) (am : AbstractMessage) (L : List (Str × Str)) :
    elems (L.foldl (genericCodec.step env) am).Extras =
      L.foldl (fun mp e => if genericCodec.isCanonical env e.1 = true then mp
        else GoMap.set mp e.1 (id e.2)) (elems am.Extras) := by
  apply foldl_proj (genericCodec.step env) (fun am => elems am.Extras)
    (fun e mp => if genericCodec.isCanonical env e.1 = true then mp
        else GoMap.set mp e.1 (id e.2))
  intro s i
  simp only [genericCodec.step_Extras]
  split <;> rfl

theorem genericCodec.extras_round_trip (env : Env) (m : AbstractMessage)
    (hrange : ∀ (α : Type) (s : Loop) (l : GoMap α), (env.range s l).Perm l)
    (hwf : GoMap.WF (elems m.Extras))
    (hfs : ∀ p ∈ genericCodec.emittedFields, env.FieldSynonyms p.1 = some p.2)
    (hexk : ∀ k ∈ GoMap.keys (elems m.Extras), env.FieldSynonyms k = none)
    (am : AbstractMessage) (L : List (Str × Str))
    (hL : L.Perm (SerializeGeneric.pairs env m)) (h0 : elems am.Extras = []) (k : Str) :
    GoMap.get? (elems (L.foldl (genericCodec.step env) am).Extras) k =
      GoMap.get? (elems m.Extras) k := by
  have hndp := SerializeGeneric.keys_pairs_nodup env m hrange hwf hfs hexk
  have hnd : (GoMap.keys L).Nodup := (hL.map Prod.fst).nodup_iff.mpr hndp
  have hsw : ∀ p ∈ genericCodec.emittedFields, p.2 ∈ genericCodec.switchNames := by decide
  rw [genericCodec.fold_Extras,
    get?_foldl_condSet (fun k => genericCodec.isCanonical env k = true) id _ hnd,
    get?_perm _ _ hL hndp, h0]
  have hempty : GoMap.get? ([] : GoMap Str) k = none := rfl
  cases hx : GoMap.get? (elems m.Extras) k with
  | some v =>
    have hkx := hexk k (GoMap.mem_keys_of_get? hx)
    have hmem : (k, v) ∈ SerializeGeneric.pairs env m := by
      unfold SerializeGeneric.pairs
      exact List.mem_append_right _
        ((hrange Str .genericSerialize (elems m.Extras)).mem_iff.mpr (GoMap.mem_of_get? hx))
    have hcan : genericCodec.isCanonical env k = false := by
      unfold genericCodec.isCanonical
      rw [hkx]
    rw [GoMap.get?_of_mem hndp hmem]
    simp [hcan]
  | none =>
    cases hp : GoMap.get? (SerializeGeneric.pairs env m) k with
    | none => simp only [hempty]
    | some v =>
      have hmem := GoMap.mem_of_get? hp
      unfold SerializeGeneric.pairs at hmem
      rcases List.mem_append.mp hmem with hmem | hmem
      · obtain ⟨F, hF⟩ := SerializeGeneric.key_emitted env m (k, v) hmem
        have h1 := hfs _ hF
        simp only at h1
        have hcan : genericCodec.isCanonical env k = true := by
          unfold genericCodec.isCanonical
          rw [h1]
          simpa using hsw _ hF
        simp only [hcan, if_true, hempty]
      · have := GoMap.get?_of_mem hwf.nodup ((hrange Str .genericSerialize (elems m.Extras)).mem_iff.mp hmem)
        rw [hx] at this
        cases this

/-- C2: generic-text round trip of the scalar fields and `Extras`.  For every
message whose `Type`, text fields, `CommitSeals` elements and `Extras` keys and
values contain none of `,`, `=`, `(`, `)` and have no white space at either
end, parsing what `genericCodec.Serialize` wrote succeeds and reproduces
`Type`, `Height`, `Round`, `View` (any integer), `Timestamp`, the five text
fields and `Extras` (same keys, same bytes), whatever order `range` visits the
maps in.  Hypotheses: the field synonym table maps each emitted key to its
canonical field and has no `Extras` key, the phase synonym table does not
rename the type, and RFC 3339 parsing inverts the formatting of the message's
timestamp, whose text is free of the separators. -/
theorem C2_generic_round_trip (env : Env) (m : AbstractMessage) (opts : ParseOptions)
    (hrange : ∀ (α : Type) (s : Loop) (l : GoMap α), (env.range s l).Perm l)
    (hwf : GoMap.WF (elems m.Extras))
    (htyp : GenericSafe m.Typ)
    (hbh : GenericSafe m.BlockHash) (hph : GenericSafe m.PrevHash)
    (hpr : GenericSafe m.Proposer) (hva : GenericSafe m.Validator)
    (hsi : GenericSafe m.Signature)
    (hcs : ∀ c ∈ elems m.CommitSeals, GenericSafe c)
    (hex : ∀ p ∈ elems m.Extras, GenericSafe p.1 ∧ GenericSafe p.2)
    (hfs : ∀ p ∈ genericCodec.emittedFields, env.FieldSynonyms p.1 = some p.2)
    (hexk : ∀ k ∈ GoMap.keys (elems m.Extras), env.FieldSynonyms k = none)
    (hphase : env.PhaseSynonyms m.Typ = none ∨ env.PhaseSynonyms m.Typ = some m.Typ)
    (htime : m.Timestamp.IsZero = false →
      env.parseRFC3339 (env.formatRFC3339 m.Timestamp) = some m.Timestamp)
    (hts : m.Timestamp.IsZero = false → GenericSafe (env.formatRFC3339 m.Timestamp)) :
    ∃ data p, genericCodec.Serialize env m = .ok data ∧ genericCodec.Parse env data opts = .ok p ∧
      p.Typ = m.Typ ∧ p.Height = m.Height ∧ p.Round = m.Round ∧ p.View = m.View ∧
      p.Timestamp = m.Timestamp ∧ p.BlockHash = m.BlockHash ∧ p.PrevHash = m.PrevHash ∧
      p.Proposer = m.Proposer ∧ p.Validator = m.Validator ∧ p.Signature = m.Signature ∧
      ∀ k, GoMap.get? (elems p.Extras) k = GoMap.get? (elems m.Extras) k := by
  have hsc := SerializeGeneric.scalarPairs_safe env m hbh hph hpr hva hsi hts
  have hexr : ∀ p ∈ env.range .genericSerialize (elems m.Extras), PairSafe p :=
    fun p hp => hex p ((hrange Str .genericSerialize (elems m.Extras)).mem_iff.mp hp)
  have hsplit := SerializeGeneric.split_body env m hsc hcs hexr
  have hparse := genericCodec.parse_serialize env m opts htyp
  rw [hsplit] at hparse
  have hndp := SerializeGeneric.keys_pairs_nodup env m hrange hwf hfs hexk
  have hL : (env.range .genericParse (setAll [] (SerializeGeneric.pairs env m))).Perm
      (SerializeGeneric.pairs env m) :=
    (hrange Str .genericParse _).trans (setAll_nil_perm _ hndp)
  refine ⟨SerializeGeneric env m, _, rfl, hparse, ?_, ?_⟩
  · rw [genericCodec.fold_Typ]
    simp only [genericCodec.init]
    rcases hphase with h | h <;> simp [h]
  · exact ⟨genericCodec.fold_Height env m hrange hwf hfs hexk _ _ hL rfl,
      genericCodec.fold_Round env m hrange hwf hfs hexk _ _ hL rfl,
      genericCodec.fold_View env m hrange hwf hfs hexk _ _ hL rfl,
      genericCodec.fold_Timestamp env m hrange hwf hfs hexk _ _ hL rfl htime,
      genericCodec.fold_BlockHash env m hrange hwf hfs hexk _ _ hL rfl,
      genericCodec.fold_PrevHash env m hrange hwf hfs hexk _ _ hL rfl,
      genericCodec.fold_Proposer env m hrange hwf hfs hexk _ _ hL rfl,
      genericCodec.fold_Validator env m hrange hwf hfs hexk _ _ hL rfl,
      genericCodec.fold_Signature env m hrange hwf hfs hexk _ _ hL rfl,
      genericCodec.extras_round_trip env m hrange hwf hfs hexk _ _ hL rfl⟩

/-- C2 at the sample message of the test application, with a height beyond
the signed 64-bit range. -/
theorem C2_generic_round_trip_witness :
    ∃ data p, genericCodec.Serialize sampleEnv { sampleMessage with Height := some (2 ^ 70) } =
        .ok data ∧
      genericCodec.Parse sampleEnv data (ParseOptions.ofFormat "generic".toList) = .ok p ∧
      p.Typ = "Proposal".toList ∧ p.Height = some (2 ^ 70) ∧ p.Round = some 2 ∧
      p.Timestamp = ⟨1704067200, 0⟩ ∧ p.Signature = "SIG_ORIG".toList ∧
      GoMap.get? (elems p.Extras) "payload".toList = some "hello".toList := by
  obtain ⟨data, p, h1, h2, h3, h4, h5, _, h6, _, _, _, _, h7, h8⟩ :=
    C2_generic_round_trip sampleEnv { sampleMessage with Height := some (2 ^ 70) } _
      (fun _ _ l => List.Perm.refl l) (by decide) (by decide) (by decide) (by decide) (by decide)
      (by decide) (by decide) (by decide) (by decide) (by decide!) (by decide!)
      (Or.inr (by decide!)) (fun _ => by decide!) (fun _ => by decide!)
  exact ⟨data, p, h1, h2, h3, h4, h5, h6, h7, h8 _⟩

/-! ## What the generic-text parser accepts -/

theorem SplitKeyValuePairs.step_eq (m : GoMap Str) (part : Str) :
    SplitKeyValuePairs.step m part =
      if '=' ∈ part then GoMap.set m (SplitKeyValuePairs.pairOf part).1
        (SplitKeyValuePairs.pairOf part).2
      else m := by
  unfold SplitKeyValuePairs.step strings.SplitN2 SplitKeyValuePairs.pairOf
  by_cases h : '=' ∈ part
  · simp only [if_pos h]
  · simp only [if_neg h]

theorem SplitKeyValuePairs.foldl_step (m : GoMap Str) (parts : List Str) :
    parts.foldl SplitKeyValuePairs.step m =
      setAll m ((parts.filter (fun p => decide ('=' ∈ p))).map SplitKeyValuePairs.pairOf) := by
  induction parts generalizing m with
  | nil => rfl
  | cons p t ih =>
    rw [List.foldl_cons, ih, SplitKeyValuePairs.step_eq]
    by_cases h : '=' ∈ p
    · rw [if_pos h, List.filter_cons_of_pos (by simpa using h), List.map_cons, setAll_cons]
    · rw [if_neg h, List.filter_cons_of_neg (by simpa using h)]

theorem mem_of_mem_Split (s part : Str) (c x : Char) (hp : part ∈ strings.Split s c)
    (hx : x ∈ part) : x ∈ s := by
  have h : [c].intercalate (s.splitOn c) = s := List.intercalate_splitOn s c
  unfold strings.Split at hp
  rw [← h]
  exact mem_Join _ c part x hp hx

theorem blank_of_TrimSpace_eq_nil (s : Str) (h : strings.TrimSpace s = []) :
    ∀ c ∈ s, isSpace c = true := by
  unfold strings.TrimSpace at h
  have hall := List.rdropWhile_eq_nil_iff.mp h
  have h1 : s.dropWhile isSpace = [] := by
    cases hdw : s.dropWhile isSpace with
    | nil => rfl
    | cons a t =>
      have ha : isSpace a = true := hall a (by rw [hdw]; exact List.mem_cons_self _ _)
      have hh : (s.dropWhile isSpace).head? = some a := by rw [hdw]; rfl
      have := List.head?_dropWhile_not isSpace s
      rw [hh] at this
      simp [ha] at this
  exact List.dropWhile_eq_nil_iff.mp h1

theorem SplitKeyValuePairs_eq (s : Str) :
    SplitKeyValuePairs s = setAll [] (SplitKeyValuePairs.pairs s) := by
  unfold SplitKeyValuePairs SplitKeyValuePairs.pairs
  by_cases h : strings.TrimSpace s = []
  · rw [if_pos h]
    have hb := blank_of_TrimSpace_eq_nil s h
    have : (strings.Split s ',').filter (fun p => decide ('=' ∈ p)) = [] := by
      rw [List.filter_eq_nil_iff]
      intro p hp
      simp only [decide_eq_true_eq]
      intro he
      have := hb '=' (mem_of_mem_Split s p ',' '=' hp he)
      revert this
      decide
    rw [this]
    rfl
  · rw [if_neg h, SplitKeyValuePairs.foldl_step]

theorem mem_dropWhile_of_not {α : Type} (p : α → Bool) (l : List α) (c : α) (hc : c ∈ l)
    (hp : p c = false) : c ∈ l.dropWhile p := by
  induction l with
  | nil => simp at hc
  | cons a t ih =>
    by_cases ha : p a = true
    · rw [List.dropWhile_cons_of_pos ha]
      rcases List.mem_cons.mp hc with h | h
      · subst h
        rw [hp] at ha
        cases ha
      · exact ih h
    · rw [List.dropWhile_cons_of_neg ha]
      exact hc

theorem mem_TrimSpace_of_mem (s : Str) (c : Char) (hc : c ∈ s) (hp : isSpace c = false) :
    c ∈ strings.TrimSpace s := by
  unfold strings.TrimSpace List.rdropWhile
  rw [List.mem_reverse]
  apply mem_dropWhile_of_not _ _ _ _ hp
  rw [List.mem_reverse]
  exact mem_dropWhile_of_not _ _ _ hc hp

theorem take_indexOf (s : Str) (c : Char) :
    s.take (s.indexOf c) = s.takeWhile (fun x => x != c) := by
  induction s with
  | nil => rfl
  | cons a t ih =>
    by_cases h : a = c
    · subst h
      simp
    · rw [List.indexOf_cons_ne _ h, List.take_succ_cons, ih,
        List.takeWhile_cons_of_pos (by simpa using h)]

theorem length_takeWhile_le_indexOf (s : Str) (c : Char) :
    (s.takeWhile (fun x => x != c)).length = s.indexOf c := by
  induction s with
  | nil => rfl
  | cons a t ih =>
    by_cases h : a = c
    · subst h
      simp
    · rw [List.indexOf_cons_ne _ h,
        List.takeWhile_cons_of_pos (by simpa using h), List.length_cons, ih]

theorem TrimBrackets_unclosed (s : Str) (h : ')' ∉ s.dropWhile (fun x => x != '(')) :
    TrimBrackets s = s := by
  unfold TrimBrackets
  simp only
  split
  · rename_i hi
    rw [if_neg]
    unfold strings.Index strings.LastIndex
    by_cases ho : '(' ∈ s
    · rw [if_pos ho]
      by_cases hc : ')' ∈ s
      · rw [if_pos hc]
        have hs : s = s.takeWhile (fun x => x != '(') ++ s.dropWhile (fun x => x != '(') :=
          (List.takeWhile_append_dropWhile _ _).symm
        have hr : s.reverse = (s.dropWhile (fun x => x != '(')).reverse ++
            (s.takeWhile (fun x => x != '(')).reverse := by
          conv_lhs => rw [hs]
          simp
        have hx : List.indexOf ')' s.reverse = (s.dropWhile (fun x => x != '(')).length +
            List.indexOf ')' (s.takeWhile (fun x => x != '(')).reverse := by
          rw [hr, List.indexOf_append_of_not_mem (by simpa using h)]
          simp
        have hl : s.length = (s.takeWhile (fun x => x != '(')).length +
            (s.dropWhile (fun x => x != '(')).length := by
          conv_lhs => rw [hs]
          rw [List.length_append]
        have hidx := length_takeWhile_le_indexOf s '('
        rw [hx]
        omega
      · rw [if_neg hc]
        omega
    · simp [strings.Index, ho] at hi
  · rfl

/-- C11 (amended): for every input that contains `(`, whatever follows it,
`genericCodec.Parse` returns a message and no error.  The fields are read
from the comma-separated segments of the body that contain `=`; a segment
without `=` is skipped.  When no `)` follows the first `(`, the body is the
whole trimmed input. -/
theorem C11_generic_parse_accepts_every_body (env : Env) (data : Str) (opts : ParseOptions)
    (h : '(' ∈ data) :
    ∃ m, genericCodec.Parse env data opts = .ok m ∧
      m = (env.range .genericParse (setAll []
          (SplitKeyValuePairs.pairs (TrimBrackets (strings.TrimSpace data))))).foldl
        (genericCodec.step env)
        (genericCodec.init env (strings.TrimSpace data)
          (strings.TrimSpace ((strings.TrimSpace data).takeWhile (fun x => x != '(')))) ∧
      (')' ∉ (strings.TrimSpace data).dropWhile (fun x => x != '(') →
        TrimBrackets (strings.TrimSpace data) = strings.TrimSpace data) := by
  have hm : '(' ∈ strings.TrimSpace data := mem_TrimSpace_of_mem data '(' h (by decide)
  have hne : strings.TrimSpace data ≠ [] := List.ne_nil_of_mem hm
  have hidx : strings.Index (strings.TrimSpace data) '(' =
      (((strings.TrimSpace data).indexOf '(' : Nat) : Int) := by
    simp [strings.Index, hm]
  refine ⟨_, ?_, rfl, TrimBrackets_unclosed _⟩
  unfold genericCodec.Parse
  simp only [hne, if_false, hidx]
  rw [if_neg (by omega)]
  simp only [Int.toNat_ofNat, slice, List.drop_zero, take_indexOf, SplitKeyValuePairs_eq]

/-- C11 fails as stated: the input `Proposal(height=1`, which has no `)`, and
the input `Proposal(height=1,junk)`, whose body has the segment `junk`
without `=`, are both parsed into a message. -/
theorem C11_counterexample_unclosed_and_junk :
    ('(' ∈ "Proposal(height=1".toList ∧ ')' ∉ "Proposal(height=1".toList ∧
      (genericCodec.Parse sampleEnv "Proposal(height=1".toList
        (ParseOptions.ofFormat "generic".toList)).toOption.map (fun p => (p.Typ, p.Extras)) =
        some ("Proposal".toList, some [("Proposal(height".toList, "1".toList)])) ∧
    ("junk".toList ∈ strings.Split (TrimBrackets "Proposal(height=1,junk)".toList) ',' ∧
      '=' ∉ "junk".toList ∧
      (genericCodec.Parse sampleEnv "Proposal(height=1,junk)".toList
        (ParseOptions.ofFormat "generic".toList)).toOption.map (fun p => (p.Typ, p.Height)) =
        some ("Proposal".toList, some 1)) := by
  refine ⟨⟨by decide, by decide, by decide!⟩, ⟨by decide!, by decide, by decide!⟩⟩

/-- C11 (amended) at the two inputs of the counterexample. -/
theorem C11_generic_parse_accepts_witness :
    ('(' ∈ "Proposal(height=1".toList ∧
      ∃ m, genericCodec.Parse sampleEnv "Proposal(height=1".toList
        (ParseOptions.ofFormat "generic".toList) = .ok m) ∧
    ('(' ∈ "Proposal(height=1,junk)".toList ∧
      ∃ m, genericCodec.Parse sampleEnv "Proposal(height=1,junk)".toList
        (ParseOptions.ofFormat "generic".toList) = .ok m) := by
  refine ⟨⟨by decide, ?_⟩, ⟨by decide, ?_⟩⟩
  · obtain ⟨m, hm, _⟩ := C11_generic_parse_accepts_every_body sampleEnv
      "Proposal(height=1".toList (ParseOptions.ofFormat "generic".toList) (by decide)
    exact ⟨m, hm⟩
  · obtain ⟨m, hm, _⟩ := C11_generic_parse_accepts_every_body sampleEnv
      "Proposal(height=1,junk)".toList (ParseOptions.ofFormat "generic".toList) (by decide)
    exact ⟨m, hm⟩

/-! ## The message type: override and phase resolution -/

theorem sampleEnv_unmarshal_obj (s : Str) (o : GoMap JVal)
    (h : (match json.unmarshal s with
      | .ok w => JVal.beq w (.obj o)
      | .error _ => false) = true) : sampleEnv.jsonUnmarshal s = .ok (.obj o) := by
  have h1 : sampleEnv.jsonUnmarshal = json.unmarshal := rfl
  rw [h1]
  exact json.unmarshal_eq_ok _ _ h

/-- C13: for every input that decodes as a JSON object and every non-empty
`OverrideMsgType`, `jsonCodec.Parse` returns a message whose `Type` is the
override itself, whatever the `type` key of the input holds and whatever the
phase synonym table maps the override to. -/
theorem C13_json_override_sets_type (env : Env) (data : Str) (opts : ParseOptions)
    (o : GoMap JVal) (hdec : env.jsonUnmarshal data = .ok (.obj o))
    (ht : opts.OverrideMsgType ≠ []) :
    ∃ p, jsonCodec.Parse env data opts = .ok p ∧ p.Typ = opts.OverrideMsgType := by
  refine ⟨_, jsonCodec.parse_of_decoded env data opts o hdec, ?_⟩
  rw [jsonCodec.json_fold_Typ]
  simp [jsonCodec.init, ht]

/-- C13 at an input whose `type` key holds `Vote`, with the override
`Propose`, which the phase synonym table maps to `Proposal`. -/
theorem C13_json_override_sets_type_witness :
    sampleEnv.PhaseSynonyms "Propose".toList = some "Proposal".toList ∧
    ∃ p, jsonCodec.Parse sampleEnv "\x7b\"type\":\"Vote\",\"height\":\"7\"\x7d".toList
        (jsonOverride "Propose".toList) = .ok p ∧
      p.Typ = "Propose".toList :=
  ⟨by decide!, C13_json_override_sets_type sampleEnv _ (jsonOverride "Propose".toList)
    [("height".toList, .str "7".toList), ("type".toList, .str "Vote".toList)]
    (sampleEnv_unmarshal_obj _ _ (by decide!)) (by decide)⟩

/-- C14, evaluated at the failing input (the text `Propose(height=1)` with
the format `generic` and the override `Commit`): `genericCodec.Parse` discards
its options, so the type is the phase token resolved through the synonym
table; `jsonCodec.Parse`, which the other codecs hand the override on to,
returns the override for the same message in JSON. -/
theorem C14_generic_parse_ignores_override :
    (genericOverride "Commit".toList).Format = FormatGeneric ∧
    (genericOverride "Commit".toList).OverrideMsgType = "Commit".toList ∧
    (genericCodec.Parse sampleEnv "Propose(height=1)".toList
      (genericOverride "Commit".toList)).toOption.map (fun p => p.Typ) =
      some "Proposal".toList ∧
    (jsonCodec.Parse sampleEnv "\x7b\"type\":\"Propose\",\"height\":\"1\"\x7d".toList
      (jsonOverride "Commit".toList)).toOption.map (fun p => p.Typ) =
      some "Commit".toList := by
  refine ⟨rfl, rfl, by decide!, by decide!⟩

theorem dropWhile_takeWhile_comm {α : Type} (p q : α → Bool) (l : List α)
    (h : ∀ x, p x = true → q x = true) :
    (l.takeWhile q).dropWhile p = (l.dropWhile p).takeWhile q := by
  induction l with
  | nil => rfl
  | cons a t ih =>
    by_cases hp : p a = true
    · rw [List.takeWhile_cons_of_pos (h a hp), List.dropWhile_cons_of_pos hp,
        List.dropWhile_cons_of_pos hp, ih]
    · rw [List.dropWhile_cons_of_neg hp]
      by_cases hq : q a = true
      · rw [List.takeWhile_cons_of_pos hq, List.dropWhile_cons_of_neg hp]
      · rw [List.takeWhile_cons_of_neg hq]
        rfl

theorem takeWhile_append_of_mem {α : Type} (q : α → Bool) (r w : List α) (x : α) (hx : x ∈ r)
    (hq : q x = false) : (r ++ w).takeWhile q = r.takeWhile q := by
  induction r with
  | nil => simp at hx
  | cons a t ih =>
    by_cases ha : q a = true
    · rw [List.cons_append, List.takeWhile_cons_of_pos ha, List.takeWhile_cons_of_pos ha]
      rcases List.mem_cons.mp hx with h | h
      · subst h
        rw [hq] at ha
        cases ha
      · rw [ih h]
    · rw [List.cons_append, List.takeWhile_cons_of_neg ha, List.takeWhile_cons_of_neg ha]

theorem dropWhile_dropWhile {α : Type} (p : α → Bool) (l : List α) :
    (l.dropWhile p).dropWhile p = l.dropWhile p := by
  induction l with
  | nil => rfl
  | cons a t ih =>
    by_cases hp : p a = true
    · rw [List.dropWhile_cons_of_pos hp, ih]
    · rw [List.dropWhile_cons_of_neg hp, List.dropWhile_cons_of_neg hp]

theorem TrimSpace_phase_token (data : Str) (h : '(' ∈ data) :
    strings.TrimSpace ((strings.TrimSpace data).takeWhile (fun x => x != '(')) =
      strings.TrimSpace (data.takeWhile (fun x => x != '(')) := by
  have hm : '(' ∈ strings.TrimSpace data := mem_TrimSpace_of_mem data '(' h (by decide)
  have hpre : strings.TrimSpace data <+: data.dropWhile isSpace := List.rdropWhile_prefix isSpace _
  obtain ⟨w, hw⟩ := hpre
  have h1 : (strings.TrimSpace data).takeWhile (fun x => x != '(') =
      (data.dropWhile isSpace).takeWhile (fun x => x != '(') := by
    rw [← hw, takeWhile_append_of_mem _ _ w '(' hm (by decide)]
  have h2 : (data.dropWhile isSpace).takeWhile (fun x => x != '(') =
      (data.takeWhile (fun x => x != '(')).dropWhile isSpace := by
    rw [dropWhile_takeWhile_comm]
    intro x hx
    have : x ≠ '(' := by
      intro e
      subst e
      revert hx
      decide
    simpa using this
  rw [h1, h2]
  unfold strings.TrimSpace
  rw [dropWhile_dropWhile]

theorem genericCodec.parse_of_paren (env : Env) (data : Str) (opts : ParseOptions)
    (h : '(' ∈ data) :
    genericCodec.Parse env data opts =
      .ok ((env.range .genericParse (setAll []
          (SplitKeyValuePairs.pairs (TrimBrackets (strings.TrimSpace data))))).foldl
        (genericCodec.step env)
        (genericCodec.init env (strings.TrimSpace data)
          (strings.TrimSpace ((strings.TrimSpace data).takeWhile (fun x => x != '('))))) := by
  have hm : '(' ∈ strings.TrimSpace data := mem_TrimSpace_of_mem data '(' h (by decide)
  have hne : strings.TrimSpace data ≠ [] := List.ne_nil_of_mem hm
  have hidx : strings.Index (strings.TrimSpace data) '(' =
      (((strings.TrimSpace data).indexOf '(' : Nat) : Int) := by
    simp [strings.Index, hm]
  unfold genericCodec.Parse
  simp only [hne, if_false, hidx]
  rw [if_neg (by omega)]
  simp only [Int.toNat_ofNat, slice, List.drop_zero, take_indexOf, SplitKeyValuePairs_eq]

/-- C15: phase resolution.  For every phase synonym table: `genericCodec.Parse`
of an input that contains `(` returns a message whose `Type` is the table's
image of the white-space-trimmed text before the first `(` when that text is
a key of the table, and the text itself otherwise; `jsonCodec.Parse` without
an override, of an input that decodes as a JSON object, returns a message
whose `Type` is the table's image of the string under `type` when that string
is a key, the string itself when it is not, and empty when `type` is missing
or holds no string.  In no case is an error returned. -/
theorem C15_phase_resolution (env : Env) (opts : ParseOptions) :
    (∀ data : Str, '(' ∈ data →
      ∃ m, genericCodec.Parse env data opts = .ok m ∧
        m.Typ = resolvePhase env (strings.TrimSpace (data.takeWhile (fun x => x != '(')))) ∧
    (∀ (jdata : Str) (o : GoMap JVal), env.jsonUnmarshal jdata = .ok (.obj o) →
      opts.OverrideMsgType = [] →
      ∃ m, jsonCodec.Parse env jdata opts = .ok m ∧
        m.Typ = match GoMap.get? o "type".toList with
          | some (.str s) => resolvePhase env s
          | _ => []) := by
  constructor
  · intro data hparen
    refine ⟨_, genericCodec.parse_of_paren env data opts hparen, ?_⟩
    rw [genericCodec.fold_Typ, TrimSpace_phase_token data hparen]
    rfl
  · intro jdata o hdec hno
    refine ⟨_, jsonCodec.parse_of_decoded env jdata opts o hdec, ?_⟩
    rw [jsonCodec.json_fold_Typ]
    simp only [jsonCodec.init, hno, ne_eq, not_true_eq_false, if_false]
    unfold resolvePhase
    rfl

/-- C15 at the generic input ` Propose (height=1)`, whose phase token is an
alias, and at a JSON input whose `type` is the unknown phase `Unknown`. -/
theorem C15_phase_resolution_witness :
    (∃ m, genericCodec.Parse sampleEnv " Propose (height=1)".toList
        (ParseOptions.ofFormat FormatAuto) = .ok m ∧ m.Typ = "Proposal".toList) ∧
    (∃ m, jsonCodec.Parse sampleEnv "\x7b\"type\":\"Unknown\"\x7d".toList
        (ParseOptions.ofFormat FormatAuto) = .ok m ∧ m.Typ = "Unknown".toList) := by
  have h := C15_phase_resolution sampleEnv (ParseOptions.ofFormat FormatAuto)
  obtain ⟨m1, h1, t1⟩ := h.1 " Propose (height=1)".toList (by decide)
  obtain ⟨m2, h2, t2⟩ := h.2 "\x7b\"type\":\"Unknown\"\x7d".toList
    [("type".toList, .str "Unknown".toList)] (sampleEnv_unmarshal_obj _ _ (by decide!)) rfl
  refine ⟨⟨m1, h1, ?_⟩, ⟨m2, h2, ?_⟩⟩
  · rw [t1]
    decide!
  · rw [t2]
    decide!

/-! ## Two parses of JSON objects that differ in one key -/

theorem toBigIntPtr_of_notInteger (env : Env) (v : JVal) (h : notInteger v) :
    toBigIntPtr env v = none := by
  cases v <;> simp_all [notInteger, toBigIntPtr]

theorem foldl_filter_of_idle {ι β : Type} (g : β → ι → β) (P : ι → Bool) (l : List ι) (b : β)
    (h : ∀ e ∈ l, P e = false → ∀ x, g x e = x) : l.foldl g b = (l.filter P).foldl g b := by
  induction l generalizing b with
  | nil => rfl
  | cons a t ih =>
    have ht : ∀ e ∈ t, P e = false → ∀ x, g x e = x :=
      fun e he => h e (List.mem_cons_of_mem _ he)
    by_cases hp : P a = true
    · rw [List.filter_cons_of_pos hp, List.foldl_cons, List.foldl_cons, ih _ ht]
    · rw [List.filter_cons_of_neg hp, List.foldl_cons,
        h a (List.mem_cons_self _ _) (by simpa using hp), ih _ ht]

theorem filter_key_eq_singleton {α : Type} (L : List (Str × α)) (k : Str) (v : α)
    (hn : (GoMap.keys L).Nodup) (hm : (k, v) ∈ L) :
    L.filter (fun e => e.1 == k) = [(k, v)] := by
  induction L with
  | nil => simp at hm
  | cons a t ih =>
    rw [GoMap.keys_cons] at hn
    obtain ⟨hn1, hn2⟩ := List.nodup_cons.mp hn
    rcases List.mem_cons.mp hm with h | h
    · subst h
      rw [List.filter_cons_of_pos (by simp)]
      congr 1
      rw [List.filter_eq_nil_iff]
      intro e he hek
      have : e.1 = k := by simpa using hek
      exact hn1 (List.mem_map.mpr ⟨e, he, this⟩)
    · have hne : ¬a.1 = k := by
        intro e
        exact hn1 (List.mem_map.mpr ⟨(k, v), h, e.symm⟩)
      rw [List.filter_cons_of_neg (by simpa using hne)]
      exact ih hn2 h

theorem jsonCodec.json_step_RawPayload (env : Env) (am : AbstractMessage) (kv : Str × JVal) :
    (jsonCodec.step env am kv).RawPayload = am.RawPayload := by
  unfold jsonCodec.step
  simp only [apply_ite AbstractMessage.RawPayload]
  simp

theorem jsonCodec.json_step_OriginalFormat (env : Env) (am : AbstractMessage)
    (kv : Str × JVal) : (jsonCodec.step env am kv).OriginalFormat = am.OriginalFormat := by
  unfold jsonCodec.step
  simp only [apply_ite AbstractMessage.OriginalFormat]
  simp

theorem jsonCodec.json_step_OriginalMsgName (env : Env) (am : AbstractMessage)
    (kv : Str × JVal) : (jsonCodec.step env am kv).OriginalMsgName = am.OriginalMsgName := by
  unfold jsonCodec.step
  simp only [apply_ite AbstractMessage.OriginalMsgName]
  simp

theorem jsonCodec.json_step_OriginalFieldNames (env : Env) (am : AbstractMessage)
    (kv : Str × JVal) :
    (jsonCodec.step env am kv).OriginalFieldNames = am.OriginalFieldNames := by
  unfold jsonCodec.step
  simp only [apply_ite AbstractMessage.OriginalFieldNames]
  simp

theorem jsonCodec.json_fold_const {β : Type} (env : Env) (proj : AbstractMessage → β)
    (h : ∀ am kv, proj (jsonCodec.step env am kv) = proj am) (am : AbstractMessage)
    (L : List (Str × JVal)) : proj (L.foldl (jsonCodec.step env) am) = proj am := by
  rw [foldl_proj (jsonCodec.step env) proj (fun _ b => b) h]
  exact foldl_const L _

theorem AbstractMessage.eq_of_fields (p q : AbstractMessage)
    (h1 : p.Typ = q.Typ) (h2 : p.Height = q.Height) (h3 : p.Round = q.Round)
    (h4 : p.View = q.View) (h5 : p.Timestamp = q.Timestamp) (h6 : p.BlockHash = q.BlockHash)
    (h7 : p.PrevHash = q.PrevHash) (h8 : p.Proposer = q.Proposer)
    (h9 : p.Validator = q.Validator) (h10 : p.Signature = q.Signature)
    (h11 : p.CommitSeals = q.CommitSeals) (h12 : p.ViewChanges = q.ViewChanges)
    (h13 : p.Extras = q.Extras) (h14 : p.OriginalFormat = q.OriginalFormat)
    (h15 : p.OriginalMsgName = q.OriginalMsgName)
    (h16 : p.OriginalFieldNames = q.OriginalFieldNames) :
    p = { q with RawPayload := p.RawPayload } := by
  cases p
  cases q
  simp_all

theorem jsonCodec.fold_Height_eq (env : Env) (s : AbstractMessage) (L : List (Str × JVal)) :
    (L.foldl (jsonCodec.step env) s).Height =
      jsonCodec.fieldFold env "Height".toList (fun v _ => toBigIntPtr env v) s.Height L :=
  foldl_proj (jsonCodec.step env) AbstractMessage.Height _ (jsonCodec.json_step_Height env) L s

theorem jsonCodec.fold_Round_eq (env : Env) (s : AbstractMessage) (L : List (Str × JVal)) :
    (L.foldl (jsonCodec.step env) s).Round =
      jsonCodec.fieldFold env "Round".toList (fun v _ => toBigIntPtr env v) s.Round L :=
  foldl_proj (jsonCodec.step env) AbstractMessage.Round _ (jsonCodec.json_step_Round env) L s

theorem jsonCodec.fold_View_eq (env : Env) (s : AbstractMessage) (L : List (Str × JVal)) :
    (L.foldl (jsonCodec.step env) s).View =
      jsonCodec.fieldFold env "View".toList (fun v _ => toBigIntPtr env v) s.View L :=
  foldl_proj (jsonCodec.step env) AbstractMessage.View _ (jsonCodec.json_step_View env) L s

theorem jsonCodec.fold_BlockHash_eq (env : Env) (s : AbstractMessage)
    (L : List (Str × JVal)) :
    (L.foldl (jsonCodec.step env) s).BlockHash =
      jsonCodec.fieldFold env "BlockHash".toList (fun v _ => toString env v) s.BlockHash L :=
  foldl_proj (jsonCodec.step env) AbstractMessage.BlockHash _
    (jsonCodec.json_step_BlockHash env) L s

theorem jsonCodec.fold_PrevHash_eq (env : Env) (s : AbstractMessage)
    (L : List (Str × JVal)) :
    (L.foldl (jsonCodec.step env) s).PrevHash =
      jsonCodec.fieldFold env "PrevHash".toList (fun v _ => toString env v) s.PrevHash L :=
  foldl_proj (jsonCodec.step env) AbstractMessage.PrevHash _
    (jsonCodec.json_step_PrevHash env) L s

theorem jsonCodec.fold_Timestamp_eq (env : Env) (s : AbstractMessage)
    (L : List (Str × JVal)) :
    (L.foldl (jsonCodec.step env) s).Timestamp =
      jsonCodec.fieldFold env "Timestamp".toList (fun v _ => toTime env v) s.Timestamp L :=
  foldl_proj (jsonCodec.step env) AbstractMessage.Timestamp _
    (jsonCodec.json_step_Timestamp env) L s

theorem jsonCodec.fold_Proposer_eq (env : Env) (s : AbstractMessage)
    (L : List (Str × JVal)) :
    (L.foldl (jsonCodec.step env) s).Proposer =
      jsonCodec.fieldFold env "Proposer".toList (fun v _ => toString env v) s.Proposer L :=
  foldl_proj (jsonCodec.step env) AbstractMessage.Proposer _
    (jsonCodec.json_step_Proposer env) L s

theorem jsonCodec.fold_Validator_eq (env : Env) (s : AbstractMessage)
    (L : List (Str × JVal)) :
    (L.foldl (jsonCodec.step env) s).Validator =
      jsonCodec.fieldFold env "Validator".toList (fun v _ => toString env v) s.Validator L :=
  foldl_proj (jsonCodec.step env) AbstractMessage.Validator _
    (jsonCodec.json_step_Validator env) L s

theorem jsonCodec.fold_Signature_eq (env : Env) (s : AbstractMessage)
    (L : List (Str × JVal)) :
    (L.foldl (jsonCodec.step env) s).Signature =
      jsonCodec.fieldFold env "Signature".toList (fun v _ => toString env v) s.Signature L :=
  foldl_proj (jsonCodec.step env) AbstractMessage.Signature _
    (jsonCodec.json_step_Signature env) L s

theorem jsonCodec.fold_CommitSeals_eq (env : Env) (s : AbstractMessage)
    (L : List (Str × JVal)) :
    (L.foldl (jsonCodec.step env) s).CommitSeals =
      jsonCodec.fieldFold env "CommitSeals".toList (fun v _ => toStringSlice env v)
        s.CommitSeals L :=
  foldl_proj (jsonCodec.step env) AbstractMessage.CommitSeals _
    (jsonCodec.json_step_CommitSeals env) L s

theorem jsonCodec.fold_ViewChanges_eq (env : Env) (s : AbstractMessage)
    (L : List (Str × JVal)) :
    (L.foldl (jsonCodec.step env) s).ViewChanges =
      jsonCodec.fieldFold env "ViewChanges".toList (fun v x => jsonCodec.viewChanges env x v)
        s.ViewChanges L :=
  foldl_proj (jsonCodec.step env) AbstractMessage.ViewChanges _
    (jsonCodec.json_step_ViewChanges env) L s

theorem jsonCodec.fold_Extras_eq (env : Env) (s : AbstractMessage) (L : List (Str × JVal)) :
    (L.foldl (jsonCodec.step env) s).Extras =
      L.foldl (fun x e => if jsonCodec.resolve env e.1 ∈ jsonCodec.switchNames then x
        else setEntry x e.1 (env.jsonMarshal e.2)) s.Extras :=
  foldl_proj (jsonCodec.step env) AbstractMessage.Extras _ (jsonCodec.json_step_Extras env) L s

theorem jsonCodec.extras_drop_key (env : Env) (L : List (Str × JVal)) (k : Str)
    (hk : jsonCodec.resolve env k ∈ jsonCodec.switchNames) (b0 : Option (GoMap Str)) :
    L.foldl (fun x e => if jsonCodec.resolve env e.1 ∈ jsonCodec.switchNames then x
        else setEntry x e.1 (env.jsonMarshal e.2)) b0 =
      (L.filter (fun e => e.1 != k)).foldl (fun x e =>
        if jsonCodec.resolve env e.1 ∈ jsonCodec.switchNames then x
        else setEntry x e.1 (env.jsonMarshal e.2)) b0 := by
  apply foldl_filter_of_idle
  intro e _ hek x
  have : e.1 = k := by simpa using hek
  rw [this, if_pos hk]

theorem jsonCodec.fieldFold_single {β : Type} (env : Env) (name : Str)
    (upd : JVal → β → β) (L : List (Str × JVal)) (k : Str) (v : JVal) (b0 : β)
    (hk : jsonCodec.resolve env k = name)
    (hLk : L.filter (fun e => e.1 == k) = [(k, v)])
    (hno : ∀ e ∈ L, e.1 ≠ k → jsonCodec.resolve env e.1 ≠ name) :
    jsonCodec.fieldFold env name upd b0 L = upd v b0 := by
  unfold jsonCodec.fieldFold
  rw [foldl_filter_of_idle _ (fun e => e.1 == k) L, hLk]
  · rw [List.foldl_cons, List.foldl_nil, if_pos hk]
  · intro e he hek x
    rw [if_neg (hno e he (by simpa using hek))]

theorem GoMap.get?_erase {α : Type} (m : GoMap α) (k k' : Str) :
    GoMap.get? (GoMap.erase m k) k' = if k' = k then none else GoMap.get? m k' := by
  unfold GoMap.erase
  induction m with
  | nil => simp [GoMap.get?]
  | cons a t ih =>
    by_cases ha : a.1 = k
    · rw [List.filter_cons_of_neg (by simpa using ha), ih]
      by_cases hk : k' = k
      · simp [hk]
      · have : ¬a.1 = k' := fun e => hk (e ▸ ha)
        simp [GoMap.get?, hk, this]
    · rw [List.filter_cons_of_pos (by simpa using ha)]
      by_cases hk : k' = k
      · have : ¬a.1 = k' := fun e => ha (e.trans hk)
        simp only [GoMap.get?, if_neg this, ih, if_pos hk]
      · simp only [GoMap.get?, ih, if_neg hk]

theorem jsonCodec.init_Typ_congr (env : Env) (data data' : Str) (opts : ParseOptions)
    (o o' : GoMap JVal) (h : GoMap.get? o "type".toList = GoMap.get? o' "type".toList) :
    (jsonCodec.init env data opts o).Typ = (jsonCodec.init env data' opts o').Typ := by
  simp only [jsonCodec.init, h]

/-! ## Keys that go to `Extras` -/

theorem SplitKeyValuePairs_WF (s : Str) : GoMap.WF (SplitKeyValuePairs s) := by
  rw [SplitKeyValuePairs_eq]
  exact WF_setAll _ _ GoMap.WF_nil

theorem genericCodec.not_canonical (env : Env) (k : Str)
    (h : genericCodec.isCanonical env k = false) :
    ∀ name ∈ genericCodec.switchNames, ¬env.FieldSynonyms k = some name := by
  intro name hn e
  unfold genericCodec.isCanonical at h
  rw [e] at h
  simp only [decide_eq_false_iff_not] at h
  exact h hn

theorem genericCodec.step_canonicalFields (env : Env) (am : AbstractMessage) (k v : Str)
    (h : genericCodec.isCanonical env k = false) :
    canonicalFields (genericCodec.step env am (k, v)) = canonicalFields am := by
  have hn := genericCodec.not_canonical env k h
  unfold canonicalFields
  rw [genericCodec.step_Typ, genericCodec.step_Height, genericCodec.step_Round,
    genericCodec.step_View, genericCodec.step_Timestamp, genericCodec.step_BlockHash,
    genericCodec.step_PrevHash, genericCodec.step_Proposer, genericCodec.step_Validator,
    genericCodec.step_Signature, genericCodec.step_CommitSeals, genericCodec.step_ViewChanges,
    if_neg (hn _ (by decide)), if_neg (hn _ (by decide)), if_neg (hn _ (by decide)),
    if_neg (hn _ (by decide)), if_neg (hn _ (by decide)), if_neg (hn _ (by decide)),
    if_neg (hn _ (by decide)), if_neg (hn _ (by decide)), if_neg (hn _ (by decide)),
    if_neg (hn _ (by decide)), if_neg (hn _ (by decide))]

theorem jsonCodec.json_step_canonicalFields (env : Env) (am : AbstractMessage) (k : Str) (v : JVal)
    (h : jsonCodec.resolve env k ∉ jsonCodec.switchNames) :
    canonicalFields (jsonCodec.step env am (k, v)) = canonicalFields am := by
  have hn : ∀ name ∈ jsonCodec.switchNames, ¬jsonCodec.resolve env k = name :=
    fun name hm e => h (e ▸ hm)
  unfold canonicalFields
  rw [jsonCodec.json_step_Typ, jsonCodec.json_step_Height, jsonCodec.json_step_Round,
    jsonCodec.json_step_View, jsonCodec.json_step_Timestamp, jsonCodec.json_step_BlockHash,
    jsonCodec.json_step_PrevHash, jsonCodec.json_step_Proposer, jsonCodec.json_step_Validator,
    jsonCodec.json_step_Signature, jsonCodec.json_step_CommitSeals,
    jsonCodec.json_step_ViewChanges,
    if_neg (hn _ (by decide)), if_neg (hn _ (by decide)), if_neg (hn _ (by decide)),
    if_neg (hn _ (by decide)), if_neg (hn _ (by decide)), if_neg (hn _ (by decide)),
    if_neg (hn _ (by decide)), if_neg (hn _ (by decide)), if_neg (hn _ (by decide)),
    if_neg (hn _ (by decide)), if_neg (hn _ (by decide))]

/-- C16 (amended): keys that are not recognized go to `Extras` under their
original key.  For every field synonym table: after `genericCodec.Parse` the
keys of `Extras` are exactly the keys of the body that the table does not map
to one of the eleven canonical field names (a key the table does not have is
such a key, also when it is spelled like a canonical name), each with its
white-space-trimmed value text; after `jsonCodec.Parse` they are exactly the
keys of the object whose resolved name, the table's image of the key or the
key itself when the table does not have it, is neither a canonical field name
nor `type`, each with the compact JSON encoding of its decoded value.  A step
of either loop for such a key changes neither the type nor a canonical
field. -/
theorem C16_unrecognized_keys_to_extras (env : Env) (opts : ParseOptions) :
    (∀ data : Str, (∀ (α : Type) (s : Loop) (l : GoMap α), (env.range s l).Perm l) →
      '(' ∈ data →
      ∃ m, genericCodec.Parse env data opts = .ok m ∧
        ∀ k, GoMap.get? (elems m.Extras) k =
          if genericCodec.isCanonical env k = true then none
          else GoMap.get? (SplitKeyValuePairs (TrimBrackets (strings.TrimSpace data))) k) ∧
    (∀ (jdata : Str) (o : GoMap JVal),
      (∀ (α : Type) (s : Loop) (l : GoMap α), (env.range s l).Perm l) →
      GoMap.WF o → env.jsonUnmarshal jdata = .ok (.obj o) →
      ∃ m, jsonCodec.Parse env jdata opts = .ok m ∧
        ∀ k, GoMap.get? (elems m.Extras) k =
          if jsonCodec.resolve env k ∈ jsonCodec.switchNames then none
          else (GoMap.get? o k).map env.jsonMarshal) ∧
    (∀ am k v, genericCodec.isCanonical env k = false →
      canonicalFields (genericCodec.step env am (k, v)) = canonicalFields am) ∧
    (∀ am k v, jsonCodec.resolve env k ∉ jsonCodec.switchNames →
      canonicalFields (jsonCodec.step env am (k, v)) = canonicalFields am) := by
  refine ⟨fun data hrange hparen => ⟨_, genericCodec.parse_of_paren env data opts hparen, ?_⟩,
    fun jdata o hrange hwf hdec => ⟨_, jsonCodec.parse_of_decoded env jdata opts o hdec, ?_⟩,
    genericCodec.step_canonicalFields env, jsonCodec.json_step_canonicalFields env⟩
  · intro k
    rw [← SplitKeyValuePairs_eq]
    have hkv := SplitKeyValuePairs_WF (TrimBrackets (strings.TrimSpace data))
    have hL := hrange Str .genericParse (SplitKeyValuePairs (TrimBrackets (strings.TrimSpace data)))
    have hnd : (GoMap.keys (env.range .genericParse
        (SplitKeyValuePairs (TrimBrackets (strings.TrimSpace data))))).Nodup :=
      ((hL.map Prod.fst).nodup_iff).mpr hkv.nodup
    rw [genericCodec.fold_Extras,
      get?_foldl_condSet (fun k => genericCodec.isCanonical env k = true) id _ hnd,
      get?_perm _ _ hL hkv.nodup]
    cases GoMap.get? (SplitKeyValuePairs (TrimBrackets (strings.TrimSpace data))) k with
    | none =>
      simp only [genericCodec.init, elems, Option.getD_some, GoMap.get?, ite_self]
    | some v =>
      simp only [genericCodec.init, elems, Option.getD_some, GoMap.get?, id]
  · intro k
    have hL := hrange JVal .jsonParse o
    have hnd : (GoMap.keys (env.range .jsonParse o)).Nodup :=
      ((hL.map Prod.fst).nodup_iff).mpr hwf.nodup
    rw [jsonCodec.json_fold_Extras,
      get?_foldl_condSet (fun k => jsonCodec.resolve env k ∈ jsonCodec.switchNames)
        env.jsonMarshal _ hnd,
      get?_perm _ _ hL hwf.nodup]
    cases GoMap.get? o k with
    | none =>
      simp only [jsonCodec.init, elems, Option.getD_some, GoMap.get?, ite_self, Option.map_none']
    | some v =>
      simp only [jsonCodec.init, elems, Option.getD_some, GoMap.get?, Option.map_some']

/-- C16 fails as stated.  With an empty field synonym table the generic input
`Proposal(Height=5)` is parsed into a message whose `Extras` has the key
`Height`, spelled like a canonical field, and whose `Height` is absent; with a
table that maps `foo` to `type`, the JSON object with the one key `foo` is
parsed into a message with empty `Extras`. -/
theorem C16_counterexample_direct_name_and_type :
    (genericCodec.Parse noAliasEnv "Proposal(Height=5)".toList
      (ParseOptions.ofFormat FormatGeneric)).toOption.map (fun p => (p.Height, p.Extras)) =
      some (none, some [("Height".toList, "5".toList)]) ∧
    (jsonCodec.resolve typeTargetEnv "foo".toList = "type".toList ∧
      "foo".toList ≠ "type".toList ∧
      (jsonCodec.Parse typeTargetEnv "\x7b\"foo\":\"1\"\x7d".toList
        (ParseOptions.ofFormat FormatJSON)).toOption.map (fun p => p.Extras) =
        some (some [])) := by
  refine ⟨by decide!, by decide!, by decide, by decide!⟩

/-- C16 (amended) at a generic and a JSON input that each have the alias
`seq_num` and the unknown key `payload`. -/
theorem C16_unrecognized_keys_to_extras_witness :
    (∃ m, genericCodec.Parse sampleEnv "Proposal(seq_num=7, payload = hello )".toList
        (ParseOptions.ofFormat FormatAuto) = .ok m ∧
      GoMap.get? (elems m.Extras) "payload".toList = some "hello".toList ∧
      GoMap.get? (elems m.Extras) "seq_num".toList = none) ∧
    (∃ m, jsonCodec.Parse sampleEnv
        "\x7b\"payload\": [1, \"a\"], \"seq_num\":\"7\"\x7d".toList
        (ParseOptions.ofFormat FormatAuto) = .ok m ∧
      GoMap.get? (elems m.Extras) "payload".toList = some "[1,\"a\"]".toList ∧
      GoMap.get? (elems m.Extras) "seq_num".toList = none) := by
  obtain ⟨hg, hj, _, _⟩ := C16_unrecognized_keys_to_extras sampleEnv
    (ParseOptions.ofFormat FormatAuto)
  obtain ⟨m1, h1, e1⟩ := hg "Proposal(seq_num=7, payload = hello )".toList
    (fun _ _ l => List.Perm.refl l) (by decide)
  obtain ⟨m2, h2, e2⟩ := hj "\x7b\"payload\": [1, \"a\"], \"seq_num\":\"7\"\x7d".toList
    [("payload".toList, .arr [.num ⟨false, 2 ^ 52, -52⟩, .str "a".toList]),
      ("seq_num".toList, .str "7".toList)]
    (fun _ _ l => List.Perm.refl l) (by decide) (sampleEnv_unmarshal_obj _ _ (by decide!))
  refine ⟨⟨m1, h1, ?_, ?_⟩, ⟨m2, h2, ?_, ?_⟩⟩
  · rw [e1]
    decide!
  · rw [e1]
    decide!
  · rw [e2]
    decide!
  · rw [e2]
    decide!

/-! ## Trimming a byte slice -/

theorem bytes.mem_spaceChars_iff (c : Char) : c ∈ bytes.spaceChars ↔ isSpace c = true := by
  constructor
  · intro h
    revert c
    decide
  · intro h
    unfold bytes.spaceChars
    rw [List.mem_map]
    refine ⟨c.toNat, ?_, Char.ofNat_toNat c⟩
    simp only [isSpace, Bool.or_eq_true, Bool.and_eq_true, decide_eq_true_eq, beq_iff_eq] at h
    simp only [List.mem_cons, List.mem_singleton]
    omega

theorem bytes.cutPrefixes_suffix (encs : List Bytes) (fuel : Nat) (s : Bytes) :
    bytes.cutPrefixes encs fuel s <:+ s := by
  induction fuel generalizing s with
  | zero => exact List.suffix_refl _
  | succ n ih =>
    unfold bytes.cutPrefixes
    cases encs.find? (fun e => e.isPrefixOf s) with
    | none => exact List.suffix_refl _
    | some e => exact (ih _).trans (List.drop_suffix _ _)

theorem bytes.cutPrefixes_eq_nil (encs : List Bytes) (fuel : Nat) (s : Bytes)
    (h : bytes.cutPrefixes encs fuel s = []) :
    ∃ ws : List Bytes, (∀ w ∈ ws, w ∈ encs) ∧ s = ws.flatten := by
  induction fuel generalizing s with
  | zero =>
    unfold bytes.cutPrefixes at h
    exact ⟨[], by simp, by simp [h]⟩
  | succ n ih =>
    unfold bytes.cutPrefixes at h
    cases hf : encs.find? (fun e => e.isPrefixOf s) with
    | none =>
      rw [hf] at h
      exact ⟨[], by simp, by simpa using h⟩
    | some e =>
      rw [hf] at h
      obtain ⟨ws, hws, hs⟩ := ih _ h
      have he : e ∈ encs := List.mem_of_find?_eq_some hf
      have hp : e <+: s := by
        have := List.find?_some hf
        exact List.isPrefixOf_iff_prefix.mp this
      refine ⟨e :: ws, ?_, ?_⟩
      · intro w hw
        rcases List.mem_cons.mp hw with h1 | h1
        · exact h1 ▸ he
        · exact hws w h1
      · rw [List.flatten_cons, ← hs]
        exact (List.prefix_iff_eq_append.mp hp).symm

theorem bytes.cutPrefixes_no_prefix (encs : List Bytes) (hne : ∀ e ∈ encs, e ≠ [])
    (fuel : Nat) (s : Bytes) (hf : s.length ≤ fuel) :
    encs.find? (fun e => e.isPrefixOf (bytes.cutPrefixes encs fuel s)) = none := by
  induction fuel generalizing s with
  | zero =>
    have hs : s = [] := List.length_eq_zero.mp (Nat.le_zero.mp hf)
    subst hs
    unfold bytes.cutPrefixes
    rw [List.find?_eq_none]
    intro e he hp
    have := List.isPrefixOf_iff_prefix.mp hp
    exact hne e he (List.prefix_nil.mp this)
  | succ n ih =>
    unfold bytes.cutPrefixes
    cases hfind : encs.find? (fun e => e.isPrefixOf s) with
    | none => exact hfind
    | some e =>
      have he : e ∈ encs := List.mem_of_find?_eq_some hfind
      have hlen : 0 < e.length := List.length_pos.mpr (hne e he)
      apply ih
      rw [List.length_drop]
      omega

theorem bytes.cutPrefixes_flatten (encs : List Bytes) (hne : ∀ e ∈ encs, e ≠ [])
    (hfree : ∀ e ∈ encs, ∀ e' ∈ encs, e <+: e' → e = e') (ws : List Bytes)
    (hws : ∀ w ∈ ws, w ∈ encs) (fuel : Nat) (hf : ws.length ≤ fuel) :
    bytes.cutPrefixes encs fuel ws.flatten = [] := by
  induction ws generalizing fuel with
  | nil =>
    cases fuel with
    | zero => rfl
    | succ n =>
      unfold bytes.cutPrefixes
      have : encs.find? (fun e => e.isPrefixOf ([] : Bytes)) = none := by
        rw [List.find?_eq_none]
        intro e he hp
        exact hne e he (List.prefix_nil.mp (List.isPrefixOf_iff_prefix.mp hp))
      simp only [List.flatten_nil, this]
  | cons w t ih =>
    cases fuel with
    | zero => simp at hf
    | succ n =>
      have hw : w ∈ encs := hws w (List.mem_cons_self _ _)
      unfold bytes.cutPrefixes
      cases hfind : encs.find? (fun e => e.isPrefixOf (w :: t).flatten) with
      | none =>
        rw [List.find?_eq_none] at hfind
        exact absurd (List.isPrefixOf_iff_prefix.mpr
          (by rw [List.flatten_cons]; exact List.prefix_append _ _)) (hfind w hw)
      | some e =>
        have he : e ∈ encs := List.mem_of_find?_eq_some hfind
        have hp : e <+: (w :: t).flatten := by
          have := List.find?_some hfind
          exact List.isPrefixOf_iff_prefix.mp this
        have hpw : w <+: (w :: t).flatten := by
          rw [List.flatten_cons]
          exact List.prefix_append _ _
        have hew : e = w := by
          rcases Nat.le_total e.length w.length with hl | hl
          · exact hfree e he w hw (List.prefix_of_prefix_length_le hp hpw hl)
          · exact (hfree w hw e he (List.prefix_of_prefix_length_le hpw hp hl)).symm
        subst hew
        simp only [List.flatten_cons, List.drop_left']
        exact ih (fun x hx => hws x (List.mem_cons_of_mem _ hx)) n (by simpa using hf)

theorem bytes.spaces_ne_nil : ∀ e ∈ bytes.spaces, e ≠ [] := by decide

theorem bytes.spaces_prefix_free :
    ∀ e ∈ bytes.spaces, ∀ e' ∈ bytes.spaces, e <+: e' → e = e' := by
  decide

theorem bytes.rspaces_ne_nil : ∀ e ∈ bytes.spaces.map List.reverse, e ≠ [] := by decide

theorem length_le_length_flatten (ws : List Bytes) (h : ∀ w ∈ ws, w ≠ []) :
    ws.length ≤ ws.flatten.length := by
  induction ws with
  | nil => simp
  | cons w t ih =>
    have hw : 0 < w.length := List.length_pos.mpr (h w (List.mem_cons_self _ _))
    have := ih (fun x hx => h x (List.mem_cons_of_mem _ hx))
    rw [List.flatten_cons, List.length_append, List.length_cons]
    omega

theorem flatten_ne_nil_prefix (encs : List Bytes) (ws : List Bytes)
    (hws : ∀ w ∈ ws, w ∈ encs) (h : ws.flatten ≠ []) : ∃ e ∈ encs, e <+: ws.flatten := by
  cases ws with
  | nil => simp at h
  | cons w t =>
    exact ⟨w, hws w (List.mem_cons_self _ _), by
      rw [List.flatten_cons]
      exact List.prefix_append _ _⟩

theorem reverse_flatten_map_reverse (ws : List Bytes) :
    (ws.map List.reverse).flatten.reverse = ws.reverse.flatten := by
  induction ws with
  | nil => rfl
  | cons w t ih =>
    simp only [List.map_cons, List.flatten_cons, List.reverse_append, List.reverse_reverse, ih,
      List.reverse_cons, List.flatten_append, List.flatten_nil, List.append_nil]

/-- What `bytes.TrimRight` leaves is empty only if its argument is a run of
white space encodings. -/
theorem bytes.TrimRight_eq_nil (t : Bytes) (h : bytes.TrimRight t = []) :
    ∃ ws : List Bytes, (∀ w ∈ ws, w ∈ bytes.spaces) ∧ t = ws.flatten := by
  unfold bytes.TrimRight at h
  have h' : bytes.cutPrefixes (bytes.spaces.map List.reverse) t.length t.reverse = [] := by
    simpa using h
  obtain ⟨rs, hrs, ht⟩ := bytes.cutPrefixes_eq_nil _ _ _ h'
  refine ⟨(rs.map List.reverse).reverse, ?_, ?_⟩
  · intro w hw
    rw [List.mem_reverse, List.mem_map] at hw
    obtain ⟨r, hr, rfl⟩ := hw
    obtain ⟨e, he, rfl⟩ := List.mem_map.mp (hrs r hr)
    rw [List.reverse_reverse]
    exact he
  · have : t = t.reverse.reverse := (List.reverse_reverse t).symm
    rw [this, ht, ← reverse_flatten_map_reverse]
    congr 2
    rw [List.map_map]
    have : (List.reverse ∘ List.reverse : Bytes → Bytes) = id := by
      funext x
      simp
    rw [this, List.map_id]

theorem bytes.TrimRight_prefix (t : Bytes) : bytes.TrimRight t <+: t := by
  unfold bytes.TrimRight
  have h := bytes.cutPrefixes_suffix (bytes.spaces.map List.reverse) t.length t.reverse
  have := List.reverse_prefix.mpr h
  rwa [List.reverse_reverse] at this

/-- The function `bytes.TrimSpace` leaves nothing exactly of a run of white
space encodings. -/
theorem bytes.TrimSpace_eq_nil_iff (data : Bytes) :
    bytes.TrimSpace data = [] ↔
      ∃ ws : List Bytes, (∀ w ∈ ws, w ∈ bytes.spaces) ∧ data = ws.flatten := by
  constructor
  · intro h
    unfold bytes.TrimSpace at h
    obtain ⟨ws, hws, ht⟩ := bytes.TrimRight_eq_nil _ h
    have hno := bytes.cutPrefixes_no_prefix bytes.spaces bytes.spaces_ne_nil data.length data
      (Nat.le_refl _)
    have hnil : bytes.TrimLeft data = [] := by
      by_contra hne
      rw [ht] at hne
      obtain ⟨e, he, hp⟩ := flatten_ne_nil_prefix _ ws hws hne
      rw [← ht] at hp
      unfold bytes.TrimLeft at hp
      rw [List.find?_eq_none] at hno
      exact hno e he (List.isPrefixOf_iff_prefix.mpr hp)
    exact bytes.cutPrefixes_eq_nil _ _ _ hnil
  · rintro ⟨ws, hws, rfl⟩
    have hlen : ws.length ≤ ws.flatten.length :=
      length_le_length_flatten ws (fun w hw => bytes.spaces_ne_nil w (hws w hw))
    unfold bytes.TrimSpace bytes.TrimLeft
    rw [bytes.cutPrefixes_flatten _ bytes.spaces_ne_nil bytes.spaces_prefix_free ws hws _ hlen]
    rfl

theorem bytes.isBlank_iff (data : Bytes) :
    bytes.IsBlank data ↔
      ∃ ws : List Bytes, (∀ w ∈ ws, w ∈ bytes.spaces) ∧ data = ws.flatten := by
  constructor
  · rintro ⟨cs, hcs, rfl⟩
    refine ⟨cs.map utf8.encodeChar, ?_, ?_⟩
    · intro w hw
      obtain ⟨c, hc, rfl⟩ := List.mem_map.mp hw
      exact List.mem_map.mpr ⟨c, (bytes.mem_spaceChars_iff c).mpr (hcs c hc), rfl⟩
    · unfold utf8.encode
      rw [List.flatMap_def]
  · rintro ⟨ws, hws, rfl⟩
    induction ws with
    | nil => exact ⟨[], by simp, rfl⟩
    | cons w t ih =>
      obtain ⟨cs, hcs, ht⟩ := ih (fun x hx => hws x (List.mem_cons_of_mem _ hx))
      obtain ⟨c, hc, hw⟩ := List.mem_map.mp (hws w (List.mem_cons_self _ _))
      refine ⟨c :: cs, ?_, ?_⟩
      · intro x hx
        rcases List.mem_cons.mp hx with h | h
        · exact h ▸ (bytes.mem_spaceChars_iff c).mp hc
        · exact hcs x h
      · rw [List.flatten_cons, ht, ← hw]
        rfl

theorem DetectFormat_of_trim_nil (env : Env) (data : Bytes) (h : bytes.TrimSpace data = []) :
    DetectFormat env data = FormatGeneric := by
  unfold DetectFormat
  simp only [h]

theorem DetectFormat_of_trim_cons (env : Env) (data : Bytes) (b : Byte) (rest : Bytes)
    (h : bytes.TrimSpace data = b :: rest) :
    DetectFormat env data =
      if (b = ch '{' ∨ b = ch '[') ∧ utf8.Valid (b :: rest) = true ∧
          env.jsonValid (b :: rest) = true then FormatJSON
      else if b ≥ 0xc0 ∨ b ≤ 0xbf then FormatRLP
      else if (b ≥ 0x80 ∧ b ≤ 0x9f) ∨ (b ≥ 0xa0 ∧ b ≤ 0xbf) then FormatMsgPack
      else FormatProtobuf := by
  unfold DetectFormat
  simp only [h]

/-- After the blank test and the JSON test, `DetectFormat` returns
`FormatRLP`: the test on the first byte holds for every byte. -/
theorem DetectFormat_json_or_rlp (env : Env) (data : Bytes) (b : Byte) (rest : Bytes)
    (h : bytes.TrimSpace data = b :: rest) :
    DetectFormat env data =
      if (b = ch '{' ∨ b = ch '[') ∧ utf8.Valid (b :: rest) = true ∧
          env.jsonValid (b :: rest) = true then FormatJSON
      else FormatRLP := by
  rw [DetectFormat_of_trim_cons env data b rest h]
  have hb : b ≥ 0xc0 ∨ b ≤ 0xbf := by
    rcases Nat.lt_or_ge b.val 0xc0 with h1 | h1
    · exact Or.inr (Fin.le_def.mpr (by simpa using Nat.le_of_lt_succ h1))
    · exact Or.inl (Fin.le_def.mpr (by simpa using h1))
  rw [if_pos hb]

/-- C18: `DetectFormat` returns `FormatGeneric` if and only if the input is
empty or consists only of white space, that is, is the UTF-8 encoding of a
text of white space characters. -/
theorem C18_detect_generic_iff_blank (env : Env) (data : Bytes) :
    DetectFormat env data = FormatGeneric ↔ bytes.IsBlank data := by
  rw [bytes.isBlank_iff, ← bytes.TrimSpace_eq_nil_iff]
  constructor
  · intro h
    cases ht : bytes.TrimSpace data with
    | nil => rfl
    | cons b rest =>
      rw [DetectFormat_json_or_rlp env data b rest ht] at h
      split at h
      · exact absurd h (by decide)
      · exact absurd h (by decide)
  · exact DetectFormat_of_trim_nil env data

theorem bytes.TrimSpace_head (data : Bytes) (b : Byte) (rest : Bytes) (hd : data = b :: rest)
    (hno : ∀ e ∈ bytes.spaces, ¬e <+: data) : ∃ rest', bytes.TrimSpace data = b :: rest' := by
  have hfind : bytes.spaces.find? (fun e => e.isPrefixOf data) = none := by
    rw [List.find?_eq_none]
    intro e he hp
    exact hno e he (List.isPrefixOf_iff_prefix.mp hp)
  have hleft : bytes.TrimLeft data = data := by
    unfold bytes.TrimLeft
    rw [hd, List.length_cons]
    unfold bytes.cutPrefixes
    rw [← hd, hfind]
  unfold bytes.TrimSpace
  rw [hleft]
  have hpre := bytes.TrimRight_prefix data
  cases ht : bytes.TrimRight data with
  | nil =>
    obtain ⟨ws, hws, hflat⟩ := bytes.TrimRight_eq_nil data ht
    have hne : ws.flatten ≠ [] := by
      rw [← hflat, hd]
      exact List.cons_ne_nil _ _
    obtain ⟨e, he, hp⟩ := flatten_ne_nil_prefix _ ws hws hne
    rw [← hflat] at hp
    exact absurd hp (hno e he)
  | cons b' rest' =>
    rw [ht, hd] at hpre
    obtain ⟨w, hw⟩ := hpre
    have : b' = b := by
      have := congrArg List.head? hw
      simpa using this
    exact ⟨rest', by rw [this]⟩

theorem bytes.spaces_head : ∀ e ∈ bytes.spaces,
    ¬((0x80 : Byte) ≤ e.headD 0 ∧ e.headD 0 ≤ 0xbf) := by
  decide

theorem bytes.no_space_prefix (b : Byte) (rest : Bytes) (hlo : 0x80 ≤ b) (hhi : b ≤ 0xbf) :
    ∀ e ∈ bytes.spaces, ¬e <+: b :: rest := by
  intro e he hp
  cases e with
  | nil => exact bytes.spaces_ne_nil _ he rfl
  | cons x t =>
    obtain ⟨w, hw⟩ := hp
    have hx : x = b := by
      have := congrArg List.head? hw
      simpa using this
    exact bytes.spaces_head _ he ⟨hx ▸ hlo, hx ▸ hhi⟩

/-- C19 (amended): `DetectFormat` returns `FormatJSON` if and only if the
white-space-trimmed input is not empty, begins with `{` or `[`, is valid
UTF-8 and is a syntactically valid JSON text.  An input whose first byte is
0x80 or above is detected as JSON only when it begins with the UTF-8 encoding
of a white space character, which the trim removes. -/
theorem C19_detect_json_iff (env : Env) (data : Bytes) :
    (DetectFormat env data = FormatJSON ↔
      ∃ b rest, bytes.TrimSpace data = b :: rest ∧ (b = ch '{' ∨ b = ch '[') ∧
        utf8.Valid (b :: rest) = true ∧ env.jsonValid (b :: rest) = true) ∧
    (∀ b rest, data = b :: rest → 0x80 ≤ b → DetectFormat env data = FormatJSON →
      ∃ e ∈ bytes.spaces, e <+: data) := by
  have hiff : DetectFormat env data = FormatJSON ↔
      ∃ b rest, bytes.TrimSpace data = b :: rest ∧ (b = ch '{' ∨ b = ch '[') ∧
        utf8.Valid (b :: rest) = true ∧ env.jsonValid (b :: rest) = true := by
    constructor
    · intro h
      cases ht : bytes.TrimSpace data with
      | nil =>
        rw [DetectFormat_of_trim_nil env data ht] at h
        exact absurd h (by decide)
      | cons b rest =>
        rw [DetectFormat_json_or_rlp env data b rest ht] at h
        split at h
        · rename_i hc
          exact ⟨b, rest, rfl, hc⟩
        · exact absurd h (by decide)
    · rintro ⟨b, rest, ht, hc⟩
      rw [DetectFormat_json_or_rlp env data b rest ht, if_pos hc]
  refine ⟨hiff, ?_⟩
  intro b rest hd hb hjson
  by_contra hno
  have hno' : ∀ e ∈ bytes.spaces, ¬e <+: data := fun e he hp => hno ⟨e, he, hp⟩
  obtain ⟨rest', ht⟩ := bytes.TrimSpace_head data b rest hd hno'
  obtain ⟨b2, rest2, ht2, hc, _⟩ := hiff.mp hjson
  rw [ht] at ht2
  have hbb : b = b2 := by
    have := congrArg List.head? ht2
    simpa using this
  rw [← hbb] at hc
  rcases hc with h | h
  · rw [h] at hb
    exact absurd hb (by decide)
  · rw [h] at hb
    exact absurd hb (by decide)

/-- C19 fails as stated: the input `C2 A0 7B 7D`, a no-break space followed by
`{}`, has a first byte above 0x80 and is detected as JSON, the trim having
removed the encoded white space. -/
theorem C19_counterexample_leading_space_encoding :
    ([0xC2, 0xA0, 0x7B, 0x7D] : Bytes) = utf8.encode [Char.ofNat 0xA0, '{', '}'] ∧
    (0x80 : Byte) ≤ 0xC2 ∧
    DetectFormat sampleEnv [0xC2, 0xA0, 0x7B, 0x7D] = FormatJSON := by
  refine ⟨by decide, by decide, by decide!⟩

/-- C19 (amended) at the input of the counterexample and at a JSON text
between blanks. -/
theorem C19_detect_json_iff_witness :
    (∃ e ∈ bytes.spaces, e <+: ([0xC2, 0xA0, 0x7B, 0x7D] : Bytes)) ∧
    DetectFormat sampleEnv (utf8.encode " [1, 2] ".toList) = FormatJSON := by
  refine ⟨(C19_detect_json_iff sampleEnv [0xC2, 0xA0, 0x7B, 0x7D]).2 0xC2 _ rfl (by decide)
    (by decide!), ?_⟩
  exact (C19_detect_json_iff sampleEnv (utf8.encode " [1, 2] ".toList)).1.mpr
    ⟨ch '[', utf8.encode "1, 2]".toList, by decide!, Or.inr rfl, by decide!, by decide!⟩

/-- C20, for every failing input: when the first byte of the input lies in
one of the MsgPack prefix ranges `0x80`-`0x9f` and `0xa0`-`0xbf`,
`DetectFormat` returns `FormatRLP`, not `FormatMsgPack`: the test on the first
byte that precedes the MsgPack test, `trim[0] >= 0xc0 || trim[0] <= 0xbf`,
holds for every byte. -/
theorem C20_detect_msgpack_prefix_as_rlp (env : Env) (data : Bytes) (b : Byte) (rest : Bytes)
    (hd : data = b :: rest) (hlo : 0x80 ≤ b) (hhi : b ≤ 0xbf) :
    DetectFormat env data = FormatRLP ∧ FormatRLP ≠ FormatMsgPack := by
  have hno : ∀ e ∈ bytes.spaces, ¬e <+: data := by
    rw [hd]
    exact bytes.no_space_prefix b rest hlo hhi
  obtain ⟨rest', ht⟩ := bytes.TrimSpace_head data b rest hd hno
  refine ⟨?_, by decide⟩
  rw [DetectFormat_json_or_rlp env data b rest' ht, if_neg]
  rintro ⟨h | h, _⟩
  · rw [h] at hlo
    exact absurd hlo (by decide)
  · rw [h] at hlo
    exact absurd hlo (by decide)

/-- C20 at the MsgPack encoding `81 A1 61 01` of the map with the one entry
`a: 1`. -/
theorem C20_detect_msgpack_prefix_as_rlp_witness :
    ((0x80 : Byte) ≤ 0x81 ∧ (0x81 : Byte) ≤ 0xbf) ∧
    DetectFormat sampleEnv [0x81, 0xA1, 0x61, 0x01] = FormatRLP ∧
    FormatRLP ≠ FormatMsgPack :=
  ⟨⟨by decide, by decide⟩,
    C20_detect_msgpack_prefix_as_rlp sampleEnv [0x81, 0xA1, 0x61, 0x01] 0x81 _ rfl (by decide)
      (by decide)⟩

/-! ## Parses that do not depend on the visiting order -/

theorem GoMap.ext_of_WF {α : Type} (m1 m2 : GoMap α) (h1 : GoMap.WF m1) (h2 : GoMap.WF m2)
    (h : ∀ k, GoMap.get? m1 k = GoMap.get? m2 k) : m1 = m2 := by
  induction m1 generalizing m2 with
  | nil =>
    cases m2 with
    | nil => rfl
    | cons p t =>
      have := h p.1
      simp [GoMap.get?] at this
  | cons p1 t1 ih =>
    cases m2 with
    | nil =>
      have := h p1.1
      simp [GoMap.get?] at this
    | cons p2 t2 =>
      obtain ⟨k1, v1⟩ := p1
      obtain ⟨k2, v2⟩ := p2
      rw [GoMap.WF_cons] at h1 h2
      have hk : k1 = k2 := by
        by_contra hne
        have e1 := h k1
        have e2 := h k2
        simp only [GoMap.get?, if_true, if_neg hne, if_neg (fun e : k2 = k1 => hne e.symm)]
          at e1 e2
        have m1 : k1 ∈ GoMap.keys t2 := GoMap.mem_keys_of_get? e1.symm
        have m2 : k2 ∈ GoMap.keys t1 := GoMap.mem_keys_of_get? e2
        have l1 := h2.1 k1 m1
        have l2 := h1.1 k2 m2
        have := strLt_trans _ _ _ l1 l2
        rw [strLt_irrefl] at this
        cases this
      subst hk
      have hv : v1 = v2 := by
        have := h k1
        simpa [GoMap.get?] using this
      subst hv
      congr 1
      apply ih t2 h1.2 h2.2
      intro k
      by_cases hkk : k1 = k
      · subst hkk
        have n1 : k1 ∉ GoMap.keys t1 := fun hm => by
          have := h1.1 k1 hm
          rw [strLt_irrefl] at this
          cases this
        have n2 : k1 ∉ GoMap.keys t2 := fun hm => by
          have := h2.1 k1 hm
          rw [strLt_irrefl] at this
          cases this
        rw [GoMap.get?_eq_none n1, GoMap.get?_eq_none n2]
      · have := h k
        simpa [GoMap.get?, hkk] using this

theorem eq_of_perm_of_all_eq {ι : Type} (l l' : List ι) (hp : l.Perm l') (hn : l.Nodup)
    (hu : ∀ e ∈ l, ∀ e' ∈ l, e = e') : l = l' := by
  cases l with
  | nil => exact (List.perm_nil.mp hp.symm).symm
  | cons a t =>
    cases t with
    | nil => exact (List.perm_singleton.mp hp.symm).symm
    | cons b t' =>
      have hab : a = b := hu a (List.mem_cons_self _ _) b
        (List.mem_cons_of_mem _ (List.mem_cons_self _ _))
      have := (List.nodup_cons.mp hn).1
      exact absurd (hab ▸ List.mem_cons_self _ _) this

theorem jsonCodec.fieldFold_perm {β : Type} (env : Env) (name : Str) (upd : JVal → β → β)
    (b0 : β) (L L' : List (Str × JVal)) (hp : L.Perm L') (hn : (GoMap.keys L).Nodup)
    (hu : ∀ e ∈ L, ∀ e' ∈ L, jsonCodec.resolve env e.1 = name →
      jsonCodec.resolve env e'.1 = name → e.1 = e'.1) :
    jsonCodec.fieldFold env name upd b0 L = jsonCodec.fieldFold env name upd b0 L' := by
  unfold jsonCodec.fieldFold
  rw [foldl_filter_of_idle _ (fun e => decide (jsonCodec.resolve env e.1 = name)) L,
    foldl_filter_of_idle _ (fun e => decide (jsonCodec.resolve env e.1 = name)) L']
  · have hnd : L.Nodup := nodup_of_keys_nodup L hn
    have : L.filter (fun e => decide (jsonCodec.resolve env e.1 = name)) =
        L'.filter (fun e => decide (jsonCodec.resolve env e.1 = name)) := by
      apply eq_of_perm_of_all_eq _ _ (hp.filter _) (hnd.filter _)
      intro e he e' he'
      rw [List.mem_filter] at he he'
      have hk := hu e he.1 e' he'.1 (by simpa using he.2) (by simpa using he'.2)
      have h1 := GoMap.get?_of_mem hn he.1
      have h2 := GoMap.get?_of_mem hn he'.1
      rw [hk, h2] at h1
      exact Prod.ext hk (Option.some.inj h1).symm
    rw [this]
  · intro e _ hek x
    rw [if_neg (by simpa using hek)]
  · intro e _ hek x
    rw [if_neg (by simpa using hek)]

theorem jsonCodec.extras_fold_some (env : Env) (L : List (Str × JVal)) (m0 : GoMap Str) :
    L.foldl (fun x e => if jsonCodec.resolve env e.1 ∈ jsonCodec.switchNames then x
        else setEntry x e.1 (env.jsonMarshal e.2)) (some m0) =
      some (L.foldl (fun mp e => if jsonCodec.resolve env e.1 ∈ jsonCodec.switchNames then mp
        else GoMap.set mp e.1 (env.jsonMarshal e.2)) m0) := by
  induction L generalizing m0 with
  | nil => rfl
  | cons a t ih =>
    rw [List.foldl_cons, List.foldl_cons]
    by_cases h : jsonCodec.resolve env a.1 ∈ jsonCodec.switchNames
    · rw [if_pos h, if_pos h, ih]
    · rw [if_neg h, if_neg h]
      exact ih _

theorem WF_foldl_condSet {α β : Type} (P : Str → Prop) [DecidablePred P] (f : α → β)
    (L : GoMap α) (m0 : GoMap β) (h : GoMap.WF m0) :
    GoMap.WF (L.foldl (fun mp e => if P e.1 then mp else GoMap.set mp e.1 (f e.2)) m0) := by
  induction L generalizing m0 with
  | nil => exact h
  | cons a t ih =>
    rw [List.foldl_cons]
    apply ih
    by_cases hp : P a.1
    · rw [if_pos hp]
      exact h
    · rw [if_neg hp]
      exact GoMap.WF_set _ _ _ h

theorem jsonCodec.extras_fold_perm (env : Env) (L L' : List (Str × JVal)) (hp : L.Perm L')
    (hn : (GoMap.keys L).Nodup) (m0 : GoMap Str) (hm : GoMap.WF m0) :
    L.foldl (fun x e => if jsonCodec.resolve env e.1 ∈ jsonCodec.switchNames then x
        else setEntry x e.1 (env.jsonMarshal e.2)) (some m0) =
      L'.foldl (fun x e => if jsonCodec.resolve env e.1 ∈ jsonCodec.switchNames then x
        else setEntry x e.1 (env.jsonMarshal e.2)) (some m0) := by
  rw [jsonCodec.extras_fold_some, jsonCodec.extras_fold_some]
  congr 1
  have hn' : (GoMap.keys L').Nodup := ((hp.map Prod.fst).nodup_iff).mp hn
  apply GoMap.ext_of_WF
  · exact WF_foldl_condSet (fun k => jsonCodec.resolve env k ∈ jsonCodec.switchNames) _ _ _ hm
  · exact WF_foldl_condSet (fun k => jsonCodec.resolve env k ∈ jsonCodec.switchNames) _ _ _ hm
  · intro k
    rw [get?_foldl_condSet (fun k => jsonCodec.resolve env k ∈ jsonCodec.switchNames)
        env.jsonMarshal L hn,
      get?_foldl_condSet (fun k => jsonCodec.resolve env k ∈ jsonCodec.switchNames)
        env.jsonMarshal L' hn',
      get?_perm L' L hp hn']

theorem GoMap.filter_set_ne {α : Type} (m : GoMap α) (a : Str) (v : α)
    (ha : a ∉ GoMap.keys m) : (GoMap.set m a v).filter (fun e => e.1 != a) = m := by
  have hall : ∀ (t : GoMap α), a ∉ GoMap.keys t → t.filter (fun e => e.1 != a) = t := by
    intro t ht
    rw [List.filter_eq_self]
    intro e he
    have : e.1 ≠ a := fun h => ht (List.mem_map.mpr ⟨e, he, h⟩)
    simpa using this
  induction m with
  | nil => simp [GoMap.set]
  | cons p t ih =>
    obtain ⟨k', v'⟩ := p
    rw [GoMap.keys_cons] at ha
    have h1 : ¬k' = a := fun e => ha (e ▸ List.mem_cons_self _ _)
    have h2 : a ∉ GoMap.keys t := fun e => ha (List.mem_cons_of_mem _ e)
    unfold GoMap.set
    rw [if_neg h1]
    by_cases hlt : strLt a k' = true
    · rw [if_pos hlt, List.filter_cons_of_neg (by simp)]
      apply hall
      rw [GoMap.keys_cons]
      exact ha
    · rw [if_neg hlt, List.filter_cons_of_pos (by simpa using h1), ih h2]

theorem jsonCodec.fieldFold_without_key {β : Type} (env : Env) (name F : Str)
    (upd : JVal → β → β) (L L' : List (Str × JVal)) (k : Str) (v : JVal) (b0 : β)
    (hk : jsonCodec.resolve env k = F)
    (hLk : L.filter (fun e => e.1 == k) = [(k, v)])
    (hno : ∀ e ∈ L, e.1 ≠ k → jsonCodec.resolve env e.1 ≠ F)
    (hno' : ∀ e ∈ L', jsonCodec.resolve env e.1 ≠ F)
    (hM : jsonCodec.fieldFold env name upd b0 (L.filter (fun e => e.1 != k)) =
      jsonCodec.fieldFold env name upd b0 L')
    (hupd : F = name → upd v b0 = b0) :
    jsonCodec.fieldFold env name upd b0 L = jsonCodec.fieldFold env name upd b0 L' := by
  by_cases hF : F = name
  · subst hF
    rw [jsonCodec.fieldFold_single env _ upd L k v b0 hk hLk hno, hupd rfl]
    symm
    exact foldl_ite_none (fun e : Str × JVal => jsonCodec.resolve env e.1 = F)
      (fun e x => upd e.2 x) L' b0 hno'
  · rw [← hM]
    unfold jsonCodec.fieldFold
    apply foldl_filter_of_idle
    intro e he hek x
    have : e.1 = k := by simpa using hek
    rw [this, hk, if_neg hF]

theorem jsonCodec.fieldFold_two_keys {β : Type} (env : Env) (name F : Str)
    (upd : JVal → β → β) (La Lb : List (Str × JVal)) (a b : Str) (v : JVal) (b0 : β)
    (ha : jsonCodec.resolve env a = F) (hb : jsonCodec.resolve env b = F)
    (hLa : La.filter (fun e => e.1 == a) = [(a, v)])
    (hLb : Lb.filter (fun e => e.1 == b) = [(b, v)])
    (hnoa : ∀ e ∈ La, e.1 ≠ a → jsonCodec.resolve env e.1 ≠ F)
    (hnob : ∀ e ∈ Lb, e.1 ≠ b → jsonCodec.resolve env e.1 ≠ F)
    (hM : jsonCodec.fieldFold env name upd b0 (La.filter (fun e => e.1 != a)) =
      jsonCodec.fieldFold env name upd b0 (Lb.filter (fun e => e.1 != b))) :
    jsonCodec.fieldFold env name upd b0 La = jsonCodec.fieldFold env name upd b0 Lb := by
  by_cases hF : F = name
  · subst hF
    rw [jsonCodec.fieldFold_single env _ upd La a v b0 ha hLa hnoa,
      jsonCodec.fieldFold_single env _ upd Lb b v b0 hb hLb hnob]
  · have h1 : jsonCodec.fieldFold env name upd b0 La =
        jsonCodec.fieldFold env name upd b0 (La.filter (fun e => e.1 != a)) := by
      unfold jsonCodec.fieldFold
      apply foldl_filter_of_idle
      intro e he hek x
      have : e.1 = a := by simpa using hek
      rw [this, ha, if_neg hF]
    have h2 : jsonCodec.fieldFold env name upd b0 Lb =
        jsonCodec.fieldFold env name upd b0 (Lb.filter (fun e => e.1 != b)) := by
      unfold jsonCodec.fieldFold
      apply foldl_filter_of_idle
      intro e he hek x
      have : e.1 = b := by simpa using hek
      rw [this, hb, if_neg hF]
    rw [h1, h2, hM]

/-- Two lists that hold, up to order, entries of an object agree on what the
loop of `jsonCodec.Parse` does to each field and to `Extras`, when they are in
the same order or no two keys of the object resolve to the same canonical
field. -/
theorem jsonCodec.folds_agree (env : Env) (o : GoMap JVal) (M M' : List (Str × JVal))
    (hp : M.Perm M') (hn : (GoMap.keys M).Nodup) (hsub : ∀ e ∈ M, e.1 ∈ GoMap.keys o)
    (hord : M = M' ∨ jsonCodec.Unambiguous env o) :
    (∀ (β : Type) (name : Str) (upd : JVal → β → β) (b0 : β),
      name ∈ genericCodec.switchNames →
      jsonCodec.fieldFold env name upd b0 M = jsonCodec.fieldFold env name upd b0 M') ∧
    (M.foldl (fun x e => if jsonCodec.resolve env e.1 ∈ jsonCodec.switchNames then x
        else setEntry x e.1 (env.jsonMarshal e.2)) (some []) =
      M'.foldl (fun x e => if jsonCodec.resolve env e.1 ∈ jsonCodec.switchNames then x
        else setEntry x e.1 (env.jsonMarshal e.2)) (some [])) := by
  rcases hord with h | h
  · subst h
    exact ⟨fun _ _ _ _ _ => rfl, rfl⟩
  · refine ⟨?_, jsonCodec.extras_fold_perm env M M' hp hn [] GoMap.WF_nil⟩
    intro β name upd b0 hname
    apply jsonCodec.fieldFold_perm env name upd b0 M M' hp hn
    intro e he e' he' h1 h2
    exact h e.1 (hsub e he) e'.1 (hsub e' he') (h1 ▸ hname) (h1.trans h2.symm)

/-- C12 (amended): for every input that decodes as a JSON object,
`jsonCodec.Parse` returns a message and no error, whatever the JSON types of
the values.  If a key other than `type` that resolves to `Height`, `Round` or
`View` holds a value that is neither a number nor a base-10 integer string,
and no other key resolves to the same field, then that field is absent in the
result and the result equals, in every field except `RawPayload`, the result
for the object without that key; this when the remaining keys are visited in
the same order in both parses, or when no two keys of the object resolve to
the same canonical field. -/
theorem C12_json_malformed_integer_field (env : Env) (opts : ParseOptions) :
    (∀ d o2, env.jsonUnmarshal d = .ok (.obj o2) → ∃ q, jsonCodec.Parse env d opts = .ok q) ∧
    (∀ (data data' : Str) (o : GoMap JVal) (k : Str) (v : JVal) (F : Str),
      (∀ (α : Type) (s : Loop) (l : GoMap α), (env.range s l).Perm l) →
      GoMap.WF o →
      env.jsonUnmarshal data = .ok (.obj o) →
      env.jsonUnmarshal data' = .ok (.obj (GoMap.erase o k)) →
      GoMap.get? o k = some v →
      F = "Height".toList ∨ F = "Round".toList ∨ F = "View".toList →
      jsonCodec.resolve env k = F →
      notInteger v →
      (∀ k' ∈ GoMap.keys o, k' ≠ k → jsonCodec.resolve env k' ≠ F) →
      k ≠ "type".toList →
      ((env.range .jsonParse o).filter (fun e => e.1 != k) =
          env.range .jsonParse (GoMap.erase o k) ∨
        jsonCodec.Unambiguous env o) →
      ∃ p p', jsonCodec.Parse env data opts = .ok p ∧
        jsonCodec.Parse env data' opts = .ok p' ∧
        (F = "Height".toList → p.Height = none) ∧ (F = "Round".toList → p.Round = none) ∧
        (F = "View".toList → p.View = none) ∧
        p = { p' with RawPayload := data }) := by
  refine ⟨fun d o2 h2 => ⟨_, jsonCodec.parse_of_decoded env d opts o2 h2⟩, ?_⟩
  intro data data' o k v F hrange hwf hdec hdec' hkv hF hk hv hno hktype hord
  have hL := hrange JVal .jsonParse o
  have hL' := hrange JVal .jsonParse (GoMap.erase o k)
  have hnd : (GoMap.keys (env.range .jsonParse o)).Nodup :=
    ((hL.map Prod.fst).nodup_iff).mpr hwf.nodup
  have hmem : (k, v) ∈ env.range .jsonParse o := hL.mem_iff.mpr (GoMap.mem_of_get? hkv)
  have hLk := filter_key_eq_singleton _ k v hnd hmem
  have hno1 : ∀ e ∈ env.range .jsonParse o, e.1 ≠ k → jsonCodec.resolve env e.1 ≠ F :=
    fun e he hne => hno e.1 (List.mem_map.mpr ⟨e, hL.mem_iff.mp he, rfl⟩) hne
  have hno2 : ∀ e ∈ env.range .jsonParse (GoMap.erase o k), jsonCodec.resolve env e.1 ≠ F := by
    intro e he
    have h1 : e ∈ GoMap.erase o k := hL'.mem_iff.mp he
    unfold GoMap.erase at h1
    rw [List.mem_filter] at h1
    exact hno e.1 (List.mem_map.mpr ⟨e, h1.1, rfl⟩) (by simpa using h1.2)
  have hperm : ((env.range .jsonParse o).filter (fun e => e.1 != k)).Perm
      (env.range .jsonParse (GoMap.erase o k)) := (hL.filter _).trans hL'.symm
  have hndM : (GoMap.keys ((env.range .jsonParse o).filter (fun e => e.1 != k))).Nodup :=
    (List.filter_sublist _).map Prod.fst |>.nodup hnd
  have hsub : ∀ e ∈ (env.range .jsonParse o).filter (fun e => e.1 != k),
      e.1 ∈ GoMap.keys o := fun e he =>
    List.mem_map.mpr ⟨e, hL.mem_iff.mp (List.mem_filter.mp he).1, rfl⟩
  obtain ⟨hfields, hextras⟩ := jsonCodec.folds_agree env o _ _ hperm hndM hsub hord
  have core : ∀ (β : Type) (name : Str) (upd : JVal → β → β) (b0 : β),
      name ∈ genericCodec.switchNames → (F = name → upd v b0 = b0) →
      jsonCodec.fieldFold env name upd b0 (env.range .jsonParse o) =
        jsonCodec.fieldFold env name upd b0 (env.range .jsonParse (GoMap.erase o k)) :=
    fun β name upd b0 hname h =>
      jsonCodec.fieldFold_without_key env name F upd _ _ k v b0 hk hLk hno1 hno2
        (hfields β name upd b0 hname) h
  have hnone := toBigIntPtr_of_notInteger env v hv
  have hFsw : F ∈ jsonCodec.switchNames := by
    rcases hF with h | h | h <;> rw [h] <;> decide
  have hother : ∀ name : Str, name ≠ "Height".toList → name ≠ "Round".toList →
      name ≠ "View".toList → ¬F = name := by
    intro name h1 h2 h3 e
    rcases hF with h | h | h
    · exact h1 (e ▸ h)
    · exact h2 (e ▸ h)
    · exact h3 (e ▸ h)
  refine ⟨_, _, jsonCodec.parse_of_decoded env data opts o hdec,
    jsonCodec.parse_of_decoded env data' opts _ hdec', ?_, ?_, ?_, ?_⟩
  · intro hFH
    rw [jsonCodec.fold_Height_eq,
      jsonCodec.fieldFold_single env _ _ _ k v _ (hk.trans hFH) hLk
        (fun e he hne => hFH ▸ hno1 e he hne)]
    exact hnone
  · intro hFH
    rw [jsonCodec.fold_Round_eq,
      jsonCodec.fieldFold_single env _ _ _ k v _ (hk.trans hFH) hLk
        (fun e he hne => hFH ▸ hno1 e he hne)]
    exact hnone
  · intro hFH
    rw [jsonCodec.fold_View_eq,
      jsonCodec.fieldFold_single env _ _ _ k v _ (hk.trans hFH) hLk
        (fun e he hne => hFH ▸ hno1 e he hne)]
    exact hnone
  · have hraw : ((env.range .jsonParse o).foldl (jsonCodec.step env)
        (jsonCodec.init env data opts o)).RawPayload = data :=
      jsonCodec.json_fold_const env _ (jsonCodec.json_step_RawPayload env) _ _
    conv_rhs => rw [← hraw]
    apply AbstractMessage.eq_of_fields
    · rw [jsonCodec.json_fold_Typ, jsonCodec.json_fold_Typ]
      apply jsonCodec.init_Typ_congr
      rw [GoMap.get?_erase, if_neg (fun e => hktype e.symm)]
    · rw [jsonCodec.fold_Height_eq, jsonCodec.fold_Height_eq]
      exact core _ _ _ _ (by decide) (fun _ => hnone)
    · rw [jsonCodec.fold_Round_eq, jsonCodec.fold_Round_eq]
      exact core _ _ _ _ (by decide) (fun _ => hnone)
    · rw [jsonCodec.fold_View_eq, jsonCodec.fold_View_eq]
      exact core _ _ _ _ (by decide) (fun _ => hnone)
    · rw [jsonCodec.fold_Timestamp_eq, jsonCodec.fold_Timestamp_eq]
      exact core _ _ _ _ (by decide)
        (fun e => absurd e (hother _ (by decide) (by decide) (by decide)))
    · rw [jsonCodec.fold_BlockHash_eq, jsonCodec.fold_BlockHash_eq]
      exact core _ _ _ _ (by decide)
        (fun e => absurd e (hother _ (by decide) (by decide) (by decide)))
    · rw [jsonCodec.fold_PrevHash_eq, jsonCodec.fold_PrevHash_eq]
      exact core _ _ _ _ (by decide)
        (fun e => absurd e (hother _ (by decide) (by decide) (by decide)))
    · rw [jsonCodec.fold_Proposer_eq, jsonCodec.fold_Proposer_eq]
      exact core _ _ _ _ (by decide)
        (fun e => absurd e (hother _ (by decide) (by decide) (by decide)))
    · rw [jsonCodec.fold_Validator_eq, jsonCodec.fold_Validator_eq]
      exact core _ _ _ _ (by decide)
        (fun e => absurd e (hother _ (by decide) (by decide) (by decide)))
    · rw [jsonCodec.fold_Signature_eq, jsonCodec.fold_Signature_eq]
      exact core _ _ _ _ (by decide)
        (fun e => absurd e (hother _ (by decide) (by decide) (by decide)))
    · rw [jsonCodec.fold_CommitSeals_eq, jsonCodec.fold_CommitSeals_eq]
      exact core _ _ _ _ (by decide)
        (fun e => absurd e (hother _ (by decide) (by decide) (by decide)))
    · rw [jsonCodec.fold_ViewChanges_eq, jsonCodec.fold_ViewChanges_eq]
      exact core _ _ _ _ (by decide)
        (fun e => absurd e (hother _ (by decide) (by decide) (by decide)))
    · rw [jsonCodec.fold_Extras_eq, jsonCodec.fold_Extras_eq,
        jsonCodec.extras_drop_key env _ k (hk ▸ hFsw)]
      exact hextras
    · rw [jsonCodec.json_fold_const env _ (jsonCodec.json_step_OriginalFormat env),
        jsonCodec.json_fold_const env _ (jsonCodec.json_step_OriginalFormat env)]
      rfl
    · rw [jsonCodec.json_fold_const env _ (jsonCodec.json_step_OriginalMsgName env),
        jsonCodec.json_fold_const env _ (jsonCodec.json_step_OriginalMsgName env)]
      rfl
    · rw [jsonCodec.json_fold_const env _ (jsonCodec.json_step_OriginalFieldNames env),
        jsonCodec.json_fold_const env _ (jsonCodec.json_step_OriginalFieldNames env)]
      rfl

/-- C12 fails as stated, in four ways.  With the keys visited in key order,
the object with `height` holding `true` and the alias `seq_num` holding `5` is
parsed into a message whose `Height` is 5, not absent.  The results for an
object with a malformed `height` and for the same object without that key
differ in `RawPayload`, which holds the input.  With a field synonym table
that maps `type` to `Height`, the object with `type` holding `abc` is parsed
into a message of type `abc`, the empty object into one of empty type.  And
when `range` visits the keys of the two objects in different orders, an
object in which `Round` and `round` hold different values is parsed into
different `Round` values with and without the malformed `height`. -/
theorem C12_counterexample_second_key_and_raw :
    (jsonCodec.resolve sampleEnv "height".toList = "Height".toList ∧
      notInteger (.bool true) ∧
      (jsonCodec.Parse sampleEnv "\x7b\"height\":true,\"seq_num\":\"5\"\x7d".toList
        (ParseOptions.ofFormat FormatJSON)).toOption.map (fun p => p.Height) =
        some (some 5)) ∧
    (jsonCodec.Parse sampleEnv "\x7b\"height\":true,\"round\":\"1\"\x7d".toList
        (ParseOptions.ofFormat FormatJSON)).toOption.map (fun p => p.RawPayload) ≠
      (jsonCodec.Parse sampleEnv "\x7b\"round\":\"1\"\x7d".toList
        (ParseOptions.ofFormat FormatJSON)).toOption.map (fun p => p.RawPayload) ∧
    (jsonCodec.resolve typeAliasEnv "type".toList = "Height".toList ∧
      notInteger (.str "abc".toList) ∧
      (jsonCodec.Parse typeAliasEnv "\x7b\"type\":\"abc\"\x7d".toList
        (ParseOptions.ofFormat FormatJSON)).toOption.map (fun p => p.Typ) =
        some "abc".toList ∧
      (jsonCodec.Parse typeAliasEnv "\x7b\x7d".toList
        (ParseOptions.ofFormat FormatJSON)).toOption.map (fun p => p.Typ) = some []) ∧
    ((jsonCodec.Parse orderEnv
        "\x7b\"Round\":\"1\",\"height\":true,\"round\":\"2\"\x7d".toList
        (ParseOptions.ofFormat FormatJSON)).toOption.map (fun p => p.Round) = some (some 1) ∧
      (jsonCodec.Parse orderEnv "\x7b\"Round\":\"1\",\"round\":\"2\"\x7d".toList
        (ParseOptions.ofFormat FormatJSON)).toOption.map (fun p => p.Round) =
        some (some 2)) := by
  refine ⟨⟨by decide!, trivial, by decide!⟩, by decide!,
    ⟨by decide!, by unfold notInteger; decide, by decide!, by decide!⟩,
    ⟨by decide!, by decide!⟩⟩

/-- C12 (amended) at the object with `height` holding `true` and `round`
holding `1`. -/
theorem C12_json_malformed_integer_field_witness :
    ∃ p p',
      jsonCodec.Parse sampleEnv "\x7b\"height\":true,\"round\":\"1\"\x7d".toList
        (ParseOptions.ofFormat FormatJSON) = .ok p ∧
      jsonCodec.Parse sampleEnv "\x7b\"round\":\"1\"\x7d".toList
        (ParseOptions.ofFormat FormatJSON) = .ok p' ∧
      p.Height = none ∧
      p = { p' with RawPayload := "\x7b\"height\":true,\"round\":\"1\"\x7d".toList } := by
  obtain ⟨p, p', h1, h2, h3, _, _, h4⟩ := (C12_json_malformed_integer_field sampleEnv
    (ParseOptions.ofFormat FormatJSON)).2
    "\x7b\"height\":true,\"round\":\"1\"\x7d".toList "\x7b\"round\":\"1\"\x7d".toList
    [("height".toList, .bool true), ("round".toList, .str "1".toList)]
    "height".toList (.bool true) "Height".toList
    (fun _ _ l => List.Perm.refl l) (by decide)
    (sampleEnv_unmarshal_obj _ _ (by decide!)) (sampleEnv_unmarshal_obj _ _ (by decide!))
    rfl (Or.inl rfl) (by decide!) trivial (by decide!) (by decide) (Or.inl rfl)
  exact ⟨p, p', h1, h2, h3 rfl, h4⟩

/-- C17 (amended): alias invariance of JSON parsing.  For every field synonym
table, every two keys `a` and `b`, neither of them `type`, that resolve to the
same canonical field, every JSON value `v` and every JSON object `o` with no
key that resolves to that field, `jsonCodec.Parse` of `o` extended with
`a: v` and of `o` extended with `b: v` return messages equal in every field
except `RawPayload`; this when the keys of `o` are visited in the same order
in both parses, or when no two keys of `o` resolve to the same canonical
field. -/
theorem C17_json_alias_invariance (env : Env) (opts : ParseOptions) (da db : Str)
    (o : GoMap JVal) (a b : Str) (v : JVal) (F : Str)
    (hrange : ∀ (α : Type) (s : Loop) (l : GoMap α), (env.range s l).Perm l)
    (hwf : GoMap.WF o)
    (hda : env.jsonUnmarshal da = .ok (.obj (GoMap.set o a v)))
    (hdb : env.jsonUnmarshal db = .ok (.obj (GoMap.set o b v)))
    (hF : F ∈ genericCodec.switchNames)
    (ha : jsonCodec.resolve env a = F) (hb : jsonCodec.resolve env b = F)
    (hno : ∀ k ∈ GoMap.keys o, jsonCodec.resolve env k ≠ F)
    (hat : a ≠ "type".toList) (hbt : b ≠ "type".toList)
    (hord : (env.range .jsonParse (GoMap.set o a v)).filter (fun e => e.1 != a) =
        (env.range .jsonParse (GoMap.set o b v)).filter (fun e => e.1 != b) ∨
      jsonCodec.Unambiguous env o) :
    ∃ pa pb, jsonCodec.Parse env da opts = .ok pa ∧ jsonCodec.Parse env db opts = .ok pb ∧
      pa = { pb with RawPayload := da } := by
  have hnotin : ∀ c : Str, jsonCodec.resolve env c = F → c ∉ GoMap.keys o :=
    fun c hc hm => hno c hm hc
  have hkeys : ∀ (c : Str) (e : Str × JVal), e ∈ env.range .jsonParse (GoMap.set o c v) →
      e.1 ≠ c → jsonCodec.resolve env e.1 ≠ F := by
    intro c e he hne
    have h1 : e.1 ∈ GoMap.keys (GoMap.set o c v) :=
      List.mem_map.mpr ⟨e, (hrange JVal .jsonParse _).mem_iff.mp he, rfl⟩
    rcases GoMap.keys_set o c v e.1 h1 with h | h
    · exact absurd h hne
    · exact hno e.1 h
  have hndc : ∀ c : Str, (GoMap.keys (env.range .jsonParse (GoMap.set o c v))).Nodup :=
    fun c => (((hrange JVal .jsonParse _).map Prod.fst).nodup_iff).mpr
      (GoMap.WF_set o c v hwf).nodup
  have hsingle : ∀ c : Str, (env.range .jsonParse (GoMap.set o c v)).filter
      (fun e => e.1 == c) = [(c, v)] := by
    intro c
    apply filter_key_eq_singleton _ _ _ (hndc c)
    apply (hrange JVal .jsonParse _).mem_iff.mpr
    apply GoMap.mem_of_get?
    rw [GoMap.get?_set, if_pos rfl]
  have hpermc : ∀ c : Str, c ∉ GoMap.keys o →
      ((env.range .jsonParse (GoMap.set o c v)).filter (fun e => e.1 != c)).Perm o := by
    intro c hc
    have := (hrange JVal .jsonParse (GoMap.set o c v)).filter (fun e => e.1 != c)
    rwa [GoMap.filter_set_ne o c v hc] at this
  have hpa := hpermc a (hnotin a ha)
  have hpb := hpermc b (hnotin b hb)
  have hndM : (GoMap.keys ((env.range .jsonParse (GoMap.set o a v)).filter
      (fun e => e.1 != a))).Nodup :=
    (List.filter_sublist _).map Prod.fst |>.nodup (hndc a)
  have hsub : ∀ e ∈ (env.range .jsonParse (GoMap.set o a v)).filter (fun e => e.1 != a),
      e.1 ∈ GoMap.keys o := fun e he => List.mem_map.mpr ⟨e, hpa.mem_iff.mp he, rfl⟩
  obtain ⟨hfields, hextras⟩ :=
    jsonCodec.folds_agree env o _ _ (hpa.trans hpb.symm) hndM hsub hord
  have core : ∀ (β : Type) (name : Str) (upd : JVal → β → β) (b0 : β),
      name ∈ genericCodec.switchNames →
      jsonCodec.fieldFold env name upd b0 (env.range .jsonParse (GoMap.set o a v)) =
        jsonCodec.fieldFold env name upd b0 (env.range .jsonParse (GoMap.set o b v)) :=
    fun β name upd b0 hname =>
      jsonCodec.fieldFold_two_keys env name F upd _ _ a b v b0 ha hb (hsingle a) (hsingle b)
        (hkeys a) (hkeys b) (hfields β name upd b0 hname)
  have hFsw : F ∈ jsonCodec.switchNames := by
    simp only [genericCodec.switchNames, List.mem_cons, List.mem_singleton] at hF
    simp only [jsonCodec.switchNames, List.mem_cons, List.mem_singleton]
    tauto
  refine ⟨_, _, jsonCodec.parse_of_decoded env da opts _ hda,
    jsonCodec.parse_of_decoded env db opts _ hdb, ?_⟩
  have hraw : ((env.range .jsonParse (GoMap.set o a v)).foldl (jsonCodec.step env)
      (jsonCodec.init env da opts (GoMap.set o a v))).RawPayload = da :=
    jsonCodec.json_fold_const env _ (jsonCodec.json_step_RawPayload env) _ _
  conv_rhs => rw [← hraw]
  apply AbstractMessage.eq_of_fields
  · rw [jsonCodec.json_fold_Typ, jsonCodec.json_fold_Typ]
    apply jsonCodec.init_Typ_congr
    rw [GoMap.get?_set, GoMap.get?_set, if_neg (fun e => hat e.symm),
      if_neg (fun e => hbt e.symm)]
  · rw [jsonCodec.fold_Height_eq, jsonCodec.fold_Height_eq]
    exact core _ _ _ _ (by decide)
  · rw [jsonCodec.fold_Round_eq, jsonCodec.fold_Round_eq]
    exact core _ _ _ _ (by decide)
  · rw [jsonCodec.fold_View_eq, jsonCodec.fold_View_eq]
    exact core _ _ _ _ (by decide)
  · rw [jsonCodec.fold_Timestamp_eq, jsonCodec.fold_Timestamp_eq]
    exact core _ _ _ _ (by decide)
  · rw [jsonCodec.fold_BlockHash_eq, jsonCodec.fold_BlockHash_eq]
    exact core _ _ _ _ (by decide)
  · rw [jsonCodec.fold_PrevHash_eq, jsonCodec.fold_PrevHash_eq]
    exact core _ _ _ _ (by decide)
  · rw [jsonCodec.fold_Proposer_eq, jsonCodec.fold_Proposer_eq]
    exact core _ _ _ _ (by decide)
  · rw [jsonCodec.fold_Validator_eq, jsonCodec.fold_Validator_eq]
    exact core _ _ _ _ (by decide)
  · rw [jsonCodec.fold_Signature_eq, jsonCodec.fold_Signature_eq]
    exact core _ _ _ _ (by decide)
  · rw [jsonCodec.fold_CommitSeals_eq, jsonCodec.fold_CommitSeals_eq]
    exact core _ _ _ _ (by decide)
  · rw [jsonCodec.fold_ViewChanges_eq, jsonCodec.fold_ViewChanges_eq]
    exact core _ _ _ _ (by decide)
  · rw [jsonCodec.fold_Extras_eq, jsonCodec.fold_Extras_eq,
      jsonCodec.extras_drop_key env _ a (ha ▸ hFsw),
      jsonCodec.extras_drop_key env (env.range .jsonParse (GoMap.set o b v)) b (hb ▸ hFsw)]
    exact hextras
  · rw [jsonCodec.json_fold_const env _ (jsonCodec.json_step_OriginalFormat env),
      jsonCodec.json_fold_const env _ (jsonCodec.json_step_OriginalFormat env)]
    rfl
  · rw [jsonCodec.json_fold_const env _ (jsonCodec.json_step_OriginalMsgName env),
      jsonCodec.json_fold_const env _ (jsonCodec.json_step_OriginalMsgName env)]
    rfl
  · rw [jsonCodec.json_fold_const env _ (jsonCodec.json_step_OriginalFieldNames env),
      jsonCodec.json_fold_const env _ (jsonCodec.json_step_OriginalFieldNames env)]
    rfl

/-- C17 fails as stated, in two ways.  With a field synonym table that maps
the key `type` to `Height`, the keys `type` and `height` resolve to the same
canonical field, and the parses of the objects with `type` holding `5` and
with `height` holding `5` differ in `Type`.  And when `range` visits the keys
of the two objects in different orders, an object in which `Round` and `round`
hold different values, extended with `seq_num` holding `5` and with `height`
holding `5`, is parsed into different `Round` values. -/
theorem C17_counterexample_type_alias :
    (jsonCodec.resolve typeAliasEnv "type".toList = "Height".toList ∧
      jsonCodec.resolve typeAliasEnv "height".toList = "Height".toList ∧
      (jsonCodec.Parse typeAliasEnv "\x7b\"type\":\"5\"\x7d".toList
        (ParseOptions.ofFormat FormatJSON)).toOption.map (fun p => (p.Typ, p.Height)) =
        some ("5".toList, some 5) ∧
      (jsonCodec.Parse typeAliasEnv "\x7b\"height\":\"5\"\x7d".toList
        (ParseOptions.ofFormat FormatJSON)).toOption.map (fun p => (p.Typ, p.Height)) =
        some ([], some 5)) ∧
    (jsonCodec.resolve orderEnv "seq_num".toList = "Height".toList ∧
      jsonCodec.resolve orderEnv "height".toList = "Height".toList ∧
      (jsonCodec.Parse orderEnv
        "\x7b\"Round\":\"1\",\"round\":\"2\",\"seq_num\":\"5\"\x7d".toList
        (ParseOptions.ofFormat FormatJSON)).toOption.map (fun p => (p.Height, p.Round)) =
        some (some 5, some 2) ∧
      (jsonCodec.Parse orderEnv
        "\x7b\"Round\":\"1\",\"round\":\"2\",\"height\":\"5\"\x7d".toList
        (ParseOptions.ofFormat FormatJSON)).toOption.map (fun p => (p.Height, p.Round)) =
        some (some 5, some 1)) := by
  refine ⟨⟨by decide!, by decide!, by decide!, by decide!⟩,
    ⟨by decide!, by decide!, by decide!, by decide!⟩⟩

/-- C17 (amended) at the alias `seq_num` and the canonical name `Height`,
both holding `1000`, in an object that has the key `round`. -/
theorem C17_json_alias_invariance_witness :
    ∃ pa pb,
      jsonCodec.Parse sampleEnv "\x7b\"round\":\"1\",\"seq_num\":\"1000\"\x7d".toList
        (ParseOptions.ofFormat FormatJSON) = .ok pa ∧
      jsonCodec.Parse sampleEnv "\x7b\"Height\":\"1000\",\"round\":\"1\"\x7d".toList
        (ParseOptions.ofFormat FormatJSON) = .ok pb ∧
      pa = { pb with
        RawPayload := "\x7b\"round\":\"1\",\"seq_num\":\"1000\"\x7d".toList } :=
  C17_json_alias_invariance sampleEnv (ParseOptions.ofFormat FormatJSON) _ _
    [("round".toList, .str "1".toList)] "seq_num".toList "Height".toList (.str "1000".toList)
    "Height".toList (fun _ _ l => List.Perm.refl l) (by decide)
    (sampleEnv_unmarshal_obj _ _ (by decide!)) (sampleEnv_unmarshal_obj _ _ (by decide!))
    (by decide) (by decide!) (by decide!) (by decide!) (by decide) (by decide) (Or.inl rfl)

/-! ## C21: inputs below `0x80` are detected as RLP -/

/-- C21, for every failing input: an input whose first byte is below `0x80`,
that is not blank and whose trimmed form is not valid JSON is detected as
`FormatRLP`, not as `FormatProtobuf`: the test `trim[0] >= 0xc0 || trim[0] <=
0xbf` that precedes the default holds for every byte, so the last `return` of
`DetectFormat` is never reached. -/
theorem C21_detect_default_is_rlp (env : Env) (data : Bytes) (b : Byte) (rest : Bytes)
    (_hd : data = b :: rest) (_hlt : b < 0x80) (hnb : ¬bytes.IsBlank data)
    (hnj : env.jsonValid (bytes.TrimSpace data) ≠ true) :
    DetectFormat env data = FormatRLP ∧ FormatRLP ≠ FormatProtobuf := by
  refine ⟨?_, by decide⟩
  cases ht : bytes.TrimSpace data with
  | nil =>
    exact absurd ((bytes.isBlank_iff data).mpr ((bytes.TrimSpace_eq_nil_iff data).mp ht)) hnb
  | cons b' rest' =>
    rw [DetectFormat_json_or_rlp env data b' rest' ht, if_neg]
    rintro ⟨_, _, hj⟩
    rw [ht] at hnj
    exact hnj hj

/-- C21 at the two bytes `08 01`, the binary-protocol encoding of a message
whose field 1 is the integer 1. -/
theorem C21_detect_default_is_rlp_witness :
    ((0x08 : Byte) < 0x80 ∧ ¬bytes.IsBlank [0x08, 0x01] ∧
      sampleEnv.jsonValid (bytes.TrimSpace [0x08, 0x01]) ≠ true) ∧
    DetectFormat sampleEnv [0x08, 0x01] = FormatRLP ∧ FormatRLP ≠ FormatProtobuf :=
  have hnb : ¬bytes.IsBlank [0x08, 0x01] := by
    rw [bytes.isBlank_iff, ← bytes.TrimSpace_eq_nil_iff]
    decide!
  ⟨⟨by decide, hnb, by decide!⟩,
    C21_detect_default_is_rlp sampleEnv [0x08, 0x01] 0x08 _ rfl (by decide) hnb (by decide!)⟩

/-! ## C22: integer coercion of text -/

theorem isDigit_iff_mem (c : Char) : c.isDigit = true ↔ c ∈ decimalDigits := by
  constructor
  · intro h
    have hc : c = Char.ofNat c.toNat := (Char.ofNat_toNat c).symm
    simp only [Char.isDigit, Bool.and_eq_true, decide_eq_true_eq] at h
    have h1 : 48 ≤ c.toNat := by
      have := h.1
      simpa [Char.toNat, UInt32.le_def, Fin.le_def] using this
    have h2 : c.toNat ≤ 57 := by
      have := h.2
      simpa [Char.toNat, UInt32.le_def, Fin.le_def] using this
    rw [hc]
    generalize c.toNat = k at h1 h2
    interval_cases k <;> decide
  · intro h
    revert c
    decide

theorem all_isDigit_iff (s : Str) : s.all Char.isDigit = true ↔ ∀ c ∈ s, c ∈ decimalDigits := by
  rw [List.all_eq_true]
  exact forall_congr' fun c => imp_congr_right fun _ => isDigit_iff_mem c

theorem foldl_eq_decimalValue (s : Str) :
    s.foldl (fun a c => 10 * a + (c.toNat - 48)) 0 = decimalValue s := by
  induction s using List.reverseRecOn with
  | nil => rfl
  | append_singleton l c ih =>
    rw [List.foldl_append, List.foldl_cons, List.foldl_nil, ih]
    unfold decimalValue
    rw [List.reverse_append, List.reverse_singleton, List.singleton_append, List.map_cons,
      Nat.ofDigits_cons]
    have : '0'.toNat = 48 := rfl
    rw [this]
    omega

theorem scanNat_eq_some_iff (s : Str) (n : Nat) :
    big.scanNat s = some n ↔ s ≠ [] ∧ (∀ c ∈ s, c ∈ decimalDigits) ∧ n = decimalValue s := by
  unfold big.scanNat
  rw [foldl_eq_decimalValue, ← all_isDigit_iff]
  by_cases h1 : s = []
  · simp [h1]
  · by_cases h2 : s.all Char.isDigit = true
    · rw [if_neg h1, if_pos h2]
      simp only [Option.some.injEq, ne_eq, h1, not_false_eq_true, h2, true_and]
      exact eq_comm
    · rw [if_neg h1, if_neg h2]
      simp [h2]

theorem SetString_eq_some_iff (s : Str) (n : Int) :
    big.SetString s = some n ↔ IsDecimalLiteral s n := by
  have hplus : '+' ∉ decimalDigits := by decide
  have hminus : '-' ∉ decimalDigits := by decide
  constructor
  · intro h
    unfold big.SetString at h
    split at h
    · rename_i r
      rw [Option.map_eq_some'] at h
      obtain ⟨k, hk, rfl⟩ := h
      obtain ⟨h1, h2, rfl⟩ := (scanNat_eq_some_iff r k).mp hk
      exact ⟨['-'], r, Or.inr (Or.inr rfl), h1, h2, rfl, by simp⟩
    · rename_i r
      rw [Option.map_eq_some'] at h
      obtain ⟨k, hk, rfl⟩ := h
      obtain ⟨h1, h2, rfl⟩ := (scanNat_eq_some_iff r k).mp hk
      exact ⟨['+'], r, Or.inr (Or.inl rfl), h1, h2, rfl, by simp⟩
    · rw [Option.map_eq_some'] at h
      obtain ⟨k, hk, rfl⟩ := h
      obtain ⟨h1, h2, rfl⟩ := (scanNat_eq_some_iff s k).mp hk
      exact ⟨[], s, Or.inl rfl, h1, h2, rfl, by simp⟩
  · rintro ⟨sign, digits, hs, h1, h2, rfl, rfl⟩
    have hk := (scanNat_eq_some_iff digits (decimalValue digits)).mpr ⟨h1, h2, rfl⟩
    rcases hs with rfl | rfl | rfl
    · rw [List.nil_append, SetString_of_digits digits ((all_isDigit_iff digits).mpr h2), hk]
      simp
    · simp [big.SetString, hk]
    · simp [big.SetString, hk]

/-- C22: applied to a text, `toBigIntPtr` returns the integer `n` exactly when
the text is a base-10 literal of `n` (an optional sign, then one or more
digits, then the end of the text), whatever the magnitude of `n`, and returns
absent exactly when the text is no such literal; applied to `null`, a boolean,
a list or an object it returns absent.  It is a total function: it never
fails. -/
theorem C22_toBigIntPtr_text (env : Env) (s : Str) :
    (∀ n : Int, toBigIntPtr env (.str s) = some n ↔ IsDecimalLiteral s n) ∧
    (toBigIntPtr env (.str s) = none ↔ ∀ n : Int, ¬IsDecimalLiteral s n) ∧
    toBigIntPtr env .null = none ∧
    (∀ b : Bool, toBigIntPtr env (.bool b) = none) ∧
    (∀ l : List JVal, toBigIntPtr env (.arr l) = none) ∧
    (∀ o : GoMap JVal, toBigIntPtr env (.obj o) = none) := by
  refine ⟨fun n => SetString_eq_some_iff s n, ?_, rfl, fun _ => rfl, fun _ => rfl, fun _ => rfl⟩
  change big.SetString s = none ↔ _
  rw [Option.eq_none_iff_forall_not_mem]
  exact forall_congr' fun n => not_congr (SetString_eq_some_iff s n)

/-- The coercion at literals of both signs and of a magnitude beyond 64 bits,
and at the texts of the claim that are no literal. -/
theorem toBigIntPtr_text_examples :
    toBigIntPtr sampleEnv (.str "123456789012345678901234567890".toList) =
      some 123456789012345678901234567890 ∧
    toBigIntPtr sampleEnv (.str "-007".toList) = some (-7) ∧
    toBigIntPtr sampleEnv (.str "+42".toList) = some 42 ∧
    toBigIntPtr sampleEnv (.str "".toList) = none ∧
    toBigIntPtr sampleEnv (.str " 1".toList) = none ∧
    toBigIntPtr sampleEnv (.str "12a".toList) = none ∧
    toBigIntPtr sampleEnv (.str "1.5".toList) = none ∧
    toBigIntPtr sampleEnv (.str "1e3".toList) = none ∧
    toBigIntPtr sampleEnv (.str "-".toList) = none := by
  decide!

/-! ## C23: absent and empty collections serialize alike -/

/-- C23: for every message, the variant with `CommitSeals`, `ViewChanges` and
`Extras` absent and the variant with them present but empty serialize to the
same bytes under `jsonCodec.Serialize` and under `SerializeGeneric`, so the
results of parsing the serialized variants back are equal too. -/
theorem C23_nil_and_empty_serialize_alike (env : Env) (m : AbstractMessage) (opts : ParseOptions) :
    withNilCollections m ≠ withEmptyCollections m ∧
    jsonCodec.Serialize env (withNilCollections m) =
      jsonCodec.Serialize env (withEmptyCollections m) ∧
    SerializeGeneric env (withNilCollections m) = SerializeGeneric env (withEmptyCollections m) ∧
    ((jsonCodec.Serialize env (withNilCollections m)).bind fun b => jsonCodec.Parse env b opts) =
      ((jsonCodec.Serialize env (withEmptyCollections m)).bind fun b =>
        jsonCodec.Parse env b opts) ∧
    genericCodec.Parse env (SerializeGeneric env (withNilCollections m)) opts =
      genericCodec.Parse env (SerializeGeneric env (withEmptyCollections m)) opts := by
  have hj : jsonCodec.Serialize env (withNilCollections m) =
      jsonCodec.Serialize env (withEmptyCollections m) := rfl
  have hg : SerializeGeneric env (withNilCollections m) =
      SerializeGeneric env (withEmptyCollections m) := rfl
  refine ⟨?_, hj, hg, by rw [hj], by rw [hg]⟩
  intro h
  have := congrArg AbstractMessage.Extras h
  simp [withNilCollections, withEmptyCollections] at this

/-! ## C24: the signature's region of the generic text -/

theorem Join_middle (A B : List Str) (c : Char) :
    ∃ pre post : Str, ∀ x : Str, strings.Join (A ++ x :: B) c = pre ++ x ++ post := by
  have hB : ∀ x : Str, strings.Join (x :: B) c =
      x ++ (if B = [] then [] else c :: strings.Join B c) := by
    intro x
    cases B with
    | nil => simp [Join_singleton]
    | cons y B => simp [Join_cons_cons]
  cases A with
  | nil =>
    exact ⟨[], if B = [] then [] else c :: strings.Join B c, fun x => by
      rw [List.nil_append, List.nil_append, hB]⟩
  | cons a A =>
    refine ⟨strings.Join (a :: A) c ++ [c], if B = [] then [] else c :: strings.Join B c,
      fun x => ?_⟩
    rw [Join_append_cons, hB]
    simp

theorem SerializeGeneric_signature_region (env : Env) (m : AbstractMessage) :
    ∃ p q : Str, ∀ s : Str, s ≠ [] →
      SerializeGeneric env (withSignature m s) = p ++ "signature=".toList ++ s ++ q := by
  obtain ⟨A, B, hparts⟩ : ∃ A B : List Str, ∀ s : Str, s ≠ [] →
      SerializeGeneric.canonicalParts env (withSignature m s) ++
        SerializeGeneric.extrasParts env (withSignature m s) =
          A ++ ("signature=".toList ++ s) :: B := by
    refine ⟨(match m.Height with
        | some h => ["height=".toList ++ big.String h]
        | none => []) ++
      (match m.Round with
        | some r => ["round=".toList ++ big.String r]
        | none => []) ++
      (match m.View with
        | some v => ["view=".toList ++ big.String v]
        | none => []) ++
      (if m.BlockHash ≠ [] then ["block_hash=".toList ++ m.BlockHash] else []) ++
      (if m.PrevHash ≠ [] then ["prev_hash=".toList ++ m.PrevHash] else []) ++
      (if !m.Timestamp.IsZero then ["timestamp=".toList ++ env.formatRFC3339 m.Timestamp]
        else []) ++
      (if m.Proposer ≠ [] then ["proposer=".toList ++ m.Proposer] else []) ++
      (if m.Validator ≠ [] then ["validator=".toList ++ m.Validator] else []),
      (if 0 < len m.CommitSeals then
        ["commit_seals=".toList ++ strings.Join (elems m.CommitSeals) ','] else []) ++
        SerializeGeneric.extrasParts env m, fun s hs => ?_⟩
    unfold SerializeGeneric.canonicalParts
    simp only [withSignature, if_pos hs]
    simp only [List.append_assoc, List.singleton_append]
    rfl
  obtain ⟨pre, post, h⟩ := Join_middle A B ','
  refine ⟨m.Typ ++ '(' :: pre, post ++ [')'], fun s hs => ?_⟩
  unfold SerializeGeneric
  rw [hparts s hs, h]
  simp [withSignature]

/-- C24: for every message and all non-empty signatures `s1` and `s2`, with the
visiting order of `Extras` fixed (the same environment on both sides), the
two generic serializations are `p ++ "signature=" ++ s1 ++ q` and
`p ++ "signature=" ++ s2 ++ q` for the same `p` and `q`. -/
theorem C24_generic_signature_isolation (env : Env) (m : AbstractMessage) (s1 s2 : Str)
    (h1 : s1 ≠ []) (h2 : s2 ≠ []) :
    ∃ p q : Str,
      SerializeGeneric env (withSignature m s1) = p ++ "signature=".toList ++ s1 ++ q ∧
      SerializeGeneric env (withSignature m s2) = p ++ "signature=".toList ++ s2 ++ q := by
  obtain ⟨p, q, h⟩ := SerializeGeneric_signature_region env m
  exact ⟨p, q, h s1 h1, h s2 h2⟩

/-- C24 at the sample message with the signatures `sigA` and `sigB`. -/
theorem C24_generic_signature_isolation_witness :
    ("sigA".toList ≠ [] ∧ "sigB".toList ≠ []) ∧
    ∃ p q : Str,
      SerializeGeneric sampleEnv (withSignature sampleMessage "sigA".toList) =
        p ++ "signature=".toList ++ "sigA".toList ++ q ∧
      SerializeGeneric sampleEnv (withSignature sampleMessage "sigB".toList) =
        p ++ "signature=".toList ++ "sigB".toList ++ q :=
  ⟨⟨by decide, by decide⟩,
    C24_generic_signature_isolation sampleEnv sampleMessage "sigA".toList "sigB".toList
      (by decide) (by decide)⟩

/-! ## C30: the map of `SplitKeyValuePairs` -/

theorem SplitKeyValuePairs.reads_iff (seg k v : Str) :
    SplitKeyValuePairs.Reads seg k v ↔ '=' ∈ seg ∧ SplitKeyValuePairs.pairOf seg = (k, v) := by
  constructor
  · rintro ⟨a, b, rfl, ha, rfl, rfl⟩
    refine ⟨by simp, ?_⟩
    have h1 : (a ++ '=' :: b).takeWhile (fun x => x != '=') = a := by
      rw [List.takeWhile_append_of_pos (fun x hx => by
        simp only [bne_iff_ne, ne_eq]
        rintro rfl
        exact ha hx)]
      simp
    have h2 : (a ++ '=' :: b).dropWhile (fun x => x != '=') = '=' :: b := by
      rw [List.dropWhile_append_of_pos (fun x hx => by
        simp only [bne_iff_ne, ne_eq]
        rintro rfl
        exact ha hx)]
      simp
    unfold SplitKeyValuePairs.pairOf
    rw [h1, h2]
    rfl
  · rintro ⟨hm, hp⟩
    have hsplit := List.takeWhile_append_dropWhile (fun x => x != '=') seg
    have hd : ∃ b, seg.dropWhile (fun x => x != '=') = '=' :: b := by
      cases hdw : seg.dropWhile (fun x => x != '=') with
      | nil =>
        have := List.dropWhile_eq_nil_iff.mp hdw '=' hm
        simp at this
      | cons c b =>
        have hh : (seg.dropWhile (fun x => x != '=')).head? = some c := by rw [hdw]; rfl
        have := List.head?_dropWhile_not (fun x => x != '=') seg
        rw [hh] at this
        simp only [Option.some.injEq, forall_eq', Bool.not_eq_true, bne_eq_false_iff_eq] at this
        exact ⟨b, by rw [this]⟩
    obtain ⟨b, hb⟩ := hd
    refine ⟨seg.takeWhile (fun x => x != '='), b, ?_, ?_, ?_, ?_⟩
    · rw [← hb, hsplit]
    · intro hin
      have := List.mem_takeWhile_imp hin
      simp at this
    · have := congrArg Prod.fst hp
      exact this.symm
    · have := congrArg Prod.snd hp
      simp only [SplitKeyValuePairs.pairOf, hb, List.tail_cons] at this
      exact this.symm

theorem SplitKeyValuePairs_eq_foldl (s : Str) :
    SplitKeyValuePairs s = (strings.Split s ',').foldl SplitKeyValuePairs.step [] := by
  rw [SplitKeyValuePairs_eq, SplitKeyValuePairs.foldl_step]
  rfl

theorem SplitKeyValuePairs.get?_foldl (segs : List Str) (m : GoMap Str) (k v : Str) :
    GoMap.get? (segs.foldl SplitKeyValuePairs.step m) k = some v ↔
      (∃ pre seg post, segs = pre ++ seg :: post ∧ SplitKeyValuePairs.Reads seg k v ∧
        ∀ seg' ∈ post, ∀ v', ¬SplitKeyValuePairs.Reads seg' k v') ∨
      ((∀ seg ∈ segs, ∀ v', ¬SplitKeyValuePairs.Reads seg k v') ∧ GoMap.get? m k = some v) := by
  induction segs using List.reverseRecOn with
  | nil => simp
  | append_singleton l x ih =>
    rw [List.foldl_append, List.foldl_cons, List.foldl_nil, SplitKeyValuePairs.step_eq]
    by_cases hx : '=' ∈ x
    · rw [if_pos hx, GoMap.get?_set]
      by_cases hk : k = (SplitKeyValuePairs.pairOf x).1
      · rw [if_pos hk]
        have hr : SplitKeyValuePairs.Reads x k (SplitKeyValuePairs.pairOf x).2 :=
          (SplitKeyValuePairs.reads_iff _ _ _).mpr ⟨hx, by rw [hk]⟩
        constructor
        · intro hv
          rw [Option.some.injEq] at hv
          exact Or.inl ⟨l, x, [], rfl, hv ▸ hr, by simp⟩
        · rintro (⟨pre, seg, post, he, hseg, hpost⟩ | ⟨hno, _⟩)
          · rcases List.eq_nil_or_concat post with rfl | ⟨post', y, rfl⟩
            · have := List.append_inj_right' he rfl
              rw [List.cons.injEq] at this
              obtain ⟨rfl, -⟩ := this
              have h2 := ((SplitKeyValuePairs.reads_iff _ _ _).mp hseg).2
              rw [h2]
            · rw [List.concat_eq_append, ← List.cons_append, ← List.append_assoc] at he
              have := List.append_inj_right' he rfl
              rw [List.cons.injEq] at this
              obtain ⟨rfl, -⟩ := this
              exact absurd hr (hpost x (by simp) _)
          · exact absurd hr (hno x (by simp) _)
      · rw [if_neg hk, ih]
        have hnr : ∀ v', ¬SplitKeyValuePairs.Reads x k v' := by
          intro v' hr
          have := ((SplitKeyValuePairs.reads_iff _ _ _).mp hr).2
          exact hk (congrArg Prod.fst this).symm
        constructor
        · rintro (⟨pre, seg, post, rfl, hseg, hpost⟩ | ⟨hno, hm⟩)
          · refine Or.inl ⟨pre, seg, post ++ [x], by simp, hseg, ?_⟩
            intro seg' hs'
            rcases List.mem_append.mp hs' with h | h
            · exact hpost seg' h
            · rw [List.mem_singleton] at h
              exact h ▸ hnr
          · refine Or.inr ⟨?_, hm⟩
            intro seg hs
            rcases List.mem_append.mp hs with h | h
            · exact hno seg h
            · rw [List.mem_singleton] at h
              exact h ▸ hnr
        · rintro (⟨pre, seg, post, he, hseg, hpost⟩ | ⟨hno, hm⟩)
          · rcases List.eq_nil_or_concat post with rfl | ⟨post', y, rfl⟩
            · have := List.append_inj_right' he rfl
              rw [List.cons.injEq] at this
              obtain ⟨rfl, -⟩ := this
              exact absurd hseg (hnr _)
            · rw [List.concat_eq_append, ← List.cons_append, ← List.append_assoc] at he
              have h1 := List.append_inj_left' he rfl
              refine Or.inl ⟨pre, seg, post', h1, hseg, fun seg' hs' => hpost seg' ?_⟩
              rw [List.concat_eq_append]
              exact List.mem_append_left _ hs'
          · exact Or.inr ⟨fun seg hs => hno seg (List.mem_append_left _ hs), hm⟩
    · rw [if_neg hx, ih]
      have hnr : ∀ k' v', ¬SplitKeyValuePairs.Reads x k' v' := by
        intro k' v' hr
        exact hx ((SplitKeyValuePairs.reads_iff _ _ _).mp hr).1
      constructor
      · rintro (⟨pre, seg, post, rfl, hseg, hpost⟩ | ⟨hno, hm⟩)
        · refine Or.inl ⟨pre, seg, post ++ [x], by simp, hseg, ?_⟩
          intro seg' hs'
          rcases List.mem_append.mp hs' with h | h
          · exact hpost seg' h
          · rw [List.mem_singleton] at h
            exact h ▸ hnr k
        · refine Or.inr ⟨?_, hm⟩
          intro seg hs
          rcases List.mem_append.mp hs with h | h
          · exact hno seg h
          · rw [List.mem_singleton] at h
            exact h ▸ hnr k
      · rintro (⟨pre, seg, post, he, hseg, hpost⟩ | ⟨hno, hm⟩)
        · rcases List.eq_nil_or_concat post with rfl | ⟨post', y, rfl⟩
          · have := List.append_inj_right' he rfl
            rw [List.cons.injEq] at this
            obtain ⟨rfl, -⟩ := this
            exact absurd hseg (hnr _ _)
          · rw [List.concat_eq_append, ← List.cons_append, ← List.append_assoc] at he
            have h1 := List.append_inj_left' he rfl
            refine Or.inl ⟨pre, seg, post', h1, hseg, fun seg' hs' => hpost seg' ?_⟩
            rw [List.concat_eq_append]
            exact List.mem_append_left _ hs'
        · exact Or.inr ⟨fun seg hs => hno seg (List.mem_append_left _ hs), hm⟩

/-- C30: for every string `s`, the keys of `SplitKeyValuePairs(s)` are exactly
the trimmed texts before the first `=` of the comma-separated segments of `s`
that contain `=` (so a segment without `=` contributes nothing); a key maps
to `v` exactly when the last segment that reads as this key reads as the
value `v`, the trimmed text after its first `=`; the keys are distinct; and a
blank `s` gives the empty map. -/
theorem C30_split_key_value_pairs (s : Str) :
    (∀ k : Str, k ∈ GoMap.keys (SplitKeyValuePairs s) ↔
      ∃ seg ∈ strings.Split s ',', ∃ v, SplitKeyValuePairs.Reads seg k v) ∧
    (∀ k v : Str, GoMap.get? (SplitKeyValuePairs s) k = some v ↔
      ∃ pre seg post, strings.Split s ',' = pre ++ seg :: post ∧
        SplitKeyValuePairs.Reads seg k v ∧
        ∀ seg' ∈ post, ∀ v', ¬SplitKeyValuePairs.Reads seg' k v') ∧
    (GoMap.keys (SplitKeyValuePairs s)).Nodup ∧
    ((∀ c ∈ s, isSpace c = true) → SplitKeyValuePairs s = []) := by
  have hget : ∀ k v : Str, GoMap.get? (SplitKeyValuePairs s) k = some v ↔
      ∃ pre seg post, strings.Split s ',' = pre ++ seg :: post ∧
        SplitKeyValuePairs.Reads seg k v ∧
        ∀ seg' ∈ post, ∀ v', ¬SplitKeyValuePairs.Reads seg' k v' := by
    intro k v
    rw [SplitKeyValuePairs_eq_foldl, SplitKeyValuePairs.get?_foldl]
    simp [GoMap.get?]
  refine ⟨fun k => ?_, hget, (SplitKeyValuePairs_WF s).nodup, fun hb => ?_⟩
  · rw [← get?_isSome_iff]
    constructor
    · rintro ⟨v, hv⟩
      obtain ⟨pre, seg, post, he, hr, -⟩ := (hget k v).mp hv
      exact ⟨seg, by rw [he]; simp, v, hr⟩
    · rintro ⟨seg, hseg, v, hr⟩
      by_contra hnone
      have hn : GoMap.get? (SplitKeyValuePairs s) k = none := by
        cases hg : GoMap.get? (SplitKeyValuePairs s) k with
        | none => rfl
        | some w => exact absurd ⟨w, hg⟩ hnone
      rw [SplitKeyValuePairs_eq_foldl] at hn
      have key : ∀ (segs : List Str) (m : GoMap Str), seg ∈ segs →
          GoMap.get? (segs.foldl SplitKeyValuePairs.step m) k ≠ none := by
        intro segs
        induction segs using List.reverseRecOn with
        | nil => intro m h; simp at h
        | append_singleton l x ih =>
          intro m hmem
          rw [List.foldl_append, List.foldl_cons, List.foldl_nil, SplitKeyValuePairs.step_eq]
          rcases List.mem_append.mp hmem with h | h
          · by_cases hx : '=' ∈ x
            · rw [if_pos hx, GoMap.get?_set]
              split
              · simp
              · exact ih m h
            · rw [if_neg hx]
              exact ih m h
          · rw [List.mem_singleton] at h
            subst h
            obtain ⟨h1, h2⟩ := (SplitKeyValuePairs.reads_iff _ _ _).mp hr
            rw [if_pos h1, GoMap.get?_set, if_pos (congrArg Prod.fst h2).symm]
            simp
      exact key _ _ hseg hn
  · rw [SplitKeyValuePairs, if_pos (TrimSpace_eq_nil_of_blank s hb)]

/-- The map of a text with a duplicated key, a value that contains `=`, a
segment without `=` and blanks around the keys and values. -/
theorem SplitKeyValuePairs_example :
    SplitKeyValuePairs " a = 1 ,junk, b=x=y ,a= 2".toList =
      [("a".toList, "2".toList), ("b".toList, "x=y".toList)] ∧
    SplitKeyValuePairs " \t ".toList = [] := by
  decide!

/-! ## A text without the separator, a map with one entry -/

theorem Split_of_not_mem (v : Str) (c : Char) (h : c ∉ v) : strings.Split v c = [v] := by
  unfold strings.Split List.splitOn
  apply List.splitOnP_eq_single
  intro x hx
  simp only [beq_iff_eq]
  rintro rfl
  exact h hx

theorem range_singleton {α : Type} (env : Env)
    (hrange : ∀ (α : Type) (s : Loop) (l : GoMap α), (env.range s l).Perm l) (s : Loop)
    (e : Str × α) : env.range s [e] = [e] :=
  List.perm_singleton.mp (hrange α s [e])

/-! ## C25: two keys of one field and the visiting order -/

/-- C25, at the failing input: with the field synonym table in which both
`height` and `seq_num` resolve to Height, the results of `jsonCodec.Parse` and
of `genericCodec.Parse` depend on the order in which `range` visits the keys.
The environments `sampleEnv` and `orderEnv` have the same tables and the same
libraries and differ only in that order; the object with `height` holding 1
and `seq_num` holding 2 is parsed into a message of height 2 when `height` is
visited first and of height 1 when `seq_num` is visited first, and so is the
generic text with the two pairs, whose recorded original name of Height
differs too. -/
theorem C25_parse_depends_on_visiting_order :
    (sampleEnv.FieldSynonyms = orderEnv.FieldSynonyms ∧
      sampleEnv.PhaseSynonyms = orderEnv.PhaseSynonyms ∧
      sampleEnv.jsonUnmarshal = orderEnv.jsonUnmarshal ∧
      sampleEnv.FieldSynonyms "height".toList = some "Height".toList ∧
      sampleEnv.FieldSynonyms "seq_num".toList = some "Height".toList) ∧
    ((jsonCodec.Parse sampleEnv "\x7b\"height\":\"1\",\"seq_num\":\"2\"\x7d".toList
        (ParseOptions.ofFormat FormatJSON)).toOption.map (fun p => p.Height) = some (some 2) ∧
      (jsonCodec.Parse orderEnv "\x7b\"height\":\"1\",\"seq_num\":\"2\"\x7d".toList
        (ParseOptions.ofFormat FormatJSON)).toOption.map (fun p => p.Height) = some (some 1)) ∧
    ((genericCodec.Parse sampleEnv "Prepare(height=1,seq_num=2)".toList
        (ParseOptions.ofFormat FormatGeneric)).toOption.map
          (fun p => (p.Height, p.OriginalFieldNames)) =
        some (some 2, some [("Height".toList, "seq_num".toList)]) ∧
      (genericCodec.Parse orderEnv "Prepare(height=1,seq_num=2)".toList
        (ParseOptions.ofFormat FormatGeneric)).toOption.map
          (fun p => (p.Height, p.OriginalFieldNames)) =
        some (some 1, some [("Height".toList, "height".toList)])) := by
  refine ⟨⟨rfl, rfl, rfl, by decide!, by decide!⟩, ⟨by decide!, by decide!⟩,
    ⟨by decide!, by decide!⟩⟩

/-! ## C27: the provider chain -/

/-- C27: for every primary and fallback provider and every message name,
`compositeProvider.FindMessageByName` returns the primary's descriptor when
the primary lookup succeeds, whatever the fallback answers; returns the
fallback's result, descriptor or error, when the primary lookup fails; and
fails if and only if both fail. -/
theorem C27_provider_chain (lib : ProtoLib) (c : compositeProvider lib) (fn : Str) :
    (∀ md, c.primary fn = .ok md →
      ∀ fallback2 : ProtoDescriptorProvider lib,
        compositeProvider.FindMessageByName { c with fallback := fallback2 } fn = .ok md) ∧
    (∀ e, c.primary fn = .error e → c.FindMessageByName fn = c.fallback fn) ∧
    ((∃ e, c.FindMessageByName fn = .error e) ↔
      (∃ e1, c.primary fn = .error e1) ∧ ∃ e2, c.fallback fn = .error e2) := by
  refine ⟨fun md h fb => ?_, fun e h => ?_, ?_⟩
  · simp only [compositeProvider.FindMessageByName, h]
  · simp only [compositeProvider.FindMessageByName, h]
  · unfold compositeProvider.FindMessageByName
    cases hp : c.primary fn with
    | ok md => simp
    | error e1 => simp

/-- The chain at the sample registries: a name the primary knows, a name only
the fallback knows, and a name neither knows. -/
theorem compositeProvider_examples :
    ((protoCodec.providerFrom sampleProtoLib none "pbft.Local".toList).toOption =
      some "pbft.Local".toList) ∧
    ((protoCodec.providerFrom sampleProtoLib none "pbft.Global".toList).toOption =
      some "pbft.Global".toList) ∧
    ((protoCodec.providerFrom sampleProtoLib none "pbft.Missing".toList).toOption = none) := by
  decide!

/-! ## C26: the binary-protocol codec needs a message name -/

/-- C26: for every input, message, options and descriptor provider (given in
the options or the default chain), `protoCodec.Parse` and
`protoCodec.Serialize` return an error, and no result, when
`ProtoMessageFullName` is empty; and when the provider fails to resolve a
non-empty name, they return an error that wraps the provider's error: its
message is `descriptor not found for`, the name, a colon and the message of
the provider's error, and `errors.Unwrap` of it is the provider's error. -/
theorem C26_proto_requires_message_name (lib : ProtoLib) (env : Env) (data : Bytes)
    (am : AbstractMessage) (popts : ParseOptions) (sopts : SerializeOptions)
    (provider : Option (ProtoDescriptorProvider lib)) :
    (popts.ProtoMessageFullName = [] →
      protoCodec.Parse lib env data popts provider =
        .error (.text "protobuf parse requires ProtoMessageFullName".toList)) ∧
    (sopts.ProtoMessageFullName = [] →
      protoCodec.Serialize lib env am sopts provider =
        .error (.text "protobuf serialize requires ProtoMessageFullName".toList)) ∧
    (∀ err, popts.ProtoMessageFullName ≠ [] →
      protoCodec.providerFrom lib provider popts.ProtoMessageFullName = .error err →
      ∃ e, protoCodec.Parse lib env data popts provider = .error e ∧ e.Unwrap = some err ∧
        e.Error = "descriptor not found for ".toList ++ popts.ProtoMessageFullName ++
          ": ".toList ++ err.Error) ∧
    (∀ err, sopts.ProtoMessageFullName ≠ [] →
      protoCodec.providerFrom lib provider sopts.ProtoMessageFullName = .error err →
      ∃ e, protoCodec.Serialize lib env am sopts provider = .error e ∧ e.Unwrap = some err ∧
        e.Error = "descriptor not found for ".toList ++ sopts.ProtoMessageFullName ++
          ": ".toList ++ err.Error) := by
  refine ⟨fun h => ?_, fun h => ?_, fun err hne h => ?_, fun err hne h => ?_⟩
  · simp only [protoCodec.Parse, h, if_true]
  · simp only [protoCodec.Serialize, h, if_true]
  · refine ⟨.wrap ("descriptor not found for ".toList ++ popts.ProtoMessageFullName ++
      ": ".toList) err, ?_, rfl, ?_⟩
    · simp only [protoCodec.Parse, if_neg hne, h]
    · simp only [Err.Error, List.append_assoc]
  · refine ⟨.wrap ("descriptor not found for ".toList ++ sopts.ProtoMessageFullName ++
      ": ".toList) err, ?_, rfl, ?_⟩
    · simp only [protoCodec.Serialize, if_neg hne, h]
    · simp only [Err.Error, List.append_assoc]

/-- The codec at the sample registries: without a name, with a name no
registry knows (the error wraps the error of the fallback registry), with a
name of the primary registry that is not a message (the chain goes on to
the fallback, whose error is the one wrapped), and with a name the chain
resolves. -/
theorem protoCodec_examples :
    errorOf (protoCodec.Parse sampleProtoLib sampleEnv [0x08, 0x01] (protoParseOptions []) none) =
      some (.text "protobuf parse requires ProtoMessageFullName".toList) ∧
    errorOf (protoCodec.Parse sampleProtoLib sampleEnv [0x08, 0x01]
        (protoParseOptions "pbft.Missing".toList) none) =
      some (.wrap "descriptor not found for pbft.Missing: ".toList
        (.text "proto: not found".toList)) ∧
    errorOf (protoCodec.Serialize sampleProtoLib sampleEnv sampleMessage
        (protoSerializeOptions "pbft.Kind".toList) none) =
      some (.wrap "descriptor not found for pbft.Kind: ".toList
        (.text "proto: not found".toList)) ∧
    (protoCodec.Parse sampleProtoLib sampleEnv [0x08, 0x01]
        (protoParseOptions "pbft.Global".toList) none).toOption.isSome = true := by
  refine ⟨by decide!, by decide!, by decide!, by decide!⟩

/-! ## C28: the RLP and BCS codecs over the JSON codec -/

theorem jsonCodec.parse_congr_override (env : Env) (data : Str) (o1 o2 : ParseOptions)
    (h : o1.OverrideMsgType = o2.OverrideMsgType) :
    jsonCodec.Parse env data o1 = jsonCodec.Parse env data o2 := by
  simp only [jsonCodec.Parse, jsonCodec.init, h]

theorem decode_of_roundtrip (lib : WireLib) (js : Str)
    (h : (lib.encodeBytes js).bind lib.decodeBytes = .ok js) :
    ∃ d, lib.encodeBytes js = .ok d ∧ lib.decodeBytes d = .ok js := by
  cases he : lib.encodeBytes js with
  | error e =>
    rw [he] at h
    cases h
  | ok d =>
    rw [he] at h
    exact ⟨d, rfl, h⟩

theorem rlpCodec.rlp_roundtrip_eq_json (rlp : WireLib) (env : Env) (m : AbstractMessage)
    (opts jopts : ParseOptions) (sopts : SerializeOptions)
    (hrlp : ∀ b : Str, (rlp.encodeBytes b).bind rlp.decodeBytes = .ok b)
    (hover : jopts.OverrideMsgType = opts.OverrideMsgType) :
    ((rlpCodec.Serialize rlp env m sopts).bind fun d => rlpCodec.Parse rlp env d opts) =
      ((jsonCodec.Serialize env m).bind fun js => jsonCodec.Parse env js jopts) := by
  obtain ⟨d, hd1, hd2⟩ := decode_of_roundtrip rlp _ (hrlp (env.jsonMarshal (.obj (jsonCodec.buildOut env m))))
  simp only [rlpCodec.Serialize, jsonCodec.Serialize, hd1, Except.bind, rlpCodec.Parse, hd2]
  exact jsonCodec.parse_congr_override env _ _ _ (by rw [hover]; rfl)

theorem bcsCodec.bcs_roundtrip_eq_json (bcs : WireLib) (env : Env) (m : AbstractMessage)
    (opts jopts : ParseOptions) (sopts : SerializeOptions)
    (hbcs : ∀ b : Str, (bcs.encodeBytes b).bind bcs.decodeBytes = .ok b)
    (hover : jopts.OverrideMsgType = opts.OverrideMsgType) :
    ((bcsCodec.Serialize bcs env m sopts).bind fun d => bcsCodec.Parse bcs env d opts) =
      ((jsonCodec.Serialize env m).bind fun js => jsonCodec.Parse env js jopts) := by
  obtain ⟨d, hd1, hd2⟩ := decode_of_roundtrip bcs _ (hbcs (env.jsonMarshal (.obj (jsonCodec.buildOut env m))))
  simp only [bcsCodec.Serialize, jsonCodec.Serialize, hd1, Except.bind, bcsCodec.Parse, hd2]
  exact jsonCodec.parse_congr_override env _ _ _ (by rw [hover]; rfl)

theorem fixedWidth.decode_encode (s : Str) :
    fixedWidth.decode (s.flatMap fixedWidth.encodeChar) = s := by
  induction s with
  | nil => rfl
  | cons c t ih =>
    rw [List.flatMap_cons]
    have hlt : c.toNat < 4294967296 := c.val.val.isLt
    have hc : ((((Fin.ofNat (c.toNat / 16777216) : Byte).val * 256 +
        (Fin.ofNat (c.toNat / 65536) : Byte).val) * 256 +
        (Fin.ofNat (c.toNat / 256) : Byte).val) * 256 +
        (Fin.ofNat c.toNat : Byte).val) = c.toNat := by
      simp only [Fin.ofNat]
      omega
    simp only [fixedWidth.encodeChar, List.cons_append, List.nil_append, fixedWidth.decode, hc,
      Char.ofNat_toNat]
    exact congrArg (List.cons c) ih

theorem fixedWidthLib_roundtrip (b : Str) :
    (fixedWidthLib.encodeBytes b).bind fixedWidthLib.decodeBytes = .ok b := by
  simp only [fixedWidthLib, Except.bind, fixedWidth.decode_encode]

/-! ## C29: the two text codecs coerce a text alike -/

theorem genericCodec.fold_unique {β : Type} (env : Env) (proj : AbstractMessage → β) (F : Str)
    (g : Str → β → β)
    (hstep : ∀ am kv, proj (genericCodec.step env am kv) =
      if env.FieldSynonyms kv.1 = some F then g kv.2 (proj am) else proj am)
    (hidem : ∀ v b, g v (g v b) = g v b) (L : List (Str × Str)) (am : AbstractMessage)
    (k v : Str) (hmem : (k, v) ∈ L) (hk : env.FieldSynonyms k = some F)
    (hu : ∀ e ∈ L, env.FieldSynonyms e.1 = some F → e = (k, v)) :
    proj (L.foldl (genericCodec.step env) am) = g v (proj am) := by
  rw [foldl_proj (genericCodec.step env) proj
    (fun e b => if env.FieldSynonyms e.1 = some F then g e.2 b else b) hstep]
  exact foldl_ite_unique (fun e : Str × Str => env.FieldSynonyms e.1 = some F)
    (fun e b => g e.2 b) L (proj am) (k, v) hmem hk hu (fun b => hidem v b)

theorem jsonCodec.json_fold_unique {β : Type} (env : Env) (proj : AbstractMessage → β) (F : Str)
    (g : JVal → β)
    (hstep : ∀ am kv, proj (jsonCodec.step env am kv) =
      if jsonCodec.resolve env kv.1 = F then g kv.2 else proj am)
    (L : List (Str × JVal)) (am : AbstractMessage)
    (k : Str) (v : JVal) (hmem : (k, v) ∈ L) (hk : jsonCodec.resolve env k = F)
    (hu : ∀ e ∈ L, jsonCodec.resolve env e.1 = F → e = (k, v)) :
    proj (L.foldl (jsonCodec.step env) am) = g v := by
  rw [foldl_proj (jsonCodec.step env) proj
    (fun e b => if jsonCodec.resolve env e.1 = F then g e.2 else b) hstep]
  exact foldl_ite_unique (fun e : Str × JVal => jsonCodec.resolve env e.1 = F)
    (fun e _ => g e.2) L (proj am) (k, v) hmem hk hu (fun _ => rfl)

theorem entry_unique_of_key {α : Type} (m : GoMap α) (hn : (GoMap.keys m).Nodup) (k : Str)
    (v : α) (hmem : (k, v) ∈ m) (e : Str × α) (he : e ∈ m) (hk : e.1 = k) : e = (k, v) := by
  obtain ⟨a, b⟩ := e
  simp only at hk
  subst hk
  have h1 := GoMap.get?_of_mem hn he
  have h2 := GoMap.get?_of_mem hn hmem
  rw [h1, Option.some.injEq] at h2
  rw [h2]

theorem genericCodec.fieldValue_of_unique (env : Env) (L : List (Str × Str))
    (am : AbstractMessage) (k v fld : Str) (hk : env.FieldSynonyms k = some fld)
    (hfld : fld ∈ textFieldNames) (hv : ',' ∉ v) (hmem : (k, v) ∈ L)
    (hu : ∀ e ∈ L, env.FieldSynonyms e.1 = some fld → e = (k, v))
    (h0 : am.Height = none ∧ am.Round = none ∧ am.View = none ∧ am.Timestamp = Time.zero) :
    fieldValue fld (L.foldl (genericCodec.step env) am) = coercedValue env fld v := by
  have hint : ∀ b : Option Int, b = none → genericCodec.intOf b v = coerceInt v := by
    rintro b rfl
    unfold genericCodec.intOf coerceInt
    cases big.SetString v <;> rfl
  have htime : genericCodec.timeOf env Time.zero v = coerceTime env v := rfl
  simp only [textFieldNames, List.mem_cons, List.mem_singleton, List.not_mem_nil, or_false]
    at hfld
  rcases hfld with rfl | rfl | rfl | rfl | rfl | rfl | rfl | rfl | rfl | rfl
  · have := genericCodec.fold_unique env AbstractMessage.Height _ (fun v b => genericCodec.intOf b v)
      (genericCodec.step_Height env) genericCodec.intOf_idem L am k v hmem hk hu
    simp [fieldValue, coercedValue, this, hint _ h0.1]
  · have := genericCodec.fold_unique env AbstractMessage.Round _ (fun v b => genericCodec.intOf b v)
      (genericCodec.step_Round env) genericCodec.intOf_idem L am k v hmem hk hu
    simp [fieldValue, coercedValue, this, hint _ h0.2.1]
  · have := genericCodec.fold_unique env AbstractMessage.View _ (fun v b => genericCodec.intOf b v)
      (genericCodec.step_View env) genericCodec.intOf_idem L am k v hmem hk hu
    simp [fieldValue, coercedValue, this, hint _ h0.2.2.1]
  · have := genericCodec.fold_unique env AbstractMessage.Timestamp _
      (fun v b => genericCodec.timeOf env b v)
      (genericCodec.step_Timestamp env) (genericCodec.timeOf_idem env) L am k v hmem hk hu
    simp [fieldValue, coercedValue, this, h0.2.2.2, htime]
  · have := genericCodec.fold_unique env AbstractMessage.BlockHash _ (fun v _ => v)
      (genericCodec.step_BlockHash env) (fun _ _ => rfl) L am k v hmem hk hu
    simp [fieldValue, coercedValue, this]
  · have := genericCodec.fold_unique env AbstractMessage.PrevHash _ (fun v _ => v)
      (genericCodec.step_PrevHash env) (fun _ _ => rfl) L am k v hmem hk hu
    simp [fieldValue, coercedValue, this]
  · have := genericCodec.fold_unique env AbstractMessage.Proposer _ (fun v _ => v)
      (genericCodec.step_Proposer env) (fun _ _ => rfl) L am k v hmem hk hu
    simp [fieldValue, coercedValue, this]
  · have := genericCodec.fold_unique env AbstractMessage.Validator _ (fun v _ => v)
      (genericCodec.step_Validator env) (fun _ _ => rfl) L am k v hmem hk hu
    simp [fieldValue, coercedValue, this]
  · have := genericCodec.fold_unique env AbstractMessage.Signature _ (fun v _ => v)
      (genericCodec.step_Signature env) (fun _ _ => rfl) L am k v hmem hk hu
    simp [fieldValue, coercedValue, this]
  · have := genericCodec.fold_unique env AbstractMessage.CommitSeals _
      (fun v _ => some (strings.Split v ','))
      (genericCodec.step_CommitSeals env) (fun _ _ => rfl) L am k v hmem hk hu
    simp [fieldValue, coercedValue, this, Split_of_not_mem v ',' hv]

theorem jsonCodec.json_fieldValue_of_unique (env : Env) (L : List (Str × JVal))
    (am : AbstractMessage) (k v fld : Str) (hk : jsonCodec.resolve env k = fld)
    (hfld : fld ∈ textFieldNames) (hmem : (k, JVal.str v) ∈ L)
    (hu : ∀ e ∈ L, jsonCodec.resolve env e.1 = fld → e = (k, JVal.str v)) :
    fieldValue fld (L.foldl (jsonCodec.step env) am) = coercedValue env fld v := by
  have hint : toBigIntPtr env (.str v) = coerceInt v := rfl
  have htime : toTime env (.str v) = coerceTime env v := rfl
  have htext : toString env (.str v) = v := rfl
  have hlist : toStringSlice env (.str v) = some [v] := rfl
  simp only [textFieldNames, List.mem_cons, List.mem_singleton, List.not_mem_nil, or_false]
    at hfld
  rcases hfld with rfl | rfl | rfl | rfl | rfl | rfl | rfl | rfl | rfl | rfl
  · have := jsonCodec.json_fold_unique env AbstractMessage.Height _ (fun x => toBigIntPtr env x)
      (jsonCodec.json_step_Height env) L am k _ hmem hk hu
    simp [fieldValue, coercedValue, this, hint]
  · have := jsonCodec.json_fold_unique env AbstractMessage.Round _ (fun x => toBigIntPtr env x)
      (jsonCodec.json_step_Round env) L am k _ hmem hk hu
    simp [fieldValue, coercedValue, this, hint]
  · have := jsonCodec.json_fold_unique env AbstractMessage.View _ (fun x => toBigIntPtr env x)
      (jsonCodec.json_step_View env) L am k _ hmem hk hu
    simp [fieldValue, coercedValue, this, hint]
  · have := jsonCodec.json_fold_unique env AbstractMessage.Timestamp _ (fun x => toTime env x)
      (jsonCodec.json_step_Timestamp env) L am k _ hmem hk hu
    simp [fieldValue, coercedValue, this, htime]
  · have := jsonCodec.json_fold_unique env AbstractMessage.BlockHash _ (fun x => toString env x)
      (jsonCodec.json_step_BlockHash env) L am k _ hmem hk hu
    simp [fieldValue, coercedValue, this, htext]
  · have := jsonCodec.json_fold_unique env AbstractMessage.PrevHash _ (fun x => toString env x)
      (jsonCodec.json_step_PrevHash env) L am k _ hmem hk hu
    simp [fieldValue, coercedValue, this, htext]
  · have := jsonCodec.json_fold_unique env AbstractMessage.Proposer _ (fun x => toString env x)
      (jsonCodec.json_step_Proposer env) L am k _ hmem hk hu
    simp [fieldValue, coercedValue, this, htext]
  · have := jsonCodec.json_fold_unique env AbstractMessage.Validator _ (fun x => toString env x)
      (jsonCodec.json_step_Validator env) L am k _ hmem hk hu
    simp [fieldValue, coercedValue, this, htext]
  · have := jsonCodec.json_fold_unique env AbstractMessage.Signature _ (fun x => toString env x)
      (jsonCodec.json_step_Signature env) L am k _ hmem hk hu
    simp [fieldValue, coercedValue, this, htext]
  · have := jsonCodec.json_fold_unique env AbstractMessage.CommitSeals _ (fun x => toStringSlice env x)
      (jsonCodec.json_step_CommitSeals env) L am k _ hmem hk hu
    simp [fieldValue, coercedValue, this, hlist]

/-- C29: for every comma-free text `v` and every key `k` that the field
synonym table resolves to one of Height, Round, View, Timestamp, BlockHash,
PrevHash, Proposer, Validator, Signature or CommitSeals, when `k = v` is one
of the key/value pairs of a generic input (its value is therefore
whitespace-trimmed), the string `v` is the value of the member `k` of a JSON
object, and `k` is on either side the only key that resolves to the field,
then the message `genericCodec.Parse` returns and the message
`jsonCodec.Parse` returns hold the same value in that field: the integer `v`
is a literal of, absent for a non-integer text; the instant of `v`, zero for
an unparseable timestamp; the text `v`; the one-element list `[v]` for
CommitSeals. -/
theorem C29_generic_and_json_coerce_text_alike (env : Env)
    (hrange : ∀ (α : Type) (s : Loop) (l : GoMap α), (env.range s l).Perm l)
    (gdata jdata : Str) (o : GoMap JVal) (k v fld : Str) (gopts jopts : ParseOptions)
    (hk : env.FieldSynonyms k = some fld) (hfld : fld ∈ textFieldNames) (hv : ',' ∉ v)
    (hparen : '(' ∈ gdata)
    (hg : (k, v) ∈ SplitKeyValuePairs (TrimBrackets (strings.TrimSpace gdata)))
    (hgu : ∀ k' ∈ GoMap.keys (SplitKeyValuePairs (TrimBrackets (strings.TrimSpace gdata))),
      env.FieldSynonyms k' = some fld → k' = k)
    (hj : env.jsonUnmarshal jdata = .ok (.obj o)) (hwf : GoMap.WF o)
    (hjm : (k, JVal.str v) ∈ o)
    (hju : ∀ k' ∈ GoMap.keys o, jsonCodec.resolve env k' = fld → k' = k) :
    ∃ p q, genericCodec.Parse env gdata gopts = .ok p ∧ jsonCodec.Parse env jdata jopts = .ok q ∧
      fieldValue fld p = coercedValue env fld v ∧ fieldValue fld q = coercedValue env fld v ∧
      fieldValue fld p = fieldValue fld q := by
  have h1 := genericCodec.parse_of_paren env gdata gopts hparen
  rw [← SplitKeyValuePairs_eq] at h1
  have h2 := jsonCodec.parse_of_decoded env jdata jopts _ hj
  have hres : jsonCodec.resolve env k = fld := by
    unfold jsonCodec.resolve
    rw [hk]
  have hpg := hrange _ .genericParse (SplitKeyValuePairs (TrimBrackets (strings.TrimSpace gdata)))
  have hpj := hrange _ .jsonParse o
  have hwg := SplitKeyValuePairs_WF (TrimBrackets (strings.TrimSpace gdata))
  have e1 := genericCodec.fieldValue_of_unique env _
    (genericCodec.init env (strings.TrimSpace gdata)
      (strings.TrimSpace ((strings.TrimSpace gdata).takeWhile (fun x => x != '('))))
    k v fld hk hfld hv (hpg.mem_iff.mpr hg)
    (fun e he hf => entry_unique_of_key _ hwg.nodup k v hg e (hpg.mem_iff.mp he)
      (hgu e.1 (List.mem_map.mpr ⟨e, hpg.mem_iff.mp he, rfl⟩) hf))
    ⟨rfl, rfl, rfl, rfl⟩
  have e2 := jsonCodec.json_fieldValue_of_unique env _ (jsonCodec.init env jdata jopts o)
    k v fld hres hfld (hpj.mem_iff.mpr hjm)
    (fun e he hf => entry_unique_of_key _ hwf.nodup k (JVal.str v) hjm e (hpj.mem_iff.mp he)
      (hju e.1 (List.mem_map.mpr ⟨e, hpj.mem_iff.mp he, rfl⟩) hf))
  exact ⟨_, _, h1, h2, e1, e2, e1.trans e2.symm⟩

/-- C29 at the pair `height = abc`, read from the generic text
`Prepare(height=abc,round=3)` and from the JSON object whose member `height`
holds the string `abc` and whose member `round` holds the string `3`: the
integer field is absent on both sides. -/
theorem C29_generic_and_json_coerce_text_alike_witness :
    ∃ p q,
      genericCodec.Parse sampleEnv "Prepare(height=abc,round=3)".toList
        (ParseOptions.ofFormat FormatGeneric) = .ok p ∧
      jsonCodec.Parse sampleEnv "\x7b\"height\":\"abc\",\"round\":\"3\"\x7d".toList
        (ParseOptions.ofFormat FormatJSON) = .ok q ∧
      fieldValue "Height".toList p = .int none ∧ fieldValue "Height".toList q = .int none := by
  have hg : ("height".toList, "abc".toList) ∈ SplitKeyValuePairs
      (TrimBrackets (strings.TrimSpace "Prepare(height=abc,round=3)".toList)) := by decide!
  have hgu : ∀ k' ∈ GoMap.keys (SplitKeyValuePairs
      (TrimBrackets (strings.TrimSpace "Prepare(height=abc,round=3)".toList))),
      sampleEnv.FieldSynonyms k' = some "Height".toList → k' = "height".toList := by decide!
  have hj : sampleEnv.jsonUnmarshal "\x7b\"height\":\"abc\",\"round\":\"3\"\x7d".toList =
      .ok (.obj [("height".toList, .str "abc".toList), ("round".toList, .str "3".toList)]) :=
    sampleEnv_unmarshal_obj _ _ (by decide!)
  have hwf : GoMap.WF [("height".toList, JVal.str "abc".toList),
      ("round".toList, .str "3".toList)] := by decide!
  have hju : ∀ k' ∈ GoMap.keys [("height".toList, JVal.str "abc".toList),
      ("round".toList, .str "3".toList)],
      jsonCodec.resolve sampleEnv k' = "Height".toList → k' = "height".toList := by decide!
  have hc : coercedValue sampleEnv "Height".toList "abc".toList = .int none := by decide!
  obtain ⟨p, q, h1, h2, h3, h4, -⟩ := C29_generic_and_json_coerce_text_alike sampleEnv
    (fun _ _ _ => List.Perm.refl _) "Prepare(height=abc,round=3)".toList
    "\x7b\"height\":\"abc\",\"round\":\"3\"\x7d".toList
    [("height".toList, .str "abc".toList), ("round".toList, .str "3".toList)]
    "height".toList "abc".toList "Height".toList
    (ParseOptions.ofFormat FormatGeneric) (ParseOptions.ofFormat FormatJSON)
    (by decide!) (by decide!) (by decide!) (by decide!) hg hgu hj hwf (List.mem_cons_self _ _)
    hju
  exact ⟨p, q, h1, h2, h3.trans hc, h4.trans hc⟩

/-- The coercions of C29 at an instant, at epoch seconds, at a text that is
neither, at a seal and at an integer. -/
theorem coercedValue_examples :
    coercedValue sampleEnv "Timestamp".toList "2024-01-01T00:00:00Z".toList =
      .time ⟨1704067200, 0⟩ ∧
    coercedValue sampleEnv "Timestamp".toList "1704067200".toList = .time ⟨1704067200, 0⟩ ∧
    coercedValue sampleEnv "Timestamp".toList "soon".toList = .time Time.zero ∧
    coercedValue sampleEnv "CommitSeals".toList "s1".toList = .list (some ["s1".toList]) ∧
    coercedValue sampleEnv "Round".toList "12".toList = .int (some 12) ∧
    coercedValue sampleEnv "Proposer".toList "node 1".toList = .text "node 1".toList := by
  decide!

/-! ## C31: the three results of `DetectFormat` -/

theorem DetectFormat_three (env : Env) (data : Bytes) :
    DetectFormat env data = FormatGeneric ∨ DetectFormat env data = FormatJSON ∨
      DetectFormat env data = FormatRLP := by
  cases ht : bytes.TrimSpace data with
  | nil => exact Or.inl (DetectFormat_of_trim_nil env data ht)
  | cons b rest =>
    rw [DetectFormat_json_or_rlp env data b rest ht]
    split
    · exact Or.inr (Or.inl rfl)
    · exact Or.inr (Or.inr rfl)

theorem Parse_auto (libs : Libs) (env : Env) (data : Bytes) (opts : ParseOptions)
    (provider : Option (ProtoDescriptorProvider libs.proto))
    (hfmt : opts.Format = [] ∨ opts.Format = FormatAuto) :
    Parse libs env data opts provider =
      if DetectFormat env data = FormatGeneric then
        genericCodec.Parse env (utf8.decode data) opts
      else if DetectFormat env data = FormatJSON then jsonCodec.Parse env (utf8.decode data) opts
      else rlpCodec.Parse libs.rlp env data opts := by
  have h1 : FormatJSON ≠ FormatGeneric := by decide
  have h2 : FormatRLP ≠ FormatGeneric := by decide
  have h3 : FormatRLP ≠ FormatJSON := by decide
  have h4 : FormatRLP ≠ FormatProtobuf := by decide
  simp only [Parse, if_pos hfmt]
  rcases DetectFormat_three env data with h | h | h
  · rw [h, if_pos rfl, if_pos rfl]
  · rw [h, if_neg h1, if_pos rfl, if_neg h1, if_pos rfl]
  · rw [h, if_neg h2, if_neg h3, if_neg h4, if_pos rfl, if_neg h2, if_neg h3]

/-- C31: for every input, `DetectFormat` returns `FormatGeneric`, `FormatJSON`
or `FormatRLP`, and none of `FormatMsgPack`, `FormatProtobuf`, `FormatBCS` and
`FormatAuto`; an input that is not blank and is not detected as JSON is
detected as RLP, whatever its first byte.  So `Parse` with an empty format or
with `auto` returns what the generic, the JSON or the RLP codec returns for
the input: the cases of the MsgPack, binary-protocol and BCS codecs and the
default case with the unsupported-format error are not reached, and the
result does not change with the libraries and the descriptor provider of
those codecs. -/
theorem C31_detect_three_formats (env : Env) (data : Bytes) :
    (DetectFormat env data = FormatGeneric ∨ DetectFormat env data = FormatJSON ∨
      DetectFormat env data = FormatRLP) ∧
    (DetectFormat env data ≠ FormatMsgPack ∧ DetectFormat env data ≠ FormatProtobuf ∧
      DetectFormat env data ≠ FormatBCS ∧ DetectFormat env data ≠ FormatAuto) ∧
    (¬bytes.IsBlank data → DetectFormat env data ≠ FormatJSON →
      DetectFormat env data = FormatRLP) ∧
    (∀ (libs : Libs) (opts : ParseOptions) (provider : Option (ProtoDescriptorProvider libs.proto)),
      opts.Format = [] ∨ opts.Format = FormatAuto →
      Parse libs env data opts provider =
        if DetectFormat env data = FormatGeneric then
          genericCodec.Parse env (utf8.decode data) opts
        else if DetectFormat env data = FormatJSON then
          jsonCodec.Parse env (utf8.decode data) opts
        else rlpCodec.Parse libs.rlp env data opts) ∧
    (∀ (libs libs2 : Libs) (opts : ParseOptions)
      (provider : Option (ProtoDescriptorProvider libs.proto))
      (provider2 : Option (ProtoDescriptorProvider libs2.proto)),
      opts.Format = [] ∨ opts.Format = FormatAuto → libs.rlp = libs2.rlp →
      Parse libs env data opts provider = Parse libs2 env data opts provider2) := by
  have h3 := DetectFormat_three env data
  refine ⟨h3, ?_, ?_, fun libs opts provider hf => Parse_auto libs env data opts provider hf, ?_⟩
  · rcases h3 with h | h | h <;> rw [h] <;> decide
  · intro hnb hnj
    rcases h3 with h | h | h
    · exact absurd ((bytes.isBlank_iff data).mpr ((bytes.TrimSpace_eq_nil_iff data).mp (by
        cases ht : bytes.TrimSpace data with
        | nil => rfl
        | cons b rest =>
          rw [DetectFormat_json_or_rlp env data b rest ht] at h
          split at h
          · exact absurd h (by decide)
          · exact absurd h (by decide)))) hnb
    · exact absurd h hnj
    · exact h
  · intro libs libs2 opts provider provider2 hf hr
    rw [Parse_auto libs env data opts provider hf, Parse_auto libs2 env data opts provider2 hf, hr]

/-- The entry point at three inputs with the format `auto`: the MsgPack
encoding `81 A1 61 01` and the binary-protocol encoding `08 01` go to the RLP
codec, whose library decodes no structured value here, and a JSON object goes
to the JSON codec. -/
theorem Parse_auto_examples :
    DetectFormat sampleEnv [0x81, 0xA1, 0x61, 0x01] = FormatRLP ∧
    Parse sampleLibs sampleEnv [0x81, 0xA1, 0x61, 0x01] autoOptions none =
      rlpCodec.Parse fixedWidthLib sampleEnv [0x81, 0xA1, 0x61, 0x01] autoOptions ∧
    Parse sampleLibs sampleEnv [0x08, 0x01] autoOptions none =
      rlpCodec.Parse fixedWidthLib sampleEnv [0x08, 0x01] autoOptions ∧
    (Parse sampleLibs sampleEnv (utf8.encode "\x7b\"type\":\"Commit\"\x7d".toList) autoOptions
      none).toOption.map (fun p => p.Typ) = some "Commit".toList := by
  refine ⟨by decide!, ?_, ?_, by decide!⟩
  · rw [Parse_auto sampleLibs sampleEnv _ autoOptions none (Or.inr rfl),
      if_neg (by decide!), if_neg (by decide!)]
    rfl
  · rw [Parse_auto sampleLibs sampleEnv _ autoOptions none (Or.inr rfl),
      if_neg (by decide!), if_neg (by decide!)]
    rfl

/-! ## C32: one seal and one view change at most -/

theorem splitOnP_go_not_mem {α : Type} (P : α → Bool) (xs acc : List α)
    (hacc : ∀ x ∈ acc, P x = false) :
    ∀ l ∈ List.splitOnP.go P xs acc, ∀ x ∈ l, P x = false := by
  induction xs generalizing acc with
  | nil =>
    intro l hl x hx
    simp only [List.splitOnP.go, List.mem_singleton] at hl
    subst hl
    exact hacc x (List.mem_reverse.mp hx)
  | cons a t ih =>
    intro l hl x hx
    unfold List.splitOnP.go at hl
    by_cases ha : P a = true
    · rw [if_pos ha] at hl
      rcases List.mem_cons.mp hl with h | h
      · subst h
        exact hacc x (List.mem_reverse.mp hx)
      · exact ih [] (by simp) l h x hx
    · rw [if_neg ha] at hl
      refine ih (a :: acc) ?_ l hl x hx
      intro y hy
      rcases List.mem_cons.mp hy with h | h
      · subst h
        simpa using ha
      · exact hacc y h

theorem not_mem_of_mem_Split (s seg : Str) (c : Char) (h : seg ∈ strings.Split s c) : c ∉ seg := by
  intro hc
  have := splitOnP_go_not_mem (fun x => x == c) s [] (by simp) seg h c hc
  simp at this

theorem SplitKeyValuePairs_value_no_comma (s k v : Str) (h : (k, v) ∈ SplitKeyValuePairs s) :
    ',' ∉ v := by
  have hg := GoMap.get?_of_mem (SplitKeyValuePairs_WF s).nodup h
  rw [SplitKeyValuePairs_eq_foldl, SplitKeyValuePairs.get?_foldl] at hg
  rcases hg with ⟨pre, seg, post, he, ⟨a, b, rfl, -, -, rfl⟩, -⟩ | ⟨-, hm⟩
  · intro hc
    have hseg : a ++ '=' :: b ∈ strings.Split s ',' := by
      rw [he]
      simp
    exact not_mem_of_mem_Split s _ ',' hseg
      (List.mem_append_right _ (List.mem_cons_of_mem _ (mem_of_mem_TrimSpace hc)))
  · simp [GoMap.get?] at hm

theorem parseViewChanges_len_le_one (v : Str) (hv : ',' ∉ v) : len (parseViewChanges v) ≤ 1 := by
  unfold parseViewChanges
  rw [Split_of_not_mem v ',' hv, List.foldl_cons, List.foldl_nil]
  unfold parseViewChanges.step
  split
  · simp [len, elems]
  · simp [len]

theorem foldl_invariant {σ ι : Type} (step : σ → ι → σ) (P : σ → Prop) (L : List ι) (s : σ)
    (h0 : P s) (hstep : ∀ s, P s → ∀ e ∈ L, P (step s e)) : P (L.foldl step s) := by
  induction L generalizing s with
  | nil => exact h0
  | cons a t ih =>
    rw [List.foldl_cons]
    exact ih _ (hstep s h0 a (List.mem_cons_self _ _))
      (fun s hs e he => hstep s hs e (List.mem_cons_of_mem _ he))

/-- C32: when `range` visits the entries of the map of key/value pairs, every
message `genericCodec.Parse` returns has at most one `CommitSeals` element and
at most one `ViewChanges` entry: `SplitKeyValuePairs` splits the body on every
comma first, so no value of the map contains a comma, `strings.Split` of such
a value is the value alone, and `parseViewChanges` reads one item at most. -/
theorem C32_generic_lists_at_most_one (env : Env)
    (hrange : ∀ (α : Type) (s : Loop) (l : GoMap α), (env.range s l).Perm l)
    (data : Str) (opts : ParseOptions) (p : AbstractMessage)
    (h : genericCodec.Parse env data opts = .ok p) :
    len p.CommitSeals ≤ 1 ∧ len p.ViewChanges ≤ 1 ∧
    ∀ (body k v : Str), (k, v) ∈ SplitKeyValuePairs body → ',' ∉ v := by
  refine ⟨?_, ?_, fun body k v hkv => SplitKeyValuePairs_value_no_comma body k v hkv⟩
  all_goals
    unfold genericCodec.Parse at h
    simp only at h
    split at h
    · cases h
    split at h
    · cases h
    simp only [Except.ok.injEq] at h
    subst h
    have hperm := hrange _ .genericParse (SplitKeyValuePairs (TrimBrackets (strings.TrimSpace data)))
  · refine foldl_invariant (genericCodec.step env) (fun am => len am.CommitSeals ≤ 1) _ _
      (by simp [genericCodec.init, AbstractMessage.empty, len]) ?_
    intro am ham e he
    have hv := SplitKeyValuePairs_value_no_comma _ e.1 e.2 (hperm.mem_iff.mp he)
    show len (genericCodec.step env am e).CommitSeals ≤ 1
    rw [genericCodec.step_CommitSeals]
    split
    · rw [Split_of_not_mem e.2 ',' hv]
      simp [len]
    · exact ham
  · refine foldl_invariant (genericCodec.step env) (fun am => len am.ViewChanges ≤ 1) _ _
      (by simp [genericCodec.init, AbstractMessage.empty, len]) ?_
    intro am ham e he
    have hv := SplitKeyValuePairs_value_no_comma _ e.1 e.2 (hperm.mem_iff.mp he)
    show len (genericCodec.step env am e).ViewChanges ≤ 1
    rw [genericCodec.step_ViewChanges]
    split
    · exact parseViewChanges_len_le_one e.2 hv
    · exact ham

/-- C32 at a text that writes two seals and two view changes: the message
holds the first seal and the first view change only. -/
theorem C32_generic_lists_at_most_one_witness :
    ∃ p, genericCodec.Parse sampleEnv
        "Commit(commit_seals=a,b,view_changes=1:2:v:s,3:4:w:t)".toList
        (ParseOptions.ofFormat FormatGeneric) = .ok p ∧
      p.CommitSeals = some ["a".toList] ∧
      p.ViewChanges = some [⟨some 1, some 2, "v".toList, "s".toList⟩] ∧
      len p.CommitSeals ≤ 1 ∧ len p.ViewChanges ≤ 1 :=
  have hp := genericCodec.parse_of_paren sampleEnv
    "Commit(commit_seals=a,b,view_changes=1:2:v:s,3:4:w:t)".toList
    (ParseOptions.ofFormat FormatGeneric) (by decide!)
  have hc := C32_generic_lists_at_most_one sampleEnv (fun _ _ _ => List.Perm.refl _) _ _ _ hp
  ⟨_, hp, by decide!, by decide!, hc.1, hc.2.1⟩

/-! ## C28: the RLP and BCS codecs over the JSON codec, in another execution -/

theorem jsonCodec.buildOut_withRange (env : Env) (r : RangeOrder) (m : AbstractMessage)
    (hrange : ∀ (α : Type) (s : Loop) (l : GoMap α), (env.range s l).Perm l)
    (hr : ∀ (α : Type) (s : Loop) (l : GoMap α), (r α s l).Perm l)
    (hwf : GoMap.WF (elems m.Extras)) :
    jsonCodec.buildOut (env.withRange r) m = jsonCodec.buildOut env m := by
  apply GoMap.ext_of_WF _ _ (jsonCodec.WF_buildOut _ m) (jsonCodec.WF_buildOut env m)
  intro k
  rw [jsonCodec.get?_buildOut, jsonCodec.get?_buildOut]
  have h1 : jsonCodec.canonicalOut (env.withRange r) m = jsonCodec.canonicalOut env m := rfl
  have h2 : GoMap.get? ((env.withRange r).range .jsonSerialize (elems m.Extras)) k =
      GoMap.get? (elems m.Extras) k :=
    get?_perm _ _ (hr Str .jsonSerialize _) hwf.nodup k
  have h3 : GoMap.get? (env.range .jsonSerialize (elems m.Extras)) k =
      GoMap.get? (elems m.Extras) k :=
    get?_perm _ _ (hrange Str .jsonSerialize _) hwf.nodup k
  have h4 : jsonCodec.extraValue (env.withRange r) = jsonCodec.extraValue env := rfl
  rw [h1, h2, h3, h4]

theorem jsonCodec.foldl_step_agree (env : Env) (o : GoMap JVal) (M M2 : List (Str × JVal))
    (hp : M.Perm M2) (hn : (GoMap.keys M).Nodup) (hsub : ∀ e ∈ M, e.1 ∈ GoMap.keys o)
    (hord : M = M2 ∨ jsonCodec.Unambiguous env o) (s0 : AbstractMessage)
    (hs0 : s0.Extras = some []) :
    M.foldl (jsonCodec.step env) s0 = M2.foldl (jsonCodec.step env) s0 := by
  obtain ⟨hfields, hextras⟩ := jsonCodec.folds_agree env o M M2 hp hn hsub hord
  have hraw : (M.foldl (jsonCodec.step env) s0).RawPayload =
      (M2.foldl (jsonCodec.step env) s0).RawPayload := by
    rw [jsonCodec.json_fold_const env _ (jsonCodec.json_step_RawPayload env),
      jsonCodec.json_fold_const env _ (jsonCodec.json_step_RawPayload env)]
  have key := AbstractMessage.eq_of_fields (M.foldl (jsonCodec.step env) s0)
    (M2.foldl (jsonCodec.step env) s0)
    (by rw [jsonCodec.json_fold_Typ, jsonCodec.json_fold_Typ])
    (by rw [jsonCodec.fold_Height_eq, jsonCodec.fold_Height_eq]
        exact hfields _ _ _ _ (by decide))
    (by rw [jsonCodec.fold_Round_eq, jsonCodec.fold_Round_eq]
        exact hfields _ _ _ _ (by decide))
    (by rw [jsonCodec.fold_View_eq, jsonCodec.fold_View_eq]
        exact hfields _ _ _ _ (by decide))
    (by rw [jsonCodec.fold_Timestamp_eq, jsonCodec.fold_Timestamp_eq]
        exact hfields _ _ _ _ (by decide))
    (by rw [jsonCodec.fold_BlockHash_eq, jsonCodec.fold_BlockHash_eq]
        exact hfields _ _ _ _ (by decide))
    (by rw [jsonCodec.fold_PrevHash_eq, jsonCodec.fold_PrevHash_eq]
        exact hfields _ _ _ _ (by decide))
    (by rw [jsonCodec.fold_Proposer_eq, jsonCodec.fold_Proposer_eq]
        exact hfields _ _ _ _ (by decide))
    (by rw [jsonCodec.fold_Validator_eq, jsonCodec.fold_Validator_eq]
        exact hfields _ _ _ _ (by decide))
    (by rw [jsonCodec.fold_Signature_eq, jsonCodec.fold_Signature_eq]
        exact hfields _ _ _ _ (by decide))
    (by rw [jsonCodec.fold_CommitSeals_eq, jsonCodec.fold_CommitSeals_eq]
        exact hfields _ _ _ _ (by decide))
    (by rw [jsonCodec.fold_ViewChanges_eq, jsonCodec.fold_ViewChanges_eq]
        exact hfields _ _ _ _ (by decide))
    (by rw [jsonCodec.fold_Extras_eq, jsonCodec.fold_Extras_eq, hs0]
        exact hextras)
    (by rw [jsonCodec.json_fold_const env _ (jsonCodec.json_step_OriginalFormat env),
          jsonCodec.json_fold_const env _ (jsonCodec.json_step_OriginalFormat env)])
    (by rw [jsonCodec.json_fold_const env _ (jsonCodec.json_step_OriginalMsgName env),
          jsonCodec.json_fold_const env _ (jsonCodec.json_step_OriginalMsgName env)])
    (by rw [jsonCodec.json_fold_const env _ (jsonCodec.json_step_OriginalFieldNames env),
          jsonCodec.json_fold_const env _ (jsonCodec.json_step_OriginalFieldNames env)])
  rw [key, hraw]

theorem jsonCodec.parse_withRange (env : Env) (r : RangeOrder) (data : Str)
    (opts : ParseOptions)
    (hrange : ∀ (α : Type) (s : Loop) (l : GoMap α), (env.range s l).Perm l)
    (hr : ∀ (α : Type) (s : Loop) (l : GoMap α), (r α s l).Perm l)
    (hord : ∀ o, env.jsonUnmarshal data = .ok (.obj o) →
      r JVal .jsonParse o = env.range .jsonParse o ∨
        (GoMap.WF o ∧ jsonCodec.Unambiguous env o)) :
    jsonCodec.Parse (env.withRange r) data opts = jsonCodec.Parse env data opts := by
  have hu : jsonCodec.unmarshalMap (env.withRange r) data = jsonCodec.unmarshalMap env data := rfl
  unfold jsonCodec.Parse
  rw [hu]
  cases hm : jsonCodec.unmarshalMap env data with
  | error e => rfl
  | ok o =>
    simp only
    have hstep : jsonCodec.step (env.withRange r) = jsonCodec.step env := rfl
    have hinit : jsonCodec.init (env.withRange r) data opts o = jsonCodec.init env data opts o :=
      rfl
    have hrr : (env.withRange r).range .jsonParse o = r JVal .jsonParse o := rfl
    rw [hstep, hinit, hrr]
    congr 1
    have hperm : (r JVal .jsonParse o).Perm (env.range .jsonParse o) :=
      (hr _ _ o).trans (hrange _ _ o).symm
    unfold jsonCodec.unmarshalMap at hm
    cases hj : env.jsonUnmarshal data with
    | error e =>
      rw [hj] at hm
      cases hm
    | ok v =>
      rw [hj] at hm
      cases v with
      | obj o2 =>
        simp only [Except.ok.injEq] at hm
        subst hm
        rcases hord o2 hj with h | ⟨hwf, hun⟩
        · rw [h]
        · exact jsonCodec.foldl_step_agree env o2 _ _ hperm
            (((hr _ _ o2).map Prod.fst).nodup_iff.mpr hwf.nodup)
            (fun e he => List.mem_map.mpr ⟨e, (hr _ _ o2).mem_iff.mp he, rfl⟩)
            (Or.inr hun) _ rfl
      | null =>
        simp only [Except.ok.injEq] at hm
        subst hm
        rw [List.perm_nil.mp (hr _ .jsonParse []), List.perm_nil.mp (hrange _ .jsonParse [])]
      | bool b => cases hm
      | num f => cases hm
      | number s => cases hm
      | str s => cases hm
      | arr l => cases hm

theorem jsonCodec.roundtrip_withRange (env : Env) (r : RangeOrder) (m : AbstractMessage)
    (opts : ParseOptions)
    (hrange : ∀ (α : Type) (s : Loop) (l : GoMap α), (env.range s l).Perm l)
    (hr : ∀ (α : Type) (s : Loop) (l : GoMap α), (r α s l).Perm l)
    (hwf : GoMap.WF (elems m.Extras))
    (hord : ∀ o, env.jsonUnmarshal (env.jsonMarshal (.obj (jsonCodec.buildOut env m))) =
        .ok (.obj o) →
      r JVal .jsonParse o = env.range .jsonParse o ∨
        (GoMap.WF o ∧ jsonCodec.Unambiguous env o)) :
    ((jsonCodec.Serialize (env.withRange r) m).bind fun js =>
        jsonCodec.Parse (env.withRange r) js opts) =
      ((jsonCodec.Serialize env m).bind fun js => jsonCodec.Parse env js opts) := by
  have hs : jsonCodec.Serialize (env.withRange r) m = jsonCodec.Serialize env m := by
    unfold jsonCodec.Serialize
    rw [jsonCodec.buildOut_withRange env r m hrange hr hwf]
    rfl
  rw [hs]
  simp only [jsonCodec.Serialize, Except.bind]
  exact jsonCodec.parse_withRange env r _ opts hrange hr hord

/-- C28 (amended): when the byte-string decode of each library inverts its
byte-string encode, then for every message and every `OverrideMsgType`,
parsing with `rlpCodec` what `rlpCodec` serialized, and parsing with
`bcsCodec` what `bcsCodec` serialized, each in an execution of its own with
its own visiting orders, give what `jsonCodec.Parse` gives under the same
override for the output of `jsonCodec.Serialize`: the same message, or the
same error when the JSON codec fails; this when the keys of the decoded
object are visited in the same order as in the JSON parse, or when no two
keys of the decoded object resolve to the same canonical field. -/
theorem C28_rlp_and_bcs_bridge_json (rlp bcs : WireLib) (env : Env)
    (rangeRlp rangeBcs : RangeOrder) (m : AbstractMessage)
    (opts jopts : ParseOptions) (sopts : SerializeOptions)
    (hrange : ∀ (α : Type) (s : Loop) (l : GoMap α), (env.range s l).Perm l)
    (hrangeRlp : ∀ (α : Type) (s : Loop) (l : GoMap α), (rangeRlp α s l).Perm l)
    (hrangeBcs : ∀ (α : Type) (s : Loop) (l : GoMap α), (rangeBcs α s l).Perm l)
    (hwf : GoMap.WF (elems m.Extras))
    (hrlp : ∀ b : Str, (rlp.encodeBytes b).bind rlp.decodeBytes = .ok b)
    (hbcs : ∀ b : Str, (bcs.encodeBytes b).bind bcs.decodeBytes = .ok b)
    (hover : jopts.OverrideMsgType = opts.OverrideMsgType)
    (hord : ∀ o, env.jsonUnmarshal (env.jsonMarshal (.obj (jsonCodec.buildOut env m))) =
        .ok (.obj o) →
      (rangeRlp JVal .jsonParse o = env.range .jsonParse o ∧
        rangeBcs JVal .jsonParse o = env.range .jsonParse o) ∨
      (GoMap.WF o ∧ jsonCodec.Unambiguous env o)) :
    ((rlpCodec.Serialize rlp (env.withRange rangeRlp) m sopts).bind fun d =>
        rlpCodec.Parse rlp (env.withRange rangeRlp) d opts) =
      ((jsonCodec.Serialize env m).bind fun js => jsonCodec.Parse env js jopts) ∧
    ((bcsCodec.Serialize bcs (env.withRange rangeBcs) m sopts).bind fun d =>
        bcsCodec.Parse bcs (env.withRange rangeBcs) d opts) =
      ((jsonCodec.Serialize env m).bind fun js => jsonCodec.Parse env js jopts) := by
  constructor
  · rw [rlpCodec.rlp_roundtrip_eq_json rlp (env.withRange rangeRlp) m opts jopts sopts hrlp hover]
    exact jsonCodec.roundtrip_withRange env rangeRlp m jopts hrange hrangeRlp hwf
      (fun o ho => (hord o ho).imp (fun h => h.1) id)
  · rw [bcsCodec.bcs_roundtrip_eq_json bcs (env.withRange rangeBcs) m opts jopts sopts hbcs hover]
    exact jsonCodec.roundtrip_withRange env rangeBcs m jopts hrange hrangeBcs hwf
      (fun o ho => (hord o ho).imp (fun h => h.2) id)

/-- C28, counterexample: the message of height 1 whose `Extras` hold the alias
`seq_num` with the value 2 is serialized as an object with the keys `height`
and `seq_num`, which both resolve to Height.  The library that writes four
bytes per character inverts its encode.  The RLP and the BCS round trip in an
execution that visits the keys in decreasing order return height 1, the JSON
round trip in an execution that visits them in increasing order returns
height 2; the two executions have the same tables and libraries. -/
theorem C28_counterexample_alias_in_extras :
    (∀ b : Str, (fixedWidthLib.encodeBytes b).bind fixedWidthLib.decodeBytes = .ok b) ∧
    ((jsonCodec.Serialize sampleEnv aliasInExtras).toOption =
      some "\x7b\"height\":\"1\",\"seq_num\":2,\"type\":\"Prepare\"\x7d".toList) ∧
    (((rlpCodec.Serialize fixedWidthLib (sampleEnv.withRange reverseOrder) aliasInExtras
        (SerializeOptions.ofFormat FormatRLP)).bind fun d =>
        rlpCodec.Parse fixedWidthLib (sampleEnv.withRange reverseOrder) d
          (ParseOptions.ofFormat FormatRLP)).toOption.map (fun p => p.Height) =
      some (some 1)) ∧
    (((bcsCodec.Serialize fixedWidthLib (sampleEnv.withRange reverseOrder) aliasInExtras
        (SerializeOptions.ofFormat FormatBCS)).bind fun d =>
        bcsCodec.Parse fixedWidthLib (sampleEnv.withRange reverseOrder) d
          (ParseOptions.ofFormat FormatBCS)).toOption.map (fun p => p.Height) =
      some (some 1)) ∧
    (((jsonCodec.Serialize sampleEnv aliasInExtras).bind fun js =>
        jsonCodec.Parse sampleEnv js (ParseOptions.ofFormat FormatJSON)).toOption.map
          (fun p => p.Height) =
      some (some 2)) := by
  refine ⟨fixedWidthLib_roundtrip, by decide!, by decide!, by decide!, by decide!⟩

/-- C28 (amended) at the sample message, with the override `Commit`, the
library that writes four bytes per character, and the RLP and BCS round trips
in an execution that visits every map in decreasing key order: no two keys of
the serialized sample message resolve to the same canonical field. -/
theorem C28_rlp_and_bcs_bridge_json_witness :
    ((rlpCodec.Serialize fixedWidthLib (sampleEnv.withRange reverseOrder) sampleMessage
        (SerializeOptions.ofFormat FormatRLP)).bind fun d =>
        rlpCodec.Parse fixedWidthLib (sampleEnv.withRange reverseOrder) d
          { ParseOptions.ofFormat FormatRLP with OverrideMsgType := "Commit".toList }) =
      ((jsonCodec.Serialize sampleEnv sampleMessage).bind fun js =>
        jsonCodec.Parse sampleEnv js (jsonOverride "Commit".toList)) ∧
    ((bcsCodec.Serialize fixedWidthLib (sampleEnv.withRange reverseOrder) sampleMessage
        (SerializeOptions.ofFormat FormatRLP)).bind fun d =>
        bcsCodec.Parse fixedWidthLib (sampleEnv.withRange reverseOrder) d
          { ParseOptions.ofFormat FormatRLP with OverrideMsgType := "Commit".toList }) =
      ((jsonCodec.Serialize sampleEnv sampleMessage).bind fun js =>
        jsonCodec.Parse sampleEnv js (jsonOverride "Commit".toList)) :=
  C28_rlp_and_bcs_bridge_json fixedWidthLib fixedWidthLib sampleEnv reverseOrder reverseOrder
    sampleMessage _ _ _ (fun _ _ l => List.Perm.refl l) (fun _ _ l => List.reverse_perm l)
    (fun _ _ l => List.reverse_perm l) (by decide!)
    fixedWidthLib_roundtrip fixedWidthLib_roundtrip rfl
    (fun o ho => Or.inr (by
      rw [sampleEnv_json_round_trip _ (by decide!)] at ho
      simp only [Except.ok.injEq, JVal.obj.injEq] at ho
      subst ho
      exact ⟨jsonCodec.WF_buildOut sampleEnv sampleMessage, by
        unfold jsonCodec.Unambiguous
        decide!⟩))

/-! ## C1: a text field that is not UTF-8 -/

/-- C1, counterexample: a message whose `Signature` holds the one byte `FF`.
The byte is not valid UTF-8, `json.Marshal` writes it as the character
U+FFFD, and the message parsed back from the serialized text holds that
character in `Signature`: the three bytes `EF BF BD`, not the byte `FF`. -/
theorem C1_counterexample_signature_not_utf8 :
    utf8.Valid [0xFF] = false ∧
    json.marshalledText [0xFF] = [utf8.RuneError] ∧
    ((jsonCodec.Serialize sampleEnv sampleInvalidSignature).toOption.bind (fun data =>
      (jsonCodec.Parse sampleEnv data (ParseOptions.ofFormat FormatJSON)).toOption)).map
        (fun p => utf8.encode p.Signature) = some [0xEF, 0xBF, 0xBD] ∧
    ([0xEF, 0xBF, 0xBD] : Bytes) ≠ [0xFF] := by
  refine ⟨by decide!, by decide!, by decide!, by decide⟩

end PBFT
